import Mathlib

/-!
# Verification development for `pokemon-tcg-api-tool` (`main.go`)

The program builds one HTTP GET request, reads the response and decodes the
JSON body into `ResultData`, then prints it again as indented JSON.

`main.go` is embedded function by function (`buildRequest`, `processData`,
and the tail of `main`).  Those functions are thin wrappers around the Go
standard library (`fmt`, `net/url`, `net/http`, `encoding/json`), which is
not part of the repository.  The library routines they call are embedded
here from the library's own implementation, each in a namespace carrying the
Go package name, so that the properties of `main.go` can be stated and
proved on definitions that compute.

Go strings and byte slices are sequences of bytes: `GoString = List (Fin 256)`.
-/

/-! ## Bytes and strings -/

/-- One byte of a Go `string` or `[]byte`. -/
abbrev Byte := Fin 256

/-- Go `string`: an immutable sequence of bytes (not necessarily valid UTF-8). -/
abbrev GoString := List Byte

/-- UTF-8 encoding of one character, used to read string literals as Go strings. -/
def utf8Bytes (c : Char) : List Byte :=
  let n := c.toNat
  if n < 128 then [Fin.ofNat n]
  else if n < 2048 then [Fin.ofNat (192 + n / 64), Fin.ofNat (128 + n % 64)]
  else if n < 65536 then
    [Fin.ofNat (224 + n / 4096), Fin.ofNat (128 + n / 64 % 64), Fin.ofNat (128 + n % 64)]
  else
    [Fin.ofNat (240 + n / 262144), Fin.ofNat (128 + n / 4096 % 64),
     Fin.ofNat (128 + n / 64 % 64), Fin.ofNat (128 + n % 64)]

/-- Bytes of a list of characters (UTF-8). -/
def bytesOfChars : List Char → GoString
  | [] => []
  | c :: cs => utf8Bytes c ++ bytesOfChars cs

/-- The Go string written by a source literal. -/
def str (s : String) : GoString := bytesOfChars s.data

/-- The byte of an ASCII character literal. -/
def ch (c : Char) : Byte := Fin.ofNat c.toNat

deriving instance DecidableEq for Except

/-! ## Package `strings` (the helpers used by `net/url`) -/

namespace strings

/-- Go `strings.IndexByte` as a test: does `s` contain the byte `c`. -/
def ContainsByte (s : GoString) (c : Byte) : Bool :=
  match s with
  | [] => false
  | x :: xs => x == c || ContainsByte xs c

/-- Go `strings.Cut(s, sep)` for a one-byte separator: the text before the
first `sep`, the text after it, and whether `sep` was found. -/
def Cut (s : GoString) (sep : Byte) : GoString × GoString × Bool :=
  match s with
  | [] => ([], [], false)
  | x :: xs =>
    if x = sep then ([], xs, true)
    else
      let r := Cut xs sep
      (x :: r.1, r.2.1, r.2.2)

/-- Go `strings.LastIndex(s, sep)` for a one-byte separator, `none` for `-1`. -/
def LastIndexByte (s : GoString) (sep : Byte) : Option Nat :=
  match s with
  | [] => none
  | x :: xs =>
    match LastIndexByte xs sep with
    | some i => some (i + 1)
    | none => if x = sep then some 0 else none

/-- Go `strings.Index(s, substr)`, `none` for `-1`. -/
def Index (s substr : GoString) : Option Nat :=
  match s with
  | [] => if substr.isEmpty then some 0 else none
  | x :: xs =>
    if substr.isPrefixOf (x :: xs) then some 0
    else (Index xs substr).map (· + 1)

/-- Go `strings.Count(s, sep)` for a one-byte separator. -/
def CountByte (s : GoString) (sep : Byte) : Nat :=
  match s with
  | [] => 0
  | x :: xs => (if x = sep then 1 else 0) + CountByte xs sep

/-- Go `strings.HasPrefix`. -/
def StartsWith (s pre : GoString) : Bool := pre.isPrefixOf s

/-- Go `strings.HasSuffix` for a one-byte suffix. -/
def EndsWithByte (s : GoString) (c : Byte) : Bool :=
  match s with
  | [] => false
  | [x] => x == c
  | _ :: y :: ys => EndsWithByte (y :: ys) c

/-- Go `strings.ToLower` on the ASCII letters (the only bytes a URL scheme holds). -/
def ToLowerASCII (s : GoString) : GoString :=
  s.map fun c => if 65 ≤ c.val ∧ c.val ≤ 90 then Fin.ofNat (c.val + 32) else c

end strings

/-! ## Package `fmt`: the verbs `%d` and `%s` -/

namespace fmt

/-- The ASCII digit of `d % 10`. -/
def digit (d : Nat) : Byte := Fin.ofNat (48 + d % 10)

/-- Digits of `n`, most significant first, prepended to `acc`: the loop of
`fmt.(*fmt).fmtInteger` for base 10, which fills its buffer from the right
until the quotient is zero.  `fuel` bounds the number of digits. -/
def decimalLoop : Nat → Nat → List Byte → List Byte
  | 0, _, acc => acc
  | fuel + 1, n, acc =>
    if n < 10 then digit n :: acc
    else decimalLoop fuel (n / 10) (digit n :: acc)

/-- Decimal text of a natural number. -/
def decimalNat (n : Nat) : List Byte := decimalLoop (n + 1) n []

/-- The verb `%d` on a Go `int`: decimal digits, with a leading `-` for a
negative value; no sign for a non-negative one, no separators, no padding. -/
def decimal (i : Int) : GoString :=
  match i with
  | Int.ofNat n => decimalNat n
  | Int.negSucc n => 45 :: decimalNat (n + 1)

end fmt

/-! ## Package `net/url` -/

namespace url

/-- The escaping modes of `net/url` (`type encoding int`). -/
inductive encoding
  | encodePath
  | encodePathSegment
  | encodeHost
  | encodeZone
  | encodeUserPassword
  | encodeQueryComponent
  | encodeFragment
  deriving DecidableEq, Repr

open encoding

/-- Table `upperhex = "0123456789ABCDEF"`, indexed by a nibble. -/
def upperhex (n : Nat) : Byte :=
  if n % 16 < 10 then Fin.ofNat (48 + n % 16) else Fin.ofNat (55 + n % 16)

/-- Go `ishex`: `0-9`, `a-f`, `A-F`. -/
def ishex (c : Byte) : Bool :=
  (48 ≤ c.val && c.val ≤ 57) || (97 ≤ c.val && c.val ≤ 102) || (65 ≤ c.val && c.val ≤ 70)

/-- Go `unhex`: the value of a hexadecimal digit (0 for any other byte). -/
def unhex (c : Byte) : Nat :=
  if 48 ≤ c.val ∧ c.val ≤ 57 then c.val - 48
  else if 97 ≤ c.val ∧ c.val ≤ 102 then c.val - 97 + 10
  else if 65 ≤ c.val ∧ c.val ≤ 70 then c.val - 65 + 10
  else 0

/-- ASCII letter or digit (RFC 3986 unreserved alphanumerics). -/
def isAlnum (c : Byte) : Bool :=
  (97 ≤ c.val && c.val ≤ 122) || (65 ≤ c.val && c.val ≤ 90) || (48 ≤ c.val && c.val ≤ 57)

/-- The bytes a host may hold unescaped:
`! $ & ' ( ) * + , ; = : [ ] < > "`. -/
def hostSubDelim (c : Byte) : Bool :=
  c.val == 33 || c.val == 36 || c.val == 38 || c.val == 39 || c.val == 40 || c.val == 41 ||
  c.val == 42 || c.val == 43 || c.val == 44 || c.val == 59 || c.val == 61 || c.val == 58 ||
  c.val == 91 || c.val == 93 || c.val == 60 || c.val == 62 || c.val == 34

/-- The mark characters `- _ . ~`. -/
def isMark (c : Byte) : Bool :=
  c.val == 45 || c.val == 95 || c.val == 46 || c.val == 126

/-- The reserved characters `$ & + , / : ; = ? @`. -/
def isReserved (c : Byte) : Bool :=
  c.val == 36 || c.val == 38 || c.val == 43 || c.val == 44 || c.val == 47 || c.val == 58 ||
  c.val == 59 || c.val == 61 || c.val == 63 || c.val == 64

/-- Go `shouldEscape(c, mode)`: whether the byte must be written `%XX` when it
appears in the given part of a URL. -/
def shouldEscape (c : Byte) (mode : encoding) : Bool :=
  if isAlnum c then false
  else if (mode = encodeHost ∨ mode = encodeZone) ∧ hostSubDelim c then false
  else if isMark c then false
  else if isReserved c ∧ mode = encodePath then c.val == 63
  else if isReserved c ∧ mode = encodePathSegment then
    c.val == 47 || c.val == 59 || c.val == 44 || c.val == 63
  else if isReserved c ∧ mode = encodeUserPassword then
    c.val == 64 || c.val == 47 || c.val == 63 || c.val == 58
  else if isReserved c ∧ mode = encodeQueryComponent then true
  else if isReserved c ∧ mode = encodeFragment then false
  else if mode = encodeFragment ∧
      (c.val == 33 || c.val == 40 || c.val == 41 || c.val == 42) then false
  else true

/-- First loop of Go `escape`: the number of spaces written as `+` and the
number of bytes written as `%XX`. -/
def escapeCounts (s : GoString) (mode : encoding) : Nat × Nat :=
  match s with
  | [] => (0, 0)
  | c :: cs =>
    let r := escapeCounts cs mode
    if shouldEscape c mode then
      if c.val = 32 ∧ mode = encodeQueryComponent then (r.1 + 1, r.2) else (r.1, r.2 + 1)
    else r

/-- Second branch of Go `escape` (`hexCount == 0`): copy, replacing spaces by `+`. -/
def escapeSpaces (s : GoString) : GoString :=
  s.map fun c => if c.val = 32 then 43 else c

/-- Main loop of Go `escape`: each byte becomes `+`, `%XX` or itself. -/
def escapeLoop (s : GoString) (mode : encoding) : GoString :=
  match s with
  | [] => []
  | c :: cs =>
    if c.val = 32 ∧ mode = encodeQueryComponent then 43 :: escapeLoop cs mode
    else if shouldEscape c mode then
      37 :: upperhex (c.val / 16) :: upperhex (c.val % 16) :: escapeLoop cs mode
    else c :: escapeLoop cs mode

/-- Go `escape(s, mode)`. -/
def escape (s : GoString) (mode : encoding) : GoString :=
  let counts := escapeCounts s mode
  if counts.1 = 0 ∧ counts.2 = 0 then s
  else if counts.2 = 0 then escapeSpaces s
  else escapeLoop s mode

/-- Go `url.QueryEscape`. -/
def QueryEscape (s : GoString) : GoString := escape s encodeQueryComponent

/-- Errors of package `net/url` (the message texts are not modelled). -/
inductive Error
  | EscapeError (s : GoString)
  | InvalidHostError (s : GoString)
  | controlCharacter
  | missingProtocolScheme
  | colonInFirstPathSegment
  | missingBracket
  | invalidPort (s : GoString)
  | invalidUserinfo
  | invalidSemicolon
  deriving DecidableEq, Repr

/-- First loop of Go `unescape`: check that every `%` starts a well-formed
escape that the mode allows, and that no raw byte is forbidden in a host.
Returns the offending text on failure. -/
def unescapeCheck (s : GoString) (mode : encoding) : Option Error :=
  match s with
  | [] => none
  | c :: cs =>
    if c.val = 37 then
      match cs with
      | h1 :: h2 :: rest =>
        if !ishex h1 || !ishex h2 then some (Error.EscapeError (c :: h1 :: [h2]))
        else if mode = encodeHost ∧ unhex h1 < 8 ∧ ¬ (h1.val = 50 ∧ h2.val = 53) then
          some (Error.EscapeError [c, h1, h2])
        else if mode = encodeZone ∧ ¬ (h1.val = 50 ∧ h2.val = 53) ∧
            unhex h1 * 16 + unhex h2 ≠ 32 ∧
            shouldEscape (Fin.ofNat (unhex h1 * 16 + unhex h2)) encodeHost then
          some (Error.EscapeError [c, h1, h2])
        else unescapeCheck rest mode
      | _ => some (Error.EscapeError (c :: cs))
    else if c.val = 43 then unescapeCheck cs mode
    else if (mode = encodeHost ∨ mode = encodeZone) ∧ c.val < 128 ∧ shouldEscape c encodeHost then
      some (Error.InvalidHostError [c])
    else unescapeCheck cs mode

/-- Second loop of Go `unescape`: replace each `%XX` by its byte and, in a
query component, each `+` by a space. -/
def unescapeLoop (s : GoString) (mode : encoding) : GoString :=
  match s with
  | [] => []
  | c :: cs =>
    if c.val = 37 then
      match cs with
      | h1 :: h2 :: rest => Fin.ofNat (unhex h1 * 16 + unhex h2) :: unescapeLoop rest mode
      | _ => []
    else if c.val = 43 then
      (if mode = encodeQueryComponent then 32 else 43) :: unescapeLoop cs mode
    else c :: unescapeLoop cs mode

/-- Go `unescape(s, mode)`.  (Go returns `s` itself when it holds neither `%`
nor a `+` to replace; the loop gives the same string then.) -/
def unescape (s : GoString) (mode : encoding) : Except Error GoString :=
  match unescapeCheck s mode with
  | some e => Except.error e
  | none => Except.ok (unescapeLoop s mode)

/-- Go `url.QueryUnescape`. -/
def QueryUnescape (s : GoString) : Except Error GoString := unescape s encodeQueryComponent

/-- Go `url.Userinfo`. -/
structure Userinfo where
  username : GoString
  password : GoString
  passwordSet : Bool
  deriving DecidableEq, Repr

/-- Go `url.URL`. -/
structure URL where
  Scheme : GoString := []
  Opaque : GoString := []
  User : Option Userinfo := none
  Host : GoString := []
  Path : GoString := []
  RawPath : GoString := []
  OmitHost : Bool := false
  ForceQuery : Bool := false
  RawQuery : GoString := []
  Fragment : GoString := []
  RawFragment : GoString := []
  deriving DecidableEq, Repr

/-- Go `stringContainsCTLByte`: a byte below space, or DEL. -/
def stringContainsCTLByte (s : GoString) : Bool :=
  s.any fun b => b.val < 32 || b.val == 127

/-- Scheme letters `a-z A-Z`. -/
def isAlpha (c : Byte) : Bool :=
  (97 ≤ c.val && c.val ≤ 122) || (65 ≤ c.val && c.val ≤ 90)

/-- Scheme characters allowed after the first: digits, `+`, `-`, `.`. -/
def isSchemeRest (c : Byte) : Bool :=
  (48 ≤ c.val && c.val ≤ 57) || c.val == 43 || c.val == 45 || c.val == 46

/-- Loop of Go `getScheme` from index `i` on: `pre` holds `rawURL[:i]`
reversed, `s` is `rawURL[i:]`, `whole` is `rawURL`.  The result is the
scheme and the rest, or the error for a leading colon. -/
def getSchemeLoop (whole : GoString) (pre : List Byte) (s : GoString) :
    Except Error (GoString × GoString) :=
  match s with
  | [] => Except.ok ([], whole)
  | c :: cs =>
    if isAlpha c then getSchemeLoop whole (c :: pre) cs
    else if isSchemeRest c then
      if pre.isEmpty then Except.ok ([], whole) else getSchemeLoop whole (c :: pre) cs
    else if c.val = 58 then
      if pre.isEmpty then Except.error Error.missingProtocolScheme
      else Except.ok (pre.reverse, cs)
    else Except.ok ([], whole)

/-- Go `getScheme(rawURL)`: split off a leading `scheme:`. -/
def getScheme (rawURL : GoString) : Except Error (GoString × GoString) :=
  getSchemeLoop rawURL [] rawURL

/-- Go `validOptionalPort`: empty, or a colon followed by digits only. -/
def validOptionalPort (port : GoString) : Bool :=
  match port with
  | [] => true
  | c :: cs => c.val == 58 && cs.all fun b => 48 ≤ b.val && b.val ≤ 57

/-- Go `validUserinfo`: letters, digits and
`- . _ : ~ ! $ & ' ( ) * + , ; = % @` only. -/
def validUserinfo (s : GoString) : Bool :=
  s.all fun r =>
    isAlnum r || r.val == 45 || r.val == 46 || r.val == 95 || r.val == 58 || r.val == 126 ||
    r.val == 33 || r.val == 36 || r.val == 38 || r.val == 39 || r.val == 40 || r.val == 41 ||
    r.val == 42 || r.val == 43 || r.val == 44 || r.val == 59 || r.val == 61 || r.val == 37 ||
    r.val == 64

/-- Go `parseHost`: check the optional port and unescape the host; an IP
literal in brackets may carry a zone after `%25`.  This is the function of
the Go releases before 1.26; later releases reject some more hosts, such as
`a:b:80` and `[foo]`. -/
def parseHost (host : GoString) : Except Error GoString :=
  if strings.StartsWith host [91] then
    match strings.LastIndexByte host 93 with
    | none => Except.error Error.missingBracket
    | some i =>
      let colonPort := host.drop (i + 1)
      if !validOptionalPort colonPort then Except.error (Error.invalidPort colonPort)
      else
        match strings.Index (host.take i) [37, 50, 53] with
        | some zone =>
          match unescape (host.take zone) encodeHost with
          | Except.error e => Except.error e
          | Except.ok host1 =>
            match unescape ((host.take i).drop zone) encodeZone with
            | Except.error e => Except.error e
            | Except.ok host2 =>
              match unescape (host.drop i) encodeHost with
              | Except.error e => Except.error e
              | Except.ok host3 => Except.ok (host1 ++ host2 ++ host3)
        | none => unescape host encodeHost
  else
    match strings.LastIndexByte host 58 with
    | some i =>
      let colonPort := host.drop i
      if !validOptionalPort colonPort then Except.error (Error.invalidPort colonPort)
      else unescape host encodeHost
    | none => unescape host encodeHost

/-- Go `parseAuthority`: `[userinfo@]host`. -/
def parseAuthority (authority : GoString) : Except Error (Option Userinfo × GoString) :=
  match strings.LastIndexByte authority 64 with
  | none =>
    match parseHost authority with
    | Except.error e => Except.error e
    | Except.ok host => Except.ok (none, host)
  | some i =>
    match parseHost (authority.drop (i + 1)) with
    | Except.error e => Except.error e
    | Except.ok host =>
      let userinfo := authority.take i
      if !validUserinfo userinfo then Except.error Error.invalidUserinfo
      else if !strings.ContainsByte userinfo 58 then
        match unescape userinfo encodeUserPassword with
        | Except.error e => Except.error e
        | Except.ok u => Except.ok (some ⟨u, [], false⟩, host)
      else
        let c := strings.Cut userinfo 58
        match unescape c.1 encodeUserPassword with
        | Except.error e => Except.error e
        | Except.ok username =>
          match unescape c.2.1 encodeUserPassword with
          | Except.error e => Except.error e
          | Except.ok password => Except.ok (some ⟨username, password, true⟩, host)

/-- Go `(*URL).setPath`: `Path` is the unescaped text; `RawPath` keeps the
original only when it is not the default escaping of `Path`. -/
def setPath (u : URL) (p : GoString) : Except Error URL :=
  match unescape p encodePath with
  | Except.error e => Except.error e
  | Except.ok path =>
    Except.ok { u with Path := path, RawPath := if p = escape path encodePath then [] else p }

/-- Go `(*URL).setFragment`. -/
def setFragment (u : URL) (f : GoString) : Except Error URL :=
  match unescape f encodeFragment with
  | Except.error e => Except.error e
  | Except.ok frag =>
    Except.ok { u with Fragment := frag,
                       RawFragment := if f = escape frag encodeFragment then [] else f }

/-- Go `parse(rawURL, viaRequest)` with `viaRequest = false`, the only way
`url.Parse` calls it: the URL without its fragment. -/
def parse (rawURL : GoString) : Except Error URL :=
  if stringContainsCTLByte rawURL then Except.error Error.controlCharacter
  else if rawURL = [42] then Except.ok { Path := [42] }
  else
    match getScheme rawURL with
    | Except.error e => Except.error e
    | Except.ok (scheme0, rest0) =>
      let scheme := strings.ToLowerASCII scheme0
      let forceQuery := strings.EndsWithByte rest0 63 && strings.CountByte rest0 63 == 1
      let rest1 := if forceQuery then rest0.dropLast else (strings.Cut rest0 63).1
      let rawQuery := if forceQuery then [] else (strings.Cut rest0 63).2.1
      let u0 : URL := { Scheme := scheme, ForceQuery := forceQuery, RawQuery := rawQuery }
      if !strings.StartsWith rest1 [47] && !scheme.isEmpty then
        Except.ok { u0 with Opaque := rest1 }
      else if !strings.StartsWith rest1 [47] &&
          strings.ContainsByte (strings.Cut rest1 47).1 58 then
        Except.error Error.colonInFirstPathSegment
      else if (!scheme.isEmpty || !strings.StartsWith rest1 [47, 47, 47]) &&
          strings.StartsWith rest1 [47, 47] then
        let authority0 := rest1.drop 2
        let c := strings.Cut authority0 47
        let authority := c.1
        let rest2 := if c.2.2 then 47 :: c.2.1 else []
        match parseAuthority authority with
        | Except.error e => Except.error e
        | Except.ok (user, host) => setPath { u0 with User := user, Host := host } rest2
      else if !scheme.isEmpty && strings.StartsWith rest1 [47] then
        setPath { u0 with OmitHost := true } rest1
      else setPath u0 rest1

/-- Go `url.Parse(rawURL)`: cut off `#fragment`, parse the rest, then set the
fragment. -/
def Parse (rawURL : GoString) : Except Error URL :=
  let c := strings.Cut rawURL 35
  match parse c.1 with
  | Except.error e => Except.error e
  | Except.ok u => if c.2.1.isEmpty then Except.ok u else setFragment u c.2.1

/-- Go `validEncoded(s, mode)`: every byte is a sub-delimiter, `:`, `@`, `[`,
`]`, `%`, or a byte the mode leaves unescaped. -/
def validEncoded (s : GoString) (mode : encoding) : Bool :=
  s.all fun c =>
    c.val == 33 || c.val == 36 || c.val == 38 || c.val == 39 || c.val == 40 || c.val == 41 ||
    c.val == 42 || c.val == 43 || c.val == 44 || c.val == 59 || c.val == 61 || c.val == 58 ||
    c.val == 64 || c.val == 91 || c.val == 93 || c.val == 37 || !shouldEscape c mode

/-- Go `(*URL).EscapedPath`: `RawPath` when it is a valid encoding of `Path`,
otherwise the default escaping of `Path`. -/
def URL.EscapedPath (u : URL) : GoString :=
  if !u.RawPath.isEmpty && validEncoded u.RawPath encodePath &&
      unescape u.RawPath encodePath == Except.ok u.Path then u.RawPath
  else if u.Path = [42] then [42]
  else escape u.Path encodePath

/-- Go `(*URL).EscapedFragment`. -/
def URL.EscapedFragment (u : URL) : GoString :=
  if !u.RawFragment.isEmpty && validEncoded u.RawFragment encodeFragment &&
      unescape u.RawFragment encodeFragment == Except.ok u.Fragment then u.RawFragment
  else escape u.Fragment encodeFragment

/-- Go `(*Userinfo).String`. -/
def Userinfo.String (ui : Userinfo) : GoString :=
  escape ui.username encodeUserPassword ++
    (if ui.passwordSet then 58 :: escape ui.password encodeUserPassword else [])

/-- The authority part written by Go `(*URL).String`: `//`, the user
information and the host. -/
def URL.authorityString (u : URL) : GoString :=
  if u.Scheme.isEmpty && u.Host.isEmpty && u.User.isNone then []
  else if u.OmitHost && u.Host.isEmpty && u.User.isNone then []
  else
    (if !u.Host.isEmpty || !u.Path.isEmpty || u.User.isSome then [47, 47] else []) ++
    (match u.User with
      | some ui => ui.String ++ [64]
      | none => []) ++
    (if u.Host.isEmpty then [] else escape u.Host encodeHost)

/-- Go `(*URL).String`: the URL reassembled from its parts, which is what
`main` logs as `request.URL.String()`. -/
def URL.String (u : URL) : GoString :=
  let head := if u.Scheme.isEmpty then [] else u.Scheme ++ [58]
  let body :=
    if !u.Opaque.isEmpty then head ++ u.Opaque
    else
      let buf := head ++ u.authorityString
      let path := u.EscapedPath
      let slash :=
        if !path.isEmpty && !strings.StartsWith path [47] && !u.Host.isEmpty then [47] else []
      let dot :=
        if (buf ++ slash).isEmpty && strings.ContainsByte (strings.Cut path 47).1 58 then
          [46, 47]
        else []
      buf ++ slash ++ dot ++ path
  body ++ (if u.ForceQuery || !u.RawQuery.isEmpty then 63 :: u.RawQuery else []) ++
    (if u.Fragment.isEmpty then [] else 35 :: u.EscapedFragment)

/-- Go `url.Values`: the values of each key, in order of appearance.  The Go
type is a map from key to slice; an association list in order of first
appearance carries the same `Get`. -/
abbrev Values := List (GoString × List GoString)

/-- The statement `m[key] = append(m[key], value)`. -/
def Values.add (m : Values) (key value : GoString) : Values :=
  match m with
  | [] => [(key, [value])]
  | (k, vs) :: rest =>
    if k = key then (k, vs ++ [value]) :: rest else (k, vs) :: Values.add rest key value

/-- All values of `key` (`m[key]`). -/
def Values.lookup (m : Values) (key : GoString) : List GoString :=
  match m with
  | [] => []
  | (k, vs) :: rest => if k = key then vs else Values.lookup rest key

/-- Go `Values.Get`: the first value of `key`, or the empty string. -/
def Values.Get (m : Values) (key : GoString) : GoString :=
  match Values.lookup m key with
  | [] => []
  | v :: _ => v

/-- Loop of Go `parseQuery`: `fuel` bounds the number of `&`-separated
pieces (at most one per byte of the query). -/
def parseQueryLoop : Nat → Values → Option Error → GoString → Values × Option Error
  | 0, m, err, _ => (m, err)
  | fuel + 1, m, err, query =>
    if query.isEmpty then (m, err)
    else
      let c := strings.Cut query 38
      let key0 := c.1
      let query1 := c.2.1
      if strings.ContainsByte key0 59 then
        parseQueryLoop fuel m (some Error.invalidSemicolon) query1
      else if key0.isEmpty then parseQueryLoop fuel m err query1
      else
        let kv := strings.Cut key0 61
        match QueryUnescape kv.1 with
        | Except.error e1 => parseQueryLoop fuel m (err.orElse fun _ => some e1) query1
        | Except.ok key =>
          match QueryUnescape kv.2.1 with
          | Except.error e1 => parseQueryLoop fuel m (err.orElse fun _ => some e1) query1
          | Except.ok value => parseQueryLoop fuel (Values.add m key value) err query1

/-- Go `url.ParseQuery`: the values found, and the first error met. -/
def ParseQuery (query : GoString) : Values × Option Error :=
  parseQueryLoop (query.length + 1) [] none query

/-- Go `(*URL).Query`: `ParseQuery(u.RawQuery)` with the error dropped. -/
def URL.Query (u : URL) : Values := (ParseQuery u.RawQuery).1

end url

/-! ## Package `net/http`: `NewRequest` -/

namespace http

/-- The constant `http.MethodGet`. -/
def MethodGet : GoString := str "GET"

/-- Go `httpguts.IsTokenRune` on a byte: the characters of an HTTP token. -/
def isTokenByte (c : Byte) : Bool :=
  url.isAlnum c || c.val == 33 || c.val == 35 || c.val == 36 || c.val == 37 || c.val == 38 ||
  c.val == 39 || c.val == 42 || c.val == 43 || c.val == 45 || c.val == 46 || c.val == 94 ||
  c.val == 95 || c.val == 96 || c.val == 124 || c.val == 126

/-- Go `validMethod`: a non-empty token. -/
def validMethod (method : GoString) : Bool :=
  !method.isEmpty && method.all isTokenByte

/-- Errors `http.NewRequest` can return. -/
inductive Error
  | invalidMethod (method : GoString)
  | parse (e : url.Error)
  deriving DecidableEq, Repr

/-- The fields of Go `http.Request` that `NewRequest` derives from its
arguments when the body is `nil`. -/
structure Request where
  Method : GoString
  URL : url.URL
  Host : GoString
  deriving DecidableEq, Repr

/-- Go `removeEmptyPort`: drop a trailing colon of the host. -/
def removeEmptyPort (host : GoString) : GoString :=
  if strings.EndsWithByte host 58 then host.dropLast else host

/-- Go `http.NewRequest(method, url, nil)` (through `NewRequestWithContext`
with the background context): an empty method means GET, the method must be a
token, the URL must parse; the request then carries the parsed URL. -/
def NewRequest (method : GoString) (rawurl : GoString) : Except Error Request :=
  let method1 := if method.isEmpty then MethodGet else method
  if !validMethod method1 then Except.error (Error.invalidMethod method1)
  else
    match url.Parse rawurl with
    | Except.error e => Except.error (Error.parse e)
    | Except.ok u =>
      let u1 := { u with Host := removeEmptyPort u.Host }
      Except.ok { Method := method1, URL := u1, Host := u1.Host }

end http

/-! ## `main.go`: the request builder -/

/-- The value of `sanitizedURL` in `buildRequest`:
`fmt.Sprintf("%s?pageSize=%d&q=%s&orderBy=%s", baseURL, limit,
url.QueryEscape(query), url.QueryEscape(orderBy))`. -/
def sanitizedURL (baseURL : GoString) (limit : Int) (query orderBy : GoString) : GoString :=
  baseURL ++ str "?pageSize=" ++ fmt.decimal limit ++ str "&q=" ++ url.QueryEscape query ++
    str "&orderBy=" ++ url.QueryEscape orderBy

/-- Go `buildRequest` of `main.go` (the deferred `timer` call only logs):
`http.NewRequest(http.MethodGet, sanitizedURL, nil)`. -/
def buildRequest (baseURL : GoString) (limit : Int) (query orderBy : GoString) :
    Except http.Error http.Request :=
  http.NewRequest http.MethodGet (sanitizedURL baseURL limit query orderBy)

/-! ## Shapes named by the specification of the request builder -/

namespace url

/-- RFC 3986 unreserved characters: letters, digits, `- _ . ~`. -/
def isUnreserved (c : Byte) : Bool := isAlnum c || isMark c

/-- An upper-case hexadecimal digit. -/
def isUpperHex (c : Byte) : Bool :=
  (48 ≤ c.val && c.val ≤ 57) || (65 ≤ c.val && c.val ≤ 70)

/-- A percent-encoded query component: unreserved characters, `+`, and
escapes `%XX` of two upper-case hexadecimal digits, nothing else. -/
def wellEscaped : GoString → Bool
  | [] => true
  | c :: cs =>
    if c.val = 37 then
      match cs with
      | h1 :: h2 :: rest => isUpperHex h1 && isUpperHex h2 && wellEscaped rest
      | _ => false
    else (isUnreserved c || c.val == 43) && wellEscaped cs

/-- The bytes a well-escaped value is made of: unreserved, `+` or `%`. -/
def isValueByte (c : Byte) : Bool := isUnreserved c || c.val == 43 || c.val == 37

/-- The bytes that occur in the query part: value bytes, `=` and `&`. -/
def isQueryPartByte (b : Byte) : Bool := isValueByte b || b.val == 61 || b.val == 38

end url

namespace fmt

/-- The number a string of decimal digits denotes, most significant first. -/
def digitsValue (s : GoString) : Nat := s.foldl (fun acc b => 10 * acc + (b.val - 48)) 0

/-- A plain decimal numeral: at least one digit, digits only. -/
def isDigits (s : GoString) : Bool := !s.isEmpty && s.all fun b => 48 ≤ b.val && b.val ≤ 57

end fmt

/-- The values a successfully built request carries for `key` in the query
part of its URL (`request.URL.Query()[key]`); `none` when no request was built. -/
def queryValues (r : Except http.Error http.Request) (key : GoString) : Option (List GoString) :=
  match r with
  | Except.ok req => some (url.Values.lookup req.URL.Query key)
  | Except.error _ => none

/-- What `main` logs of the outcome of `buildRequest`: `request.URL.String()`
when a request was built. -/
def requestURLString (r : Except http.Error http.Request) : Option GoString :=
  match r with
  | Except.ok req => some req.URL.String
  | Except.error _ => none

/-- The text `buildRequest` appends after `baseURL` and the question mark. -/
def queryPart (limit : Int) (query orderBy : GoString) : GoString :=
  str "pageSize=" ++ fmt.decimal limit ++ str "&q=" ++ url.QueryEscape query ++
    str "&orderBy=" ++ url.QueryEscape orderBy

/-! ## `main.go`: the flag defaults of `main` -/

/-- Default of the flag `-base-url`. -/
def defaultBaseURL : GoString := str "https://api.pokemontcg.io/v2/cards"

/-- Default of the flag `-limit`. -/
def defaultLimit : Int := 10

/-- Default of the flag `-query`. -/
def defaultQuery : GoString := str "!rarity:Rare hp:[90 TO *] (types:Grass OR types:Fire)"

/-- Default of the flag `-order-by`. -/
def defaultOrderBy : GoString := str "id"

/-- The query part of the request built from the flag defaults. -/
def defaultRawQuery : GoString :=
  str "pageSize=10&q=%21rarity%3ARare+hp%3A%5B90+TO+%2A%5D+%28types%3AGrass+OR+types%3AFire%29&orderBy=id"

/-- The parts `url.Parse` finds in the default base URL. -/
def defaultBase : url.URL :=
  { Scheme := str "https", Host := str "api.pokemontcg.io", Path := str "/v2/cards" }

/-- The request `buildRequest` returns for the flag defaults. -/
def defaultRequest : http.Request :=
  { Method := str "GET",
    URL := { Scheme := str "https", Host := str "api.pokemontcg.io", Path := str "/v2/cards",
             RawQuery := defaultRawQuery },
    Host := str "api.pokemontcg.io" }

/-! ## Package `encoding/json`: the scanner (`scanner.go`)

The scanner is a state machine fed one byte at a time.  `checkValid` runs it
over the whole input before anything is decoded, and `Indent` runs it over
the text it formats. -/

namespace json

/-- Go `SyntaxError` (the message text and the byte offset are not kept):
an unexpected byte, or the end of the input inside a value. -/
inductive SyntaxError
  | invalidCharacter (c : Byte)
  | unexpectedEnd
  deriving DecidableEq, Repr

/-- The result codes of a scanner step (`scanContinue` … `scanError`). -/
inductive Op
  | scanContinue
  | scanBeginLiteral
  | scanBeginObject
  | scanObjectKey
  | scanObjectValue
  | scanEndObject
  | scanBeginArray
  | scanArrayValue
  | scanEndArray
  | scanSkipSpace
  | scanEnd
  | scanError
  deriving DecidableEq, Repr

/-- The entries of the scanner's stack `parseState`. -/
inductive PState
  | parseObjectKey
  | parseObjectValue
  | parseArrayValue
  deriving DecidableEq, Repr

/-- The step functions of `scanner.go`, as the values of the field `step`. -/
inductive Step
  | stateBeginValueOrEmpty
  | stateBeginValue
  | stateBeginStringOrEmpty
  | stateBeginString
  | stateEndValue
  | stateEndTop
  | stateInString
  | stateInStringEsc
  | stateInStringEscU
  | stateInStringEscU1
  | stateInStringEscU12
  | stateInStringEscU123
  | stateNeg
  | state1
  | state0
  | stateDot
  | stateDot0
  | stateE
  | stateESign
  | stateE0
  | stateT
  | stateTr
  | stateTru
  | stateF
  | stateFa
  | stateFal
  | stateFals
  | stateN
  | stateNu
  | stateNul
  | stateError
  deriving DecidableEq, Repr

/-- The constant `maxNestingDepth`. -/
def maxNestingDepth : Nat := 10000

/-- Go `scanner`: the next step function, whether the top-level value has
ended, the stack of open objects and arrays (innermost first), and the error. -/
structure scanner where
  step : Step
  endTop : Bool
  parseState : List PState
  err : Option SyntaxError
  deriving DecidableEq, Repr

/-- Go `(*scanner).reset` on a new scanner. -/
def scanner.reset : scanner :=
  { step := Step.stateBeginValue, endTop := false, parseState := [], err := none }

/-- Go `isSpace`: space, tab, carriage return, line feed. -/
def isSpace (c : Byte) : Bool :=
  c.val == 32 || c.val == 9 || c.val == 13 || c.val == 10

/-- Hexadecimal digit `0-9 a-f A-F` (the test of the `\u` escape states). -/
def isHexDigit (c : Byte) : Bool :=
  (48 ≤ c.val && c.val ≤ 57) || (97 ≤ c.val && c.val ≤ 102) || (65 ≤ c.val && c.val ≤ 70)

/-- Decimal digit `0-9`. -/
def isDigit (c : Byte) : Bool := 48 ≤ c.val && c.val ≤ 57

/-- Go `(*scanner).error`: record the error and stop. -/
def scanner.error (s : scanner) (c : Byte) : scanner × Op :=
  ({ s with step := Step.stateError, err := some (SyntaxError.invalidCharacter c) }, Op.scanError)

/-- Go `(*scanner).pushParseState`: open an object or array, unless the
nesting is deeper than `maxNestingDepth`. -/
def scanner.pushParseState (s : scanner) (c : Byte) (newParseState : PState)
    (successState : Op) : scanner × Op :=
  let s1 := { s with parseState := newParseState :: s.parseState }
  if s1.parseState.length ≤ maxNestingDepth then (s1, successState)
  else s1.error c

/-- Go `(*scanner).popParseState`: close the innermost object or array. -/
def scanner.popParseState (s : scanner) : scanner :=
  let rest := s.parseState.tail
  if rest.isEmpty then { s with parseState := rest, step := Step.stateEndTop, endTop := true }
  else { s with parseState := rest, step := Step.stateEndValue }

/-- Go `stateEndTop`: after the top-level value only space may follow. -/
def stateEndTop (s : scanner) (c : Byte) : scanner × Op :=
  if !isSpace c then ((s.error c).1, Op.scanEnd) else (s, Op.scanEnd)

/-- Go `stateEndValue`: the byte after a value. -/
def stateEndValue (s : scanner) (c : Byte) : scanner × Op :=
  match s.parseState with
  | [] => stateEndTop { s with step := Step.stateEndTop, endTop := true } c
  | ps :: rest =>
    if isSpace c then ({ s with step := Step.stateEndValue }, Op.scanSkipSpace)
    else
      match ps with
      | PState.parseObjectKey =>
        if c.val = 58 then
          ({ s with parseState := PState.parseObjectValue :: rest,
                    step := Step.stateBeginValue }, Op.scanObjectKey)
        else s.error c
      | PState.parseObjectValue =>
        if c.val = 44 then
          ({ s with parseState := PState.parseObjectKey :: rest,
                    step := Step.stateBeginString }, Op.scanObjectValue)
        else if c.val = 125 then (s.popParseState, Op.scanEndObject)
        else s.error c
      | PState.parseArrayValue =>
        if c.val = 44 then ({ s with step := Step.stateBeginValue }, Op.scanArrayValue)
        else if c.val = 93 then (s.popParseState, Op.scanEndArray)
        else s.error c

/-- Go `stateBeginValue`: the first byte of a value. -/
def stateBeginValue (s : scanner) (c : Byte) : scanner × Op :=
  if isSpace c then (s, Op.scanSkipSpace)
  else if c.val = 123 then
    scanner.pushParseState { s with step := Step.stateBeginStringOrEmpty } c
      PState.parseObjectKey Op.scanBeginObject
  else if c.val = 91 then
    scanner.pushParseState { s with step := Step.stateBeginValueOrEmpty } c
      PState.parseArrayValue Op.scanBeginArray
  else if c.val = 34 then ({ s with step := Step.stateInString }, Op.scanBeginLiteral)
  else if c.val = 45 then ({ s with step := Step.stateNeg }, Op.scanBeginLiteral)
  else if c.val = 48 then ({ s with step := Step.state0 }, Op.scanBeginLiteral)
  else if c.val = 116 then ({ s with step := Step.stateT }, Op.scanBeginLiteral)
  else if c.val = 102 then ({ s with step := Step.stateF }, Op.scanBeginLiteral)
  else if c.val = 110 then ({ s with step := Step.stateN }, Op.scanBeginLiteral)
  else if 49 ≤ c.val ∧ c.val ≤ 57 then ({ s with step := Step.state1 }, Op.scanBeginLiteral)
  else s.error c

/-- Go `stateBeginValueOrEmpty`: after `[`. -/
def stateBeginValueOrEmpty (s : scanner) (c : Byte) : scanner × Op :=
  if isSpace c then (s, Op.scanSkipSpace)
  else if c.val = 93 then stateEndValue s c
  else stateBeginValue s c

/-- Go `stateBeginString`: after `,` in an object. -/
def stateBeginString (s : scanner) (c : Byte) : scanner × Op :=
  if isSpace c then (s, Op.scanSkipSpace)
  else if c.val = 34 then ({ s with step := Step.stateInString }, Op.scanBeginLiteral)
  else s.error c

/-- Go `stateBeginStringOrEmpty`: after `{`. -/
def stateBeginStringOrEmpty (s : scanner) (c : Byte) : scanner × Op :=
  if isSpace c then (s, Op.scanSkipSpace)
  else if c.val = 125 then
    stateEndValue { s with parseState := PState.parseObjectValue :: s.parseState.tail } c
  else stateBeginString s c

/-- Go `stateInString`. -/
def stateInString (s : scanner) (c : Byte) : scanner × Op :=
  if c.val = 34 then ({ s with step := Step.stateEndValue }, Op.scanContinue)
  else if c.val = 92 then ({ s with step := Step.stateInStringEsc }, Op.scanContinue)
  else if c.val < 32 then s.error c
  else (s, Op.scanContinue)

/-- Go `stateInStringEsc`: after a backslash; one of `b f n r t \ / "`, or `u`. -/
def stateInStringEsc (s : scanner) (c : Byte) : scanner × Op :=
  if c.val = 98 ∨ c.val = 102 ∨ c.val = 110 ∨ c.val = 114 ∨ c.val = 116 ∨ c.val = 92 ∨
      c.val = 47 ∨ c.val = 34 then
    ({ s with step := Step.stateInString }, Op.scanContinue)
  else if c.val = 117 then ({ s with step := Step.stateInStringEscU }, Op.scanContinue)
  else s.error c

/-- The four states `stateInStringEscU`, `…U1`, `…U12`, `…U123`: a
hexadecimal digit leads to `next`. -/
def stateHex (next : Step) (s : scanner) (c : Byte) : scanner × Op :=
  if isHexDigit c then ({ s with step := next }, Op.scanContinue) else s.error c

/-- Go `state0`: after `0`, or after the digits of the integer part. -/
def state0 (s : scanner) (c : Byte) : scanner × Op :=
  if c.val = 46 then ({ s with step := Step.stateDot }, Op.scanContinue)
  else if c.val = 101 ∨ c.val = 69 then ({ s with step := Step.stateE }, Op.scanContinue)
  else stateEndValue s c

/-- Go `state1`: in the integer part. -/
def state1 (s : scanner) (c : Byte) : scanner × Op :=
  if isDigit c then ({ s with step := Step.state1 }, Op.scanContinue) else state0 s c

/-- Go `stateNeg`: after `-`. -/
def stateNeg (s : scanner) (c : Byte) : scanner × Op :=
  if c.val = 48 then ({ s with step := Step.state0 }, Op.scanContinue)
  else if 49 ≤ c.val ∧ c.val ≤ 57 then ({ s with step := Step.state1 }, Op.scanContinue)
  else s.error c

/-- Go `stateDot`: after the decimal point. -/
def stateDot (s : scanner) (c : Byte) : scanner × Op :=
  if isDigit c then ({ s with step := Step.stateDot0 }, Op.scanContinue) else s.error c

/-- Go `stateDot0`: in the fraction. -/
def stateDot0 (s : scanner) (c : Byte) : scanner × Op :=
  if isDigit c then (s, Op.scanContinue)
  else if c.val = 101 ∨ c.val = 69 then ({ s with step := Step.stateE }, Op.scanContinue)
  else stateEndValue s c

/-- Go `stateESign`: after the sign of the exponent. -/
def stateESign (s : scanner) (c : Byte) : scanner × Op :=
  if isDigit c then ({ s with step := Step.stateE0 }, Op.scanContinue) else s.error c

/-- Go `stateE`: after `e` or `E`. -/
def stateE (s : scanner) (c : Byte) : scanner × Op :=
  if c.val = 43 ∨ c.val = 45 then ({ s with step := Step.stateESign }, Op.scanContinue)
  else stateESign s c

/-- Go `stateE0`: in the exponent. -/
def stateE0 (s : scanner) (c : Byte) : scanner × Op :=
  if isDigit c then (s, Op.scanContinue) else stateEndValue s c

/-- The states inside `true`, `false` and `null`: the byte `want` leads to
`next`. -/
def stateLetter (want : Nat) (next : Step) (s : scanner) (c : Byte) : scanner × Op :=
  if c.val = want then ({ s with step := next }, Op.scanContinue) else s.error c

/-- The call `s.step(s, c)`. -/
def scanner.stepByte (s : scanner) (c : Byte) : scanner × Op :=
  match s.step with
  | Step.stateBeginValueOrEmpty => stateBeginValueOrEmpty s c
  | Step.stateBeginValue => stateBeginValue s c
  | Step.stateBeginStringOrEmpty => stateBeginStringOrEmpty s c
  | Step.stateBeginString => stateBeginString s c
  | Step.stateEndValue => stateEndValue s c
  | Step.stateEndTop => stateEndTop s c
  | Step.stateInString => stateInString s c
  | Step.stateInStringEsc => stateInStringEsc s c
  | Step.stateInStringEscU => stateHex Step.stateInStringEscU1 s c
  | Step.stateInStringEscU1 => stateHex Step.stateInStringEscU12 s c
  | Step.stateInStringEscU12 => stateHex Step.stateInStringEscU123 s c
  | Step.stateInStringEscU123 => stateHex Step.stateInString s c
  | Step.stateNeg => stateNeg s c
  | Step.state1 => state1 s c
  | Step.state0 => state0 s c
  | Step.stateDot => stateDot s c
  | Step.stateDot0 => stateDot0 s c
  | Step.stateE => stateE s c
  | Step.stateESign => stateESign s c
  | Step.stateE0 => stateE0 s c
  | Step.stateT => stateLetter 114 Step.stateTr s c
  | Step.stateTr => stateLetter 117 Step.stateTru s c
  | Step.stateTru => stateLetter 101 Step.stateEndValue s c
  | Step.stateF => stateLetter 97 Step.stateFa s c
  | Step.stateFa => stateLetter 108 Step.stateFal s c
  | Step.stateFal => stateLetter 115 Step.stateFals s c
  | Step.stateFals => stateLetter 101 Step.stateEndValue s c
  | Step.stateN => stateLetter 117 Step.stateNu s c
  | Step.stateNu => stateLetter 108 Step.stateNul s c
  | Step.stateNul => stateLetter 108 Step.stateEndValue s c
  | Step.stateError => (s, Op.scanError)

/-- Go `(*scanner).eof`: the input has ended; a pending number is closed by
feeding a space.  When the input ends inside `true`, `false` or `null` the
error kept is the one of that space (`invalidCharacter 32`); Go releases from
1.26 on report the unexpected end of the input there. -/
def scanner.eof (s : scanner) : scanner × Op :=
  if s.err.isSome then (s, Op.scanError)
  else if s.endTop then (s, Op.scanEnd)
  else
    let s1 := (s.stepByte 32).1
    if s1.endTop then (s1, Op.scanEnd)
    else if s1.err.isNone then ({ s1 with err := some SyntaxError.unexpectedEnd }, Op.scanError)
    else (s1, Op.scanError)

/-- The loop of Go `checkValid`: stop at the first step that reports an error. -/
def checkValidLoop (s : scanner) (data : List Byte) : Option SyntaxError :=
  match data with
  | [] =>
    let r := s.eof
    if r.2 = Op.scanError then r.1.err else none
  | c :: cs =>
    let r := s.stepByte c
    if r.2 = Op.scanError then r.1.err else checkValidLoop r.1 cs

/-- Go `checkValid(data, scan)`: `none` when `data` is one valid JSON value. -/
def checkValid (data : List Byte) : Option SyntaxError :=
  checkValidLoop scanner.reset data

end json

/-! ## Packages `unicode/utf8` and `unicode/utf16` (what `encoding/json` uses) -/

namespace utf8

/-- The constant `utf8.RuneError`, U+FFFD. -/
def RuneError : Nat := 65533

/-- The constant `utf8.RuneSelf`: bytes below it are single-byte runes. -/
def RuneSelf : Nat := 128

/-- A continuation byte `0x80..0xBF`. -/
def isCont (b : Byte) : Bool := 128 ≤ b.val && b.val ≤ 191

/-- The two-byte case of `DecodeRune`: lead byte `0xC2..0xDF`. -/
def decode2 (p0 b1 : Byte) : Nat × Nat :=
  if isCont b1 then ((p0.val % 32) * 64 + b1.val % 64, 2) else (RuneError, 1)

/-- The three-byte case of `DecodeRune`: lead byte `0xE0..0xEF`; the second
byte is at least `0xA0` after `0xE0` and at most `0x9F` after `0xED`. -/
def decode3 (p0 b1 b2 : Byte) : Nat × Nat :=
  if b1.val < (if p0.val = 224 then 160 else 128) then (RuneError, 1)
  else if (if p0.val = 237 then 159 else 191) < b1.val then (RuneError, 1)
  else if !isCont b2 then (RuneError, 1)
  else ((p0.val % 16) * 4096 + (b1.val % 64) * 64 + b2.val % 64, 3)

/-- The four-byte case of `DecodeRune`: lead byte `0xF0..0xF4`; the second
byte is at least `0x90` after `0xF0` and at most `0x8F` after `0xF4`. -/
def decode4 (p0 b1 b2 b3 : Byte) : Nat × Nat :=
  if b1.val < (if p0.val = 240 then 144 else 128) then (RuneError, 1)
  else if (if p0.val = 244 then 143 else 191) < b1.val then (RuneError, 1)
  else if !isCont b2 then (RuneError, 1)
  else if !isCont b3 then (RuneError, 1)
  else ((p0.val % 8) * 262144 + (b1.val % 64) * 4096 + (b2.val % 64) * 64 + b3.val % 64, 4)

/-- Go `utf8.DecodeRune`: the first rune of `p` and its width in bytes;
`(RuneError, 1)` for an ill-formed or truncated encoding, `(RuneError, 0)`
for empty input.  The case split is the table `first` with its accept
ranges. -/
def DecodeRune (p : List Byte) : Nat × Nat :=
  match p with
  | [] => (RuneError, 0)
  | p0 :: rest =>
    if p0.val < 128 then (p0.val, 1)
    else if p0.val < 194 then (RuneError, 1)
    else if p0.val < 224 then
      match rest with
      | b1 :: _ => decode2 p0 b1
      | _ => (RuneError, 1)
    else if p0.val < 240 then
      match rest with
      | b1 :: b2 :: _ => decode3 p0 b1 b2
      | _ => (RuneError, 1)
    else if p0.val < 245 then
      match rest with
      | b1 :: b2 :: b3 :: _ => decode4 p0 b1 b2 b3
      | _ => (RuneError, 1)
    else (RuneError, 1)

/-- The three bytes of U+FFFD. -/
def runeErrorBytes : List Byte := [239, 191, 189]

/-- Go `utf8.EncodeRune` / `utf8.AppendRune`: the UTF-8 bytes of a rune; a
surrogate or a value above U+10FFFF is written as U+FFFD. -/
def EncodeRune (r : Nat) : List Byte :=
  if r ≤ 127 then [Fin.ofNat r]
  else if r ≤ 2047 then [Fin.ofNat (192 + r / 64), Fin.ofNat (128 + r % 64)]
  else if r > 1114111 ∨ (55296 ≤ r ∧ r ≤ 57343) then runeErrorBytes
  else if r ≤ 65535 then
    [Fin.ofNat (224 + r / 4096), Fin.ofNat (128 + r / 64 % 64), Fin.ofNat (128 + r % 64)]
  else
    [Fin.ofNat (240 + r / 262144), Fin.ofNat (128 + r / 4096 % 64),
     Fin.ofNat (128 + r / 64 % 64), Fin.ofNat (128 + r % 64)]

end utf8

namespace utf16

/-- Go `utf16.IsSurrogate`. -/
def IsSurrogate (r : Nat) : Bool := 55296 ≤ r && r < 57344

/-- Go `utf16.DecodeRune(r1, r2)`: the rune of a surrogate pair, U+FFFD when
the two are not a high surrogate followed by a low one.  `none` stands for
the value `-1` that `getu4` gives when no `\u` escape follows. -/
def DecodeRune (r1 : Nat) (r2 : Option Nat) : Nat :=
  match r2 with
  | none => 65533
  | some r2 =>
    if 55296 ≤ r1 ∧ r1 < 56320 ∧ 56320 ≤ r2 ∧ r2 < 57344 then
      (r1 - 55296) * 1024 + (r2 - 56320) + 65536
    else 65533

end utf16

/-! ## Package `encoding/json`: reading literals (`decode.go`) -/

namespace json

/-- Value of a hexadecimal digit, `none` for another byte (loop of `getu4`). -/
def hexValue (c : Byte) : Option Nat :=
  if 48 ≤ c.val ∧ c.val ≤ 57 then some (c.val - 48)
  else if 97 ≤ c.val ∧ c.val ≤ 102 then some (c.val - 97 + 10)
  else if 65 ≤ c.val ∧ c.val ≤ 70 then some (c.val - 65 + 10)
  else none

/-- Go `getu4`: the number written by a leading `\uXXXX`, `none` (Go: -1)
when `s` does not start with such an escape. -/
def getu4 (s : List Byte) : Option Nat :=
  match s with
  | b :: u :: h1 :: h2 :: h3 :: h4 :: _ =>
    if b.val = 92 ∧ u.val = 117 then
      match hexValue h1, hexValue h2, hexValue h3, hexValue h4 with
      | some a, some b, some c, some d => some (a * 4096 + b * 256 + c * 16 + d)
      | _, _, _, _ => none
    else none
  | _ => none

/-- Main loop of Go `unquoteBytes` on the text between the quotes: resolve
the escapes and coerce the rest to well-formed UTF-8.  `none` is the result
`ok = false`.  (Go first looks for a prefix that needs no change and copies
it; the loop gives the same bytes for it.)  `fuel` bounds the number of
turns, at most one per byte. -/
def unquoteLoop : Nat → List Byte → Option (List Byte)
  | 0, _ => none
  | _ + 1, [] => some []
  | fuel + 1, c :: cs =>
    if c.val = 92 then
      match cs with
      | [] => none
      | e :: cs1 =>
        if e.val = 34 ∨ e.val = 92 ∨ e.val = 47 ∨ e.val = 39 then
          (unquoteLoop fuel cs1).map (e :: ·)
        else if e.val = 98 then (unquoteLoop fuel cs1).map ((8 : Byte) :: ·)
        else if e.val = 102 then (unquoteLoop fuel cs1).map ((12 : Byte) :: ·)
        else if e.val = 110 then (unquoteLoop fuel cs1).map ((10 : Byte) :: ·)
        else if e.val = 114 then (unquoteLoop fuel cs1).map ((13 : Byte) :: ·)
        else if e.val = 116 then (unquoteLoop fuel cs1).map ((9 : Byte) :: ·)
        else if e.val = 117 then
          match getu4 (c :: cs) with
          | none => none
          | some rr =>
            let rest := cs.drop 5
            if utf16.IsSurrogate rr then
              let dec := utf16.DecodeRune rr (getu4 rest)
              if dec ≠ 65533 then
                (unquoteLoop fuel (rest.drop 6)).map (utf8.EncodeRune dec ++ ·)
              else (unquoteLoop fuel rest).map (utf8.EncodeRune 65533 ++ ·)
            else (unquoteLoop fuel rest).map (utf8.EncodeRune rr ++ ·)
        else none
    else if c.val = 34 ∨ c.val < 32 then none
    else if c.val < 128 then (unquoteLoop fuel cs).map (c :: ·)
    else
      let d := utf8.DecodeRune (c :: cs)
      (unquoteLoop fuel ((c :: cs).drop d.2)).map (utf8.EncodeRune d.1 ++ ·)

/-- Go `unquoteBytes` applied to a literal whose quotes have been removed. -/
def unquote (body : List Byte) : Option GoString := unquoteLoop (body.length + 1) body

/-- A JSON value as the decoder meets it: strings and keys are unquoted,
numbers are kept as their text, the members of an object are in input order. -/
inductive Value
  | null
  | bool (b : Bool)
  | number (raw : GoString)
  | string (s : GoString)
  | array (elems : List Value)
  | object (members : List (GoString × Value))

/-- Go `(*decodeState).scanWhile(scanSkipSpace)`: skip white space. -/
def skipSpace : List Byte → List Byte
  | [] => []
  | c :: cs => if isSpace c then skipSpace cs else c :: cs

/-- String case of Go `rescanLiteral`, from the byte after the opening
quote: the text up to the closing quote (a backslash takes the next byte
with it) and the input after that quote.  `esc` tells that the previous
byte was an unescaped backslash. -/
def stringEnd (esc : Bool) : List Byte → List Byte × List Byte
  | [] => ([], [])
  | c :: cs =>
    if esc then ((c :: (stringEnd false cs).1), (stringEnd false cs).2)
    else if c.val = 92 then ((c :: (stringEnd true cs).1), (stringEnd true cs).2)
    else if c.val = 34 then ([], cs)
    else ((c :: (stringEnd false cs).1), (stringEnd false cs).2)

/-- The bytes the number case of `rescanLiteral` runs over:
digits and `. e E + -`. -/
def isNumberByte (c : Byte) : Bool :=
  isDigit c || c.val == 46 || c.val == 101 || c.val == 69 || c.val == 43 || c.val == 45

/-- Number case of Go `rescanLiteral`: the longest run of number bytes and
the input after it. -/
def numberEnd : List Byte → List Byte × List Byte
  | [] => ([], [])
  | c :: cs =>
    if isNumberByte c then ((c :: (numberEnd cs).1), (numberEnd cs).2) else ([], c :: cs)

/-- Fuel that lets `walk` read any accepted input to its end. -/
def walkFuel (data : List Byte) : Nat := 2 * data.length + 1

/-- Where the decoder stands: before a value, before an element of an array
(with the elements read so far, last first), or before a key of an object
(with the members read so far, last first). -/
inductive Mode
  | value
  | elems (acc : List Value)
  | members (acc : List (GoString × Value))

/-- The walk of `decodeState` (`value`, `array`, `object`, `rescanLiteral`)
over input that `checkValid` has accepted: the value read and the input
after it.  The decoder relies on the earlier check and finds the end of a
literal by its first byte alone; `none` is where Go panics with
"JSON decoder out of sync".  `fuel` bounds the depth of the calls, at most
two per byte (`walkFuel`). -/
def walk : Nat → Mode → List Byte → Option (Value × List Byte)
  | 0, _, _ => none
  | fuel + 1, Mode.value, bs =>
    match skipSpace bs with
    | [] => none
    | c :: cs =>
      if c.val = 123 then
        match skipSpace cs with
        | [] => none
        | d :: ds =>
          if d.val = 125 then some (Value.object [], ds)
          else walk fuel (Mode.members []) (d :: ds)
      else if c.val = 91 then
        match skipSpace cs with
        | [] => none
        | d :: ds =>
          if d.val = 93 then some (Value.array [], ds)
          else walk fuel (Mode.elems []) (d :: ds)
      else if c.val = 34 then
        match unquote (stringEnd false cs).1 with
        | none => none
        | some s => some (Value.string s, (stringEnd false cs).2)
      else if c.val = 116 then some (Value.bool true, cs.drop 3)
      else if c.val = 102 then some (Value.bool false, cs.drop 4)
      else if c.val = 110 then some (Value.null, cs.drop 3)
      else if c.val = 45 ∨ isDigit c then
        some (Value.number (numberEnd (c :: cs)).1, (numberEnd (c :: cs)).2)
      else none
  | fuel + 1, Mode.elems acc, bs =>
    match walk fuel Mode.value bs with
    | none => none
    | some (v, rest) =>
      match skipSpace rest with
      | [] => none
      | c :: cs =>
        if c.val = 44 then walk fuel (Mode.elems (v :: acc)) cs
        else if c.val = 93 then some (Value.array (v :: acc).reverse, cs)
        else none
  | fuel + 1, Mode.members acc, bs =>
    match skipSpace bs with
    | [] => none
    | q :: qs =>
      if q.val = 34 then
        match unquote (stringEnd false qs).1 with
        | none => none
        | some key =>
          match skipSpace (stringEnd false qs).2 with
          | [] => none
          | c :: cs =>
            if c.val = 58 then
              match walk fuel Mode.value cs with
              | none => none
              | some (v, rest) =>
                match skipSpace rest with
                | [] => none
                | d :: ds =>
                  if d.val = 44 then walk fuel (Mode.members ((key, v) :: acc)) ds
                  else if d.val = 125 then some (Value.object ((key, v) :: acc).reverse, ds)
                  else none
            else none
      else none

/-- The value a body holds: the body must pass `checkValid`, and the
decoder's walk over it gives the value.  `none` for a body that is not
valid JSON. -/
def parse (data : List Byte) : Option Value :=
  match checkValid data with
  | some _ => none
  | none =>
    match walk (walkFuel data) Mode.value data with
    | some (v, _) => some v
    | none => none

end json

/-! ## Go slices, and the types of `main.go` -/

/-- A Go slice as the decoder and the encoder see it.  `isNil` tells the nil
slice from an empty one (they are encoded differently); `len` is its length;
`arr` is the start of its backing array, up to the greatest length the slice
has had, so `arr.take len` are the elements.  The elements between `len` and
`arr.length` are what `SetLen` brings back when the decoder fills the same
slice again.  The capacity beyond `arr.length` holds zero values only, and
the decoder grows a slice only when its length equals its capacity, so the
capacity itself has no effect on any result and is not kept. -/
structure GoSlice (α : Type) where
  isNil : Bool
  arr : List α
  len : Nat
  deriving DecidableEq, Repr

/-- The nil slice, the zero value of a slice type. -/
def GoSlice.nil {α : Type} : GoSlice α := { isNil := true, arr := [], len := 0 }

/-- The value `reflect.MakeSlice(t, 0, 0)`: empty, not nil. -/
def GoSlice.empty {α : Type} : GoSlice α := { isNil := false, arr := [], len := 0 }

/-- The elements of a slice. -/
def GoSlice.toList {α : Type} (s : GoSlice α) : List α := s.arr.take s.len

/-- A slice holding exactly the given elements (not nil). -/
def GoSlice.ofList {α : Type} (l : List α) : GoSlice α :=
  { isNil := false, arr := l, len := l.length }

/-- Go `type CardData struct` of `main.go`, with the tags
`json:"id"`, `json:"name"`, `json:"types"`, `json:"hp"`, `json:"rarity"`. -/
structure CardData where
  Id : GoString
  Name : GoString
  Types : GoSlice GoString
  HP : GoString
  Rarity : GoString
  deriving DecidableEq, Repr

/-- Go `type ResultData struct` of `main.go`, with the tag `json:"data"`. -/
structure ResultData where
  Data : GoSlice CardData
  deriving DecidableEq, Repr

/-- The zero value of `CardData`. -/
def CardData.zero : CardData :=
  { Id := [], Name := [], Types := GoSlice.nil, HP := [], Rarity := [] }

/-- The zero value of `ResultData` (`var rd ResultData`). -/
def ResultData.zero : ResultData := { Data := GoSlice.nil }

/-! ## Package `encoding/json`: `Unmarshal` into `ResultData` (`decode.go`)

The Go decoder is driven by reflection on the target type.  Here it is
written out for the four kinds of target that `ResultData` contains: a
string, a slice, and the two structs. -/

namespace json

/-- The JSON kinds an `UnmarshalTypeError` names in its field `Value`. -/
inductive ValueKind
  | array
  | object
  | string
  | number
  | bool
  deriving DecidableEq, Repr

/-- The Go types an `UnmarshalTypeError` names in its field `Typ`. -/
inductive GoType
  | string
  | sliceOfString
  | CardData
  | sliceOfCardData
  | ResultData
  deriving DecidableEq, Repr

/-- Go `UnmarshalTypeError`: a JSON value of kind `Value` cannot be stored in
a Go value of type `Typ` (Go: `Type`; offset and field path are not kept). -/
structure UnmarshalTypeError where
  Value : ValueKind
  Typ : GoType
  deriving DecidableEq, Repr

/-- The field `savedError` of `decodeState`. -/
abbrev Saved := Option UnmarshalTypeError

/-- Go `(*decodeState).saveError`: keep the first error. -/
def saveError (saved : Saved) (e : UnmarshalTypeError) : Saved :=
  match saved with
  | none => some e
  | some x => some x

/-- Go `appendFoldedName` / `foldName`: ASCII letters are upper-cased and
every other rune is replaced by the smallest rune of its simple-fold orbit.
Only two runes outside ASCII have an ASCII letter in their orbit, U+017F
(long s, bytes C5 BF, folds to `S`) and U+212A (Kelvin sign, bytes
E2 84 AA, folds to `K`); they are folded here.  The other multi-byte runes
are left as they are: they fold to runes outside ASCII, so whether a key
folds to the same text as an ASCII field name does not depend on them.
`fuel` bounds the number of runes. -/
def foldNameLoop : Nat → List Byte → List Byte
  | 0, _ => []
  | _ + 1, [] => []
  | fuel + 1, c :: cs =>
    if c.val < 128 then
      (if 97 ≤ c.val ∧ c.val ≤ 122 then Fin.ofNat (c.val - 32) else c) :: foldNameLoop fuel cs
    else if (c :: cs).take 2 = [197, 191] then 83 :: foldNameLoop fuel (cs.drop 1)
    else if (c :: cs).take 3 = [226, 132, 170] then 75 :: foldNameLoop fuel (cs.drop 2)
    else
      let n := (utf8.DecodeRune (c :: cs)).2
      (c :: cs).take n ++ foldNameLoop fuel ((c :: cs).drop n)

/-- Go `foldName`. -/
def foldName (s : GoString) : GoString := foldNameLoop (s.length + 1) s

/-- The lookup of a key among the fields of a struct: first the exact name
(`byExactName`), then the first field whose folded name is the folded key
(`byFoldedName`). -/
def lookupField {φ : Type} (fields : List (GoString × φ)) (key : GoString) : Option φ :=
  match fields.find? fun f => f.1 == key with
  | some f => some f.2
  | none =>
    match fields.find? fun f => foldName f.1 == foldName key with
    | some f => some f.2
    | none => none

/-- The fields of `CardData`. -/
inductive CardField
  | Id
  | Name
  | Types
  | HP
  | Rarity
  deriving DecidableEq, Repr

/-- The JSON names of the fields of `CardData`, in declaration order. -/
def cardFields : List (GoString × CardField) :=
  [(str "id", CardField.Id), (str "name", CardField.Name), (str "types", CardField.Types),
   (str "hp", CardField.HP), (str "rarity", CardField.Rarity)]

/-- The JSON names of the fields of `ResultData`. -/
def resultFields : List (GoString × Unit) := [(str "data", ())]

/-- The decoder on a target of kind string (`literalStore`, and the default
cases of `array` and `object`): a JSON string is stored, `null` leaves the
target as it is, every other value is a type error and leaves it too. -/
def storeString (v : Value) (cur : GoString) (saved : Saved) : GoString × Saved :=
  match v with
  | Value.string s => (s, saved)
  | Value.null => (cur, saved)
  | Value.bool _ => (cur, saveError saved ⟨ValueKind.bool, GoType.string⟩)
  | Value.number _ => (cur, saveError saved ⟨ValueKind.number, GoType.string⟩)
  | Value.array _ => (cur, saveError saved ⟨ValueKind.array, GoType.string⟩)
  | Value.object _ => (cur, saveError saved ⟨ValueKind.object, GoType.string⟩)

/-- The end of Go `(*decodeState).array` after `i` elements: a longer slice
is cut to `i`, and for `i = 0` the target becomes a new empty slice. -/
def arrayFinish {α : Type} (i : Nat) (s : GoSlice α) : GoSlice α :=
  let s1 := if i < s.len then { s with len := i } else s
  if i = 0 then GoSlice.empty else s1

/-- The loop of Go `(*decodeState).array` on a slice target, at index `i`:
the slice is grown and lengthened to `i + 1` when it is shorter, and the
element is decoded into what the slice holds at index `i`. -/
def arrayLoop {α : Type} (zero : α) (dec : Value → α → Saved → α × Saved) :
    Nat → List Value → GoSlice α → Saved → GoSlice α × Saved
  | i, [], s, saved => (arrayFinish i s, saved)
  | i, e :: es, s, saved =>
    let s1 : GoSlice α :=
      if i ≥ s.len then
        { isNil := false, arr := s.arr ++ List.replicate (i + 1 - s.arr.length) zero,
          len := i + 1 }
      else s
    let r := dec e (s1.arr.getD i zero) saved
    arrayLoop zero dec (i + 1) es { s1 with arr := s1.arr.set i r.1 } r.2

/-- The decoder on a target of kind slice whose elements are not bytes: a
JSON array fills the slice, `null` sets it to nil, every other value is a
type error. -/
def storeSlice {α : Type} (zero : α) (dec : Value → α → Saved → α × Saved) (ty : GoType)
    (v : Value) (cur : GoSlice α) (saved : Saved) : GoSlice α × Saved :=
  match v with
  | Value.array es => arrayLoop zero dec 0 es cur saved
  | Value.null => (GoSlice.nil, saved)
  | Value.string _ => (cur, saveError saved ⟨ValueKind.string, ty⟩)
  | Value.bool _ => (cur, saveError saved ⟨ValueKind.bool, ty⟩)
  | Value.number _ => (cur, saveError saved ⟨ValueKind.number, ty⟩)
  | Value.object _ => (cur, saveError saved ⟨ValueKind.object, ty⟩)

/-- The loop of Go `(*decodeState).object` on a `CardData`: each member whose
key names a field is decoded into that field, the others are skipped. -/
def objectCard : List (GoString × Value) → CardData → Saved → CardData × Saved
  | [], c, saved => (c, saved)
  | (key, v) :: rest, c, saved =>
    match lookupField cardFields key with
    | some CardField.Id =>
      objectCard rest { c with Id := (storeString v c.Id saved).1 } (storeString v c.Id saved).2
    | some CardField.Name =>
      objectCard rest { c with Name := (storeString v c.Name saved).1 }
        (storeString v c.Name saved).2
    | some CardField.Types =>
      objectCard rest
        { c with Types := (storeSlice [] storeString GoType.sliceOfString v c.Types saved).1 }
        (storeSlice [] storeString GoType.sliceOfString v c.Types saved).2
    | some CardField.HP =>
      objectCard rest { c with HP := (storeString v c.HP saved).1 } (storeString v c.HP saved).2
    | some CardField.Rarity =>
      objectCard rest { c with Rarity := (storeString v c.Rarity saved).1 }
        (storeString v c.Rarity saved).2
    | none => objectCard rest c saved

/-- The decoder on a target of type `CardData`: a JSON object fills the
fields, `null` leaves the target as it is, every other value is a type error. -/
def storeCard (v : Value) (cur : CardData) (saved : Saved) : CardData × Saved :=
  match v with
  | Value.object members => objectCard members cur saved
  | Value.null => (cur, saved)
  | Value.array _ => (cur, saveError saved ⟨ValueKind.array, GoType.CardData⟩)
  | Value.string _ => (cur, saveError saved ⟨ValueKind.string, GoType.CardData⟩)
  | Value.bool _ => (cur, saveError saved ⟨ValueKind.bool, GoType.CardData⟩)
  | Value.number _ => (cur, saveError saved ⟨ValueKind.number, GoType.CardData⟩)

/-- The loop of Go `(*decodeState).object` on a `ResultData`. -/
def objectResult : List (GoString × Value) → ResultData → Saved → ResultData × Saved
  | [], r, saved => (r, saved)
  | (key, v) :: rest, r, saved =>
    match lookupField resultFields key with
    | some () =>
      objectResult rest
        { Data := (storeSlice CardData.zero storeCard GoType.sliceOfCardData v r.Data saved).1 }
        (storeSlice CardData.zero storeCard GoType.sliceOfCardData v r.Data saved).2
    | none => objectResult rest r saved

/-- The decoder on the target `*ResultData` that `processData` passes. -/
def storeResult (v : Value) (cur : ResultData) (saved : Saved) : ResultData × Saved :=
  match v with
  | Value.object members => objectResult members cur saved
  | Value.null => (cur, saved)
  | Value.array _ => (cur, saveError saved ⟨ValueKind.array, GoType.ResultData⟩)
  | Value.string _ => (cur, saveError saved ⟨ValueKind.string, GoType.ResultData⟩)
  | Value.bool _ => (cur, saveError saved ⟨ValueKind.bool, GoType.ResultData⟩)
  | Value.number _ => (cur, saveError saved ⟨ValueKind.number, GoType.ResultData⟩)

/-- What `json.Unmarshal` can return as its error, and `outOfSync` for the
panic "JSON decoder out of sync" of the decoder. -/
inductive Error
  | syntaxError (e : SyntaxError)
  | typeError (e : UnmarshalTypeError)
  | outOfSync
  deriving DecidableEq, Repr

/-- Go `json.Unmarshal(data, &rd)`: `checkValid` first, whose error is
returned with `rd` untouched; then the decoder walks the input and fills
`rd`, and the first type error it saved is returned. -/
def Unmarshal (data : List Byte) (rd : ResultData) : ResultData × Option Error :=
  match checkValid data with
  | some e => (rd, some (Error.syntaxError e))
  | none =>
    match walk (walkFuel data) Mode.value data with
    | none => (rd, some Error.outOfSync)
    | some (v, _) =>
      ((storeResult v rd none).1, (storeResult v rd none).2.map Error.typeError)

end json

/-! ## `main.go`: `processData` -/

namespace http

/-- What `processData` uses of a Go `http.Response`: the status code, and
the outcome of reading the body to its end (`ioutil.ReadAll(response.Body)`):
the bytes, or the error that stopped the read. -/
structure Response where
  StatusCode : Int
  Body : Except String (List Byte)

/-- A response with the given status code whose body was read in full. -/
def Response.read (code : Int) (body : List Byte) : Response :=
  { StatusCode := code, Body := Except.ok body }

end http

/-- The errors `processData` returns: the read error, the error made with
`errors.New` for a status other than 200, or the error of `json.Unmarshal`. -/
inductive ProcessError
  | read (e : String)
  | status (message : GoString)
  | unmarshal (e : json.Error)
  deriving DecidableEq, Repr

/-- The text `fmt.Sprintf("API returned %d and response: %s", code, string(body))`. -/
def statusMessage (code : Int) (body : List Byte) : GoString :=
  str "API returned " ++ fmt.decimal code ++ str " and response: " ++ body

/-- Go `processData` of `main.go` (the deferred `timer` call only logs): the
pair it returns, the `ResultData` and the error (`none` for `nil`). -/
def processData (response : http.Response) : ResultData × Option ProcessError :=
  let rd := ResultData.zero
  match response.Body with
  | Except.error e => (rd, some (ProcessError.read e))
  | Except.ok body =>
    if response.StatusCode ≠ 200 then
      (rd, some (ProcessError.status (statusMessage response.StatusCode body)))
    else
      ((json.Unmarshal body rd).1, (json.Unmarshal body rd).2.map ProcessError.unmarshal)

/-! ## Package `encoding/json`: `Marshal` of a `ResultData` (`encode.go`) -/

namespace json

/-- Table `hex = "0123456789abcdef"`, indexed by a nibble. -/
def hex (n : Nat) : Byte :=
  if n % 16 < 10 then Fin.ofNat (48 + n % 16) else Fin.ofNat (87 + n % 16)

/-- Table `htmlSafeSet`: the ASCII bytes written as they are, that is all
from space on except `"`, `\`, `<`, `>` and `&`. -/
def htmlSafe (b : Byte) : Bool :=
  32 ≤ b.val && b.val < 128 && b.val != 34 && b.val != 92 && b.val != 60 && b.val != 62 &&
    b.val != 38

/-- What `appendString` writes for an ASCII byte that is not in
`htmlSafeSet`: a short escape for `\`, `"`, backspace, form feed, line feed,
carriage return and tab, and `\u00XX` for the others. -/
def escapeASCII (b : Byte) : List Byte :=
  if b.val = 92 ∨ b.val = 34 then [92, b]
  else if b.val = 8 then [92, 98]
  else if b.val = 12 then [92, 102]
  else if b.val = 10 then [92, 110]
  else if b.val = 13 then [92, 114]
  else if b.val = 9 then [92, 116]
  else [92, 117, 48, 48, hex (b.val / 16), hex (b.val % 16)]

/-- The loop of Go `appendString(dst, src, escapeHTML = true)`: safe ASCII
bytes and well-formed multi-byte runes are copied, other ASCII bytes are
escaped, a byte that starts no well-formed rune is written as the escape of
U+FFFD, and U+2028 and U+2029 are written as their escapes.  `fuel` bounds
the number of runes. -/
def appendStringLoop : Nat → List Byte → List Byte
  | 0, _ => []
  | _ + 1, [] => []
  | fuel + 1, b :: bs =>
    if b.val < 128 then
      if htmlSafe b then b :: appendStringLoop fuel bs
      else escapeASCII b ++ appendStringLoop fuel bs
    else
      let d := utf8.DecodeRune (b :: bs)
      if d.1 = utf8.RuneError ∧ d.2 = 1 then
        [92, 117, 102, 102, 102, 100] ++ appendStringLoop fuel bs
      else if d.1 = 8232 ∨ d.1 = 8233 then
        [92, 117, 50, 48, 50, hex (d.1 % 16)] ++ appendStringLoop fuel ((b :: bs).drop d.2)
      else (b :: bs).take d.2 ++ appendStringLoop fuel ((b :: bs).drop d.2)

/-- Go `appendString`: the JSON string literal of a Go string. -/
def appendString (src : GoString) : List Byte :=
  34 :: (appendStringLoop (src.length + 1) src ++ [34])

/-- The elements of an array after the first, each behind a comma. -/
def encodeTail {α : Type} (enc : α → List Byte) : List α → List Byte
  | [] => []
  | x :: xs => 44 :: (enc x ++ encodeTail enc xs)

/-- Go `sliceEncoder` / `arrayEncoder`: `null` for a nil slice, otherwise
the elements between brackets, separated by commas. -/
def encodeSlice {α : Type} (enc : α → List Byte) (s : GoSlice α) : List Byte :=
  if s.isNil then str "null"
  else
    match s.toList with
    | [] => [91, 93]
    | x :: xs => 91 :: (enc x ++ encodeTail enc xs ++ [93])

/-- Go `structEncoder` on a `CardData`: the fields in declaration order,
each as `"name":value`. -/
def encodeCard (c : CardData) : List Byte :=
  str "\x7b\"id\":" ++ appendString c.Id ++ str ",\"name\":" ++ appendString c.Name ++
    str ",\"types\":" ++ encodeSlice appendString c.Types ++ str ",\"hp\":" ++
    appendString c.HP ++ str ",\"rarity\":" ++ appendString c.Rarity ++ [125]

/-- Go `structEncoder` on a `ResultData`. -/
def encodeResult (r : ResultData) : List Byte :=
  str "\x7b\"data\":" ++ encodeSlice encodeCard r.Data ++ [125]

/-- Go `json.Marshal(result)` for a `ResultData`: the compact encoding, and
the error, which is `nil` here: the encoders of strings, slices and structs
have no failure. -/
def Marshal (r : ResultData) : List Byte × Option Error := (encodeResult r, none)

/-! ## Package `encoding/json`: `Indent` (`indent.go`) -/

/-- Go `appendNewline`: a line feed, the prefix, and `depth` copies of the
indent. -/
def appendNewline (dst pre indent : List Byte) (depth : Nat) : List Byte :=
  dst ++ 10 :: (pre ++ (List.replicate depth indent).flatten)

/-- The loop of Go `appendIndent` over `src`: the scanner classifies each
byte; space is dropped, an error stops the loop, and the other bytes are
copied with line breaks and indentation around the punctuation.  The result
is the scanner and the text written.  (`depth` is never decremented at zero
on input the scanner accepts, so it is kept as a natural number.) -/
def indentLoop (pre indent : List Byte) :
    List Byte → scanner → Bool → Nat → List Byte → scanner × List Byte
  | [], scan, _, _, dst => (scan, dst)
  | c :: cs, scan, needIndent, depth, dst =>
    let r := scan.stepByte c
    if r.2 = Op.scanSkipSpace then indentLoop pre indent cs r.1 needIndent depth dst
    else if r.2 = Op.scanError then (r.1, dst)
    else
      let fire := needIndent && r.2 != Op.scanEndObject && r.2 != Op.scanEndArray
      let needIndent1 := if fire then false else needIndent
      let depth1 := if fire then depth + 1 else depth
      let dst1 := if fire then appendNewline dst pre indent (depth + 1) else dst
      if r.2 = Op.scanContinue then
        indentLoop pre indent cs r.1 needIndent1 depth1 (dst1 ++ [c])
      else if c.val = 123 ∨ c.val = 91 then
        indentLoop pre indent cs r.1 true depth1 (dst1 ++ [c])
      else if c.val = 44 then
        indentLoop pre indent cs r.1 needIndent1 depth1
          (appendNewline (dst1 ++ [c]) pre indent depth1)
      else if c.val = 58 then
        indentLoop pre indent cs r.1 needIndent1 depth1 (dst1 ++ [c, 32])
      else if c.val = 125 ∨ c.val = 93 then
        if needIndent1 then indentLoop pre indent cs r.1 false depth1 (dst1 ++ [c])
        else
          indentLoop pre indent cs r.1 needIndent1 (depth1 - 1)
            (appendNewline dst1 pre indent (depth1 - 1) ++ [c])
      else indentLoop pre indent cs r.1 needIndent1 depth1 (dst1 ++ [c])

/-- Go `appendIndent(dst, src, prefix, indent)`: the text written after
`dst` and no error, or `dst` alone and the scanner's error when `src` is
not valid JSON. -/
def appendIndent (dst src pre indent : List Byte) : List Byte × Option SyntaxError :=
  let r := indentLoop pre indent src scanner.reset false 0 dst
  if (r.1.eof).2 = Op.scanError then (dst, (r.1.eof).1.err) else (r.2, none)

/-- Go `json.MarshalIndent(result, prefix, indent)`: `Marshal`, then
`appendIndent` on its output; the bytes and the error. -/
def MarshalIndent (r : ResultData) (pre indent : List Byte) : List Byte × Option Error :=
  match Marshal r with
  | (_, some e) => ([], some e)
  | (b, none) =>
    match appendIndent [] b pre indent with
    | (_, some e) => ([], some (Error.syntaxError e))
    | (b2, none) => (b2, none)

end json

/-! ## `main.go`: the tail of `main` -/

/-- What `main` does with a response: the text after `Results:` on success,
or the name of the failing step (`log.Fatalf` ends the program there). -/
inductive Outcome
  | printed (text : List Byte)
  | fatalProcessing (e : ProcessError)
  | fatalMarshalling (e : json.Error)
  deriving DecidableEq, Repr

/-- The last two steps of `main`, from the response on: `processData`, then
`json.MarshalIndent(result, "", "  ")`, then the log line
`Results:\n<JSON>`; an error at either step is fatal. -/
def mainTail (response : http.Response) : Outcome :=
  match processData response with
  | (_, some e) => Outcome.fatalProcessing e
  | (result, none) =>
    match json.MarshalIndent result [] (str "  ") with
    | (_, some e) => Outcome.fatalMarshalling e
    | (rawBytes, none) => Outcome.printed rawBytes

/-! ## Shapes named by the specification of the decoder -/

namespace spec

/-- A card as the specification describes it: identifier, name, the
sequence of type tags, hit points (text) and rarity. -/
structure Card where
  id : GoString
  name : GoString
  types : List GoString
  hp : GoString
  rarity : GoString
  deriving DecidableEq, Repr

/-- The `CardData` that carries the five values of a card. -/
def Card.toCardData (c : Card) : CardData :=
  { Id := c.id, Name := c.name, Types := GoSlice.ofList c.types, HP := c.hp,
    Rarity := c.rarity }

/-- The five members of the JSON object of a card: string `id`, `name`, `hp`
and `rarity`, and the string array `types`. -/
def cardMembers (c : Card) : List (GoString × json.Value) :=
  [(str "id", json.Value.string c.id), (str "name", json.Value.string c.name),
   (str "types", json.Value.array (c.types.map json.Value.string)),
   (str "hp", json.Value.string c.hp), (str "rarity", json.Value.string c.rarity)]

/-- The members of a card object whose key names a field of `CardData`, by
its exact name or case-insensitively. -/
def namedCardMembers (members : List (GoString × json.Value)) : List (GoString × json.Value) :=
  members.filter fun m => (json.lookupField json.cardFields m.1).isSome

/-- The members of the top-level object whose key names the field `data`, by
its exact name or case-insensitively. -/
def namedResultMembers (members : List (GoString × json.Value)) :
    List (GoString × json.Value) :=
  members.filter fun m => (json.lookupField json.resultFields m.1).isSome

/-- The value `v` is a JSON object of the card `c`: an object that has those
five members, in any order, and besides them only members whose key names no
field of `CardData`. -/
def isCardObject (v : json.Value) (c : Card) : Prop :=
  ∃ members, v = json.Value.object members ∧ (namedCardMembers members).Perm (cardMembers c)

/-- A JSON value that a string target does not take: anything but a string
or `null`. -/
def mismatchString (v : json.Value) : Bool :=
  match v with
  | json.Value.string _ => false
  | json.Value.null => false
  | _ => true

/-- A JSON value that a target of type `[]string` does not take: anything
but `null` or an array of strings and `null`s. -/
def mismatchStrings (v : json.Value) : Bool :=
  match v with
  | json.Value.array es => es.any mismatchString
  | json.Value.null => false
  | _ => true

/-- A member of a card object whose key names a field and whose value that
field does not take. -/
def mismatchCardMember (m : GoString × json.Value) : Bool :=
  match json.lookupField json.cardFields m.1 with
  | some json.CardField.Types => mismatchStrings m.2
  | some _ => mismatchString m.2
  | none => false

/-- A JSON value that a `CardData` target does not take. -/
def mismatchCard (v : json.Value) : Bool :=
  match v with
  | json.Value.object members => members.any mismatchCardMember
  | json.Value.null => false
  | _ => true

/-- A JSON value that a target of type `[]CardData` does not take. -/
def mismatchCards (v : json.Value) : Bool :=
  match v with
  | json.Value.array es => es.any mismatchCard
  | json.Value.null => false
  | _ => true

/-- A member of the top-level object whose key names the field `data` and
whose value that field does not take. -/
def mismatchResultMember (m : GoString × json.Value) : Bool :=
  match json.lookupField json.resultFields m.1 with
  | some _ => mismatchCards m.2
  | none => false

/-- A body value that gives some known field, or the whole result, a value of
a JSON type it does not take (`null` is taken everywhere). -/
def mismatchResult (v : json.Value) : Bool :=
  match v with
  | json.Value.object members => members.any mismatchResultMember
  | json.Value.null => false
  | _ => true

end spec

namespace json

/-- The effect of one member of a card object on a `CardData`. -/
def applyCardMember (m : GoString × Value) (c : CardData) : CardData :=
  (objectCard [m] c none).1

/-- Two members that do not go to the same field. -/
def fieldsDiffer (m1 m2 : GoString × Value) : Prop :=
  lookupField cardFields m1.1 ≠ lookupField cardFields m2.1

/-- A member whose key names a field of `CardData` and whose value is what
the specification sends for it: a string, or an array of strings for
`types`. -/
def goodCardMember (m : GoString × Value) : Prop :=
  match lookupField cardFields m.1 with
  | some CardField.Types => ∃ ts : List GoString, m.2 = Value.array (ts.map Value.string)
  | some _ => ∃ s, m.2 = Value.string s
  | none => False

end json

/-! ## The example of the specification -/

/-- The body of the end-to-end example of the specification. -/
def pikachuBody : List Byte :=
  str "\x7b\"data\":[\x7b\"id\":\"xy1-1\",\"name\":\"Pikachu\",\"types\":[\"Lightning\"],\"hp\":\"60\",\"rarity\":\"Common\"\x7d]\x7d"

/-- The card of that example. -/
def pikachu : spec.Card :=
  { id := str "xy1-1", name := str "Pikachu", types := [str "Lightning"], hp := str "60",
    rarity := str "Common" }

/-- A body with white space, the escape `\u00e9`, the two bytes of `é`, the
escapes of a quote and of a line feed, and two members the program does not
know (`level` in the card, `count` at the top). -/
def fancyBody : List Byte :=
  str " \x7b \"data\" : [ \x7b\"id\":\"xy1-1\",\"name\":\"Pok\\u00e9mon \\\"\xe9\\\"\\n\",\"types\":[\"Fire\"],\"hp\":\"60\",\"rarity\":\"Common\",\"level\":12\x7d ] , \"count\" : 1 \x7d\n"

/-- The card of that body. -/
def fancyCard : spec.Card :=
  { id := str "xy1-1", name := str "Pok\xe9mon \"\xe9\"\n", types := [str "Fire"],
    hp := str "60", rarity := str "Common" }

/-- The members of the card object of that body. -/
def fancyCardMembers : List (GoString × json.Value) :=
  spec.cardMembers fancyCard ++ [(str "level", json.Value.number (str "12"))]

/-- The members of the top-level object of that body. -/
def fancyMembers : List (GoString × json.Value) :=
  [(str "data", json.Value.array [json.Value.object fancyCardMembers]),
   (str "count", json.Value.number (str "1"))]

namespace spec

/-- The value `v2` is `v1` with one more member whose key names no field (by
its exact name or case-insensitively): a member of the top-level object, or
a member of one card object in the array of one top-level member. -/
inductive AddsUnknownMember : json.Value → json.Value → Prop
  | top (l1 l2 : List (GoString × json.Value)) (k : GoString) (v : json.Value) :
      json.lookupField json.resultFields k = none →
      AddsUnknownMember (json.Value.object (l1 ++ l2)) (json.Value.object (l1 ++ (k, v) :: l2))
  | card (t1 t2 : List (GoString × json.Value)) (dk : GoString) (e1 e2 : List json.Value)
      (m1 m2 : List (GoString × json.Value)) (k : GoString) (v : json.Value) :
      json.lookupField json.cardFields k = none →
      AddsUnknownMember
        (json.Value.object
          (t1 ++ (dk, json.Value.array (e1 ++ json.Value.object (m1 ++ m2) :: e2)) :: t2))
        (json.Value.object
          (t1 ++ (dk, json.Value.array (e1 ++ json.Value.object (m1 ++ (k, v) :: m2) :: e2)) ::
            t2))

/-- The value `v2` is `v1` with one more member inside one card object, whose
key names one of the string fields `id`, `name`, `hp`, `rarity` (by its exact
name or case-insensitively) and whose value is `null`. -/
inductive AddsNullString : json.Value → json.Value → Prop
  | card (t1 t2 : List (GoString × json.Value)) (dk : GoString) (e1 e2 : List json.Value)
      (m1 m2 : List (GoString × json.Value)) (k : GoString) (f : json.CardField) :
      json.lookupField json.cardFields k = some f → f ≠ json.CardField.Types →
      AddsNullString
        (json.Value.object
          (t1 ++ (dk, json.Value.array (e1 ++ json.Value.object (m1 ++ m2) :: e2)) :: t2))
        (json.Value.object
          (t1 ++ (dk, json.Value.array
            (e1 ++ json.Value.object (m1 ++ (k, json.Value.null) :: m2) :: e2)) :: t2))

end spec

/-! ## The output format named by the specification -/

namespace spec

/-- The two-space indent of the specification. -/
def indent : List Byte := str "  "

/-- A line break followed by `d` levels of two-space indentation. -/
def newline (d : Nat) : List Byte := 10 :: (List.replicate d indent).flatten

/-- The elements of a list after the first, each after a comma and a line
break at depth `d`. -/
def prettyTail {α : Type} (render : α → List Byte) (d : Nat) : List α → List Byte
  | [] => []
  | x :: xs => 44 :: (newline d ++ (render x ++ prettyTail render d xs))

/-- A slice printed at depth `d`: `null` for nil, `[]` for empty, otherwise
one element per line at depth `d + 1` between brackets. -/
def prettySlice {α : Type} (render : Nat → α → List Byte) (d : Nat) (s : GoSlice α) :
    List Byte :=
  if s.isNil then str "null"
  else
    match s.toList with
    | [] => str "[]"
    | x :: xs =>
      91 :: (newline (d + 1) ++ (render (d + 1) x ++
        (prettyTail (render (d + 1)) (d + 1) xs ++ (newline d ++ [93]))))

/-- A string printed as a JSON string literal. -/
def prettyString (_ : Nat) (s : GoString) : List Byte := json.appendString s

/-- One member `"key": value` of an object. -/
def prettyMember (key : String) (value : List Byte) : List Byte :=
  json.appendString (str key) ++ (58 :: 32 :: value)

/-- A card printed at depth `d`: the five members in declaration order
`id`, `name`, `types`, `hp`, `rarity`, one per line at depth `d + 1`. -/
def prettyCard (d : Nat) (c : CardData) : List Byte :=
  123 :: (newline (d + 1) ++ (prettyMember "id" (json.appendString c.Id) ++
    (44 :: (newline (d + 1) ++ (prettyMember "name" (json.appendString c.Name) ++
    (44 :: (newline (d + 1) ++
      (prettyMember "types" (prettySlice prettyString (d + 1) c.Types) ++
    (44 :: (newline (d + 1) ++ (prettyMember "hp" (json.appendString c.HP) ++
    (44 :: (newline (d + 1) ++ (prettyMember "rarity" (json.appendString c.Rarity) ++
    (newline d ++ [125])))))))))))))))

/-- The result printed with two-space indentation: one top-level member
`data`. -/
def prettyResult (r : ResultData) : List Byte :=
  123 :: (newline 1 ++ (prettyMember "data" (prettySlice prettyCard 1 r.Data) ++
    (newline 0 ++ [125])))

end spec

namespace json

/-- The text `src` is formatted as `out`: read by the loop of `appendIndent`
(no prefix, two-space indent) where a value may start, inside an object or
array and with room for `n` more levels of nesting, `src` is copied as
`out d`, `d` being the depth of the line the value starts on, behind a line
break when one is pending; the loop then goes on with the scanner behind a
value. -/
def Formats (n : Nat) (src : List Byte) (out : Nat → List Byte) : Prop :=
  ∀ (st : Step) (e : Bool) (ps : List PState) (er : Option SyntaxError)
    (ni : Bool) (d : Nat) (dst rest : List Byte),
    (st = Step.stateBeginValue ∨ st = Step.stateBeginValueOrEmpty) → ps ≠ [] →
    ps.length + n ≤ maxNestingDepth →
    indentLoop [] spec.indent (src ++ rest) ⟨st, e, ps, er⟩ ni d dst =
      indentLoop [] spec.indent rest ⟨Step.stateEndValue, e, ps, er⟩ false
        (if ni then d + 1 else d)
        (dst ++ ((if ni then spec.newline (d + 1) else []) ++ out (if ni then d + 1 else d)))

/-- The text `xs` passes inside a string literal: the loop of `appendIndent`
copies it and the scanner is inside the string after it as before. -/
def InString (xs : List Byte) : Prop :=
  ∀ (e : Bool) (ps : List PState) (er : Option SyntaxError) (d : Nat) (dst rest : List Byte),
    indentLoop [] spec.indent (xs ++ rest) ⟨Step.stateInString, e, ps, er⟩ false d dst =
      indentLoop [] spec.indent rest ⟨Step.stateInString, e, ps, er⟩ false d (dst ++ xs)

end json

/-! ## Shapes used to relate the scanner and the decoder -/

namespace json

/-- The scanner in state `st` with the open objects and arrays `ps`, without
error and before the end of the top-level value, accepts `bs` as the rest of
the input. -/
def Acc (st : Step) (ps : List PState) (bs : List Byte) : Prop :=
  checkValidLoop ⟨st, false, ps, none⟩ bs = none

/-- The states of the scanner inside a number. -/
def isNumState : Step → Bool
  | Step.stateNeg => true
  | Step.state0 => true
  | Step.state1 => true
  | Step.stateDot => true
  | Step.stateDot0 => true
  | Step.stateE => true
  | Step.stateESign => true
  | Step.stateE0 => true
  | _ => false

/-- The escapes of one letter the scanner accepts after a backslash:
`b f n r t \ / "`. -/
def isSimpleEscape (e : Byte) : Bool :=
  e.val == 98 || e.val == 102 || e.val == 110 || e.val == 114 || e.val == 116 || e.val == 92 ||
  e.val == 47 || e.val == 34

/-- The text between the quotes of a string literal that the scanner accepts:
bytes from space on other than `"` and `\`, escapes of one letter, and `\u`
with four hexadecimal digits. -/
inductive ValidBody : List Byte → Prop
  | nil : ValidBody []
  | plain (c : Byte) (cs : List Byte) : c.val ≠ 92 → c.val ≠ 34 → 32 ≤ c.val →
      ValidBody cs → ValidBody (c :: cs)
  | escape (e : Byte) (cs : List Byte) : isSimpleEscape e = true → ValidBody cs →
      ValidBody (92 :: e :: cs)
  | unicode (h1 h2 h3 h4 : Byte) (cs : List Byte) : isHexDigit h1 = true →
      isHexDigit h2 = true → isHexDigit h3 = true → isHexDigit h4 = true → ValidBody cs →
      ValidBody (92 :: 117 :: h1 :: h2 :: h3 :: h4 :: cs)

/-- With `fuel`, the decoder reads a value wherever the scanner, about to
begin a value, accepts the input; the scanner is then behind that value. -/
def WalksValue (fuel : Nat) : Prop :=
  ∀ (ps : List PState) (bs : List Byte), Acc Step.stateBeginValue ps bs →
    2 * bs.length + 1 ≤ fuel →
    ∃ v rest, walk fuel Mode.value bs = some (v, rest) ∧ rest.length < bs.length ∧
      Acc Step.stateEndValue ps rest

/-- With `fuel`, the decoder reads the remaining elements of an array
wherever the scanner, about to begin an element, accepts the input. -/
def WalksElems (fuel : Nat) : Prop :=
  ∀ (ps : List PState) (bs : List Byte) (acc : List Value),
    Acc Step.stateBeginValue (PState.parseArrayValue :: ps) bs → 2 * bs.length + 2 ≤ fuel →
    ∃ v rest, walk fuel (Mode.elems acc) bs = some (v, rest) ∧ rest.length < bs.length ∧
      Acc Step.stateEndValue ps rest

/-- With `fuel`, the decoder reads the remaining members of an object
wherever the scanner, about to begin a key, accepts the input. -/
def WalksMembers (fuel : Nat) : Prop :=
  ∀ (ps : List PState) (bs : List Byte) (acc : List (GoString × Value)),
    Acc Step.stateBeginString (PState.parseObjectKey :: ps) bs → 2 * bs.length + 2 ≤ fuel →
    ∃ v rest, walk fuel (Mode.members acc) bs = some (v, rest) ∧ rest.length < bs.length ∧
      Acc Step.stateEndValue ps rest

end json

/-! ## JSON texts (the grammar of RFC 8259) and the values they denote -/

namespace spec

/-- JSON white space: any run of space, tab, line feed, carriage return. -/
def isWhite (w : List Byte) : Prop := ∀ b ∈ w, b = 32 ∨ b = 9 ∨ b = 10 ∨ b = 13

/-- The value of a hexadecimal digit `0-9`, `A-F`, `a-f`. -/
def hexDigit (b : Byte) : Option Nat :=
  if 48 ≤ b.val ∧ b.val ≤ 57 then some (b.val - 48)
  else if 65 ≤ b.val ∧ b.val ≤ 70 then some (b.val - 55)
  else if 97 ≤ b.val ∧ b.val ≤ 102 then some (b.val - 87)
  else none

/-- The number written by four hexadecimal digits. -/
def hex4 (a b c d : Byte) : Option Nat :=
  match hexDigit a, hexDigit b, hexDigit c, hexDigit d with
  | some x, some y, some z, some w => some (((x * 16 + y) * 16 + z) * 16 + w)
  | _, _, _, _ => none

/-- The byte an escape of one letter stands for: `\"`, `\\`, `\/`, `\b`,
`\f`, `\n`, `\r`, `\t`. -/
def escapeValue (e : Byte) : Option Byte :=
  if e.val = 34 then some 34
  else if e.val = 92 then some 92
  else if e.val = 47 then some 47
  else if e.val = 98 then some 8
  else if e.val = 102 then some 12
  else if e.val = 110 then some 10
  else if e.val = 114 then some 13
  else if e.val = 116 then some 9
  else none

/-- The text `t` between the quotes of a JSON string literal denotes the
string `s` (as UTF-8 bytes): a character from U+0020 on other than `"` and
`\` stands for itself, an escape of one letter for its byte, `\uXXXX` for
the character with that number, and two such escapes that are a high and a
low surrogate for the character of the pair. -/
inductive Literal : List Byte → GoString → Prop
  | nil : Literal [] []
  | char (c : Char) (t : List Byte) (s : GoString) :
      32 ≤ c.toNat → c.toNat ≠ 34 → c.toNat ≠ 92 → Literal t s →
      Literal (utf8Bytes c ++ t) (utf8Bytes c ++ s)
  | escape (e b : Byte) (t : List Byte) (s : GoString) :
      escapeValue e = some b → Literal t s → Literal (92 :: e :: t) (b :: s)
  | unicode (h1 h2 h3 h4 : Byte) (c : Char) (t : List Byte) (s : GoString) :
      hex4 h1 h2 h3 h4 = some c.toNat → Literal t s →
      Literal (92 :: 117 :: h1 :: h2 :: h3 :: h4 :: t) (utf8Bytes c ++ s)
  | pair (h1 h2 h3 h4 l1 l2 l3 l4 : Byte) (hi lo : Nat) (c : Char) (t : List Byte)
      (s : GoString) :
      hex4 h1 h2 h3 h4 = some hi → hex4 l1 l2 l3 l4 = some lo →
      55296 ≤ hi → hi < 56320 → 56320 ≤ lo → lo < 57344 →
      c.toNat = 65536 + (hi - 55296) * 1024 + (lo - 56320) → Literal t s →
      Literal (92 :: 117 :: h1 :: h2 :: h3 :: h4 :: 92 :: 117 :: l1 :: l2 :: l3 :: l4 :: t)
        (utf8Bytes c ++ s)

/-- A run of decimal digits. -/
def isDigitRun (ds : List Byte) : Prop := ∀ b ∈ ds, 48 ≤ b.val ∧ b.val ≤ 57

/-- The text of a JSON number: an optional minus sign, an integer part (`0`,
or a digit from 1 to 9 and more digits), an optional fraction (a point and at
least one digit) and an optional exponent (`e` or `E`, an optional sign, at
least one digit). -/
inductive NumberText : List Byte → Prop
  | mk (sign int frac exp : List Byte) :
      (sign = [] ∨ sign = [45]) →
      (int = [48] ∨ ∃ d ds, int = d :: ds ∧ 49 ≤ d.val ∧ d.val ≤ 57 ∧ isDigitRun ds) →
      (frac = [] ∨ ∃ d ds, frac = 46 :: d :: ds ∧ isDigitRun (d :: ds)) →
      (exp = [] ∨ ∃ (e : Byte) (sg : List Byte) (d : Byte) (ds : List Byte),
        exp = e :: (sg ++ d :: ds) ∧ (e = 101 ∨ e = 69) ∧ (sg = [] ∨ sg = [43] ∨ sg = [45]) ∧
          isDigitRun (d :: ds)) →
      NumberText (sign ++ (int ++ (frac ++ exp)))

/-- What a part of a JSON text denotes: a value, the elements of an array
(the part runs from the first element to the closing bracket), or the members
of an object (the part runs from the first key to the closing brace). -/
inductive Den
  | value (v : json.Value)
  | elems (es : List json.Value)
  | members (ms : List (GoString × json.Value))

/-- The JSON grammar: the text `t`, nested at most `d` deep, denotes `den`.
A number denotes its own text; white space may stand around every element,
key and member value and inside empty brackets and braces. -/
inductive Json : Nat → List Byte → Den → Prop
  | litNull (d : Nat) : Json d [110, 117, 108, 108] (Den.value json.Value.null)
  | litTrue (d : Nat) : Json d [116, 114, 117, 101] (Den.value (json.Value.bool true))
  | litFalse (d : Nat) : Json d [102, 97, 108, 115, 101] (Den.value (json.Value.bool false))
  | number (d : Nat) (t : List Byte) : NumberText t → Json d t (Den.value (json.Value.number t))
  | string (d : Nat) (t : List Byte) (s : GoString) : Literal t s →
      Json d (34 :: (t ++ [34])) (Den.value (json.Value.string s))
  | emptyArray (d : Nat) (w : List Byte) : isWhite w →
      Json (d + 1) (91 :: (w ++ [93])) (Den.value (json.Value.array []))
  | array (d : Nat) (t : List Byte) (es : List json.Value) : Json d t (Den.elems es) →
      Json (d + 1) (91 :: t) (Den.value (json.Value.array es))
  | emptyObject (d : Nat) (w : List Byte) : isWhite w →
      Json (d + 1) (123 :: (w ++ [125])) (Den.value (json.Value.object []))
  | object (d : Nat) (t : List Byte) (ms : List (GoString × json.Value)) :
      Json d t (Den.members ms) → Json (d + 1) (123 :: t) (Den.value (json.Value.object ms))
  | lastElem (d : Nat) (w1 t w2 : List Byte) (v : json.Value) : isWhite w1 → isWhite w2 →
      Json d t (Den.value v) → Json d (w1 ++ (t ++ (w2 ++ [93]))) (Den.elems [v])
  | consElem (d : Nat) (w1 t w2 t1 : List Byte) (v : json.Value) (es : List json.Value) :
      isWhite w1 → isWhite w2 → Json d t (Den.value v) → Json d t1 (Den.elems es) →
      Json d (w1 ++ (t ++ (w2 ++ 44 :: t1))) (Den.elems (v :: es))
  | lastMember (d : Nat) (w1 k w2 w3 t w4 : List Byte) (key : GoString) (v : json.Value) :
      isWhite w1 → isWhite w2 → isWhite w3 → isWhite w4 → Literal k key →
      Json d t (Den.value v) →
      Json d (w1 ++ 34 :: (k ++ 34 :: (w2 ++ 58 :: (w3 ++ (t ++ (w4 ++ [125]))))))
        (Den.members [(key, v)])
  | consMember (d : Nat) (w1 k w2 w3 t w4 t1 : List Byte) (key : GoString) (v : json.Value)
      (ms : List (GoString × json.Value)) :
      isWhite w1 → isWhite w2 → isWhite w3 → isWhite w4 → Literal k key →
      Json d t (Den.value v) → Json d t1 (Den.members ms) →
      Json d (w1 ++ 34 :: (k ++ 34 :: (w2 ++ 58 :: (w3 ++ (t ++ (w4 ++ 44 :: t1))))))
        (Den.members ((key, v) :: ms))

/-- The body `body` is a JSON text, nested at most `d` deep, that denotes the
value `v`: one value with white space around it. -/
def JsonText (d : Nat) (body : List Byte) (v : json.Value) : Prop :=
  ∃ w1 t w2, body = w1 ++ (t ++ w2) ∧ isWhite w1 ∧ isWhite w2 ∧ Json d t (Den.value v)

end spec

namespace json

/-- The input `rest` does not go on with a byte that could belong to a number. -/
def NonNum (rest : List Byte) : Prop := ∀ c cs, rest = c :: cs → isNumberByte c = false

/-- What the scanner does on a part of a JSON text: from the state before the
part, with `ps` open, it accepts the part and `rest` when it accepts `rest`
from the state behind the part. -/
def AccOf (d : Nat) (t : List Byte) : spec.Den → Prop
  | spec.Den.value _ => ∀ (ps : List PState) (rest : List Byte),
      ps.length + d ≤ maxNestingDepth → NonNum rest → Acc Step.stateEndValue ps rest →
      Acc Step.stateBeginValue ps (t ++ rest)
  | spec.Den.elems _ => ∀ (ps : List PState) (rest : List Byte),
      ps.length + 1 + d ≤ maxNestingDepth → Acc Step.stateEndValue ps rest →
      Acc Step.stateBeginValue (PState.parseArrayValue :: ps) (t ++ rest) ∧
        Acc Step.stateBeginValueOrEmpty (PState.parseArrayValue :: ps) (t ++ rest)
  | spec.Den.members _ => ∀ (ps : List PState) (rest : List Byte),
      ps.length + 1 + d ≤ maxNestingDepth → Acc Step.stateEndValue ps rest →
      Acc Step.stateBeginString (PState.parseObjectKey :: ps) (t ++ rest) ∧
        Acc Step.stateBeginStringOrEmpty (PState.parseObjectKey :: ps) (t ++ rest)

/-- What the decoder's walk reads from a part of a JSON text followed by
`rest`: the value the part denotes, with the elements or members read
before, and `rest` is left. -/
def WalkOf (t : List Byte) : spec.Den → Prop
  | spec.Den.value v => ∀ (rest : List Byte) (fuel : Nat), NonNum rest →
      2 * t.length + 1 ≤ fuel → walk fuel Mode.value (t ++ rest) = some (v, rest)
  | spec.Den.elems es => ∀ (rest : List Byte) (fuel : Nat) (acc : List Value),
      2 * t.length + 2 ≤ fuel →
      walk fuel (Mode.elems acc) (t ++ rest) = some (Value.array (acc.reverse ++ es), rest)
  | spec.Den.members ms => ∀ (rest : List Byte) (fuel : Nat) (acc : List (GoString × Value)),
      2 * t.length + 2 ≤ fuel →
      walk fuel (Mode.members acc) (t ++ rest) = some (Value.object (acc.reverse ++ ms), rest)

end json

/-! ## Facts about single bytes (checked on all 256 values) -/

namespace url
open encoding

set_option maxRecDepth 100000 in
theorem hex_roundtrip_byte : ∀ c : Byte,
    ishex (upperhex (c.val / 16)) = true ∧ ishex (upperhex (c.val % 16)) = true ∧
    (Fin.ofNat (unhex (upperhex (c.val / 16)) * 16 + unhex (upperhex (c.val % 16))) : Byte) = c := by
  decide

set_option maxRecDepth 100000 in
theorem unescaped_byte_plain : ∀ c : Byte, shouldEscape c encodeQueryComponent = false →
    c.val ≠ 37 ∧ c.val ≠ 43 ∧ c.val ≠ 32 := by
  decide

set_option maxRecDepth 100000 in
theorem space_shouldEscape : ∀ c : Byte, c.val = 32 →
    shouldEscape c encodeQueryComponent = true := by
  decide

/-! ## `escape` is its main loop -/

theorem escapeSpaces_cons (c : Byte) (cs : GoString) :
    escapeSpaces (c :: cs) = (if c.val = 32 then 43 else c) :: escapeSpaces cs := rfl

theorem escapeCounts_cons_space (c : Byte) (cs : GoString) (h32 : c.val = 32) :
    escapeCounts (c :: cs) encodeQueryComponent =
      ((escapeCounts cs encodeQueryComponent).1 + 1, (escapeCounts cs encodeQueryComponent).2) := by
  simp [escapeCounts, space_shouldEscape c h32, h32]

theorem escapeCounts_cons_hex (c : Byte) (cs : GoString) (h32 : c.val ≠ 32)
    (hs : shouldEscape c encodeQueryComponent = true) :
    escapeCounts (c :: cs) encodeQueryComponent =
      ((escapeCounts cs encodeQueryComponent).1, (escapeCounts cs encodeQueryComponent).2 + 1) := by
  simp [escapeCounts, hs, h32]

theorem escapeCounts_cons_plain (c : Byte) (cs : GoString)
    (hs : shouldEscape c encodeQueryComponent = false) :
    escapeCounts (c :: cs) encodeQueryComponent = escapeCounts cs encodeQueryComponent := by
  simp [escapeCounts, hs]

theorem escapeLoop_cons_space (c : Byte) (cs : GoString) (h32 : c.val = 32) :
    escapeLoop (c :: cs) encodeQueryComponent = 43 :: escapeLoop cs encodeQueryComponent := by
  simp [escapeLoop, h32]

theorem escapeLoop_cons_hex (c : Byte) (cs : GoString) (h32 : c.val ≠ 32)
    (hs : shouldEscape c encodeQueryComponent = true) :
    escapeLoop (c :: cs) encodeQueryComponent =
      37 :: upperhex (c.val / 16) :: upperhex (c.val % 16) ::
        escapeLoop cs encodeQueryComponent := by
  simp [escapeLoop, hs, h32]

theorem escapeLoop_cons_plain (c : Byte) (cs : GoString)
    (hs : shouldEscape c encodeQueryComponent = false) :
    escapeLoop (c :: cs) encodeQueryComponent = c :: escapeLoop cs encodeQueryComponent := by
  have h32 : c.val ≠ 32 := (unescaped_byte_plain c hs).2.2
  simp [escapeLoop, hs, h32]

theorem escapeLoop_eq_escapeSpaces (s : GoString)
    (h : (escapeCounts s encodeQueryComponent).2 = 0) :
    escapeLoop s encodeQueryComponent = escapeSpaces s := by
  induction s with
  | nil => rfl
  | cons c cs ih =>
    by_cases h32 : c.val = 32
    · rw [escapeCounts_cons_space c cs h32] at h
      rw [escapeLoop_cons_space c cs h32, escapeSpaces_cons, ih h, if_pos h32]
    · cases hs : shouldEscape c encodeQueryComponent with
      | true =>
        rw [escapeCounts_cons_hex c cs h32 hs] at h
        simp at h
      | false =>
        rw [escapeCounts_cons_plain c cs hs] at h
        rw [escapeLoop_cons_plain c cs hs, escapeSpaces_cons, ih h, if_neg h32]

theorem escapeSpaces_eq_self (s : GoString)
    (h1 : (escapeCounts s encodeQueryComponent).1 = 0)
    (h2 : (escapeCounts s encodeQueryComponent).2 = 0) : escapeSpaces s = s := by
  induction s with
  | nil => rfl
  | cons c cs ih =>
    by_cases h32 : c.val = 32
    · rw [escapeCounts_cons_space c cs h32] at h1
      simp at h1
    · cases hs : shouldEscape c encodeQueryComponent with
      | true =>
        rw [escapeCounts_cons_hex c cs h32 hs] at h2
        simp at h2
      | false =>
        rw [escapeCounts_cons_plain c cs hs] at h1 h2
        rw [escapeSpaces_cons, ih h1 h2, if_neg h32]

/-- The two shortcuts of `escape` agree with its main loop. -/
theorem QueryEscape_eq_escapeLoop (s : GoString) :
    QueryEscape s = escapeLoop s encodeQueryComponent := by
  unfold QueryEscape escape
  simp only
  split
  · rename_i h
    rw [escapeLoop_eq_escapeSpaces s h.2, escapeSpaces_eq_self s h.1 h.2]
  · split
    · rename_i h
      rw [escapeLoop_eq_escapeSpaces s h]
    · rfl

end url

namespace url
open encoding

/-! ## Round trip of `QueryEscape` -/

theorem unescapeCheck_plus (cs : GoString) (m : encoding) :
    unescapeCheck (43 :: cs) m = unescapeCheck cs m := by
  rcases cs with _ | ⟨h1, _ | ⟨h2, rest⟩⟩ <;> rfl

theorem unescapeLoop_plus (cs : GoString) :
    unescapeLoop (43 :: cs) encodeQueryComponent = 32 :: unescapeLoop cs encodeQueryComponent := by
  rcases cs with _ | ⟨h1, _ | ⟨h2, rest⟩⟩ <;> rfl

theorem unescapeLoop_percent (h1 h2 : Byte) (cs : GoString) (m : encoding) :
    unescapeLoop (37 :: h1 :: h2 :: cs) m =
      Fin.ofNat (unhex h1 * 16 + unhex h2) :: unescapeLoop cs m := rfl

theorem unescapeCheck_percent (h1 h2 : Byte) (cs : GoString)
    (hh1 : ishex h1 = true) (hh2 : ishex h2 = true) :
    unescapeCheck (37 :: h1 :: h2 :: cs) encodeQueryComponent =
      unescapeCheck cs encodeQueryComponent := by
  have h : (37 : Byte).val = 37 := rfl
  simp [unescapeCheck, hh1, hh2, h]

theorem unescapeCheck_plain (c : Byte) (cs : GoString) (m : encoding)
    (hm : m ≠ encodeHost ∧ m ≠ encodeZone) (h37 : c.val ≠ 37) :
    unescapeCheck (c :: cs) m = unescapeCheck cs m := by
  rcases cs with _ | ⟨h1, _ | ⟨h2, rest⟩⟩ <;> simp [unescapeCheck, h37, hm.1, hm.2]

theorem unescapeLoop_plain (c : Byte) (cs : GoString) (m : encoding)
    (h37 : c.val ≠ 37) (h43 : c.val ≠ 43) :
    unescapeLoop (c :: cs) m = c :: unescapeLoop cs m := by
  rcases cs with _ | ⟨h1, _ | ⟨h2, rest⟩⟩ <;> simp [unescapeLoop, h37, h43]

theorem unescapeCheck_escapeLoop (s : GoString) :
    unescapeCheck (escapeLoop s encodeQueryComponent) encodeQueryComponent = none := by
  induction s with
  | nil => rfl
  | cons c cs ih =>
    by_cases h32 : c.val = 32
    · rw [escapeLoop_cons_space c cs h32, unescapeCheck_plus, ih]
    · cases hs : shouldEscape c encodeQueryComponent with
      | true =>
        obtain ⟨h1, h2, _⟩ := hex_roundtrip_byte c
        rw [escapeLoop_cons_hex c cs h32 hs, unescapeCheck_percent _ _ _ h1 h2, ih]
      | false =>
        obtain ⟨h37, h43, _⟩ := unescaped_byte_plain c hs
        rw [escapeLoop_cons_plain c cs hs, unescapeCheck_plain c _ _ (by decide) h37, ih]

theorem unescapeLoop_escapeLoop (s : GoString) :
    unescapeLoop (escapeLoop s encodeQueryComponent) encodeQueryComponent = s := by
  induction s with
  | nil => rfl
  | cons c cs ih =>
    by_cases h32 : c.val = 32
    · have hc : c = 32 := Fin.ext h32
      rw [escapeLoop_cons_space c cs h32, unescapeLoop_plus, ih, hc]
    · cases hs : shouldEscape c encodeQueryComponent with
      | true =>
        obtain ⟨_, _, h3⟩ := hex_roundtrip_byte c
        rw [escapeLoop_cons_hex c cs h32 hs, unescapeLoop_percent, ih, h3]
      | false =>
        obtain ⟨h37, h43, _⟩ := unescaped_byte_plain c hs
        rw [escapeLoop_cons_plain c cs hs, unescapeLoop_plain c _ _ h37 h43, ih]

/-- Decoding an encoded query component gives the original string back. -/
theorem QueryUnescape_QueryEscape (s : GoString) :
    QueryUnescape (QueryEscape s) = Except.ok s := by
  rw [QueryEscape_eq_escapeLoop]
  simp [QueryUnescape, unescape, unescapeCheck_escapeLoop, unescapeLoop_escapeLoop]

/-! ## Shape of an escaped value -/

set_option maxRecDepth 100000 in
theorem escaped_byte_shape : ∀ c : Byte,
    isUpperHex (upperhex (c.val / 16)) = true ∧ isUpperHex (upperhex (c.val % 16)) = true ∧
    (shouldEscape c encodeQueryComponent = false → isUnreserved c = true ∧ c.val ≠ 37) := by
  decide

theorem wellEscaped_plus (cs : GoString) : wellEscaped (43 :: cs) = wellEscaped cs := by
  rcases cs with _ | ⟨h1, _ | ⟨h2, rest⟩⟩ <;> rfl

theorem wellEscaped_percent (h1 h2 : Byte) (cs : GoString) :
    wellEscaped (37 :: h1 :: h2 :: cs) = (isUpperHex h1 && isUpperHex h2 && wellEscaped cs) :=
  rfl

theorem wellEscaped_plain (c : Byte) (cs : GoString) (h37 : c.val ≠ 37) :
    wellEscaped (c :: cs) = ((isUnreserved c || c.val == 43) && wellEscaped cs) := by
  rcases cs with _ | ⟨h1, _ | ⟨h2, rest⟩⟩ <;> simp [wellEscaped, h37]

theorem wellEscaped_escapeLoop (s : GoString) :
    wellEscaped (escapeLoop s encodeQueryComponent) = true := by
  induction s with
  | nil => rfl
  | cons c cs ih =>
    by_cases h32 : c.val = 32
    · rw [escapeLoop_cons_space c cs h32, wellEscaped_plus, ih]
    · cases hs : shouldEscape c encodeQueryComponent with
      | true =>
        obtain ⟨h1, h2, _⟩ := escaped_byte_shape c
        rw [escapeLoop_cons_hex c cs h32 hs, wellEscaped_percent, h1, h2, ih]
        rfl
      | false =>
        obtain ⟨_, _, h3⟩ := escaped_byte_shape c
        obtain ⟨h4, h5⟩ := h3 hs
        rw [escapeLoop_cons_plain c cs hs, wellEscaped_plain c _ h5, h4, ih]
        rfl

set_option maxRecDepth 100000 in
theorem isUpperHex_isValueByte : ∀ c : Byte, isUpperHex c = true → isValueByte c = true := by
  decide

theorem wellEscaped_bytes (n : Nat) : ∀ s : GoString, s.length ≤ n → wellEscaped s = true →
    ∀ b ∈ s, isValueByte b = true := by
  induction n with
  | zero =>
    intro s hl _ b hb
    cases s with
    | nil => cases hb
    | cons _ _ => simp at hl
  | succ n ih =>
    intro s hl hw b hb
    cases s with
    | nil => cases hb
    | cons c cs =>
      by_cases h37 : c.val = 37
      · cases cs with
        | nil => simp [wellEscaped, h37] at hw
        | cons h1 t =>
          cases t with
          | nil => simp [wellEscaped, h37] at hw
          | cons h2 rest =>
            simp only [wellEscaped, h37, if_true, Bool.and_eq_true] at hw
            simp only [List.mem_cons] at hb
            rcases hb with rfl | rfl | rfl | hb
            · simp only [isValueByte, Bool.or_eq_true, beq_iff_eq]
              exact Or.inr h37
            · exact isUpperHex_isValueByte _ hw.1.1
            · exact isUpperHex_isValueByte _ hw.1.2
            · exact ih rest (by simp at hl; omega) hw.2 b hb
      · rw [wellEscaped_plain c cs h37] at hw
        simp only [Bool.and_eq_true] at hw
        simp only [List.mem_cons] at hb
        rcases hb with rfl | hb
        · simp only [isValueByte, Bool.or_eq_true]
          simp only [Bool.or_eq_true] at hw
          exact Or.inl hw.1
        · exact ih cs (by simp at hl; omega) hw.2 b hb

end url
/-! ## Lemmas on `strings` helpers -/

namespace strings

theorem ContainsByte_eq_false_iff (s : GoString) (c : Byte) :
    ContainsByte s c = false ↔ ∀ b ∈ s, b ≠ c := by
  induction s with
  | nil => simp [ContainsByte]
  | cons x xs ih => simp [ContainsByte, ih]

theorem ContainsByte_append (a b : GoString) (c : Byte) :
    ContainsByte (a ++ b) c = (ContainsByte a c || ContainsByte b c) := by
  induction a with
  | nil => simp [ContainsByte]
  | cons x xs ih => simp [ContainsByte, ih, Bool.or_assoc]

theorem Cut_append_sep (a b : GoString) (sep : Byte) (h : ContainsByte a sep = false) :
    Cut (a ++ sep :: b) sep = (a, b, true) := by
  induction a with
  | nil => simp [Cut]
  | cons x xs ih =>
    simp only [ContainsByte, Bool.or_eq_false_iff, beq_eq_false_iff_ne] at h
    simp [Cut, h.1, ih h.2]

theorem Cut_of_not_contains (a : GoString) (sep : Byte) (h : ContainsByte a sep = false) :
    Cut a sep = (a, [], false) := by
  induction a with
  | nil => simp [Cut]
  | cons x xs ih =>
    simp only [ContainsByte, Bool.or_eq_false_iff, beq_eq_false_iff_ne] at h
    simp [Cut, h.1, ih h.2]

theorem EndsWithByte_append (a t : GoString) (c : Byte) (ht : t ≠ []) :
    EndsWithByte (a ++ t) c = EndsWithByte t c := by
  induction a with
  | nil => rfl
  | cons x xs ih =>
    cases hxs : xs ++ t with
    | nil => simp [ht] at hxs
    | cons y ys =>
      rw [List.cons_append, hxs, EndsWithByte, ← hxs, ih]

theorem EndsWithByte_of_not_contains (t : GoString) (c : Byte) (h : ContainsByte t c = false) :
    EndsWithByte t c = false := by
  induction t with
  | nil => rfl
  | cons x xs ih =>
    simp only [ContainsByte, Bool.or_eq_false_iff, beq_eq_false_iff_ne] at h
    cases xs with
    | nil => simp [EndsWithByte, h.1]
    | cons y ys => rw [EndsWithByte, ih h.2]

end strings

/-! ## Lemmas on `%d` -/

namespace fmt

theorem digit_val (d : Nat) : (digit d).val = 48 + d % 10 := by
  simp only [digit, Fin.ofNat]
  omega

theorem decimalLoop_bytes (fuel : Nat) : ∀ (n : Nat) (acc : List Byte),
    ∀ b ∈ decimalLoop fuel n acc, (48 ≤ b.val ∧ b.val ≤ 57) ∨ b ∈ acc := by
  induction fuel with
  | zero => intro n acc b hb; exact Or.inr hb
  | succ fuel ih =>
    intro n acc b hb
    have hd : 48 ≤ (digit n).val ∧ (digit n).val ≤ 57 := by rw [digit_val]; omega
    rw [decimalLoop] at hb
    split at hb
    · rcases List.mem_cons.1 hb with rfl | h
      · exact Or.inl hd
      · exact Or.inr h
    · rcases ih _ _ b hb with h | h
      · exact Or.inl h
      · rcases List.mem_cons.1 h with rfl | h
        · exact Or.inl hd
        · exact Or.inr h

theorem decimalLoop_ne_nil (fuel n : Nat) (acc : List Byte) :
    decimalLoop (fuel + 1) n acc ≠ [] := by
  induction fuel generalizing n acc with
  | zero =>
    rw [decimalLoop]
    split
    · simp
    · simp [decimalLoop]
  | succ fuel ih =>
    rw [decimalLoop]
    split
    · simp
    · exact ih _ _

theorem decimalLoop_value (fuel : Nat) : ∀ (n : Nat) (acc : List Byte), n < fuel →
    (decimalLoop fuel n acc).foldl (fun a b => 10 * a + (b.val - 48)) 0 =
      acc.foldl (fun a b => 10 * a + (b.val - 48)) n := by
  induction fuel with
  | zero => intro n acc h; omega
  | succ fuel ih =>
    intro n acc h
    rw [decimalLoop]
    split
    · rename_i h10
      simp only [List.foldl_cons, digit_val]
      congr 1
      omega
    · rename_i h10
      rw [ih (n / 10) _ (by omega)]
      simp only [List.foldl_cons, digit_val]
      congr 1
      omega

/-- `%d` of a natural number is a plain numeral denoting that number. -/
theorem decimalNat_spec (n : Nat) :
    isDigits (decimalNat n) = true ∧ digitsValue (decimalNat n) = n := by
  refine ⟨?_, ?_⟩
  · simp only [isDigits, Bool.and_eq_true, Bool.not_eq_true', List.all_eq_true,
      decide_eq_true_eq]
    refine ⟨?_, ?_⟩
    · cases h : decimalNat n with
      | nil => exact absurd h (decimalLoop_ne_nil n n [])
      | cons _ _ => rfl
    · intro b hb
      rcases decimalLoop_bytes _ _ _ b hb with h | h
      · simpa using h
      · cases h
  · simpa [digitsValue, decimalNat] using decimalLoop_value (n + 1) n [] (by omega)

/-- Every byte of `%d` output is a digit or the minus sign. -/
theorem decimal_bytes (i : Int) : ∀ b ∈ decimal i, (48 ≤ b.val ∧ b.val ≤ 57) ∨ b.val = 45 := by
  intro b hb
  cases i with
  | ofNat n =>
    rcases decimalLoop_bytes _ _ _ b hb with h | h
    · exact Or.inl h
    · cases h
  | negSucc n =>
    rcases List.mem_cons.1 hb with rfl | hb
    · exact Or.inr rfl
    · rcases decimalLoop_bytes _ _ _ b hb with h | h
      · exact Or.inl h
      · cases h

end fmt
/-! ## The query part of the assembled URL -/

theorem sanitizedURL_eq (baseURL : GoString) (limit : Int) (query orderBy : GoString) :
    sanitizedURL baseURL limit query orderBy = baseURL ++ 63 :: queryPart limit query orderBy := by
  have h : str "?pageSize=" = 63 :: str "pageSize=" := by decide
  simp [sanitizedURL, queryPart, h]

namespace url
open encoding

set_option maxRecDepth 100000 in
theorem isQueryPartByte_facts : ∀ b : Byte, isQueryPartByte b = true →
    b ≠ 35 ∧ b ≠ 63 ∧ b ≠ 59 ∧ ¬ (b.val < 32) ∧ b.val ≠ 127 := by
  decide

set_option maxRecDepth 100000 in
theorem isValueByte_facts : ∀ b : Byte, isValueByte b = true →
    isQueryPartByte b = true ∧ b ≠ 38 ∧ b ≠ 61 := by
  decide

set_option maxRecDepth 100000 in
theorem digit_isValueByte : ∀ b : Byte, (48 ≤ b.val ∧ b.val ≤ 57) ∨ b.val = 45 →
    isValueByte b = true ∧ b.val ≠ 37 ∧ b.val ≠ 43 := by
  decide

theorem QueryEscape_bytes (s : GoString) : ∀ b ∈ QueryEscape s, isValueByte b = true := by
  rw [QueryEscape_eq_escapeLoop]
  exact wellEscaped_bytes _ _ (le_refl _) (wellEscaped_escapeLoop s)

end url

set_option maxRecDepth 100000 in
theorem queryPart_bytes (limit : Int) (query orderBy : GoString) :
    ∀ b ∈ queryPart limit query orderBy, url.isQueryPartByte b = true := by
  intro b hb
  simp only [queryPart, List.mem_append] at hb
  rcases hb with ((((hb | hb) | hb) | hb) | hb) | hb
  · revert b; decide
  · exact (url.isValueByte_facts b (url.digit_isValueByte b (fmt.decimal_bytes limit b hb)).1).1
  · revert b; decide
  · exact (url.isValueByte_facts b (url.QueryEscape_bytes query b hb)).1
  · revert b; decide
  · exact (url.isValueByte_facts b (url.QueryEscape_bytes orderBy b hb)).1

theorem queryPart_ne_nil (limit : Int) (query orderBy : GoString) :
    queryPart limit query orderBy ≠ [] := by
  have h : str "pageSize=" = 112 :: str "ageSize=" := by decide
  simp [queryPart, h]

theorem queryPart_no_byte (limit : Int) (query orderBy : GoString) (c : Byte)
    (hc : url.isQueryPartByte c = false) :
    strings.ContainsByte (queryPart limit query orderBy) c = false := by
  rw [strings.ContainsByte_eq_false_iff]
  intro b hb hbc
  have := queryPart_bytes limit query orderBy b hb
  rw [hbc, hc] at this
  cases this

namespace url
open encoding

theorem getSchemeLoop_rest (whole tail : GoString) (hw : ∃ b0, whole = b0 ++ 63 :: tail ∧
    strings.ContainsByte b0 63 = false) :
    ∀ (s pre : GoString) (sch rest : GoString), strings.ContainsByte s 63 = false →
      getSchemeLoop whole pre (s ++ 63 :: tail) = Except.ok (sch, rest) →
      ∃ b1, rest = b1 ++ 63 :: tail ∧ strings.ContainsByte b1 63 = false := by
  intro s
  induction s with
  | nil =>
    intro pre sch rest _ h
    have h1 : isAlpha (63 : Byte) = false := by decide
    have h2 : isSchemeRest (63 : Byte) = false := by decide
    have h3 : ¬ (63 : Byte).val = 58 := by decide
    simp only [List.nil_append, getSchemeLoop, h1, h2, h3, if_false, Bool.false_eq_true,
      Except.ok.injEq, Prod.mk.injEq] at h
    obtain ⟨b0, hb0, hc⟩ := hw
    exact ⟨b0, by rw [← h.2, hb0], hc⟩
  | cons c cs ih =>
    intro pre sch rest hs h
    simp only [strings.ContainsByte, Bool.or_eq_false_iff] at hs
    simp only [List.cons_append, getSchemeLoop] at h
    split at h
    · exact ih _ _ _ hs.2 h
    · split at h
      · split at h
        · simp only [Except.ok.injEq, Prod.mk.injEq] at h
          obtain ⟨b0, hb0, hc⟩ := hw
          exact ⟨b0, by rw [← h.2, hb0], hc⟩
        · exact ih _ _ _ hs.2 h
      · split at h
        · split at h
          · cases h
          · simp only [Except.ok.injEq, Prod.mk.injEq] at h
            exact ⟨cs, h.2.symm, hs.2⟩
        · simp only [Except.ok.injEq, Prod.mk.injEq] at h
          obtain ⟨b0, hb0, hc⟩ := hw
          exact ⟨b0, by rw [← h.2, hb0], hc⟩

theorem setPath_RawQuery (u u1 : URL) (p : GoString) (h : setPath u p = Except.ok u1) :
    u1.RawQuery = u.RawQuery := by
  unfold setPath at h
  split at h
  · cases h
  · simp only [Except.ok.injEq] at h
    rw [← h]

theorem setFragment_RawQuery (u u1 : URL) (p : GoString) (h : setFragment u p = Except.ok u1) :
    u1.RawQuery = u.RawQuery := by
  unfold setFragment at h
  split at h
  · cases h
  · simp only [Except.ok.injEq] at h
    rw [← h]

/-- When the text before the first `?` holds no `?` and the text after it is
not empty and holds none either, `parse` stores that text as `RawQuery`. -/
theorem parse_RawQuery (b0 tail : GoString) (u : URL)
    (hb : strings.ContainsByte b0 63 = false) (ht : strings.ContainsByte tail 63 = false)
    (hne : tail ≠ []) (h : parse (b0 ++ 63 :: tail) = Except.ok u) : u.RawQuery = tail := by
  unfold parse at h
  split at h
  · cases h
  · split at h
    · rename_i h42
      rcases b0 with _ | ⟨x, _ | ⟨y, t⟩⟩ <;> simp at h42
    · split at h
      · cases h
      · rename_i scheme0 rest0 hsch
        obtain ⟨b1, hb1, hc1⟩ := getSchemeLoop_rest (b0 ++ 63 :: tail) tail ⟨b0, rfl, hb⟩
          b0 [] scheme0 rest0 hb hsch
        have hend : strings.EndsWithByte rest0 63 = false := by
          rw [hb1, strings.EndsWithByte_append b1 (63 :: tail) 63 (by simp)]
          cases tail with
          | nil => exact absurd rfl hne
          | cons y ys =>
            rw [strings.EndsWithByte]
            exact strings.EndsWithByte_of_not_contains _ _ ht
        have hcut : strings.Cut rest0 63 = (b1, tail, true) := by
          rw [hb1]; exact strings.Cut_append_sep b1 tail 63 hc1
        simp only [hend, hcut, Bool.false_and, Bool.false_eq_true, if_false] at h
        split at h
        · simp only [Except.ok.injEq] at h
          rw [← h]
        · split at h
          · cases h
          · split at h
            · split at h
              · cases h
              · exact setPath_RawQuery _ _ _ h
            · split at h
              · exact setPath_RawQuery _ _ _ h
              · exact setPath_RawQuery _ _ _ h

theorem Parse_RawQuery (b0 tail : GoString) (u : URL)
    (hb : strings.ContainsByte b0 63 = false) (hb2 : strings.ContainsByte b0 35 = false)
    (ht : strings.ContainsByte tail 63 = false) (ht2 : strings.ContainsByte tail 35 = false)
    (hne : tail ≠ []) (h : Parse (b0 ++ 63 :: tail) = Except.ok u) : u.RawQuery = tail := by
  have hcut : strings.Cut (b0 ++ 63 :: tail) 35 = (b0 ++ 63 :: tail, [], false) := by
    apply strings.Cut_of_not_contains
    rw [strings.ContainsByte_append, hb2]
    simp only [strings.ContainsByte, ht2, Bool.or_false, Bool.false_or]
    decide
  unfold Parse at h
  simp only [hcut] at h
  split at h
  · cases h
  · rename_i u0 hu0
    simp only [List.isEmpty_nil, if_true, Except.ok.injEq] at h
    rw [← h]
    exact parse_RawQuery b0 tail u0 hb ht hne hu0

end url
/-! ## `ParseQuery` on the query part -/

namespace url
open encoding

theorem unescapeCheck_of_plain (s : GoString) (h : ∀ b ∈ s, b.val ≠ 37 ∧ b.val ≠ 43) :
    unescapeCheck s encodeQueryComponent = none := by
  induction s with
  | nil => rfl
  | cons c cs ih =>
    rw [unescapeCheck_plain c cs _ (by decide) (h c (List.mem_cons_self _ _)).1]
    exact ih fun b hb => h b (List.mem_cons_of_mem _ hb)

theorem unescapeLoop_of_plain (s : GoString) (h : ∀ b ∈ s, b.val ≠ 37 ∧ b.val ≠ 43) :
    unescapeLoop s encodeQueryComponent = s := by
  induction s with
  | nil => rfl
  | cons c cs ih =>
    have hc := h c (List.mem_cons_self _ _)
    rw [unescapeLoop_plain c cs _ hc.1 hc.2, ih fun b hb => h b (List.mem_cons_of_mem _ hb)]

theorem QueryUnescape_plain (s : GoString) (h : ∀ b ∈ s, b.val ≠ 37 ∧ b.val ≠ 43) :
    QueryUnescape s = Except.ok s := by
  simp [QueryUnescape, unescape, unescapeCheck_of_plain s h, unescapeLoop_of_plain s h]

theorem parseQueryLoop_nil (f : Nat) (m : Values) (err : Option Error) :
    parseQueryLoop f m err [] = (m, err) := by
  cases f <;> simp [parseQueryLoop]

/-- One turn of the loop of `parseQuery` on a piece `key=value`. -/
theorem parseQueryLoop_piece (f : Nat) (m : Values) (err : Option Error)
    (key value k v : GoString)
    (hk61 : strings.ContainsByte key 61 = false)
    (hk38 : strings.ContainsByte key 38 = false) (hv38 : strings.ContainsByte value 38 = false)
    (hk59 : strings.ContainsByte key 59 = false) (hv59 : strings.ContainsByte value 59 = false)
    (huk : QueryUnescape key = Except.ok k) (huv : QueryUnescape value = Except.ok v) :
    (∀ rest, parseQueryLoop (f + 1) m err ((key ++ 61 :: value) ++ 38 :: rest) =
      parseQueryLoop f (Values.add m k v) err rest) ∧
    parseQueryLoop (f + 1) m err (key ++ 61 :: value) = (Values.add m k v, err) := by
  have hp38 : strings.ContainsByte (key ++ 61 :: value) 38 = false := by
    rw [strings.ContainsByte_append, hk38]
    simp only [strings.ContainsByte, hv38, Bool.or_false, Bool.false_or]
    decide
  have hp59 : strings.ContainsByte (key ++ 61 :: value) 59 = false := by
    rw [strings.ContainsByte_append, hk59]
    simp only [strings.ContainsByte, hv59, Bool.or_false, Bool.false_or]
    decide
  have hcut : strings.Cut (key ++ 61 :: value) 61 = (key, value, true) :=
    strings.Cut_append_sep key value 61 hk61
  refine ⟨fun rest => ?_, ?_⟩
  · have hc := strings.Cut_append_sep (key ++ 61 :: value) rest 38 hp38
    rw [parseQueryLoop, hc]
    simp [hp59, hcut, huk, huv]
  · have hc := strings.Cut_of_not_contains (key ++ 61 :: value) 38 hp38
    rw [parseQueryLoop, hc]
    simp [hp59, hcut, huk, huv, parseQueryLoop_nil]

end url

theorem no_byte_of_value_bytes (s : GoString) (c : Byte)
    (hs : ∀ b ∈ s, url.isValueByte b = true) (hc : url.isValueByte c = false) :
    strings.ContainsByte s c = false := by
  rw [strings.ContainsByte_eq_false_iff]
  intro b hb hbc
  have := hs b hb
  rw [hbc, hc] at this
  cases this

theorem decimal_value_bytes (limit : Int) : ∀ b ∈ fmt.decimal limit, url.isValueByte b = true :=
  fun b hb => (url.digit_isValueByte b (fmt.decimal_bytes limit b hb)).1

set_option maxRecDepth 100000 in
/-- The query part parses into the three parameters, each with one value. -/
theorem ParseQuery_queryPart (limit : Int) (query orderBy : GoString) :
    url.ParseQuery (queryPart limit query orderBy) =
      ([(str "pageSize", [fmt.decimal limit]), (str "q", [query]),
        (str "orderBy", [orderBy])], none) := by
  have e1 : str "pageSize=" = str "pageSize" ++ [61] := by decide
  have e2 : str "&q=" = 38 :: (str "q" ++ [61]) := by decide
  have e3 : str "&orderBy=" = 38 :: (str "orderBy" ++ [61]) := by decide
  have hq : queryPart limit query orderBy =
      (str "pageSize" ++ 61 :: fmt.decimal limit) ++ 38 ::
        ((str "q" ++ 61 :: url.QueryEscape query) ++ 38 ::
          (str "orderBy" ++ 61 :: url.QueryEscape orderBy)) := by
    simp [queryPart, e1, e2, e3]
  have hlen : ∃ k, (queryPart limit query orderBy).length + 1 = k + 3 := by
    refine ⟨(queryPart limit query orderBy).length - 2, ?_⟩
    have : 2 ≤ (queryPart limit query orderBy).length := by
      rw [hq]
      have : (str "pageSize").length = 8 := by decide
      simp only [List.length_append, List.length_cons, this]
      omega
    omega
  obtain ⟨k, hk⟩ := hlen
  have hd := decimal_value_bytes limit
  have hq1 := url.QueryEscape_bytes query
  have hq2 := url.QueryEscape_bytes orderBy
  have s1 := (url.parseQueryLoop_piece (k + 2) [] none (str "pageSize") (fmt.decimal limit)
    (str "pageSize") (fmt.decimal limit) (by decide) (by decide)
    (no_byte_of_value_bytes _ _ hd (by decide)) (by decide)
    (no_byte_of_value_bytes _ _ hd (by decide)) (by decide)
    (url.QueryUnescape_plain _ fun b hb =>
      (url.digit_isValueByte b (fmt.decimal_bytes limit b hb)).2)).1
  have s2 := (url.parseQueryLoop_piece (k + 1)
    (url.Values.add [] (str "pageSize") (fmt.decimal limit)) none (str "q")
    (url.QueryEscape query) (str "q") query (by decide) (by decide)
    (no_byte_of_value_bytes _ _ hq1 (by decide)) (by decide)
    (no_byte_of_value_bytes _ _ hq1 (by decide)) (by decide)
    (url.QueryUnescape_QueryEscape query)).1
  have s3 := (url.parseQueryLoop_piece k
    (url.Values.add (url.Values.add [] (str "pageSize") (fmt.decimal limit)) (str "q") query)
    none (str "orderBy") (url.QueryEscape orderBy) (str "orderBy") orderBy (by decide)
    (by decide) (no_byte_of_value_bytes _ _ hq2 (by decide)) (by decide)
    (no_byte_of_value_bytes _ _ hq2 (by decide)) (by decide)
    (url.QueryUnescape_QueryEscape orderBy)).2
  have n1 : str "pageSize" ≠ str "q" := by decide
  have n2 : str "pageSize" ≠ str "orderBy" := by decide
  have n3 : str "q" ≠ str "orderBy" := by decide
  rw [url.ParseQuery, hk, hq, s1, s2, s3]
  simp [url.Values.add, n1, n2, n3]
/-! ## Appending a query to a base URL -/

namespace url
open encoding

theorem getSchemeLoop_append (w tail : GoString) : ∀ (s pre : GoString),
    getSchemeLoop (w ++ 63 :: tail) pre (s ++ 63 :: tail) =
      match getSchemeLoop w pre s with
      | Except.ok (sch, rest) => Except.ok (sch, rest ++ 63 :: tail)
      | Except.error e => Except.error e := by
  intro s
  induction s with
  | nil =>
    intro pre
    have h1 : isAlpha (63 : Byte) = false := by decide
    have h2 : isSchemeRest (63 : Byte) = false := by decide
    have h3 : ¬ (63 : Byte).val = 58 := by decide
    simp only [List.nil_append, getSchemeLoop, h1, h2, h3, if_false, Bool.false_eq_true]
  | cons c cs ih =>
    intro pre
    simp only [List.cons_append, getSchemeLoop]
    split
    · exact ih _
    · split
      · split
        · rfl
        · exact ih _
      · split
        · split <;> rfl
        · rfl

/-- The rest that `getScheme` returns is a suffix of the text scanned. -/
theorem getSchemeLoop_no_byte (w : GoString) (c : Byte) (hw : strings.ContainsByte w c = false) :
    ∀ (s pre sch rest : GoString), strings.ContainsByte s c = false →
      getSchemeLoop w pre s = Except.ok (sch, rest) → strings.ContainsByte rest c = false := by
  intro s
  induction s with
  | nil =>
    intro pre sch rest _ h
    simp only [getSchemeLoop, Except.ok.injEq, Prod.mk.injEq] at h
    rw [← h.2]; exact hw
  | cons x xs ih =>
    intro pre sch rest hs h
    simp only [strings.ContainsByte, Bool.or_eq_false_iff] at hs
    simp only [getSchemeLoop] at h
    split at h
    · exact ih _ _ _ hs.2 h
    · split at h
      · split at h
        · simp only [Except.ok.injEq, Prod.mk.injEq] at h
          rw [← h.2]; exact hw
        · exact ih _ _ _ hs.2 h
      · split at h
        · split at h
          · cases h
          · simp only [Except.ok.injEq, Prod.mk.injEq] at h
            rw [← h.2]; exact hs.2
        · simp only [Except.ok.injEq, Prod.mk.injEq] at h
          rw [← h.2]; exact hw

theorem stringContainsCTLByte_append (a b : GoString) :
    stringContainsCTLByte (a ++ b) = (stringContainsCTLByte a || stringContainsCTLByte b) := by
  simp [stringContainsCTLByte]

theorem setPath_withQuery (u : URL) (p q : GoString) :
    setPath { u with RawQuery := q } p =
      match setPath u p with
      | Except.ok u1 => Except.ok { u1 with RawQuery := q }
      | Except.error e => Except.error e := by
  unfold setPath
  cases unescape p encodePath <;> rfl

/-- Parsing a text without `?` followed by `?` and a query gives the parse of
the text with the query stored as `RawQuery`. -/
theorem parse_append_query (b0 tail : GoString)
    (hb : strings.ContainsByte b0 63 = false) (hstar : b0 ≠ [42])
    (ht : strings.ContainsByte tail 63 = false) (hctl : stringContainsCTLByte tail = false)
    (hne : tail ≠ []) :
    parse (b0 ++ 63 :: tail) =
      match parse b0 with
      | Except.ok u => Except.ok { u with RawQuery := tail }
      | Except.error e => Except.error e := by
  have hc : stringContainsCTLByte (b0 ++ 63 :: tail) = stringContainsCTLByte b0 := by
    have h63 : stringContainsCTLByte [63] = false := by decide
    rw [show b0 ++ 63 :: tail = b0 ++ ([63] ++ tail) from rfl, stringContainsCTLByte_append,
      stringContainsCTLByte_append, h63, hctl]
    simp
  have hne42 : ¬ (b0 ++ 63 :: tail = [42]) := by
    intro h
    rcases b0 with _ | ⟨x, _ | ⟨y, t⟩⟩
    · exact absurd (List.cons.inj h).1 (by decide)
    · simp at h
    · exact absurd (congrArg List.length h) (by simp)
  unfold parse
  rw [hc]
  by_cases hctl0 : stringContainsCTLByte b0 = true
  · rw [if_pos hctl0, if_pos hctl0]
  rw [if_neg hctl0, if_neg hctl0, if_neg hne42, if_neg hstar]
  unfold getScheme
  rw [getSchemeLoop_append]
  cases hsch : getSchemeLoop b0 [] b0 with
  | error e => rfl
  | ok sr =>
    obtain ⟨sch, rest⟩ := sr
    have hrest : strings.ContainsByte rest 63 = false :=
      getSchemeLoop_no_byte b0 63 hb b0 [] sch rest hb hsch
    have hend1 : strings.EndsWithByte rest 63 = false :=
      strings.EndsWithByte_of_not_contains _ _ hrest
    have hend2 : strings.EndsWithByte (rest ++ 63 :: tail) 63 = false := by
      rw [strings.EndsWithByte_append rest (63 :: tail) 63 (by simp)]
      cases tail with
      | nil => exact absurd rfl hne
      | cons y ys =>
        rw [strings.EndsWithByte]
        exact strings.EndsWithByte_of_not_contains _ _ ht
    have hcut1 : strings.Cut rest 63 = (rest, [], false) :=
      strings.Cut_of_not_contains rest 63 hrest
    have hcut2 : strings.Cut (rest ++ 63 :: tail) 63 = (rest, tail, true) :=
      strings.Cut_append_sep rest tail 63 hrest
    simp only [hend1, hend2, hcut1, hcut2, Bool.false_and, Bool.false_eq_true, if_false]
    split
    · rfl
    · split
      · rfl
      · split
        · cases parseAuthority (strings.Cut (List.drop 2 rest) 47).1 with
          | error e => rfl
          | ok uh =>
            obtain ⟨user, host⟩ := uh
            exact setPath_withQuery
              ⟨strings.ToLowerASCII sch, [], user, host, [], [], false, false, [], [], []⟩ _ tail
        · split
          · exact setPath_withQuery
              ⟨strings.ToLowerASCII sch, [], none, [], [], [], true, false, [], [], []⟩ _ tail
          · exact setPath_withQuery
              ⟨strings.ToLowerASCII sch, [], none, [], [], [], false, false, [], [], []⟩ _ tail

theorem setPath_query_parts (u u1 : URL) (p : GoString) (h : setPath u p = Except.ok u1) :
    u1.RawQuery = u.RawQuery ∧ u1.ForceQuery = u.ForceQuery ∧ u1.Fragment = u.Fragment ∧
      u1.RawFragment = u.RawFragment := by
  unfold setPath at h
  split at h
  · cases h
  · simp only [Except.ok.injEq] at h
    rw [← h]
    exact ⟨rfl, rfl, rfl, rfl⟩

/-- The parse of a text without `?` has no query and no fragment. -/
theorem parse_no_query (b0 : GoString) (u : URL) (hb : strings.ContainsByte b0 63 = false)
    (h : parse b0 = Except.ok u) :
    u.RawQuery = [] ∧ u.ForceQuery = false ∧ u.Fragment = [] ∧ u.RawFragment = [] := by
  unfold parse at h
  split at h
  · cases h
  · split at h
    · simp only [Except.ok.injEq] at h
      rw [← h]
      exact ⟨rfl, rfl, rfl, rfl⟩
    · unfold getScheme at h
      cases hsch : getSchemeLoop b0 [] b0 with
      | error e => rw [hsch] at h; cases h
      | ok sr =>
        obtain ⟨sch, rest⟩ := sr
        have hrest : strings.ContainsByte rest 63 = false :=
          getSchemeLoop_no_byte b0 63 hb b0 [] sch rest hb hsch
        have hend1 : strings.EndsWithByte rest 63 = false :=
          strings.EndsWithByte_of_not_contains _ _ hrest
        have hcut1 : strings.Cut rest 63 = (rest, [], false) :=
          strings.Cut_of_not_contains rest 63 hrest
        rw [hsch] at h
        simp only [hend1, hcut1, Bool.false_and, Bool.false_eq_true, if_false] at h
        split at h
        · simp only [Except.ok.injEq] at h
          rw [← h]
          exact ⟨rfl, rfl, rfl, rfl⟩
        · split at h
          · cases h
          · split at h
            · split at h
              · cases h
              · exact setPath_query_parts _ _ _ h
            · split at h
              · exact setPath_query_parts _ _ _ h
              · exact setPath_query_parts _ _ _ h

/-- A text without `#` is parsed whole. -/
theorem Parse_eq_parse (s : GoString) (h : strings.ContainsByte s 35 = false) :
    Parse s = parse s := by
  unfold Parse
  rw [strings.Cut_of_not_contains s 35 h]
  simp only [List.isEmpty_nil, if_true]
  cases hp : parse s <;> rfl

/-- Parsing a base URL without `?` and `#` followed by `?` and a query gives
the parse of the base URL with the query stored as `RawQuery`. -/
theorem Parse_append_query (b0 tail : GoString)
    (hb : strings.ContainsByte b0 63 = false) (hb2 : strings.ContainsByte b0 35 = false)
    (hstar : b0 ≠ [42])
    (ht : strings.ContainsByte tail 63 = false) (ht2 : strings.ContainsByte tail 35 = false)
    (hctl : stringContainsCTLByte tail = false) (hne : tail ≠ []) :
    Parse (b0 ++ 63 :: tail) =
      match Parse b0 with
      | Except.ok u => Except.ok { u with RawQuery := tail }
      | Except.error e => Except.error e := by
  have h35 : strings.ContainsByte (b0 ++ 63 :: tail) 35 = false := by
    rw [strings.ContainsByte_append, hb2]
    simp only [strings.ContainsByte, ht2, Bool.or_false, Bool.false_or]
    decide
  rw [Parse_eq_parse _ h35, Parse_eq_parse _ hb2]
  exact parse_append_query b0 tail hb hstar ht hctl hne

/-- The string of a URL with a query but without fragment is the string of the
URL without the query, then `?`, then the query. -/
theorem String_withQuery (u : URL) (q : GoString) (hq : u.RawQuery = [])
    (hf : u.ForceQuery = false) (hfr : u.Fragment = []) (hne : q ≠ []) :
    URL.String { u with RawQuery := q } = URL.String u ++ 63 :: q := by
  have hqe : q.isEmpty = false := by
    cases q with
    | nil => exact absurd rfl hne
    | cons _ _ => rfl
  simp [URL.String, URL.authorityString, URL.EscapedPath, hq, hf, hfr, hqe]

end url
/-! ## Claims on the request builder -/

/-- What `buildRequest` returns, read off `http.NewRequest` for the valid
method GET. -/
theorem buildRequest_eq (baseURL : GoString) (limit : Int) (query orderBy : GoString) :
    buildRequest baseURL limit query orderBy =
      match url.Parse (sanitizedURL baseURL limit query orderBy) with
      | Except.error e => Except.error (http.Error.parse e)
      | Except.ok u =>
        Except.ok { Method := str "GET", URL := { u with Host := http.removeEmptyPort u.Host },
                    Host := http.removeEmptyPort u.Host } := by
  have h1 : http.MethodGet.isEmpty = false := by decide
  have h2 : http.validMethod http.MethodGet = true := by decide
  simp only [buildRequest, http.NewRequest, h1, h2, Bool.false_eq_true, if_false, Bool.not_true]
  rfl

theorem buildRequest_ok (baseURL : GoString) (limit : Int) (query orderBy : GoString)
    (req : http.Request) (hok : buildRequest baseURL limit query orderBy = Except.ok req) :
    ∃ u, url.Parse (sanitizedURL baseURL limit query orderBy) = Except.ok u ∧
      req = { Method := str "GET", URL := { u with Host := http.removeEmptyPort u.Host },
              Host := http.removeEmptyPort u.Host } := by
  rw [buildRequest_eq] at hok
  split at hok
  · cases hok
  · rename_i u hu
    simp only [Except.ok.injEq] at hok
    exact ⟨u, hu, hok.symm⟩

theorem buildRequest_RawQuery (baseURL : GoString) (limit : Int) (query orderBy : GoString)
    (req : http.Request)
    (hq : strings.ContainsByte baseURL 63 = false) (hf : strings.ContainsByte baseURL 35 = false)
    (hok : buildRequest baseURL limit query orderBy = Except.ok req) :
    req.URL.RawQuery = queryPart limit query orderBy := by
  obtain ⟨u, hu, hreq⟩ := buildRequest_ok baseURL limit query orderBy req hok
  rw [hreq]
  rw [sanitizedURL_eq] at hu
  exact url.Parse_RawQuery baseURL _ u hq hf
    (queryPart_no_byte limit query orderBy 63 (by decide))
    (queryPart_no_byte limit query orderBy 35 (by decide))
    (queryPart_ne_nil limit query orderBy) hu

/-- C1 (amended): for every base URL that holds neither `?` nor `#`, every
limit and every query and orderBy string, when `buildRequest` returns a
request the query part of its URL is
`pageSize=<limit>&q=<escaped query>&orderBy=<escaped orderBy>`, parsing it
yields exactly one value for each of the parameters pageSize, q and orderBy,
and the values of q and orderBy are the original query and orderBy strings;
`QueryUnescape (QueryEscape s) = s` holds for every string. -/
theorem buildRequest_query_roundtrip (baseURL : GoString) (limit : Int)
    (query orderBy : GoString) (req : http.Request)
    (hq : strings.ContainsByte baseURL 63 = false) (hf : strings.ContainsByte baseURL 35 = false)
    (hok : buildRequest baseURL limit query orderBy = Except.ok req) :
    url.QueryUnescape (url.QueryEscape query) = Except.ok query ∧
    url.QueryUnescape (url.QueryEscape orderBy) = Except.ok orderBy ∧
    req.URL.RawQuery = queryPart limit query orderBy ∧
    url.ParseQuery req.URL.RawQuery =
      ([(str "pageSize", [fmt.decimal limit]), (str "q", [query]),
        (str "orderBy", [orderBy])], none) ∧
    queryValues (Except.ok req) (str "q") = some [query] ∧
    queryValues (Except.ok req) (str "orderBy") = some [orderBy] ∧
    url.Values.Get req.URL.Query (str "q") = query ∧
    url.Values.Get req.URL.Query (str "orderBy") = orderBy := by
  have hraw := buildRequest_RawQuery baseURL limit query orderBy req hq hf hok
  have hpq := ParseQuery_queryPart limit query orderBy
  have n1 : str "pageSize" ≠ str "q" := by decide
  have n2 : str "pageSize" ≠ str "orderBy" := by decide
  have n3 : str "q" ≠ str "orderBy" := by decide
  refine ⟨url.QueryUnescape_QueryEscape query, url.QueryUnescape_QueryEscape orderBy, hraw,
    by rw [hraw, hpq], ?_, ?_, ?_, ?_⟩ <;>
  simp [queryValues, url.URL.Query, url.Values.Get, hraw, hpq, url.Values.lookup, n1, n2, n3]

set_option maxRecDepth 100000 in
theorem buildRequest_query_roundtrip_witness :
    strings.ContainsByte defaultBaseURL 63 = false ∧
    strings.ContainsByte defaultBaseURL 35 = false ∧
    buildRequest defaultBaseURL defaultLimit defaultQuery defaultOrderBy =
      Except.ok defaultRequest ∧
    defaultRequest.URL.RawQuery = queryPart defaultLimit defaultQuery defaultOrderBy ∧
    queryValues (Except.ok defaultRequest) (str "q") = some [defaultQuery] ∧
    queryValues (Except.ok defaultRequest) (str "orderBy") = some [defaultOrderBy] :=
  have h := buildRequest_query_roundtrip defaultBaseURL defaultLimit defaultQuery
    defaultOrderBy defaultRequest (by decide) (by decide) (by decide)
  ⟨by decide, by decide, by decide, h.2.2.1, h.2.2.2.2.1, h.2.2.2.2.2.1⟩

set_option maxRecDepth 100000 in
/-- C1 (counterexample): the base URL `https://api.pokemontcg.io/v2/cards#top`
is accepted by `buildRequest`, yet the URL of the request has an empty query
part: the parameters q and orderBy have no value at all, so decoding them does
not give back the query `name:pikachu` and the sort key `id`. -/
theorem buildRequest_fragment_base_drops_query :
    queryValues (buildRequest (str "https://api.pokemontcg.io/v2/cards#top") 10
        (str "name:pikachu") (str "id")) (str "q") = some [] ∧
    queryValues (buildRequest (str "https://api.pokemontcg.io/v2/cards#top") 10
        (str "name:pikachu") (str "id")) (str "orderBy") = some [] ∧
    queryValues (buildRequest (str "https://api.pokemontcg.io/v2/cards?q=x") 10
        (str "name:pikachu") (str "id")) (str "q") =
      some [str "x?pageSize=10", str "name:pikachu"] := by
  decide

/-! ### Which base URLs `buildRequest` rejects -/

namespace url

theorem stringContainsCTLByte_cut_append (a b : GoString) (sep : Byte)
    (h : stringContainsCTLByte (strings.Cut a sep).1 = true) :
    stringContainsCTLByte (strings.Cut (a ++ b) sep).1 = true := by
  induction a with
  | nil => simp [strings.Cut, stringContainsCTLByte] at h
  | cons x xs ih =>
    by_cases hx : x = sep
    · simp [strings.Cut, hx, stringContainsCTLByte] at h
    · simp only [strings.Cut, hx, if_false, stringContainsCTLByte, List.any_cons,
        Bool.or_eq_true, List.cons_append] at h ⊢
      rcases h with h | h
      · exact Or.inl h
      · exact Or.inr (ih h)

theorem Parse_control_character (raw : GoString)
    (h : stringContainsCTLByte (strings.Cut raw 35).1 = true) :
    Parse raw = Except.error Error.controlCharacter := by
  simp [Parse, parse, h]

theorem Parse_leading_colon (r : GoString) : ∃ e, Parse (58 :: r) = Except.error e := by
  have hc : strings.Cut (58 :: r) 35 =
      (58 :: (strings.Cut r 35).1, (strings.Cut r 35).2.1, (strings.Cut r 35).2.2) := by
    have : ¬ ((58 : Byte) = 35) := by decide
    simp [strings.Cut, this]
  have h58 : isAlpha (58 : Byte) = false := by decide
  have h58b : isSchemeRest (58 : Byte) = false := by decide
  have h58c : (58 : Byte).val = 58 := rfl
  have hp : ∃ e, parse (58 :: (strings.Cut r 35).1) = Except.error e := by
    generalize (strings.Cut r 35).1 = x
    unfold parse
    by_cases hctl : stringContainsCTLByte (58 :: x) = true
    · exact ⟨_, if_pos hctl⟩
    · have hne : ¬ (58 :: x = [42]) := by
        intro h
        have := (List.cons.inj h).1
        exact absurd this (by decide)
      have hs : getScheme (58 :: x) = Except.error Error.missingProtocolScheme := by
        simp [getScheme, getSchemeLoop, h58, h58b, h58c]
      rw [if_neg hctl, if_neg hne, hs]
      exact ⟨_, rfl⟩
  obtain ⟨e, he⟩ := hp
  exact ⟨e, by simp [Parse, hc, he]⟩

/-- A URL that is only a question mark and a query parses into that query. -/
theorem Parse_question (tail : GoString) (hctl : stringContainsCTLByte tail = false)
    (h35 : strings.ContainsByte tail 35 = false) (h63 : strings.ContainsByte tail 63 = false)
    (hne : tail ≠ []) : Parse (63 :: tail) = Except.ok { RawQuery := tail } := by
  have hcut : strings.Cut (63 :: tail) 35 = (63 :: tail, [], false) := by
    apply strings.Cut_of_not_contains
    have : ((63 : Byte) == 35) = false := by decide
    rw [strings.ContainsByte, h35, this]
    rfl
  have hctl2 : ¬ (stringContainsCTLByte (63 :: tail) = true) := by
    have : stringContainsCTLByte (63 :: tail) = stringContainsCTLByte tail := by
      simp only [stringContainsCTLByte, List.any_cons]
      have h : ((63 : Byte).val < 32 || (63 : Byte).val == 127) = false := by decide
      rw [h, Bool.false_or]
    rw [this, hctl]
    simp
  have hend : strings.EndsWithByte (63 :: tail) 63 = false := by
    cases tail with
    | nil => exact absurd rfl hne
    | cons y ys =>
      rw [strings.EndsWithByte]
      exact strings.EndsWithByte_of_not_contains _ _ h63
  have hcut2 : strings.Cut (63 :: tail) 63 = ([], tail, true) := by
    simp [strings.Cut]
  have h1 : isAlpha (63 : Byte) = false := by decide
  have h2 : isSchemeRest (63 : Byte) = false := by decide
  have h3 : ¬ ((63 : Byte).val = 58) := by decide
  have hsch : getScheme (63 :: tail) = Except.ok ([], 63 :: tail) := by
    simp [getScheme, getSchemeLoop, h1, h2, h3]
  have hne42 : ¬ (63 :: tail = [42]) := by
    intro h
    exact absurd (List.cons.inj h).1 (by decide)
  have hesc : unescape [] encoding.encodePath = Except.ok [] := rfl
  have hesc2 : escape [] encoding.encodePath = [] := rfl
  have hp : parse (63 :: tail) = Except.ok { RawQuery := tail } := by
    unfold parse
    rw [if_neg hctl2, if_neg hne42, hsch]
    simp [hend, hcut2, strings.ToLowerASCII, strings.StartsWith, strings.ContainsByte,
      strings.Cut, setPath, hesc, hesc2]
  simp [Parse, hcut, hp]

end url

theorem queryPart_no_control (limit : Int) (query orderBy : GoString) :
    url.stringContainsCTLByte (queryPart limit query orderBy) = false := by
  simp only [url.stringContainsCTLByte, List.any_eq_false]
  intro b hbm
  have := url.isQueryPartByte_facts b (queryPart_bytes limit query orderBy b hbm)
  simp only [Bool.or_eq_true, decide_eq_true_eq, beq_iff_eq, not_or]
  exact ⟨this.2.2.2.1, this.2.2.2.2⟩

theorem Parse_question_queryPart (limit : Int) (query orderBy : GoString) :
    url.Parse (63 :: queryPart limit query orderBy) =
      Except.ok { RawQuery := queryPart limit query orderBy } :=
  url.Parse_question _ (queryPart_no_control limit query orderBy)
    (queryPart_no_byte limit query orderBy 35 (by decide))
    (queryPart_no_byte limit query orderBy 63 (by decide))
    (queryPart_ne_nil limit query orderBy)

/-- For a base URL without `?` and `#`, other than `*`, `buildRequest` parses
as `url.Parse` parses the base URL, and stores the query part in the result. -/
theorem buildRequest_of_base (baseURL : GoString) (limit : Int) (query orderBy : GoString)
    (hq : strings.ContainsByte baseURL 63 = false) (hf : strings.ContainsByte baseURL 35 = false)
    (hstar : baseURL ≠ [42]) :
    buildRequest baseURL limit query orderBy =
      match url.Parse baseURL with
      | Except.error e => Except.error (http.Error.parse e)
      | Except.ok u =>
        Except.ok { Method := str "GET",
                    URL := { u with Host := http.removeEmptyPort u.Host,
                                    RawQuery := queryPart limit query orderBy },
                    Host := http.removeEmptyPort u.Host } := by
  rw [buildRequest_eq, sanitizedURL_eq,
    url.Parse_append_query baseURL _ hq hf hstar
      (queryPart_no_byte limit query orderBy 63 (by decide))
      (queryPart_no_byte limit query orderBy 35 (by decide))
      (queryPart_no_control limit query orderBy) (queryPart_ne_nil limit query orderBy)]
  cases url.Parse baseURL <;> rfl

/-- What `main` logs as `request.URL.String()`: for a base URL without `?` and
`#`, other than `*`, it is the string of the parsed base URL, then `?`, then
the query part.  It is the assembled string itself whenever the base URL is
written the way `url.Parse` and `String` write it back. -/
theorem buildRequest_URL_String (baseURL : GoString) (limit : Int) (query orderBy : GoString)
    (req : http.Request)
    (hq : strings.ContainsByte baseURL 63 = false) (hf : strings.ContainsByte baseURL 35 = false)
    (hstar : baseURL ≠ [42])
    (hok : buildRequest baseURL limit query orderBy = Except.ok req) :
    ∃ u, url.Parse baseURL = Except.ok u ∧
      req.URL.String =
        url.URL.String { u with Host := http.removeEmptyPort u.Host } ++
          63 :: queryPart limit query orderBy := by
  rw [buildRequest_of_base baseURL limit query orderBy hq hf hstar] at hok
  cases hp : url.Parse baseURL with
  | error e => rw [hp] at hok; cases hok
  | ok u =>
    rw [hp] at hok
    simp only [Except.ok.injEq] at hok
    refine ⟨u, rfl, ?_⟩
    rw [url.Parse_eq_parse baseURL hf] at hp
    obtain ⟨h1, h2, h3, _⟩ := url.parse_no_query baseURL u hq hp
    rw [← hok]
    exact url.String_withQuery { u with Host := http.removeEmptyPort u.Host }
      (queryPart limit query orderBy) h1 h2 h3 (queryPart_ne_nil limit query orderBy)

set_option maxRecDepth 100000 in
/-- With the default base URL `buildRequest` succeeds for every limit, query
and orderBy. -/
theorem buildRequest_default_base (limit : Int) (query orderBy : GoString) :
    buildRequest defaultBaseURL limit query orderBy =
      Except.ok { Method := str "GET",
                  URL := { defaultBase with RawQuery := queryPart limit query orderBy },
                  Host := str "api.pokemontcg.io" } := by
  have hp : url.Parse defaultBaseURL = Except.ok defaultBase := by decide
  have hh : http.removeEmptyPort defaultBase.Host = str "api.pokemontcg.io" := by decide
  rw [buildRequest_of_base defaultBaseURL limit query orderBy (by decide) (by decide)
    (by decide), hp]
  simp only [hh]
  rfl

set_option maxRecDepth 100000 in
/-- With the default base URL, the string of the request URL is the assembled
string, for every limit, query and orderBy. -/
theorem buildRequest_default_base_String (limit : Int) (query orderBy : GoString) :
    ∃ req, buildRequest defaultBaseURL limit query orderBy = Except.ok req ∧
      req.URL.String = sanitizedURL defaultBaseURL limit query orderBy := by
  refine ⟨_, buildRequest_default_base limit query orderBy, ?_⟩
  have hs : url.URL.String defaultBase = defaultBaseURL := by decide
  rw [sanitizedURL_eq, ← hs]
  exact url.String_withQuery defaultBase (queryPart limit query orderBy) rfl rfl rfl
    (queryPart_ne_nil limit query orderBy)

set_option maxRecDepth 100000 in
/-- C2 (counterexample): with the base URL `HTTPS://api.pokemontcg.io/v2/cards`
`buildRequest` succeeds, and the URL string of the request begins with
`https`, so it is not the string `baseURL ++ "?pageSize=" ++ ...` that was
assembled; with the base URL `https://api.pokemontcg.io/v2/my cards` the URL
string holds `my%20cards`. -/
theorem buildRequest_url_string_normalised :
    requestURLString (buildRequest (str "HTTPS://api.pokemontcg.io/v2/cards") 10
        (str "name:pikachu") (str "id")) =
      some (str "https://api.pokemontcg.io/v2/cards?pageSize=10&q=name%3Apikachu&orderBy=id") ∧
    sanitizedURL (str "HTTPS://api.pokemontcg.io/v2/cards") 10 (str "name:pikachu") (str "id") =
      str "HTTPS://api.pokemontcg.io/v2/cards?pageSize=10&q=name%3Apikachu&orderBy=id" ∧
    requestURLString (buildRequest (str "https://api.pokemontcg.io/v2/my cards") 10
        (str "name:pikachu") (str "id")) =
      some (str "https://api.pokemontcg.io/v2/my%20cards?pageSize=10&q=name%3Apikachu&orderBy=id") ∧
    sanitizedURL (str "https://api.pokemontcg.io/v2/my cards") 10 (str "name:pikachu")
        (str "id") =
      str "https://api.pokemontcg.io/v2/my cards?pageSize=10&q=name%3Apikachu&orderBy=id" := by
  decide

set_option maxRecDepth 100000 in
/-- C2 (amended): `buildRequest` hands `http.NewRequest` the method GET and
exactly the string `baseURL ++ "?pageSize=" ++ decimal(limit) ++ "&q=" ++
QueryEscape(query) ++ "&orderBy=" ++ QueryEscape(orderBy)`; the limit is
written as a plain decimal numeral (a minus sign for a negative limit, then
digits only, denoting the limit); both escaped values consist of unreserved
characters, `+` and `%XX` escapes only, a space being written `+`.  A request
that is returned has method GET and the URL parsed from that string (an empty
port dropped from its host).  For a base URL without `?`
and `#`, other than `*`, the URL string of the request (`request.URL.String()`)
is the URL string of the parsed base URL, then `?`, then the same query part;
so it is exactly the assembled string whenever parsing the base URL and
writing it back gives the base URL, as for the default base URL with every
limit, query and orderBy.  The flag defaults give
`https://api.pokemontcg.io/v2/cards?pageSize=10&q=%21rarity%3ARare+hp%3A%5B90+TO+%2A%5D+%28types%3AGrass+OR+types%3AFire%29&orderBy=id`. -/
theorem buildRequest_url_format (baseURL : GoString) (limit : Int) (query orderBy : GoString) :
    buildRequest baseURL limit query orderBy =
      http.NewRequest (str "GET")
        (baseURL ++ str "?pageSize=" ++ fmt.decimal limit ++ str "&q=" ++
          url.QueryEscape query ++ str "&orderBy=" ++ url.QueryEscape orderBy) ∧
    (∀ req, buildRequest baseURL limit query orderBy = Except.ok req →
      req.Method = str "GET" ∧
      ∃ u, url.Parse (baseURL ++ str "?pageSize=" ++ fmt.decimal limit ++ str "&q=" ++
          url.QueryEscape query ++ str "&orderBy=" ++ url.QueryEscape orderBy) = Except.ok u ∧
        req.URL = { u with Host := http.removeEmptyPort u.Host }) ∧
    fmt.decimal limit = (if limit < 0 then [45] else []) ++ fmt.decimalNat limit.natAbs ∧
    fmt.isDigits (fmt.decimalNat limit.natAbs) = true ∧
    fmt.digitsValue (fmt.decimalNat limit.natAbs) = limit.natAbs ∧
    url.wellEscaped (url.QueryEscape query) = true ∧
    url.wellEscaped (url.QueryEscape orderBy) = true ∧
    url.QueryEscape (32 :: query) = 43 :: url.QueryEscape query ∧
    (strings.ContainsByte baseURL 63 = false → strings.ContainsByte baseURL 35 = false →
      baseURL ≠ str "*" →
      ∀ req, buildRequest baseURL limit query orderBy = Except.ok req →
        ∃ u, url.Parse baseURL = Except.ok u ∧
          req.URL.String =
            url.URL.String { u with Host := http.removeEmptyPort u.Host } ++ str "?pageSize=" ++
              fmt.decimal limit ++ str "&q=" ++ url.QueryEscape query ++ str "&orderBy=" ++
              url.QueryEscape orderBy ∧
          (url.URL.String { u with Host := http.removeEmptyPort u.Host } = baseURL →
            req.URL.String =
              baseURL ++ str "?pageSize=" ++ fmt.decimal limit ++ str "&q=" ++
                url.QueryEscape query ++ str "&orderBy=" ++ url.QueryEscape orderBy)) ∧
    (∃ req, buildRequest defaultBaseURL limit query orderBy = Except.ok req ∧
      req.URL.String =
        defaultBaseURL ++ str "?pageSize=" ++ fmt.decimal limit ++ str "&q=" ++
          url.QueryEscape query ++ str "&orderBy=" ++ url.QueryEscape orderBy) ∧
    sanitizedURL defaultBaseURL defaultLimit defaultQuery defaultOrderBy =
      str "https://api.pokemontcg.io/v2/cards?pageSize=10&q=%21rarity%3ARare+hp%3A%5B90+TO+%2A%5D+%28types%3AGrass+OR+types%3AFire%29&orderBy=id" ∧
    buildRequest defaultBaseURL defaultLimit defaultQuery defaultOrderBy =
      Except.ok defaultRequest ∧
    requestURLString (buildRequest defaultBaseURL defaultLimit defaultQuery defaultOrderBy) =
      some (str "https://api.pokemontcg.io/v2/cards?pageSize=10&q=%21rarity%3ARare+hp%3A%5B90+TO+%2A%5D+%28types%3AGrass+OR+types%3AFire%29&orderBy=id") := by
  have hq : str "?pageSize=" = 63 :: str "pageSize=" := by decide
  have hs : ∀ b : GoString, b ++ str "?pageSize=" ++ fmt.decimal limit ++ str "&q=" ++
      url.QueryEscape query ++ str "&orderBy=" ++ url.QueryEscape orderBy =
      b ++ 63 :: queryPart limit query orderBy := by
    intro b
    simp [queryPart, hq]
  refine ⟨rfl, ?_, ?_, (fmt.decimalNat_spec _).1, (fmt.decimalNat_spec _).2, ?_, ?_,
    by rw [url.QueryEscape_eq_escapeLoop, url.QueryEscape_eq_escapeLoop,
      url.escapeLoop_cons_space _ _ rfl], ?_,
    buildRequest_default_base_String limit query orderBy, by decide, by decide, by decide⟩
  · intro req hok
    obtain ⟨u, hu, hreq⟩ := buildRequest_ok baseURL limit query orderBy req hok
    exact ⟨by rw [hreq], u, hu, by rw [hreq]⟩
  · cases limit with
    | ofNat n =>
      have : ¬ (Int.ofNat n < 0) := by simp
      simp [fmt.decimal, this]
    | negSucc n =>
      have : Int.negSucc n < 0 := Int.negSucc_lt_zero n
      simp [fmt.decimal, this, Int.natAbs]
  · rw [url.QueryEscape_eq_escapeLoop]; exact url.wellEscaped_escapeLoop query
  · rw [url.QueryEscape_eq_escapeLoop]; exact url.wellEscaped_escapeLoop orderBy
  · intro h63 h35 hstar req hok
    obtain ⟨u, hu, hstr⟩ := buildRequest_URL_String baseURL limit query orderBy req h63 h35
      hstar hok
    refine ⟨u, hu, ?_, ?_⟩
    · rw [hs, hstr]
    · intro hback
      rw [hs, hstr, hback]

set_option maxRecDepth 100000 in
theorem buildRequest_url_format_witness :
    buildRequest defaultBaseURL defaultLimit defaultQuery defaultOrderBy =
      Except.ok defaultRequest ∧
    defaultRequest.Method = str "GET" ∧
    defaultRequest.URL.String =
      str "https://api.pokemontcg.io/v2/cards?pageSize=10&q=%21rarity%3ARare+hp%3A%5B90+TO+%2A%5D+%28types%3AGrass+OR+types%3AFire%29&orderBy=id" ∧
    url.wellEscaped (url.QueryEscape defaultQuery) = true ∧
    strings.ContainsByte defaultBaseURL 63 = false ∧
    strings.ContainsByte defaultBaseURL 35 = false ∧
    defaultBaseURL ≠ str "*" ∧
    (∃ u, url.Parse defaultBaseURL = Except.ok u) :=
  have h := buildRequest_url_format defaultBaseURL defaultLimit defaultQuery defaultOrderBy
  have h8 := h.2.2.2.2.2.2.2.2.1 (by decide) (by decide) (by decide) defaultRequest
    (by decide)
  ⟨h.2.2.2.2.2.2.2.2.2.2.2.1, (h.2.1 defaultRequest (by decide)).1, by decide, h.2.2.2.2.2.1,
   by decide, by decide, by decide, match h8 with | ⟨u, hu, _⟩ => ⟨u, hu⟩⟩

set_option maxRecDepth 100000 in
/-- C9 (counterexample): `buildRequest` returns a request, not a construction
error, for the empty base URL, for a base URL without scheme, for one with a
scheme other than http or https, and for one whose path holds a space. -/
theorem buildRequest_accepts_malformed_base :
    buildRequest (str "") 10 (str "name:pikachu") (str "id") =
      Except.ok { Method := str "GET",
                  URL := { RawQuery := str "pageSize=10&q=name%3Apikachu&orderBy=id" },
                  Host := [] } ∧
    buildRequest (str "api.pokemontcg.io/v2/cards") 10 (str "name:pikachu") (str "id") =
      Except.ok { Method := str "GET",
                  URL := { Path := str "api.pokemontcg.io/v2/cards",
                           RawQuery := str "pageSize=10&q=name%3Apikachu&orderBy=id" },
                  Host := [] } ∧
    buildRequest (str "ftp://api.pokemontcg.io/v2/cards") 10 (str "name:pikachu") (str "id") =
      Except.ok { Method := str "GET",
                  URL := { Scheme := str "ftp", Host := str "api.pokemontcg.io",
                           Path := str "/v2/cards",
                           RawQuery := str "pageSize=10&q=name%3Apikachu&orderBy=id" },
                  Host := str "api.pokemontcg.io" } ∧
    buildRequest (str "https://api.pokemontcg.io/v2/my cards") 10 (str "name:pikachu")
        (str "id") =
      Except.ok { Method := str "GET",
                  URL := { Scheme := str "https", Host := str "api.pokemontcg.io",
                           Path := str "/v2/my cards", RawPath := str "/v2/my cards",
                           RawQuery := str "pageSize=10&q=name%3Apikachu&orderBy=id" },
                  Host := str "api.pokemontcg.io" } := by
  decide

/-- C9 (amended): `buildRequest` returns a construction error exactly when
Go's URL parser `url.Parse` rejects the assembled string, and the error is
the parser's; for a base URL that holds no `?` and no `#` and is not `*`,
that is exactly when the parser rejects the base URL itself.  The parser
rejects every base URL that has an ASCII control character before its first
`#` and every base URL that begins with a colon.  It does not reject the
empty base URL: for every limit, query and orderBy the result is then a GET
request whose URL has only a query part. -/
theorem buildRequest_error_iff_parse_error (baseURL : GoString) (limit : Int)
    (query orderBy : GoString) :
    (∀ e, buildRequest baseURL limit query orderBy = Except.error e ↔
      ∃ e1, url.Parse (sanitizedURL baseURL limit query orderBy) = Except.error e1 ∧
        e = http.Error.parse e1) ∧
    (url.stringContainsCTLByte (strings.Cut baseURL 35).1 = true →
      buildRequest baseURL limit query orderBy =
        Except.error (http.Error.parse url.Error.controlCharacter)) ∧
    (strings.StartsWith baseURL [58] = true →
      ∃ e1, buildRequest baseURL limit query orderBy = Except.error (http.Error.parse e1)) ∧
    buildRequest [] limit query orderBy =
      Except.ok { Method := str "GET", URL := { RawQuery := queryPart limit query orderBy },
                  Host := [] } ∧
    (strings.ContainsByte baseURL 63 = false → strings.ContainsByte baseURL 35 = false →
      baseURL ≠ str "*" →
      ∀ e1, buildRequest baseURL limit query orderBy = Except.error (http.Error.parse e1) ↔
        url.Parse baseURL = Except.error e1) := by
  refine ⟨fun e => ?_, fun h => ?_, fun h => ?_, ?_, fun hq hf hstar e1 => ?_⟩
  · rw [buildRequest_eq]
    split
    · rename_i e1 he1
      simp only [Except.error.injEq]
      constructor
      · intro h; exact ⟨e1, he1, h.symm⟩
      · rintro ⟨e2, h2, rfl⟩
        rw [he1] at h2
        cases h2; rfl
    · rename_i u hu
      constructor
      · intro h; cases h
      · rintro ⟨e2, h2, _⟩
        rw [hu] at h2
        cases h2
  · rw [buildRequest_eq, sanitizedURL_eq,
      url.Parse_control_character _ (url.stringContainsCTLByte_cut_append _ _ _ h)]
  · cases baseURL with
    | nil => simp [strings.StartsWith] at h
    | cons c cs =>
      have hc : c = 58 := by
        have : (58 : Byte) = c := by simpa [strings.StartsWith, List.isPrefixOf] using h
        exact this.symm
      subst hc
      obtain ⟨e1, he1⟩ := url.Parse_leading_colon (cs ++ 63 :: queryPart limit query orderBy)
      refine ⟨e1, ?_⟩
      rw [buildRequest_eq, sanitizedURL_eq, List.cons_append, he1]
  · rw [buildRequest_eq, sanitizedURL_eq, List.nil_append, Parse_question_queryPart]
    rfl
  · rw [buildRequest_of_base baseURL limit query orderBy hq hf hstar]
    cases url.Parse baseURL with
    | error e => simp
    | ok u => simp

set_option maxRecDepth 100000 in
theorem buildRequest_error_iff_parse_error_witness :
    url.Parse (str "https://api pokemontcg.io") =
      Except.error (url.Error.InvalidHostError (str " ")) ∧
    buildRequest (str "https://api pokemontcg.io") 10 (str "name:pikachu") (str "id") =
      Except.error (http.Error.parse (url.Error.InvalidHostError (str " "))) :=
  ⟨by decide,
   ((buildRequest_error_iff_parse_error (str "https://api pokemontcg.io") 10
      (str "name:pikachu") (str "id")).2.2.2.2 (by decide) (by decide) (by decide) _).2
     (by decide)⟩

set_option maxRecDepth 100000 in
/-- Instances of rejection: a line feed in the base URL, a leading colon, a
space in the host, and a colon in the first segment of a scheme-less path. -/
theorem buildRequest_rejects_examples :
    buildRequest (str "https://api.pokemontcg.io/v2\n/cards") 10 (str "a") (str "id") =
      Except.error (http.Error.parse url.Error.controlCharacter) ∧
    buildRequest (str "://api.pokemontcg.io") 10 (str "a") (str "id") =
      Except.error (http.Error.parse url.Error.missingProtocolScheme) ∧
    buildRequest (str "https://api pokemontcg.io") 10 (str "a") (str "id") =
      Except.error (http.Error.parse (url.Error.InvalidHostError (str " "))) ∧
    buildRequest (str " https://api.pokemontcg.io") 10 (str "a") (str "id") =
      Except.error (http.Error.parse url.Error.colonInFirstPathSegment) := by
  decide
/-! ## Claims on `processData`: status check and syntax check -/

/-- C3: for every response whose body was read in full and whose status code
is not 200, and for every body, `processData` returns the zero `ResultData`
and an error whose message is `API returned <code> and response: <body>`,
with the code in decimal and the body verbatim; the body is not parsed (the
result is the same for every body, and is not an error of `json.Unmarshal`). -/
theorem processData_status_not_200 (code : Int) (body : List Byte) (hcode : code ≠ 200) :
    processData (http.Response.read code body) =
      (ResultData.zero,
        some (ProcessError.status
          (str "API returned " ++ fmt.decimal code ++ str " and response: " ++ body))) := by
  simp [processData, http.Response.read, hcode, statusMessage]

set_option maxRecDepth 100000 in
theorem processData_status_not_200_witness :
    processData (http.Response.read 404 (str "Not Found")) =
      (ResultData.zero, some (ProcessError.status (str "API returned 404 and response: Not Found"))) ∧
    processData (http.Response.read 500 []) =
      (ResultData.zero, some (ProcessError.status (str "API returned 500 and response: "))) ∧
    processData (http.Response.read 201 (str "\x7b\"data\":[]\x7d")) =
      (ResultData.zero,
        some (ProcessError.status (str "API returned 201 and response: \x7b\"data\":[]\x7d"))) ∧
    processData (http.Response.read 204 (str "\x7b\"data\":[]\x7d")) =
      (ResultData.zero,
        some (ProcessError.status (str "API returned 204 and response: \x7b\"data\":[]\x7d"))) :=
  ⟨(processData_status_not_200 404 (str "Not Found") (by decide)).trans (by decide),
   (processData_status_not_200 500 [] (by decide)).trans (by decide),
   (processData_status_not_200 201 (str "\x7b\"data\":[]\x7d") (by decide)).trans (by decide),
   (processData_status_not_200 204 (str "\x7b\"data\":[]\x7d") (by decide)).trans (by decide)⟩

/-- C5: for every 200 response whose body is not syntactically valid JSON
(the scanner of `encoding/json`, which defines `json.Valid`, reports an
error), `processData` returns that syntax error, which is not `nil`, and
the zero `ResultData`; it does not report success. -/
theorem processData_invalid_json (body : List Byte) (h : json.checkValid body ≠ none) :
    ∃ e, json.checkValid body = some e ∧
      processData (http.Response.read 200 body) =
        (ResultData.zero, some (ProcessError.unmarshal (json.Error.syntaxError e))) ∧
      (processData (http.Response.read 200 body)).2 ≠ none := by
  cases hc : json.checkValid body with
  | none => exact absurd hc h
  | some e =>
    refine ⟨e, rfl, ?_, ?_⟩ <;> simp [processData, http.Response.read, json.Unmarshal, hc]

set_option maxRecDepth 100000 in
theorem processData_invalid_json_witness :
    json.checkValid (str "\x7b\"data\":[\x7b\"id\":\"xy1-1\"") ≠ none ∧
    (∃ e, json.checkValid (str "\x7b\"data\":[\x7b\"id\":\"xy1-1\"") = some e ∧
      processData (http.Response.read 200 (str "\x7b\"data\":[\x7b\"id\":\"xy1-1\"")) =
        (ResultData.zero, some (ProcessError.unmarshal (json.Error.syntaxError e))) ∧
      (processData (http.Response.read 200 (str "\x7b\"data\":[\x7b\"id\":\"xy1-1\""))).2 ≠ none) ∧
    json.checkValid [] ≠ none ∧
    (∃ e, json.checkValid [] = some e ∧
      processData (http.Response.read 200 []) =
        (ResultData.zero, some (ProcessError.unmarshal (json.Error.syntaxError e))) ∧
      (processData (http.Response.read 200 [])).2 ≠ none) :=
  ⟨by decide, processData_invalid_json _ (by decide), by decide,
   processData_invalid_json _ (by decide)⟩

set_option maxRecDepth 100000 in
/-- Bodies the scanner rejects (a truncated body, the empty body, a trailing
comma, text after the value, an HTML page) and two bodies it accepts. -/
theorem checkValid_rejects_examples :
    json.checkValid (str "\x7b\"data\":[\x7b\"id\":\"xy1-1\"") =
      some json.SyntaxError.unexpectedEnd ∧
    json.checkValid (str "") = some json.SyntaxError.unexpectedEnd ∧
    json.checkValid (str "\x7b\"data\":[1,]\x7d") =
      some (json.SyntaxError.invalidCharacter 93) ∧
    json.checkValid (str "\x7b\"data\":[]\x7d x") =
      some (json.SyntaxError.invalidCharacter 120) ∧
    json.checkValid (str "<html>") = some (json.SyntaxError.invalidCharacter 60) ∧
    json.checkValid (str "\x7b\"data\":[]\x7d") = none ∧
    json.checkValid (str " \x7b \"data\" : [ ] \x7d\n") = none := by
  decide
/-! ## The decoder reads every input the scanner accepts -/

namespace json

theorem isSpace_space : isSpace (32 : Byte) = true := by decide

theorem checkValidLoop_stateError (e : Bool) (ps : List PState) (x : SyntaxError)
    (bs : List Byte) : checkValidLoop ⟨Step.stateError, e, ps, some x⟩ bs = some x := by
  cases bs <;> simp [checkValidLoop, scanner.eof, scanner.stepByte]

/-- The scanner behind the top-level value accepts what the scanner at the
end of a value with nothing open accepts. -/
theorem checkValidLoop_endTop (bs : List Byte) :
    checkValidLoop ⟨Step.stateEndTop, true, [], none⟩ bs =
      checkValidLoop ⟨Step.stateEndValue, false, [], none⟩ bs := by
  cases bs with
  | nil => simp [checkValidLoop, scanner.eof, scanner.stepByte, stateEndValue, stateEndTop, isSpace_space]
  | cons c cs =>
    simp [checkValidLoop, scanner.stepByte, stateEndValue, stateEndTop]

theorem checkValidLoop_pop (st : Step) (p : PState) (ps : List PState) (bs : List Byte) :
    checkValidLoop (scanner.popParseState ⟨st, false, p :: ps, none⟩) bs =
      checkValidLoop ⟨Step.stateEndValue, false, ps, none⟩ bs := by
  cases ps with
  | nil => simpa [scanner.popParseState] using checkValidLoop_endTop bs
  | cons q qs => simp [scanner.popParseState]

theorem Acc_nil_endValue (p : PState) (ps : List PState) :
    ¬ Acc Step.stateEndValue (p :: ps) [] := by
  simp [Acc, checkValidLoop, scanner.eof, scanner.stepByte, stateEndValue, isSpace_space]

/-- States in which the scanner skips white space. -/
theorem Acc_skipSpace (st : Step) (ps : List PState)
    (hst : st = Step.stateBeginValue ∨ st = Step.stateBeginValueOrEmpty ∨
      st = Step.stateBeginString ∨ st = Step.stateBeginStringOrEmpty ∨
      (st = Step.stateEndValue ∧ ps ≠ [])) :
    ∀ bs, Acc st ps bs → ∃ c cs, skipSpace bs = c :: cs ∧ isSpace c = false ∧
      (c :: cs).length ≤ bs.length ∧ Acc st ps (c :: cs) := by
  intro bs
  induction bs with
  | nil =>
    intro h
    exfalso
    rcases hst with h1 | h1 | h1 | h1 | ⟨h1, h2⟩
    · subst h1
      simp [Acc, checkValidLoop, scanner.eof, scanner.stepByte, stateBeginValue, isSpace_space] at h
    · subst h1
      simp [Acc, checkValidLoop, scanner.eof, scanner.stepByte, stateBeginValueOrEmpty,
        isSpace_space] at h
    · subst h1
      simp [Acc, checkValidLoop, scanner.eof, scanner.stepByte, stateBeginString, isSpace_space] at h
    · subst h1
      simp [Acc, checkValidLoop, scanner.eof, scanner.stepByte, stateBeginStringOrEmpty,
        isSpace_space] at h
    · subst h1
      cases ps with
      | nil => exact h2 rfl
      | cons p ps => exact Acc_nil_endValue p ps h
  | cons c cs ih =>
    intro h
    by_cases hsp : isSpace c = true
    · have h2 : Acc st ps cs := by
        rcases hst with h1 | h1 | h1 | h1 | ⟨h1, h2⟩
        · subst h1
          simpa [Acc, checkValidLoop, scanner.stepByte, stateBeginValue, hsp] using h
        · subst h1
          simpa [Acc, checkValidLoop, scanner.stepByte, stateBeginValueOrEmpty, hsp] using h
        · subst h1
          simpa [Acc, checkValidLoop, scanner.stepByte, stateBeginString, hsp] using h
        · subst h1
          simpa [Acc, checkValidLoop, scanner.stepByte, stateBeginStringOrEmpty, hsp] using h
        · subst h1
          cases ps with
          | nil => exact absurd rfl h2
          | cons p ps =>
            simpa [Acc, checkValidLoop, scanner.stepByte, stateEndValue, hsp] using h
      obtain ⟨d, ds, hd, hds, hlen, hacc⟩ := ih h2
      refine ⟨d, ds, ?_, hds, ?_, hacc⟩
      · simp [skipSpace, hsp, hd]
      · simp only [List.length_cons] at hlen ⊢
        omega
    · have hsp2 : isSpace c = false := by simpa using hsp
      exact ⟨c, cs, by simp [skipSpace, hsp2], hsp2, le_refl _, h⟩

/-! ### Literals `true`, `false`, `null` -/

theorem Acc_letter (st next : Step) (want : Nat) (hw : want ≠ 32)
    (hst : ∀ (e : Bool) (ps : List PState) (er : Option SyntaxError) (c : Byte),
      scanner.stepByte ⟨st, e, ps, er⟩ c = stateLetter want next ⟨st, e, ps, er⟩ c)
    (ps : List PState) (bs : List Byte) (h : Acc st ps bs) :
    ∃ c cs, bs = c :: cs ∧ Acc next ps cs := by
  cases bs with
  | nil =>
    exfalso
    have h32 : ¬ ((32 : Byte).val = want) := fun h => hw h.symm
    simp [Acc, checkValidLoop, scanner.eof, hst, stateLetter, h32, scanner.error] at h
  | cons c cs =>
    refine ⟨c, cs, rfl, ?_⟩
    by_cases hc : c.val = want
    · simpa [Acc, checkValidLoop, hst, stateLetter, hc] using h
    · simp [Acc, checkValidLoop, hst, stateLetter, hc, scanner.error] at h

theorem Acc_true (ps : List PState) (cs : List Byte) (h : Acc Step.stateT ps cs) :
    Acc Step.stateEndValue ps (cs.drop 3) ∧ (cs.drop 3).length ≤ cs.length := by
  obtain ⟨c1, r1, rfl, h1⟩ := Acc_letter Step.stateT Step.stateTr 114 (by decide)
    (fun _ _ _ _ => rfl) ps cs h
  obtain ⟨c2, r2, rfl, h2⟩ := Acc_letter Step.stateTr Step.stateTru 117 (by decide)
    (fun _ _ _ _ => rfl) ps r1 h1
  obtain ⟨c3, r3, rfl, h3⟩ := Acc_letter Step.stateTru Step.stateEndValue 101 (by decide)
    (fun _ _ _ _ => rfl) ps r2 h2
  exact ⟨h3, by simp only [List.drop_succ_cons, List.drop_zero, List.length_cons]; omega⟩

theorem Acc_false (ps : List PState) (cs : List Byte) (h : Acc Step.stateF ps cs) :
    Acc Step.stateEndValue ps (cs.drop 4) ∧ (cs.drop 4).length ≤ cs.length := by
  obtain ⟨c1, r1, rfl, h1⟩ := Acc_letter Step.stateF Step.stateFa 97 (by decide)
    (fun _ _ _ _ => rfl) ps cs h
  obtain ⟨c2, r2, rfl, h2⟩ := Acc_letter Step.stateFa Step.stateFal 108 (by decide)
    (fun _ _ _ _ => rfl) ps r1 h1
  obtain ⟨c3, r3, rfl, h3⟩ := Acc_letter Step.stateFal Step.stateFals 115 (by decide)
    (fun _ _ _ _ => rfl) ps r2 h2
  obtain ⟨c4, r4, rfl, h4⟩ := Acc_letter Step.stateFals Step.stateEndValue 101 (by decide)
    (fun _ _ _ _ => rfl) ps r3 h3
  exact ⟨h4, by simp only [List.drop_succ_cons, List.drop_zero, List.length_cons]; omega⟩

theorem Acc_null (ps : List PState) (cs : List Byte) (h : Acc Step.stateN ps cs) :
    Acc Step.stateEndValue ps (cs.drop 3) ∧ (cs.drop 3).length ≤ cs.length := by
  obtain ⟨c1, r1, rfl, h1⟩ := Acc_letter Step.stateN Step.stateNu 117 (by decide)
    (fun _ _ _ _ => rfl) ps cs h
  obtain ⟨c2, r2, rfl, h2⟩ := Acc_letter Step.stateNu Step.stateNul 108 (by decide)
    (fun _ _ _ _ => rfl) ps r1 h1
  obtain ⟨c3, r3, rfl, h3⟩ := Acc_letter Step.stateNul Step.stateEndValue 108 (by decide)
    (fun _ _ _ _ => rfl) ps r2 h2
  exact ⟨h3, by simp only [List.drop_succ_cons, List.drop_zero, List.length_cons]; omega⟩

/-! ### Numbers -/

/-- The step has put the scanner into its error state. -/
theorem checkValidLoop_rejects (s : scanner) (c : Byte) (cs : List Byte)
    (h : ∃ e ps x, (s.stepByte c).1 = ⟨Step.stateError, e, ps, some x⟩) :
    checkValidLoop s (c :: cs) ≠ none := by
  obtain ⟨e, ps, x, hx⟩ := h
  simp only [checkValidLoop]
  split
  · rw [hx]; simp
  · rw [hx, checkValidLoop_stateError]; simp

set_option maxRecDepth 100000 in
theorem isNumberByte_facts : ∀ c : Byte, isNumberByte c = true →
    isSpace c = false ∧ c.val ≠ 58 ∧ c.val ≠ 44 ∧ c.val ≠ 125 ∧ c.val ≠ 93 := by
  decide

set_option maxRecDepth 100000 in
theorem not_isNumberByte_facts : ∀ c : Byte, isNumberByte c = false →
    isDigit c = false ∧ c.val ≠ 46 ∧ c.val ≠ 101 ∧ c.val ≠ 69 ∧ c.val ≠ 43 ∧ c.val ≠ 45 ∧
      c.val ≠ 48 ∧ ¬ (49 ≤ c.val ∧ c.val ≤ 57) := by
  decide

theorem stateEndValue_numberByte (s : scanner) (c : Byte) (hc : isNumberByte c = true) :
    ∃ e ps x, (stateEndValue s c).1 = ⟨Step.stateError, e, ps, some x⟩ := by
  obtain ⟨h1, h2, h3, h4, h5⟩ := isNumberByte_facts c hc
  unfold stateEndValue
  split
  · simp [stateEndTop, h1, scanner.error]
  · rename_i p rest hps
    cases p <;> simp [h1, h2, h3, h4, h5, scanner.error]

theorem stateEndValue_step (st st1 : Step) (e : Bool) (ps : List PState)
    (er : Option SyntaxError) (c : Byte) :
    stateEndValue ⟨st, e, ps, er⟩ c = stateEndValue ⟨st1, e, ps, er⟩ c := by
  cases ps with
  | nil => simp [stateEndValue]
  | cons p rest =>
    cases p <;> simp [stateEndValue, scanner.error, scanner.popParseState]

/-- Inside a number, a byte that can belong to a number keeps the scanner
inside the number or is rejected. -/
theorem stepByte_number (st : Step) (ps : List PState) (c : Byte)
    (hst : isNumState st = true) (hc : isNumberByte c = true) :
    (∃ st1, isNumState st1 = true ∧
      scanner.stepByte ⟨st, false, ps, none⟩ c = (⟨st1, false, ps, none⟩, Op.scanContinue)) ∨
    ∃ e ps1 x, (scanner.stepByte ⟨st, false, ps, none⟩ c).1 =
      ⟨Step.stateError, e, ps1, some x⟩ := by
  have hend := stateEndValue_numberByte
  cases st <;> simp [isNumState] at hst
  · simp only [scanner.stepByte, stateNeg]
    split_ifs
    · exact Or.inl ⟨_, by rfl, rfl⟩
    · exact Or.inl ⟨_, by rfl, rfl⟩
    · exact Or.inr ⟨_, _, _, rfl⟩
  · simp only [scanner.stepByte, state1, state0]
    split_ifs
    · exact Or.inl ⟨_, by rfl, rfl⟩
    · exact Or.inl ⟨_, by rfl, rfl⟩
    · exact Or.inl ⟨_, by rfl, rfl⟩
    · exact Or.inr (hend _ _ hc)
  · simp only [scanner.stepByte, state0]
    split_ifs
    · exact Or.inl ⟨_, by rfl, rfl⟩
    · exact Or.inl ⟨_, by rfl, rfl⟩
    · exact Or.inr (hend _ _ hc)
  · simp only [scanner.stepByte, stateDot]
    split_ifs
    · exact Or.inl ⟨_, by rfl, rfl⟩
    · exact Or.inr ⟨_, _, _, rfl⟩
  · simp only [scanner.stepByte, stateDot0]
    split_ifs
    · exact Or.inl ⟨_, by rfl, rfl⟩
    · exact Or.inl ⟨_, by rfl, rfl⟩
    · exact Or.inr (hend _ _ hc)
  · simp only [scanner.stepByte, stateE, stateESign]
    split_ifs
    · exact Or.inl ⟨_, by rfl, rfl⟩
    · exact Or.inl ⟨_, by rfl, rfl⟩
    · exact Or.inr ⟨_, _, _, rfl⟩
  · simp only [scanner.stepByte, stateESign]
    split_ifs
    · exact Or.inl ⟨_, by rfl, rfl⟩
    · exact Or.inr ⟨_, _, _, rfl⟩
  · simp only [scanner.stepByte, stateE0]
    split_ifs
    · exact Or.inl ⟨_, by rfl, rfl⟩
    · exact Or.inr (hend _ _ hc)

/-- Inside a number, a byte that cannot belong to a number ends the number,
or is rejected and leaves the top-level value open. -/
theorem stepByte_number_end (st : Step) (ps : List PState) (c : Byte)
    (hst : isNumState st = true) (hc : isNumberByte c = false) :
    scanner.stepByte ⟨st, false, ps, none⟩ c =
      scanner.stepByte ⟨Step.stateEndValue, false, ps, none⟩ c ∨
    scanner.stepByte ⟨st, false, ps, none⟩ c =
      (⟨Step.stateError, false, ps, some (SyntaxError.invalidCharacter c)⟩, Op.scanError) := by
  obtain ⟨h1, h2, h3, h4, h5, h6, h7, h8⟩ := not_isNumberByte_facts c hc
  cases st <;> simp [isNumState] at hst
  · right
    simp [scanner.stepByte, stateNeg, h7, h8, scanner.error]
  · left
    simp only [scanner.stepByte, state1, state0, h1, h2, h3, h4, Bool.false_eq_true, if_false,
      or_self]
    exact stateEndValue_step _ _ _ _ _ _
  · left
    simp only [scanner.stepByte, state0, h2, h3, h4, if_false, or_self]
    exact stateEndValue_step _ _ _ _ _ _
  · right
    simp [scanner.stepByte, stateDot, h1, scanner.error]
  · left
    simp only [scanner.stepByte, stateDot0, h1, h3, h4, Bool.false_eq_true, if_false, or_self]
    exact stateEndValue_step _ _ _ _ _ _
  · right
    simp [scanner.stepByte, stateE, stateESign, h1, h5, h6, scanner.error]
  · right
    simp [scanner.stepByte, stateESign, h1, scanner.error]
  · left
    simp only [scanner.stepByte, stateE0, h1, Bool.false_eq_true, if_false]
    exact stateEndValue_step _ _ _ _ _ _

theorem not_isNumberByte_space : isNumberByte (32 : Byte) = false := by decide

/-- The scanner accepts a number exactly as far as `numberEnd` runs. -/
theorem Acc_number (ps : List PState) : ∀ (cs : List Byte) (st : Step),
    isNumState st = true → Acc st ps cs →
      Acc Step.stateEndValue ps (numberEnd cs).2 ∧ (numberEnd cs).2.length ≤ cs.length := by
  intro cs
  induction cs with
  | nil =>
    intro st hst h
    refine ⟨?_, le_refl _⟩
    simp only [numberEnd]
    rcases stepByte_number_end st ps 32 hst not_isNumberByte_space with hk | hk
    · simp only [Acc, checkValidLoop, scanner.eof] at h ⊢
      rw [hk] at h
      exact h
    · simp [Acc, checkValidLoop, scanner.eof, hk] at h
  | cons c cs ih =>
    intro st hst h
    by_cases hc : isNumberByte c = true
    · simp only [numberEnd, hc, if_true, List.length_cons]
      rcases stepByte_number st ps c hst hc with ⟨st1, hst1, hstep⟩ | hrej
      · have h2 : Acc st1 ps cs := by
          simpa [Acc, checkValidLoop, hstep] using h
        obtain ⟨h3, h4⟩ := ih st1 hst1 h2
        exact ⟨h3, by omega⟩
      · exact absurd h (checkValidLoop_rejects _ c cs hrej)
    · have hc2 : isNumberByte c = false := by simpa using hc
      simp only [numberEnd, hc2, Bool.false_eq_true, if_false]
      refine ⟨?_, le_refl _⟩
      rcases stepByte_number_end st ps c hst hc2 with hk | hk
      · simp only [Acc, checkValidLoop] at h ⊢
        rw [hk] at h
        exact h
      · simp [Acc, checkValidLoop, hk] at h

/-! ### String literals -/

theorem stepByte_inString_space (e : Bool) (ps : List PState) (er : Option SyntaxError) :
    scanner.stepByte ⟨Step.stateInString, e, ps, er⟩ 32 =
      (⟨Step.stateInString, e, ps, er⟩, Op.scanContinue) := rfl

theorem stepByte_inStringEsc_space (e : Bool) (ps : List PState) (er : Option SyntaxError) :
    scanner.stepByte ⟨Step.stateInStringEsc, e, ps, er⟩ 32 =
      (⟨Step.stateError, e, ps, some (SyntaxError.invalidCharacter 32)⟩, Op.scanError) := rfl

set_option maxRecDepth 100000 in
theorem isHexDigit_facts : ∀ c : Byte, isHexDigit c = true →
    c.val ≠ 92 ∧ c.val ≠ 34 ∧ 32 ≤ c.val := by
  decide

theorem not_isHexDigit_space : isHexDigit (32 : Byte) = false := by decide

theorem Acc_hex (st next : Step)
    (hst : ∀ (e : Bool) (ps : List PState) (er : Option SyntaxError) (c : Byte),
      scanner.stepByte ⟨st, e, ps, er⟩ c = stateHex next ⟨st, e, ps, er⟩ c)
    (ps : List PState) (bs : List Byte) (h : Acc st ps bs) :
    ∃ c cs, bs = c :: cs ∧ isHexDigit c = true ∧ Acc next ps cs := by
  cases bs with
  | nil =>
    exfalso
    simp [Acc, checkValidLoop, scanner.eof, hst, stateHex, not_isHexDigit_space,
      scanner.error] at h
  | cons c cs =>
    by_cases hc : isHexDigit c = true
    · exact ⟨c, cs, rfl, hc, by simpa [Acc, checkValidLoop, hst, stateHex, hc] using h⟩
    · simp [Acc, checkValidLoop, hst, stateHex, hc, scanner.error] at h

theorem stringEnd_plain (c : Byte) (cs : List Byte) (h92 : c.val ≠ 92) (h34 : c.val ≠ 34) :
    stringEnd false (c :: cs) = (c :: (stringEnd false cs).1, (stringEnd false cs).2) := by
  simp [stringEnd, h92, h34]

theorem stringEnd_escape (c e : Byte) (cs : List Byte) (h92 : c.val = 92) :
    stringEnd false (c :: e :: cs) =
      (c :: e :: (stringEnd false cs).1, (stringEnd false cs).2) := by
  simp [stringEnd, h92]

theorem byte_eq_of_val (c : Byte) (n : Nat) (hn : n < 256) (h : c.val = n) :
    c = ⟨n, hn⟩ := Fin.ext h

/-- From inside a string literal the scanner accepts the input only when the
literal ends where `stringEnd` says and its text is well formed. -/
theorem Acc_string (ps : List PState) : ∀ (n : Nat) (cs : List Byte), cs.length ≤ n →
    Acc Step.stateInString ps cs →
    ∃ body rest, stringEnd false cs = (body, rest) ∧ ValidBody body ∧
      rest.length < cs.length ∧ Acc Step.stateEndValue ps rest := by
  intro n
  induction n using Nat.strong_induction_on with
  | _ n ih =>
    intro cs hlen h
    cases cs with
    | nil =>
      exfalso
      simp [Acc, checkValidLoop, scanner.eof, stepByte_inString_space] at h
    | cons c cs1 =>
      by_cases h34 : c.val = 34
      · refine ⟨[], cs1, by simp [stringEnd, h34], ValidBody.nil, by simp, ?_⟩
        simpa [Acc, checkValidLoop, scanner.stepByte, stateInString, h34] using h
      by_cases h92 : c.val = 92
      · have hesc : Acc Step.stateInStringEsc ps cs1 := by
          simpa [Acc, checkValidLoop, scanner.stepByte, stateInString, h92] using h
        cases cs1 with
        | nil =>
          exfalso
          simp [Acc, checkValidLoop, scanner.eof, stepByte_inStringEsc_space] at hesc
        | cons e cs2 =>
          have hc92 : c = 92 := byte_eq_of_val c 92 (by decide) h92
          by_cases hs : isSimpleEscape e = true
          · have hs2 : e.val = 98 ∨ e.val = 102 ∨ e.val = 110 ∨ e.val = 114 ∨ e.val = 116 ∨
                e.val = 92 ∨ e.val = 47 ∨ e.val = 34 := by
              simpa [isSimpleEscape, or_assoc] using hs
            have h2 : Acc Step.stateInString ps cs2 := by
              simpa [Acc, checkValidLoop, scanner.stepByte, stateInStringEsc, hs2] using hesc
            simp only [List.length_cons] at hlen
            obtain ⟨body, rest, hse, hvb, hl, hacc⟩ := ih cs2.length (by omega) cs2 (le_refl _) h2
            refine ⟨c :: e :: body, rest, ?_, ?_, ?_, hacc⟩
            · rw [stringEnd_escape c e cs2 h92, hse]
            · rw [hc92]; exact ValidBody.escape e body hs hvb
            · simp only [List.length_cons]; omega
          · have hs2 : ¬ (e.val = 98 ∨ e.val = 102 ∨ e.val = 110 ∨ e.val = 114 ∨ e.val = 116 ∨
                e.val = 92 ∨ e.val = 47 ∨ e.val = 34) := by
              simpa [isSimpleEscape, or_assoc] using hs
            by_cases hu : e.val = 117
            · have he117 : e = 117 := byte_eq_of_val e 117 (by decide) hu
              have h2 : Acc Step.stateInStringEscU ps cs2 := by
                simpa [Acc, checkValidLoop, scanner.stepByte, stateInStringEsc, hs2, hu]
                  using hesc
              obtain ⟨x1, r1, rfl, hx1, a1⟩ := Acc_hex Step.stateInStringEscU
                Step.stateInStringEscU1 (fun _ _ _ _ => rfl) ps cs2 h2
              obtain ⟨x2, r2, rfl, hx2, a2⟩ := Acc_hex Step.stateInStringEscU1
                Step.stateInStringEscU12 (fun _ _ _ _ => rfl) ps r1 a1
              obtain ⟨x3, r3, rfl, hx3, a3⟩ := Acc_hex Step.stateInStringEscU12
                Step.stateInStringEscU123 (fun _ _ _ _ => rfl) ps r2 a2
              obtain ⟨x4, r4, rfl, hx4, a4⟩ := Acc_hex Step.stateInStringEscU123
                Step.stateInString (fun _ _ _ _ => rfl) ps r3 a3
              simp only [List.length_cons] at hlen
              obtain ⟨body, rest, hse, hvb, hl, hacc⟩ :=
                ih r4.length (by omega) r4 (le_refl _) a4
              refine ⟨c :: e :: x1 :: x2 :: x3 :: x4 :: body, rest, ?_, ?_, ?_, hacc⟩
              · rw [stringEnd_escape c e _ h92,
                  stringEnd_plain x1 _ (isHexDigit_facts x1 hx1).1 (isHexDigit_facts x1 hx1).2.1,
                  stringEnd_plain x2 _ (isHexDigit_facts x2 hx2).1 (isHexDigit_facts x2 hx2).2.1,
                  stringEnd_plain x3 _ (isHexDigit_facts x3 hx3).1 (isHexDigit_facts x3 hx3).2.1,
                  stringEnd_plain x4 _ (isHexDigit_facts x4 hx4).1 (isHexDigit_facts x4 hx4).2.1,
                  hse]
              · rw [hc92, he117]
                exact ValidBody.unicode x1 x2 x3 x4 body hx1 hx2 hx3 hx4 hvb
              · simp only [List.length_cons]; omega
            · exfalso
              simp [Acc, checkValidLoop, scanner.stepByte, stateInStringEsc, hs2, hu,
                scanner.error] at hesc
      by_cases h32 : c.val < 32
      · exfalso
        simp [Acc, checkValidLoop, scanner.stepByte, stateInString, h34, h92, h32,
          scanner.error] at h
      · have h2 : Acc Step.stateInString ps cs1 := by
          simpa [Acc, checkValidLoop, scanner.stepByte, stateInString, h34, h92, h32] using h
        simp only [List.length_cons] at hlen
        obtain ⟨body, rest, hse, hvb, hl, hacc⟩ := ih cs1.length (by omega) cs1 (le_refl _) h2
        refine ⟨c :: body, rest, ?_, ?_, ?_, hacc⟩
        · rw [stringEnd_plain c cs1 h92 h34, hse]
        · exact ValidBody.plain c body h92 h34 (by omega) hvb
        · simp only [List.length_cons]; omega

/-! ### Unquoting a well-formed string -/

theorem ValidBody_tail_of_high (x : Byte) (xs : List Byte) (hx : 128 ≤ x.val)
    (h : ValidBody (x :: xs)) : ValidBody xs := by
  cases h with
  | plain _ _ _ _ _ h1 => exact h1
  | escape e cs _ _ => exact absurd hx (by decide)
  | unicode _ _ _ _ _ _ _ _ _ _ => exact absurd hx (by decide)

theorem isCont_high (b : Byte) (h : utf8.isCont b = true) : 128 ≤ b.val := by
  simp [utf8.isCont] at h
  exact h.1

theorem decode2_width (p0 b1 : Byte) :
    (utf8.decode2 p0 b1).2 = 1 ∨ ((utf8.decode2 p0 b1).2 = 2 ∧ 128 ≤ b1.val) := by
  unfold utf8.decode2
  by_cases k : utf8.isCont b1 = true
  · rw [if_pos k]; exact Or.inr ⟨rfl, isCont_high b1 k⟩
  · rw [if_neg k]; exact Or.inl rfl

theorem decode3_width (p0 b1 b2 : Byte) :
    (utf8.decode3 p0 b1 b2).2 = 1 ∨
      ((utf8.decode3 p0 b1 b2).2 = 3 ∧ 128 ≤ b1.val ∧ 128 ≤ b2.val) := by
  unfold utf8.decode3
  by_cases k1 : b1.val < (if p0.val = 224 then 160 else 128)
  · rw [if_pos k1]; exact Or.inl rfl
  rw [if_neg k1]
  by_cases k2 : (if p0.val = 237 then 159 else 191) < b1.val
  · rw [if_pos k2]; exact Or.inl rfl
  rw [if_neg k2]
  by_cases k3 : utf8.isCont b2 = true
  · have k3n : ¬ ((!utf8.isCont b2) = true) := by simp [k3]
    rw [if_neg k3n]
    refine Or.inr ⟨rfl, ?_, isCont_high b2 k3⟩
    split_ifs at k1 <;> omega
  · have k3n : (!utf8.isCont b2) = true := by simpa using k3
    rw [if_pos k3n]; exact Or.inl rfl

theorem decode4_width (p0 b1 b2 b3 : Byte) :
    (utf8.decode4 p0 b1 b2 b3).2 = 1 ∨
      ((utf8.decode4 p0 b1 b2 b3).2 = 4 ∧ 128 ≤ b1.val ∧ 128 ≤ b2.val ∧ 128 ≤ b3.val) := by
  unfold utf8.decode4
  by_cases k1 : b1.val < (if p0.val = 240 then 144 else 128)
  · rw [if_pos k1]; exact Or.inl rfl
  rw [if_neg k1]
  by_cases k2 : (if p0.val = 244 then 143 else 191) < b1.val
  · rw [if_pos k2]; exact Or.inl rfl
  rw [if_neg k2]
  by_cases k3 : utf8.isCont b2 = true
  · have k3n : ¬ ((!utf8.isCont b2) = true) := by simp [k3]
    rw [if_neg k3n]
    by_cases k4 : utf8.isCont b3 = true
    · have k4n : ¬ ((!utf8.isCont b3) = true) := by simp [k4]
      rw [if_neg k4n]
      refine Or.inr ⟨rfl, ?_, isCont_high b2 k3, isCont_high b3 k4⟩
      split_ifs at k1 <;> omega
    · have k4n : (!utf8.isCont b3) = true := by simpa using k4
      rw [if_pos k4n]; exact Or.inl rfl
  · have k3n : (!utf8.isCont b2) = true := by simpa using k3
    rw [if_pos k3n]; exact Or.inl rfl

/-- The bytes `utf8.DecodeRune` takes at a byte from `0x80` on hold no quote
and no backslash, so what follows them is still well formed. -/
theorem ValidBody_drop_DecodeRune (c : Byte) (cs : List Byte) (hc : 128 ≤ c.val)
    (h : ValidBody (c :: cs)) :
    ValidBody ((c :: cs).drop (utf8.DecodeRune (c :: cs)).2) ∧
      1 ≤ (utf8.DecodeRune (c :: cs)).2 := by
  have h0 : ValidBody cs := ValidBody_tail_of_high c cs hc h
  have hlt : ¬ c.val < 128 := by omega
  have one : ∀ w : Nat × Nat, w.2 = 1 →
      ValidBody ((c :: cs).drop w.2) ∧ 1 ≤ w.2 := by
    intro w hw
    rw [hw]
    exact ⟨h0, le_refl _⟩
  simp only [utf8.DecodeRune, hlt, if_false]
  by_cases c1 : c.val < 194
  · rw [if_pos c1]; exact one _ rfl
  rw [if_neg c1]
  by_cases c2 : c.val < 224
  · rw [if_pos c2]
    rcases cs with _ | ⟨b1, r⟩
    · exact one _ rfl
    · rcases decode2_width c b1 with hw | ⟨hw, hb1⟩
      · exact one _ hw
      · simp only [hw]
        exact ⟨ValidBody_tail_of_high b1 r hb1 h0, by omega⟩
  rw [if_neg c2]
  by_cases c3 : c.val < 240
  · rw [if_pos c3]
    rcases cs with _ | ⟨b1, _ | ⟨b2, r⟩⟩
    · exact one _ rfl
    · exact one _ rfl
    · rcases decode3_width c b1 b2 with hw | ⟨hw, hb1, hb2⟩
      · exact one _ hw
      · simp only [hw]
        exact ⟨ValidBody_tail_of_high b2 r hb2 (ValidBody_tail_of_high b1 _ hb1 h0), by omega⟩
  rw [if_neg c3]
  by_cases c4 : c.val < 245
  · rw [if_pos c4]
    rcases cs with _ | ⟨b1, _ | ⟨b2, _ | ⟨b3, r⟩⟩⟩
    · exact one _ rfl
    · exact one _ rfl
    · exact one _ rfl
    · rcases decode4_width c b1 b2 b3 with hw | ⟨hw, hb1, hb2, hb3⟩
      · exact one _ hw
      · simp only [hw]
        exact ⟨ValidBody_tail_of_high b3 r hb3 (ValidBody_tail_of_high b2 _ hb2
          (ValidBody_tail_of_high b1 _ hb1 h0)), by omega⟩
  rw [if_neg c4]
  exact one _ rfl

set_option maxRecDepth 100000 in
theorem hexValue_isSome : ∀ c : Byte, isHexDigit c = true → (hexValue c).isSome = true := by
  decide

set_option maxRecDepth 100000 in
theorem isSimpleEscape_ne_u : ∀ e : Byte, isSimpleEscape e = true → e.val ≠ 117 := by
  decide

/-- When a `\u` escape follows in a well-formed text, the text after it is
well formed. -/
theorem ValidBody_drop_getu4 (cs : List Byte) (x : Nat) (h : ValidBody cs)
    (hg : getu4 cs = some x) : ValidBody (cs.drop 6) := by
  cases h with
  | nil => simp [getu4] at hg
  | plain c cs1 h92 _ _ _ =>
    unfold getu4 at hg
    split at hg
    · rename_i b u h1 h2 h3 h4 tl heq
      simp only [List.cons.injEq] at heq
      rw [← heq.1] at hg
      simp [h92] at hg
    · cases hg
  | escape e cs1 hs _ =>
    unfold getu4 at hg
    split at hg
    · rename_i b u h1 h2 h3 h4 tl heq
      simp only [List.cons.injEq] at heq
      rw [← heq.2.1] at hg
      simp [isSimpleEscape_ne_u e hs] at hg
    · cases hg
  | unicode h1 h2 h3 h4 cs1 _ _ _ _ hv => exact hv

theorem getu4_valid (h1 h2 h3 h4 : Byte) (cs : List Byte) (k1 : isHexDigit h1 = true)
    (k2 : isHexDigit h2 = true) (k3 : isHexDigit h3 = true) (k4 : isHexDigit h4 = true) :
    ∃ rr, getu4 (92 :: 117 :: h1 :: h2 :: h3 :: h4 :: cs) = some rr := by
  obtain ⟨a, ha⟩ := Option.isSome_iff_exists.mp (hexValue_isSome h1 k1)
  obtain ⟨b, hb⟩ := Option.isSome_iff_exists.mp (hexValue_isSome h2 k2)
  obtain ⟨c, hc⟩ := Option.isSome_iff_exists.mp (hexValue_isSome h3 k3)
  obtain ⟨d, hd⟩ := Option.isSome_iff_exists.mp (hexValue_isSome h4 k4)
  have e1 : (92 : Byte).val = 92 := rfl
  have e2 : (117 : Byte).val = 117 := rfl
  apply Option.isSome_iff_exists.mp
  simp [getu4, e1, e2, ha, hb, hc, hd]

/-- Go `unquoteBytes` succeeds on the text of every string literal the
scanner accepts. -/
theorem unquoteLoop_validBody : ∀ (n : Nat) (body : List Byte), body.length ≤ n →
    ValidBody body → ∀ fuel, body.length + 1 ≤ fuel → ∃ r, unquoteLoop fuel body = some r := by
  intro n
  induction n using Nat.strong_induction_on with
  | _ n ih =>
    intro body hlen hv fuel hfuel
    obtain ⟨f, rfl⟩ : ∃ f, fuel = f + 1 := ⟨fuel - 1, by omega⟩
    cases hv with
    | nil => exact ⟨[], by simp [unquoteLoop]⟩
    | plain c cs h92 h34 h32 hcs =>
      simp only [List.length_cons] at hlen hfuel
      have h32b : ¬ c.val < 32 := by omega
      by_cases h128 : c.val < 128
      · obtain ⟨r, hr⟩ := ih cs.length (by omega) cs (le_refl _) hcs f (by omega)
        apply Option.isSome_iff_exists.mp
        simp [unquoteLoop, h92, h34, h32b, h128, hr]
      · obtain ⟨hd, hd1⟩ := ValidBody_drop_DecodeRune c cs (by omega)
          (ValidBody.plain c cs h92 h34 h32 hcs)
        have hl : ((c :: cs).drop (utf8.DecodeRune (c :: cs)).2).length ≤ cs.length := by
          simp only [List.length_drop, List.length_cons]; omega
        obtain ⟨r, hr⟩ := ih _ (by omega) _ (le_refl _) hd f (by omega)
        apply Option.isSome_iff_exists.mp
        simp [unquoteLoop, h92, h34, h32b, h128, hr]
    | escape e cs hs hcs =>
      simp only [List.length_cons] at hlen hfuel
      obtain ⟨r, hr⟩ := ih cs.length (by omega) cs (le_refl _) hcs f (by omega)
      have e1 : (92 : Byte).val = 92 := rfl
      have hs2 : e.val = 98 ∨ e.val = 102 ∨ e.val = 110 ∨ e.val = 114 ∨ e.val = 116 ∨
          e.val = 92 ∨ e.val = 47 ∨ e.val = 34 := by
        simpa [isSimpleEscape, or_assoc] using hs
      apply Option.isSome_iff_exists.mp
      rcases hs2 with h | h | h | h | h | h | h | h <;>
        simp [unquoteLoop, e1, h, hr]
    | unicode h1 h2 h3 h4 cs k1 k2 k3 k4 hcs =>
      simp only [List.length_cons] at hlen hfuel
      obtain ⟨rr, hrr⟩ := getu4_valid h1 h2 h3 h4 cs k1 k2 k3 k4
      obtain ⟨r, hr⟩ := ih cs.length (by omega) cs (le_refl _) hcs f (by omega)
      have e1 : (92 : Byte).val = 92 := rfl
      have e2 : (117 : Byte).val = 117 := rfl
      have hstep : unquoteLoop (f + 1) (92 :: 117 :: h1 :: h2 :: h3 :: h4 :: cs) =
          if utf16.IsSurrogate rr then
            if utf16.DecodeRune rr (getu4 cs) ≠ 65533 then
              (unquoteLoop f (cs.drop 6)).map (utf8.EncodeRune (utf16.DecodeRune rr (getu4 cs)) ++ ·)
            else (unquoteLoop f cs).map (utf8.EncodeRune 65533 ++ ·)
          else (unquoteLoop f cs).map (utf8.EncodeRune rr ++ ·) := by
        simp [unquoteLoop, e1, e2, hrr]
      rw [hstep]
      split_ifs with hsur hdec
      · have hg : ∃ x, getu4 cs = some x := by
          cases hgc : getu4 cs with
          | none => rw [hgc] at hdec; simp [utf16.DecodeRune] at hdec
          | some x => exact ⟨x, rfl⟩
        obtain ⟨x, hx⟩ := hg
        have hv6 := ValidBody_drop_getu4 cs x hcs hx
        have hl : (cs.drop 6).length ≤ cs.length := by
          simp only [List.length_drop]; omega
        obtain ⟨r6, hr6⟩ := ih _ (by omega) _ (le_refl _) hv6 f (by omega)
        exact ⟨_, by rw [hr6]; rfl⟩
      · exact ⟨_, by rw [hr]; rfl⟩
      · exact ⟨_, by rw [hr]; rfl⟩

theorem unquote_validBody (body : List Byte) (h : ValidBody body) :
    ∃ r, unquote body = some r :=
  unquoteLoop_validBody body.length body (le_refl _) h _ (le_refl _)

end json
/-! ### Values, arrays and objects -/

namespace json

set_option maxRecDepth 100000 in
theorem isDigit_facts : ∀ c : Byte, isDigit c = true →
    isNumberByte c = true ∧ (c.val = 48 ∨ (49 ≤ c.val ∧ c.val ≤ 57)) ∧ c.val ≠ 45 := by
  decide

set_option maxRecDepth 100000 in
theorem not_isDigit_facts : ∀ c : Byte, isDigit c = false →
    c.val ≠ 48 ∧ ¬ (49 ≤ c.val ∧ c.val ≤ 57) := by
  decide

set_option maxRecDepth 100000 in
theorem isNumberByte_minus : ∀ c : Byte, c.val = 45 → isNumberByte c = true := by
  decide

theorem walk_value_step (f : Nat) (hE : WalksElems f) (hM : WalksMembers f) :
    WalksValue (f + 1) := by
  intro ps bs hacc hf
  obtain ⟨c, cs, hsk, hsp, hlen, hacc1⟩ :=
    Acc_skipSpace Step.stateBeginValue ps (Or.inl rfl) bs hacc
  simp only [List.length_cons] at hlen
  simp only [walk, hsk]
  by_cases h123 : c.val = 123
  · simp only [h123, if_true]
    by_cases hdepth : ps.length + 1 ≤ maxNestingDepth
    · have hacc2 : Acc Step.stateBeginStringOrEmpty (PState.parseObjectKey :: ps) cs := by
        simpa [Acc, checkValidLoop, scanner.stepByte, stateBeginValue, hsp, h123,
          scanner.pushParseState, hdepth] using hacc1
      obtain ⟨d, ds, hsk2, hsp2, hlen2, hacc3⟩ :=
        Acc_skipSpace Step.stateBeginStringOrEmpty _ (Or.inr (Or.inr (Or.inr (Or.inl rfl))))
          cs hacc2
      simp only [List.length_cons] at hlen2
      simp only [hsk2]
      by_cases h125 : d.val = 125
      · simp only [h125, if_true]
        refine ⟨_, _, rfl, by omega, ?_⟩
        simpa [Acc, checkValidLoop, scanner.stepByte, stateBeginStringOrEmpty, hsp2, h125,
          stateEndValue, checkValidLoop_pop] using hacc3
      · simp only [h125, if_false]
        have hacc4 : Acc Step.stateBeginString (PState.parseObjectKey :: ps) (d :: ds) := by
          simpa [Acc, checkValidLoop, scanner.stepByte, stateBeginStringOrEmpty, hsp2, h125,
            stateBeginString] using hacc3
        obtain ⟨v, rest, hw, hl, ha⟩ := hM ps (d :: ds) [] hacc4
          (by simp only [List.length_cons]; omega)
        simp only [List.length_cons] at hl
        exact ⟨v, rest, hw, by omega, ha⟩
    · exfalso
      simp [Acc, checkValidLoop, scanner.stepByte, stateBeginValue, hsp, h123,
        scanner.pushParseState, hdepth, scanner.error] at hacc1
  simp only [h123, if_false]
  by_cases h91 : c.val = 91
  · simp only [h91, if_true]
    by_cases hdepth : ps.length + 1 ≤ maxNestingDepth
    · have hacc2 : Acc Step.stateBeginValueOrEmpty (PState.parseArrayValue :: ps) cs := by
        simpa [Acc, checkValidLoop, scanner.stepByte, stateBeginValue, hsp, h91,
          scanner.pushParseState, hdepth] using hacc1
      obtain ⟨d, ds, hsk2, hsp2, hlen2, hacc3⟩ :=
        Acc_skipSpace Step.stateBeginValueOrEmpty _ (Or.inr (Or.inl rfl)) cs hacc2
      simp only [List.length_cons] at hlen2
      simp only [hsk2]
      by_cases h93 : d.val = 93
      · simp only [h93, if_true]
        refine ⟨_, _, rfl, by omega, ?_⟩
        simpa [Acc, checkValidLoop, scanner.stepByte, stateBeginValueOrEmpty, hsp2, h93,
          stateEndValue, checkValidLoop_pop] using hacc3
      · simp only [h93, if_false]
        have hacc4 : Acc Step.stateBeginValue (PState.parseArrayValue :: ps) (d :: ds) := by
          simpa [Acc, checkValidLoop, scanner.stepByte, stateBeginValueOrEmpty, hsp2, h93,
            stateBeginValue, scanner.pushParseState, scanner.error] using hacc3
        obtain ⟨v, rest, hw, hl, ha⟩ := hE ps (d :: ds) [] hacc4
          (by simp only [List.length_cons]; omega)
        simp only [List.length_cons] at hl
        exact ⟨v, rest, hw, by omega, ha⟩
    · exfalso
      simp [Acc, checkValidLoop, scanner.stepByte, stateBeginValue, hsp, h91,
        scanner.pushParseState, hdepth, scanner.error] at hacc1
  simp only [h91, if_false]
  by_cases h34 : c.val = 34
  · simp only [h34, if_true]
    have hacc2 : Acc Step.stateInString ps cs := by
      simpa [Acc, checkValidLoop, scanner.stepByte, stateBeginValue, hsp, h34] using hacc1
    obtain ⟨body, rest, hse, hvb, hl, ha⟩ := Acc_string ps cs.length cs (le_refl _) hacc2
    obtain ⟨r, hr⟩ := unquote_validBody body hvb
    rw [hse]
    simp only [hr]
    exact ⟨_, _, rfl, by omega, ha⟩
  simp only [h34, if_false]
  by_cases h116 : c.val = 116
  · simp only [h116, if_true]
    have hacc2 : Acc Step.stateT ps cs := by
      simpa [Acc, checkValidLoop, scanner.stepByte, stateBeginValue, hsp, h116] using hacc1
    obtain ⟨ha, hl⟩ := Acc_true ps cs hacc2
    exact ⟨_, _, rfl, by omega, ha⟩
  simp only [h116, if_false]
  by_cases h102 : c.val = 102
  · simp only [h102, if_true]
    have hacc2 : Acc Step.stateF ps cs := by
      simpa [Acc, checkValidLoop, scanner.stepByte, stateBeginValue, hsp, h102] using hacc1
    obtain ⟨ha, hl⟩ := Acc_false ps cs hacc2
    exact ⟨_, _, rfl, by omega, ha⟩
  simp only [h102, if_false]
  by_cases h110 : c.val = 110
  · simp only [h110, if_true]
    have hacc2 : Acc Step.stateN ps cs := by
      simpa [Acc, checkValidLoop, scanner.stepByte, stateBeginValue, hsp, h110] using hacc1
    obtain ⟨ha, hl⟩ := Acc_null ps cs hacc2
    exact ⟨_, _, rfl, by omega, ha⟩
  simp only [h110, if_false]
  by_cases hnum : c.val = 45 ∨ isDigit c = true
  · rw [if_pos hnum]
    have hnb : isNumberByte c = true := by
      rcases hnum with h | h
      · exact isNumberByte_minus c h
      · exact (isDigit_facts c h).1
    have hst : ∃ st, isNumState st = true ∧ Acc st ps cs := by
      rcases hnum with h45 | hd
      · exact ⟨Step.stateNeg, rfl, by
          simpa [Acc, checkValidLoop, scanner.stepByte, stateBeginValue, hsp, h45] using hacc1⟩
      · obtain ⟨_, h2, h45⟩ := isDigit_facts c hd
        rcases h2 with h48 | h49
        · exact ⟨Step.state0, rfl, by
            simpa [Acc, checkValidLoop, scanner.stepByte, stateBeginValue, hsp, h48]
              using hacc1⟩
        · have h48 : c.val ≠ 48 := by omega
          exact ⟨Step.state1, rfl, by
            simpa [Acc, checkValidLoop, scanner.stepByte, stateBeginValue, hsp, h123, h91, h34,
              h45, h48, h116, h102, h110, h49] using hacc1⟩
    obtain ⟨st, hst1, hacc2⟩ := hst
    obtain ⟨ha, hl⟩ := Acc_number ps cs st hst1 hacc2
    refine ⟨_, _, rfl, ?_, ?_⟩
    · simp only [numberEnd, hnb, if_true]; omega
    · simpa only [numberEnd, hnb, if_true] using ha
  · exfalso
    have h45 : c.val ≠ 45 := fun h => hnum (Or.inl h)
    have hd : isDigit c = false := by
      cases hdc : isDigit c with
      | true => exact absurd (Or.inr hdc) hnum
      | false => rfl
    obtain ⟨h48, h49⟩ := not_isDigit_facts c hd
    simp [Acc, checkValidLoop, scanner.stepByte, stateBeginValue, hsp, h123, h91, h34,
      h45, h48, h116, h102, h110, h49, scanner.error] at hacc1

theorem walk_elems_step (f : Nat) (hV : WalksValue f) (hE : WalksElems f) :
    WalksElems (f + 1) := by
  intro ps bs acc hacc hf
  obtain ⟨v, rest, hw, hl, ha⟩ := hV (PState.parseArrayValue :: ps) bs hacc (by omega)
  obtain ⟨c, cs, hsk, hsp, hlen, hacc1⟩ :=
    Acc_skipSpace Step.stateEndValue (PState.parseArrayValue :: ps)
      (Or.inr (Or.inr (Or.inr (Or.inr ⟨rfl, by simp⟩)))) rest ha
  simp only [List.length_cons] at hlen
  simp only [walk, hw, hsk]
  by_cases h44 : c.val = 44
  · simp only [h44, if_true]
    have hacc2 : Acc Step.stateBeginValue (PState.parseArrayValue :: ps) cs := by
      simpa [Acc, checkValidLoop, scanner.stepByte, stateEndValue, hsp, h44] using hacc1
    obtain ⟨v2, rest2, hw2, hl2, ha2⟩ := hE ps cs (v :: acc) hacc2 (by omega)
    exact ⟨v2, rest2, hw2, by omega, ha2⟩
  simp only [h44, if_false]
  by_cases h93 : c.val = 93
  · simp only [h93, if_true]
    refine ⟨_, _, rfl, by omega, ?_⟩
    simpa [Acc, checkValidLoop, scanner.stepByte, stateEndValue, hsp, h93,
      checkValidLoop_pop] using hacc1
  · exfalso
    simp [Acc, checkValidLoop, scanner.stepByte, stateEndValue, hsp, h44, h93,
      scanner.error] at hacc1

theorem walk_members_step (f : Nat) (hV : WalksValue f) (hM : WalksMembers f) :
    WalksMembers (f + 1) := by
  intro ps bs acc hacc hf
  obtain ⟨q, qs, hsk, hsp, hlen, hacc1⟩ :=
    Acc_skipSpace Step.stateBeginString (PState.parseObjectKey :: ps)
      (Or.inr (Or.inr (Or.inl rfl))) bs hacc
  simp only [List.length_cons] at hlen
  simp only [walk, hsk]
  by_cases h34 : q.val = 34
  · simp only [h34, if_true]
    have hacc2 : Acc Step.stateInString (PState.parseObjectKey :: ps) qs := by
      simpa [Acc, checkValidLoop, scanner.stepByte, stateBeginString, hsp, h34] using hacc1
    obtain ⟨body, rest, hse, hvb, hl, ha⟩ := Acc_string _ qs.length qs (le_refl _) hacc2
    obtain ⟨key, hkey⟩ := unquote_validBody body hvb
    rw [hse]
    simp only [hkey]
    obtain ⟨c, cs, hsk2, hsp2, hlen2, hacc3⟩ :=
      Acc_skipSpace Step.stateEndValue (PState.parseObjectKey :: ps)
        (Or.inr (Or.inr (Or.inr (Or.inr ⟨rfl, by simp⟩)))) rest ha
    simp only [List.length_cons] at hlen2
    simp only [hsk2]
    by_cases h58 : c.val = 58
    · simp only [h58, if_true]
      have hacc4 : Acc Step.stateBeginValue (PState.parseObjectValue :: ps) cs := by
        simpa [Acc, checkValidLoop, scanner.stepByte, stateEndValue, hsp2, h58] using hacc3
      obtain ⟨v, rest2, hw, hl2, ha2⟩ := hV _ cs hacc4 (by omega)
      simp only [hw]
      obtain ⟨d, ds, hsk3, hsp3, hlen3, hacc5⟩ :=
        Acc_skipSpace Step.stateEndValue (PState.parseObjectValue :: ps)
          (Or.inr (Or.inr (Or.inr (Or.inr ⟨rfl, by simp⟩)))) rest2 ha2
      simp only [List.length_cons] at hlen3
      simp only [hsk3]
      by_cases h44 : d.val = 44
      · simp only [h44, if_true]
        have hacc6 : Acc Step.stateBeginString (PState.parseObjectKey :: ps) ds := by
          simpa [Acc, checkValidLoop, scanner.stepByte, stateEndValue, hsp3, h44] using hacc5
        obtain ⟨v3, rest3, hw3, hl3, ha3⟩ := hM ps ds ((key, v) :: acc) hacc6 (by omega)
        exact ⟨v3, rest3, hw3, by omega, ha3⟩
      simp only [h44, if_false]
      by_cases h125 : d.val = 125
      · simp only [h125, if_true]
        refine ⟨_, _, rfl, by omega, ?_⟩
        simpa [Acc, checkValidLoop, scanner.stepByte, stateEndValue, hsp3, h125,
          checkValidLoop_pop] using hacc5
      · exfalso
        simp [Acc, checkValidLoop, scanner.stepByte, stateEndValue, hsp3, h44, h125,
          scanner.error] at hacc5
    · exfalso
      simp [Acc, checkValidLoop, scanner.stepByte, stateEndValue, hsp2, h58,
        scanner.error] at hacc3
  · exfalso
    simp [Acc, checkValidLoop, scanner.stepByte, stateBeginString, hsp, h34,
      scanner.error] at hacc1

theorem walks (fuel : Nat) : WalksValue fuel ∧ WalksElems fuel ∧ WalksMembers fuel := by
  induction fuel with
  | zero =>
    refine ⟨?_, ?_, ?_⟩
    · intro ps bs _ hf; omega
    · intro ps bs acc _ hf; omega
    · intro ps bs acc _ hf; omega
  | succ f ih =>
    exact ⟨walk_value_step f ih.2.1 ih.2.2, walk_elems_step f ih.1 ih.2.1,
      walk_members_step f ih.1 ih.2.2⟩

/-- The decoder's walk reads a value from every input that `checkValid`
accepts: the panic "JSON decoder out of sync" cannot happen. -/
theorem walk_of_checkValid (data : List Byte) (h : checkValid data = none) :
    ∃ v rest, walk (walkFuel data) Mode.value data = some (v, rest) := by
  obtain ⟨v, rest, hw, _, _⟩ := (walks (walkFuel data)).1 [] data h (le_refl _)
  exact ⟨v, rest, hw⟩

/-- A body holds a value exactly when `checkValid` accepts it. -/
theorem parse_isSome_iff (data : List Byte) :
    (parse data).isSome = true ↔ checkValid data = none := by
  unfold parse
  constructor
  · intro h
    split at h
    · simp at h
    · assumption
  · intro h
    obtain ⟨v, rest, hw⟩ := walk_of_checkValid data h
    simp [h, hw]

/-- The result of `Unmarshal` is never the decoder's panic. -/
theorem Unmarshal_ne_outOfSync (data : List Byte) (rd : ResultData) :
    (Unmarshal data rd).2 ≠ some Error.outOfSync := by
  unfold Unmarshal
  split
  · simp
  · rename_i hc
    obtain ⟨v, rest, hw⟩ := walk_of_checkValid data hc
    rw [hw]
    cases (storeResult v rd none).2 <;> simp

end json
/-! ## String literals: the text between the quotes and the string it denotes -/

theorem byte_ofNat_val (k : Nat) : (Fin.ofNat k : Byte).val = k % 256 := rfl

theorem Char_toNat_valid (c : Char) :
    c.toNat < 55296 ∨ (57343 < c.toNat ∧ c.toNat < 1114112) := by
  have h := c.valid
  simp only [UInt32.isValidChar, Nat.isValidChar] at h
  exact h

namespace utf8

/-- Go `utf8.EncodeRune` writes a character as its UTF-8 encoding. -/
theorem EncodeRune_char (c : Char) : EncodeRune c.toNat = utf8Bytes c := by
  have hv := Char_toNat_valid c
  simp only [EncodeRune, utf8Bytes]
  split_ifs <;> first | rfl | omega

/-- The UTF-8 encoding of a character outside ASCII starts with a byte from
`0x80` on. -/
theorem utf8Bytes_head (c : Char) (h : 128 ≤ c.toNat) :
    ∃ p0 tl, utf8Bytes c = p0 :: tl ∧ 128 ≤ p0.val := by
  have hv := Char_toNat_valid c
  simp only [utf8Bytes]
  split_ifs
  · omega
  · exact ⟨_, _, rfl, by rw [byte_ofNat_val]; omega⟩
  · exact ⟨_, _, rfl, by rw [byte_ofNat_val]; omega⟩
  · exact ⟨_, _, rfl, by rw [byte_ofNat_val]; omega⟩

/-- Go `utf8.DecodeRune` reads the UTF-8 encoding of a character outside
ASCII back as that character. -/
theorem DecodeRune_char (c : Char) (x : List Byte) (h : 128 ≤ c.toNat) :
    DecodeRune (utf8Bytes c ++ x) = (c.toNat, (utf8Bytes c).length) := by
  have hv := Char_toNat_valid c
  simp only [utf8Bytes]
  split_ifs with h1 h2 h3
  · omega
  · simp only [List.cons_append, List.nil_append, DecodeRune, decode2, isCont, byte_ofNat_val,
      List.length_cons, List.length_nil]
    have e1 : ¬ (192 + c.toNat / 64) % 256 < 128 := by omega
    have e2 : ¬ (192 + c.toNat / 64) % 256 < 194 := by omega
    have e3 : (192 + c.toNat / 64) % 256 < 224 := by omega
    have e4 : (decide (128 ≤ (128 + c.toNat % 64) % 256) &&
        decide ((128 + c.toNat % 64) % 256 ≤ 191)) = true := by
      simp only [Bool.and_eq_true, decide_eq_true_eq]; omega
    simp only [e1, e2, e3, e4, if_true, if_false]
    refine Prod.ext ?_ rfl
    simp only
    omega
  · simp only [List.cons_append, List.nil_append, DecodeRune, decode3, isCont, byte_ofNat_val,
      List.length_cons, List.length_nil]
    have e1 : ¬ (224 + c.toNat / 4096) % 256 < 128 := by omega
    have e2 : ¬ (224 + c.toNat / 4096) % 256 < 194 := by omega
    have e3 : ¬ (224 + c.toNat / 4096) % 256 < 224 := by omega
    have e4 : (224 + c.toNat / 4096) % 256 < 240 := by omega
    have e5 : ¬ (128 + c.toNat / 64 % 64) % 256 <
        (if (224 + c.toNat / 4096) % 256 = 224 then 160 else 128) := by
      split_ifs <;> omega
    have e6 : ¬ (if (224 + c.toNat / 4096) % 256 = 237 then 159 else 191) <
        (128 + c.toNat / 64 % 64) % 256 := by
      split_ifs <;> omega
    have e7 : (decide (128 ≤ (128 + c.toNat % 64) % 256) &&
        decide ((128 + c.toNat % 64) % 256 ≤ 191)) = true := by
      simp only [Bool.and_eq_true, decide_eq_true_eq]; omega
    simp only [e1, e2, e3, e4, e5, e6, e7, if_true, if_false, Bool.not_true,
      Bool.false_eq_true]
    refine Prod.ext ?_ rfl
    simp only
    omega
  · simp only [List.cons_append, List.nil_append, DecodeRune, decode4, isCont, byte_ofNat_val,
      List.length_cons, List.length_nil]
    have e1 : ¬ (240 + c.toNat / 262144) % 256 < 128 := by omega
    have e2 : ¬ (240 + c.toNat / 262144) % 256 < 194 := by omega
    have e3 : ¬ (240 + c.toNat / 262144) % 256 < 224 := by omega
    have e4 : ¬ (240 + c.toNat / 262144) % 256 < 240 := by omega
    have e4b : (240 + c.toNat / 262144) % 256 < 245 := by omega
    have e5 : ¬ (128 + c.toNat / 4096 % 64) % 256 <
        (if (240 + c.toNat / 262144) % 256 = 240 then 144 else 128) := by
      split_ifs <;> omega
    have e6 : ¬ (if (240 + c.toNat / 262144) % 256 = 244 then 143 else 191) <
        (128 + c.toNat / 4096 % 64) % 256 := by
      split_ifs <;> omega
    have e7 : (decide (128 ≤ (128 + c.toNat / 64 % 64) % 256) &&
        decide ((128 + c.toNat / 64 % 64) % 256 ≤ 191)) = true := by
      simp only [Bool.and_eq_true, decide_eq_true_eq]; omega
    have e8 : (decide (128 ≤ (128 + c.toNat % 64) % 256) &&
        decide ((128 + c.toNat % 64) % 256 ≤ 191)) = true := by
      simp only [Bool.and_eq_true, decide_eq_true_eq]; omega
    simp only [e1, e2, e3, e4, e4b, e5, e6, e7, e8, if_true, if_false, Bool.not_true,
      Bool.false_eq_true]
    refine Prod.ext ?_ rfl
    simp only
    omega

/-- The bytes of a character from U+0020 on other than `"` and `\` are from
`0x20` on and are neither `"` nor `\`. -/
theorem utf8Bytes_plain (c : Char) (h32 : 32 ≤ c.toNat) (h34 : c.toNat ≠ 34)
    (h92 : c.toNat ≠ 92) :
    ∀ b ∈ utf8Bytes c, 32 ≤ b.val ∧ b.val ≠ 34 ∧ b.val ≠ 92 := by
  have hv := Char_toNat_valid c
  intro b hb
  simp only [utf8Bytes] at hb
  split_ifs at hb <;>
    simp only [List.mem_cons, List.mem_singleton, List.not_mem_nil, or_false] at hb
  · subst hb; rw [byte_ofNat_val]; omega
  · rcases hb with rfl | rfl <;> rw [byte_ofNat_val] <;> omega
  · rcases hb with rfl | rfl | rfl <;> rw [byte_ofNat_val] <;> omega
  · rcases hb with rfl | rfl | rfl | rfl <;> rw [byte_ofNat_val] <;> omega

theorem utf8Bytes_ascii (c : Char) (h : c.toNat < 128) :
    ∃ b : Byte, utf8Bytes c = [b] ∧ b.val = c.toNat := by
  refine ⟨Fin.ofNat c.toNat, by simp [utf8Bytes, h], ?_⟩
  rw [byte_ofNat_val]; omega

theorem utf8Bytes_length (c : Char) :
    1 ≤ (utf8Bytes c).length := by
  simp only [utf8Bytes]
  split_ifs <;> simp

end utf8

namespace json

set_option maxRecDepth 100000 in
theorem hexValue_eq_hexDigit : ∀ b : Byte, hexValue b = spec.hexDigit b := by
  decide

set_option maxRecDepth 100000 in
theorem hexDigit_facts : ∀ b : Byte, ∀ x, spec.hexDigit b = some x →
    isHexDigit b = true ∧ x < 16 ∧ b.val ≠ 92 ∧ b.val ≠ 34 := by
  decide

theorem hex4_parts (h1 h2 h3 h4 : Byte) (n : Nat) (h : spec.hex4 h1 h2 h3 h4 = some n) :
    ∃ a b c d, spec.hexDigit h1 = some a ∧ spec.hexDigit h2 = some b ∧
      spec.hexDigit h3 = some c ∧ spec.hexDigit h4 = some d ∧
      n = a * 4096 + b * 256 + c * 16 + d := by
  unfold spec.hex4 at h
  split at h
  · rename_i a b c d ha hb hc hd
    simp only [Option.some.injEq] at h
    exact ⟨a, b, c, d, ha, hb, hc, hd, by omega⟩
  · cases h

theorem getu4_of_hex4 (h1 h2 h3 h4 : Byte) (n : Nat) (x : List Byte)
    (h : spec.hex4 h1 h2 h3 h4 = some n) :
    getu4 (92 :: 117 :: h1 :: h2 :: h3 :: h4 :: x) = some n := by
  obtain ⟨a, b, c, d, ha, hb, hc, hd, hn⟩ := hex4_parts h1 h2 h3 h4 n h
  have e1 : (92 : Byte).val = 92 := rfl
  have e2 : (117 : Byte).val = 117 := rfl
  simp [getu4, e1, e2, hexValue_eq_hexDigit, ha, hb, hc, hd, hn]

set_option maxRecDepth 100000 in
theorem escapeValue_table : ∀ e : Byte, spec.escapeValue e = none ∨
    (isSimpleEscape e = true ∧
      ((e.val = 34 ∨ e.val = 92 ∨ e.val = 47) ∧ spec.escapeValue e = some e ∨
        e.val = 98 ∧ spec.escapeValue e = some 8 ∨
        e.val = 102 ∧ spec.escapeValue e = some 12 ∨
        e.val = 110 ∧ spec.escapeValue e = some 10 ∨
        e.val = 114 ∧ spec.escapeValue e = some 13 ∨
        e.val = 116 ∧ spec.escapeValue e = some 9)) := by
  decide

theorem escapeValue_facts (e b : Byte) (h : spec.escapeValue e = some b) :
    isSimpleEscape e = true ∧
    ((e.val = 34 ∨ e.val = 92 ∨ e.val = 47) ∧ b = e ∨ e.val = 98 ∧ b = 8 ∨
      e.val = 102 ∧ b = 12 ∨ e.val = 110 ∧ b = 10 ∨ e.val = 114 ∧ b = 13 ∨
      e.val = 116 ∧ b = 9) := by
  rcases escapeValue_table e with hn | ⟨hs, ht⟩
  · rw [hn] at h; cases h
  · refine ⟨hs, ?_⟩
    rw [h] at ht
    simp only [Option.some.injEq] at ht
    exact ht

/-! ### The scanner accepts the literal -/

theorem Acc_inString_plain (ps : List PState) (b : Byte) (x : List Byte) (h32 : 32 ≤ b.val)
    (h34 : b.val ≠ 34) (h92 : b.val ≠ 92) (h : Acc Step.stateInString ps x) :
    Acc Step.stateInString ps (b :: x) := by
  have h32b : ¬ b.val < 32 := by omega
  simpa [Acc, checkValidLoop, scanner.stepByte, stateInString, h34, h92, h32b] using h

theorem Acc_inString_plains (ps : List PState) (l x : List Byte)
    (hl : ∀ b ∈ l, 32 ≤ b.val ∧ b.val ≠ 34 ∧ b.val ≠ 92) (h : Acc Step.stateInString ps x) :
    Acc Step.stateInString ps (l ++ x) := by
  induction l with
  | nil => exact h
  | cons b l ih =>
    have hb := hl b (List.mem_cons_self _ _)
    exact Acc_inString_plain ps b _ hb.1 hb.2.1 hb.2.2
      (ih fun c hc => hl c (List.mem_cons_of_mem _ hc))

theorem Acc_inString_quote (ps : List PState) (rest : List Byte)
    (h : Acc Step.stateEndValue ps rest) : Acc Step.stateInString ps (34 :: rest) := by
  have e : (34 : Byte).val = 34 := rfl
  simpa [Acc, checkValidLoop, scanner.stepByte, stateInString, e] using h

theorem Acc_inString_escape (ps : List PState) (e : Byte) (x : List Byte)
    (he : isSimpleEscape e = true) (h : Acc Step.stateInString ps x) :
    Acc Step.stateInString ps (92 :: e :: x) := by
  have e92 : (92 : Byte).val = 92 := rfl
  have hs2 : e.val = 98 ∨ e.val = 102 ∨ e.val = 110 ∨ e.val = 114 ∨ e.val = 116 ∨
      e.val = 92 ∨ e.val = 47 ∨ e.val = 34 := by
    simpa [isSimpleEscape, or_assoc] using he
  simpa [Acc, checkValidLoop, scanner.stepByte, stateInString, stateInStringEsc, e92, hs2]
    using h

theorem Acc_inString_unicode (ps : List PState) (h1 h2 h3 h4 : Byte) (x : List Byte)
    (k1 : isHexDigit h1 = true) (k2 : isHexDigit h2 = true) (k3 : isHexDigit h3 = true)
    (k4 : isHexDigit h4 = true) (h : Acc Step.stateInString ps x) :
    Acc Step.stateInString ps (92 :: 117 :: h1 :: h2 :: h3 :: h4 :: x) := by
  have e92 : (92 : Byte).val = 92 := rfl
  have e117 : (117 : Byte).val = 117 := rfl
  simpa [Acc, checkValidLoop, scanner.stepByte, stateInString, stateInStringEsc, stateHex, e92,
    e117, k1, k2, k3, k4] using h

theorem hex4_isHexDigit (h1 h2 h3 h4 : Byte) (n : Nat) (h : spec.hex4 h1 h2 h3 h4 = some n) :
    isHexDigit h1 = true ∧ isHexDigit h2 = true ∧ isHexDigit h3 = true ∧
      isHexDigit h4 = true := by
  obtain ⟨a, b, c, d, ha, hb, hc, hd, _⟩ := hex4_parts h1 h2 h3 h4 n h
  exact ⟨(hexDigit_facts h1 a ha).1, (hexDigit_facts h2 b hb).1, (hexDigit_facts h3 c hc).1,
    (hexDigit_facts h4 d hd).1⟩

/-- The scanner accepts a well-formed literal up to its closing quote. -/
theorem Acc_literal (t : List Byte) (s : GoString) (hl : spec.Literal t s) :
    ∀ (ps : List PState) (rest : List Byte), Acc Step.stateEndValue ps rest →
      Acc Step.stateInString ps (t ++ 34 :: rest) := by
  induction hl with
  | nil => intro ps rest h; exact Acc_inString_quote ps rest h
  | char c t s h32 h34 h92 _ ih =>
    intro ps rest h
    rw [List.append_assoc]
    exact Acc_inString_plains ps _ _ (utf8.utf8Bytes_plain c h32 h34 h92) (ih ps rest h)
  | escape e b t s he _ ih =>
    intro ps rest h
    exact Acc_inString_escape ps e _ (escapeValue_facts e b he).1 (ih ps rest h)
  | unicode h1 h2 h3 h4 c t s hh _ ih =>
    intro ps rest h
    obtain ⟨k1, k2, k3, k4⟩ := hex4_isHexDigit h1 h2 h3 h4 _ hh
    exact Acc_inString_unicode ps h1 h2 h3 h4 _ k1 k2 k3 k4 (ih ps rest h)
  | pair h1 h2 h3 h4 l1 l2 l3 l4 hi lo c t s hh hl _ _ _ _ _ _ ih =>
    intro ps rest h
    obtain ⟨k1, k2, k3, k4⟩ := hex4_isHexDigit h1 h2 h3 h4 _ hh
    obtain ⟨j1, j2, j3, j4⟩ := hex4_isHexDigit l1 l2 l3 l4 _ hl
    exact Acc_inString_unicode ps h1 h2 h3 h4 _ k1 k2 k3 k4
      (Acc_inString_unicode ps l1 l2 l3 l4 _ j1 j2 j3 j4 (ih ps rest h))

/-! ### The decoder finds the end of the literal -/

theorem stringEnd_plains (l x : List Byte) (hl : ∀ b ∈ l, b.val ≠ 34 ∧ b.val ≠ 92) :
    stringEnd false (l ++ x) = (l ++ (stringEnd false x).1, (stringEnd false x).2) := by
  induction l with
  | nil => rfl
  | cons b l ih =>
    have hb := hl b (List.mem_cons_self _ _)
    rw [List.cons_append, stringEnd_plain b _ hb.2 hb.1,
      ih fun c hc => hl c (List.mem_cons_of_mem _ hc)]
    rfl

theorem stringEnd_unicode (h1 h2 h3 h4 : Byte) (x : List Byte)
    (k1 : isHexDigit h1 = true) (k2 : isHexDigit h2 = true) (k3 : isHexDigit h3 = true)
    (k4 : isHexDigit h4 = true) :
    stringEnd false (92 :: 117 :: h1 :: h2 :: h3 :: h4 :: x) =
      (92 :: 117 :: h1 :: h2 :: h3 :: h4 :: (stringEnd false x).1, (stringEnd false x).2) := by
  rw [stringEnd_escape 92 117 _ rfl,
    stringEnd_plain h1 _ (isHexDigit_facts h1 k1).1 (isHexDigit_facts h1 k1).2.1,
    stringEnd_plain h2 _ (isHexDigit_facts h2 k2).1 (isHexDigit_facts h2 k2).2.1,
    stringEnd_plain h3 _ (isHexDigit_facts h3 k3).1 (isHexDigit_facts h3 k3).2.1,
    stringEnd_plain h4 _ (isHexDigit_facts h4 k4).1 (isHexDigit_facts h4 k4).2.1]

/-- The decoder ends a well-formed literal at its closing quote. -/
theorem stringEnd_literal (t : List Byte) (s : GoString) (hl : spec.Literal t s)
    (rest : List Byte) : stringEnd false (t ++ 34 :: rest) = (t, rest) := by
  induction hl with
  | nil =>
    have e : (34 : Byte).val = 34 := rfl
    simp [stringEnd, e]
  | char c t s h32 h34 h92 _ ih =>
    rw [List.append_assoc, stringEnd_plains _ _ (fun b hb =>
      ⟨(utf8.utf8Bytes_plain c h32 h34 h92 b hb).2.1,
       (utf8.utf8Bytes_plain c h32 h34 h92 b hb).2.2⟩), ih]
  | escape e b t s he _ ih =>
    rw [List.cons_append, List.cons_append, stringEnd_escape 92 e _ rfl, ih]
  | unicode h1 h2 h3 h4 c t s hh _ ih =>
    obtain ⟨k1, k2, k3, k4⟩ := hex4_isHexDigit h1 h2 h3 h4 _ hh
    simp only [List.cons_append]
    rw [stringEnd_unicode h1 h2 h3 h4 _ k1 k2 k3 k4, ih]
  | pair h1 h2 h3 h4 l1 l2 l3 l4 hi lo c t s hh hl _ _ _ _ _ _ ih =>
    obtain ⟨k1, k2, k3, k4⟩ := hex4_isHexDigit h1 h2 h3 h4 _ hh
    obtain ⟨j1, j2, j3, j4⟩ := hex4_isHexDigit l1 l2 l3 l4 _ hl
    simp only [List.cons_append]
    rw [stringEnd_unicode h1 h2 h3 h4 _ k1 k2 k3 k4,
      stringEnd_unicode l1 l2 l3 l4 _ j1 j2 j3 j4, ih]

/-! ### The decoder reads the literal as the string it denotes -/

/-- Go `unquoteBytes` gives the string a well-formed literal denotes. -/
theorem unquoteLoop_literal (t : List Byte) (s : GoString) (hl : spec.Literal t s) :
    ∀ fuel, t.length + 1 ≤ fuel → unquoteLoop fuel t = some s := by
  induction hl with
  | nil =>
    intro fuel hf
    obtain ⟨f, rfl⟩ : ∃ f, fuel = f + 1 := ⟨fuel - 1, by omega⟩
    simp [unquoteLoop]
  | char c t s h32 h34 h92 _ ih =>
    intro fuel hf
    obtain ⟨f, rfl⟩ : ∃ f, fuel = f + 1 := ⟨fuel - 1, by omega⟩
    have hlen := utf8.utf8Bytes_length c
    simp only [List.length_append] at hf
    by_cases h128 : c.toNat < 128
    · obtain ⟨b, hb, hbv⟩ := utf8.utf8Bytes_ascii c h128
      simp only [hb, List.length_cons, List.length_nil] at hf
      have k92 : b.val ≠ 92 := by omega
      have k34 : b.val ≠ 34 := by omega
      have k32 : ¬ b.val < 32 := by omega
      have k128 : b.val < 128 := by omega
      rw [hb]
      simp [unquoteLoop, k92, k34, k32, k128, ih f (by omega)]
    · obtain ⟨p0, tl, hp, hp0⟩ := utf8.utf8Bytes_head c (by omega)
      have hdec := utf8.DecodeRune_char c t (by omega)
      rw [hp] at hdec hlen hf
      have k92 : p0.val ≠ 92 := by omega
      have k34 : p0.val ≠ 34 := by omega
      have k32 : ¬ p0.val < 32 := by omega
      have k128 : ¬ p0.val < 128 := by omega
      have hdrop : List.drop (p0 :: tl).length (p0 :: (tl ++ t)) = t := by
        rw [← List.cons_append]
        exact List.drop_left _ _
      simp only [List.length_cons] at hf
      rw [hp]
      simp only [List.cons_append] at hdec ⊢
      simp only [unquoteLoop, k92, k34, k32, k128, if_false, or_self, hdec, hdrop,
        ih f (by omega), Option.map_some', utf8.EncodeRune_char, hp]
      rfl
  | escape e b t s he _ ih =>
    intro fuel hf
    obtain ⟨f, rfl⟩ : ∃ f, fuel = f + 1 := ⟨fuel - 1, by omega⟩
    simp only [List.length_cons] at hf
    have e92 : (92 : Byte).val = 92 := rfl
    have hr := ih f (by omega)
    rcases (escapeValue_facts e b he).2 with ⟨h, rfl⟩ | ⟨h, rfl⟩ | ⟨h, rfl⟩ | ⟨h, rfl⟩ |
      ⟨h, rfl⟩ | ⟨h, rfl⟩
    · rcases h with h | h | h <;> simp [unquoteLoop, e92, h, hr]
    · simp [unquoteLoop, e92, h, hr]
    · simp [unquoteLoop, e92, h, hr]
    · simp [unquoteLoop, e92, h, hr]
    · simp [unquoteLoop, e92, h, hr]
    · simp [unquoteLoop, e92, h, hr]
  | unicode h1 h2 h3 h4 c t s hh _ ih =>
    intro fuel hf
    obtain ⟨f, rfl⟩ : ∃ f, fuel = f + 1 := ⟨fuel - 1, by omega⟩
    simp only [List.length_cons] at hf
    have e92 : (92 : Byte).val = 92 := rfl
    have e117 : (117 : Byte).val = 117 := rfl
    have hg := getu4_of_hex4 h1 h2 h3 h4 _ t hh
    have hv := Char_toNat_valid c
    have hsur : utf16.IsSurrogate c.toNat = false := by
      simp only [utf16.IsSurrogate, Bool.and_eq_false_iff, decide_eq_false_iff_not]
      omega
    simp [unquoteLoop, e92, e117, hg, hsur, ih f (by omega), utf8.EncodeRune_char]
  | pair h1 h2 h3 h4 l1 l2 l3 l4 hi lo c t s hh hl b1 b2 b3 b4 hc _ ih =>
    intro fuel hf
    obtain ⟨f, rfl⟩ : ∃ f, fuel = f + 1 := ⟨fuel - 1, by omega⟩
    simp only [List.length_cons] at hf
    have e92 : (92 : Byte).val = 92 := rfl
    have e117 : (117 : Byte).val = 117 := rfl
    have hg := getu4_of_hex4 h1 h2 h3 h4 _ (92 :: 117 :: l1 :: l2 :: l3 :: l4 :: t) hh
    have hg2 := getu4_of_hex4 l1 l2 l3 l4 _ t hl
    have hsur : utf16.IsSurrogate hi = true := by
      simp only [utf16.IsSurrogate, Bool.and_eq_true, decide_eq_true_eq]
      omega
    have hdec : utf16.DecodeRune hi (some lo) = c.toNat := by
      simp only [utf16.DecodeRune]
      rw [if_pos ⟨b1, b2, b3, b4⟩, hc]
      omega
    have hne : c.toNat ≠ 65533 := by omega
    simp [unquoteLoop, e92, e117, hg, hg2, hsur, hdec, hne, ih f (by omega),
      utf8.EncodeRune_char]

theorem unquote_literal (t : List Byte) (s : GoString) (hl : spec.Literal t s) :
    unquote t = some s :=
  unquoteLoop_literal t s hl _ (le_refl _)

end json
/-! ## Numbers: the text of a number and what the scanner and the decoder do with it -/

namespace json

theorem digit_byte_facts (b : Byte) (h : 48 ≤ b.val ∧ b.val ≤ 57) :
    isDigit b = true ∧ isNumberByte b = true ∧ b.val ≠ 46 ∧ b.val ≠ 101 ∧ b.val ≠ 69 := by
  have hd : isDigit b = true := by simp [isDigit, h.1, h.2]
  refine ⟨hd, by simp [isNumberByte, hd], ?_, ?_, ?_⟩ <;> omega

/-- In a state where a number may end, the scanner treats a byte that cannot
belong to a number as the state behind a value does. -/
theorem stepByte_accepting_end (st : Step) (ps : List PState) (c : Byte)
    (hst : st = Step.state0 ∨ st = Step.state1 ∨ st = Step.stateDot0 ∨ st = Step.stateE0)
    (hc : isNumberByte c = false) :
    scanner.stepByte ⟨st, false, ps, none⟩ c =
      scanner.stepByte ⟨Step.stateEndValue, false, ps, none⟩ c := by
  obtain ⟨h1, h2, h3, h4, h5, h6, h7, h8⟩ := not_isNumberByte_facts c hc
  rcases hst with rfl | rfl | rfl | rfl
  · simp only [scanner.stepByte, state0, h2, h3, h4, if_false, or_self]
    exact stateEndValue_step _ _ _ _ _ _
  · simp only [scanner.stepByte, state1, state0, h1, h2, h3, h4, Bool.false_eq_true, if_false,
      or_self]
    exact stateEndValue_step _ _ _ _ _ _
  · simp only [scanner.stepByte, stateDot0, h1, h3, h4, Bool.false_eq_true, if_false, or_self]
    exact stateEndValue_step _ _ _ _ _ _
  · simp only [scanner.stepByte, stateE0, h1, Bool.false_eq_true, if_false]
    exact stateEndValue_step _ _ _ _ _ _

theorem Acc_number_end (st : Step) (ps : List PState) (rest : List Byte)
    (hst : st = Step.state0 ∨ st = Step.state1 ∨ st = Step.stateDot0 ∨ st = Step.stateE0)
    (hn : NonNum rest) (h : Acc Step.stateEndValue ps rest) : Acc st ps rest := by
  cases rest with
  | nil =>
    have hk := stepByte_accepting_end st ps 32 hst not_isNumberByte_space
    simp only [Acc, checkValidLoop, scanner.eof] at h ⊢
    rw [hk]
    exact h
  | cons c cs =>
    have hk := stepByte_accepting_end st ps c hst (hn c cs rfl)
    simp only [Acc, checkValidLoop] at h ⊢
    rw [hk]
    exact h

theorem Acc_digits (st : Step) (ps : List PState)
    (hst : st = Step.state1 ∨ st = Step.stateDot0 ∨ st = Step.stateE0) (ds x : List Byte)
    (hd : spec.isDigitRun ds) (h : Acc st ps x) : Acc st ps (ds ++ x) := by
  induction ds with
  | nil => exact h
  | cons b ds ih =>
    have hb := digit_byte_facts b (hd b (List.mem_cons_self _ _))
    have h2 := ih fun c hc => hd c (List.mem_cons_of_mem _ hc)
    rcases hst with rfl | rfl | rfl
    · simpa [Acc, checkValidLoop, scanner.stepByte, state1, hb.1] using h2
    · simpa [Acc, checkValidLoop, scanner.stepByte, stateDot0, hb.1] using h2
    · simpa [Acc, checkValidLoop, scanner.stepByte, stateE0, hb.1] using h2

/-- The exponent of a number, from a state in which it may begin. -/
theorem Acc_exponent (st : Step) (ps : List PState) (exp rest : List Byte)
    (hst : st = Step.state0 ∨ st = Step.state1 ∨ st = Step.stateDot0)
    (hexp : exp = [] ∨ ∃ (e : Byte) (sg : List Byte) (d : Byte) (ds : List Byte),
      exp = e :: (sg ++ d :: ds) ∧ (e = 101 ∨ e = 69) ∧ (sg = [] ∨ sg = [43] ∨ sg = [45]) ∧
        spec.isDigitRun (d :: ds))
    (hn : NonNum rest) (h : Acc Step.stateEndValue ps rest) : Acc st ps (exp ++ rest) := by
  rcases hexp with rfl | ⟨e, sg, d, ds, rfl, he, hsg, hd⟩
  · exact Acc_number_end st ps rest (by rcases hst with h | h | h <;> simp [h]) hn h
  · have hdd := digit_byte_facts d (hd d (List.mem_cons_self _ _))
    have htail : Acc Step.stateE0 ps (ds ++ rest) :=
      Acc_digits Step.stateE0 ps (Or.inr (Or.inr rfl)) ds rest
        (fun c hc => hd c (List.mem_cons_of_mem _ hc))
        (Acc_number_end Step.stateE0 ps rest (by simp) hn h)
    have d43 : d.val ≠ 43 := by have := hd d (List.mem_cons_self _ _); omega
    have d45 : d.val ≠ 45 := by have := hd d (List.mem_cons_self _ _); omega
    have hE : Acc Step.stateE ps (sg ++ d :: ds ++ rest) := by
      have e43 : (43 : Byte).val = 43 := rfl
      have e45 : (45 : Byte).val = 45 := rfl
      rcases hsg with rfl | rfl | rfl
      · simpa [Acc, checkValidLoop, scanner.stepByte, stateE, stateESign, hdd.1, d43, d45]
          using htail
      · simpa [Acc, checkValidLoop, scanner.stepByte, stateE, stateESign, hdd.1, e43]
          using htail
      · simpa [Acc, checkValidLoop, scanner.stepByte, stateE, stateESign, hdd.1, e45]
          using htail
    have ev : e.val = 101 ∨ e.val = 69 := by
      rcases he with rfl | rfl
      · exact Or.inl rfl
      · exact Or.inr rfl
    have e46 : e.val ≠ 46 := by rcases ev with h | h <;> omega
    have edig : isDigit e = false := by
      rcases ev with h | h <;> simp [isDigit, h]
    simp only [List.cons_append, List.append_assoc] at hE ⊢
    rcases hst with rfl | rfl | rfl
    · simpa [Acc, checkValidLoop, scanner.stepByte, state0, ev, e46] using hE
    · simpa [Acc, checkValidLoop, scanner.stepByte, state1, state0, ev, e46, edig] using hE
    · simpa [Acc, checkValidLoop, scanner.stepByte, stateDot0, ev, edig] using hE

/-- The fraction and the exponent of a number, behind the integer part. -/
theorem Acc_fraction (st : Step) (ps : List PState) (frac exp rest : List Byte)
    (hst : st = Step.state0 ∨ st = Step.state1)
    (hfrac : frac = [] ∨ ∃ d ds, frac = 46 :: d :: ds ∧ spec.isDigitRun (d :: ds))
    (hexp : exp = [] ∨ ∃ (e : Byte) (sg : List Byte) (d : Byte) (ds : List Byte),
      exp = e :: (sg ++ d :: ds) ∧ (e = 101 ∨ e = 69) ∧ (sg = [] ∨ sg = [43] ∨ sg = [45]) ∧
        spec.isDigitRun (d :: ds))
    (hn : NonNum rest) (h : Acc Step.stateEndValue ps rest) :
    Acc st ps (frac ++ (exp ++ rest)) := by
  rcases hfrac with rfl | ⟨d, ds, rfl, hd⟩
  · exact Acc_exponent st ps exp rest (by rcases hst with h | h <;> simp [h]) hexp hn h
  · have hdd := digit_byte_facts d (hd d (List.mem_cons_self _ _))
    have htail : Acc Step.stateDot0 ps (ds ++ (exp ++ rest)) :=
      Acc_digits Step.stateDot0 ps (Or.inr (Or.inl rfl)) ds _
        (fun c hc => hd c (List.mem_cons_of_mem _ hc))
        (Acc_exponent Step.stateDot0 ps exp rest (by simp) hexp hn h)
    have e46 : (46 : Byte).val = 46 := rfl
    have d46 : isDigit (46 : Byte) = false := by decide
    simp only [List.cons_append]
    rcases hst with rfl | rfl
    · simpa [Acc, checkValidLoop, scanner.stepByte, state0, stateDot, e46, hdd.1] using htail
    · simpa [Acc, checkValidLoop, scanner.stepByte, state1, state0, stateDot, e46, d46, hdd.1]
        using htail

theorem isSpace_digit (b : Byte) (h : 48 ≤ b.val ∧ b.val ≤ 57) : isSpace b = false := by
  have h1 : b.val ≠ 32 := by omega
  have h2 : b.val ≠ 9 := by omega
  have h3 : b.val ≠ 13 := by omega
  have h4 : b.val ≠ 10 := by omega
  simp [isSpace, h1, h2, h3, h4]

/-- The scanner accepts the text of a number where a value may begin. -/
theorem Acc_numberText (t : List Byte) (ht : spec.NumberText t) (ps : List PState)
    (rest : List Byte) (hn : NonNum rest) (h : Acc Step.stateEndValue ps rest) :
    Acc Step.stateBeginValue ps (t ++ rest) := by
  cases ht with
  | mk sign int frac exp hsign hint hfrac hexp =>
    have h0 : Acc Step.state0 ps (frac ++ (exp ++ rest)) :=
      Acc_fraction Step.state0 ps frac exp rest (Or.inl rfl) hfrac hexp hn h
    have h1 : Acc Step.state1 ps (frac ++ (exp ++ rest)) :=
      Acc_fraction Step.state1 ps frac exp rest (Or.inr rfl) hfrac hexp hn h
    have e48 : (48 : Byte).val = 48 := rfl
    have e45 : (45 : Byte).val = 45 := rfl
    have s48 : isSpace (48 : Byte) = false := by decide
    have s45 : isSpace (45 : Byte) = false := by decide
    simp only [List.append_assoc]
    rcases hint with rfl | ⟨d, ds, rfl, hd1, hd2, hds⟩
    · rcases hsign with rfl | rfl
      · simpa [Acc, checkValidLoop, scanner.stepByte, stateBeginValue, e48, s48] using h0
      · simpa [Acc, checkValidLoop, scanner.stepByte, stateBeginValue, stateNeg, e45, s45, e48]
          using h0
    · have htail : Acc Step.state1 ps (ds ++ (frac ++ (exp ++ rest))) :=
        Acc_digits Step.state1 ps (Or.inl rfl) ds _ hds h1
      have hsp := isSpace_digit d ⟨by omega, hd2⟩
      have k123 : d.val ≠ 123 := by omega
      have k91 : d.val ≠ 91 := by omega
      have k34 : d.val ≠ 34 := by omega
      have k45 : d.val ≠ 45 := by omega
      have k48 : d.val ≠ 48 := by omega
      have k116 : d.val ≠ 116 := by omega
      have k102 : d.val ≠ 102 := by omega
      have k110 : d.val ≠ 110 := by omega
      rcases hsign with rfl | rfl
      · simpa [Acc, checkValidLoop, scanner.stepByte, stateBeginValue, hsp, k123, k91, k34, k45,
          k48, k116, k102, k110, hd1, hd2] using htail
      · simpa [Acc, checkValidLoop, scanner.stepByte, stateBeginValue, stateNeg, e45, s45, k48,
          hd1, hd2] using htail

/-! ### What the decoder takes for the number -/

theorem isNumberByte_of_digitRun (ds : List Byte) (h : spec.isDigitRun ds) :
    ∀ b ∈ ds, isNumberByte b = true :=
  fun b hb => (digit_byte_facts b (h b hb)).2.1

theorem NumberText_bytes (t : List Byte) (ht : spec.NumberText t) :
    ∀ b ∈ t, isNumberByte b = true := by
  cases ht with
  | mk sign int frac exp hsign hint hfrac hexp =>
    have n45 : isNumberByte (45 : Byte) = true := by decide
    have n43 : isNumberByte (43 : Byte) = true := by decide
    have n48 : isNumberByte (48 : Byte) = true := by decide
    have n46 : isNumberByte (46 : Byte) = true := by decide
    have n101 : isNumberByte (101 : Byte) = true := by decide
    have n69 : isNumberByte (69 : Byte) = true := by decide
    intro b hb
    simp only [List.mem_append] at hb
    rcases hb with hb | hb | hb | hb
    · rcases hsign with rfl | rfl
      · simp at hb
      · simp only [List.mem_singleton] at hb; rw [hb]; exact n45
    · rcases hint with rfl | ⟨d, ds, rfl, hd1, hd2, hds⟩
      · simp only [List.mem_singleton] at hb; rw [hb]; exact n48
      · simp only [List.mem_cons] at hb
        rcases hb with rfl | hb
        · exact (digit_byte_facts b ⟨by omega, hd2⟩).2.1
        · exact isNumberByte_of_digitRun ds hds b hb
    · rcases hfrac with rfl | ⟨d, ds, rfl, hd⟩
      · simp at hb
      · simp only [List.mem_cons] at hb
        rcases hb with rfl | hb
        · exact n46
        · exact isNumberByte_of_digitRun (d :: ds) hd b (List.mem_cons.mpr hb)
    · rcases hexp with rfl | ⟨e, sg, d, ds, rfl, he, hsg, hd⟩
      · simp at hb
      · simp only [List.mem_cons, List.mem_append] at hb
        rcases hb with rfl | hb | hb
        · rcases he with rfl | rfl
          · exact n101
          · exact n69
        · rcases hsg with rfl | rfl | rfl
          · simp at hb
          · simp only [List.mem_singleton] at hb; rw [hb]; exact n43
          · simp only [List.mem_singleton] at hb; rw [hb]; exact n45
        · exact isNumberByte_of_digitRun (d :: ds) hd b (List.mem_cons.mpr hb)

theorem numberEnd_append (t rest : List Byte) (ht : ∀ b ∈ t, isNumberByte b = true)
    (hn : NonNum rest) : numberEnd (t ++ rest) = (t, rest) := by
  induction t with
  | nil =>
    cases rest with
    | nil => rfl
    | cons c cs => simp [numberEnd, hn c cs rfl]
  | cons b t ih =>
    have hb := ht b (List.mem_cons_self _ _)
    have hi := ih fun c hc => ht c (List.mem_cons_of_mem _ hc)
    rw [List.cons_append, numberEnd, if_pos hb, hi]

/-- The text of a number begins with a minus sign or a digit. -/
theorem NumberText_head (t : List Byte) (ht : spec.NumberText t) :
    ∃ c cs, t = c :: cs ∧ (c.val = 45 ∨ (48 ≤ c.val ∧ c.val ≤ 57)) := by
  cases ht with
  | mk sign int frac exp hsign hint hfrac hexp =>
    rcases hsign with rfl | rfl
    · rcases hint with rfl | ⟨d, ds, rfl, hd1, hd2, hds⟩
      · exact ⟨48, _, rfl, Or.inr (by decide)⟩
      · exact ⟨d, _, rfl, Or.inr ⟨by omega, hd2⟩⟩
    · exact ⟨45, _, rfl, Or.inl rfl⟩

end json
/-! ## The scanner accepts every JSON text -/

namespace json

theorem isSpace_of_white (w : List Byte) (hw : spec.isWhite w) : ∀ b ∈ w, isSpace b = true := by
  intro b hb
  rcases hw b hb with rfl | rfl | rfl | rfl <;> decide

theorem skipSpace_white (w x : List Byte) (hw : spec.isWhite w) :
    skipSpace (w ++ x) = skipSpace x := by
  induction w with
  | nil => rfl
  | cons b w ih =>
    have hb := isSpace_of_white (b :: w) hw b (List.mem_cons_self _ _)
    simp only [List.cons_append, skipSpace, hb, if_true]
    exact ih fun c hc => hw c (List.mem_cons_of_mem _ hc)

theorem skipSpace_cons (c : Byte) (x : List Byte) (hc : isSpace c = false) :
    skipSpace (c :: x) = c :: x := by
  simp [skipSpace, hc]

/-- White space is skipped in a state that skips it. -/
theorem Acc_white (st : Step) (ps : List PState)
    (hst : st = Step.stateBeginValue ∨ st = Step.stateBeginValueOrEmpty ∨
      st = Step.stateBeginString ∨ st = Step.stateBeginStringOrEmpty ∨
      (st = Step.stateEndValue ∧ ps ≠ []))
    (w x : List Byte) (hw : spec.isWhite w) (h : Acc st ps x) : Acc st ps (w ++ x) := by
  induction w with
  | nil => exact h
  | cons b w ih =>
    have hb := isSpace_of_white (b :: w) hw b (List.mem_cons_self _ _)
    have h2 := ih fun c hc => hw c (List.mem_cons_of_mem _ hc)
    rcases hst with h1 | h1 | h1 | h1 | ⟨h1, h3⟩
    · subst h1
      simpa [Acc, checkValidLoop, scanner.stepByte, stateBeginValue, hb] using h2
    · subst h1
      simpa [Acc, checkValidLoop, scanner.stepByte, stateBeginValueOrEmpty, hb] using h2
    · subst h1
      simpa [Acc, checkValidLoop, scanner.stepByte, stateBeginString, hb] using h2
    · subst h1
      simpa [Acc, checkValidLoop, scanner.stepByte, stateBeginStringOrEmpty, hb] using h2
    · subst h1
      cases ps with
      | nil => exact absurd rfl h3
      | cons p ps =>
        simpa [Acc, checkValidLoop, scanner.stepByte, stateEndValue, hb] using h2

/-- Behind the top-level value white space is accepted to the end of the
input. -/
theorem Acc_top_white (w : List Byte) (hw : spec.isWhite w) : Acc Step.stateEndValue [] w := by
  have h : checkValidLoop ⟨Step.stateEndTop, true, [], none⟩ w = none := by
    induction w with
    | nil => simp [checkValidLoop, scanner.eof]
    | cons b w ih =>
      have hb := isSpace_of_white (b :: w) hw b (List.mem_cons_self _ _)
      have h2 := ih fun c hc => hw c (List.mem_cons_of_mem _ hc)
      simpa [checkValidLoop, scanner.stepByte, stateEndTop, hb] using h2
  rw [Acc, ← checkValidLoop_endTop]
  exact h

theorem NonNum_nil : NonNum [] := by
  intro c cs h
  cases h

theorem NonNum_cons (c : Byte) (x : List Byte) (hc : isNumberByte c = false) :
    NonNum (c :: x) := by
  intro d ds h
  cases h
  exact hc

theorem NonNum_white (w x : List Byte) (hw : spec.isWhite w) (hx : NonNum x) :
    NonNum (w ++ x) := by
  cases w with
  | nil => exact hx
  | cons b w =>
    intro d ds h
    simp only [List.cons_append, List.cons.injEq] at h
    rw [← h.1]
    rcases hw b (List.mem_cons_self _ _) with rfl | rfl | rfl | rfl <;> decide

theorem NonNum_close_bracket (x : List Byte) : NonNum (93 :: x) := NonNum_cons 93 x (by decide)

theorem NonNum_close_brace (x : List Byte) : NonNum (125 :: x) := NonNum_cons 125 x (by decide)

theorem NonNum_comma (x : List Byte) : NonNum (44 :: x) := NonNum_cons 44 x (by decide)

/-- A byte a value can begin with. -/
theorem value_start (d : Nat) (t : List Byte) (v : Value) (h : spec.Json d t (spec.Den.value v)) :
    ∃ c cs, t = c :: cs ∧ (c.val = 123 ∨ c.val = 91 ∨ c.val = 34 ∨ c.val = 45 ∨
      (48 ≤ c.val ∧ c.val ≤ 57) ∨ c.val = 116 ∨ c.val = 102 ∨ c.val = 110) := by
  cases h with
  | litNull => exact ⟨110, _, rfl, by decide⟩
  | litTrue => exact ⟨116, _, rfl, by decide⟩
  | litFalse => exact ⟨102, _, rfl, by decide⟩
  | number _ _ hn =>
    obtain ⟨c, cs, rfl, hc⟩ := NumberText_head t hn
    refine ⟨c, cs, rfl, ?_⟩
    rcases hc with h | h
    · exact Or.inr (Or.inr (Or.inr (Or.inl h)))
    · exact Or.inr (Or.inr (Or.inr (Or.inr (Or.inl h))))
  | string _ _ _ _ => exact ⟨34, _, rfl, by decide⟩
  | emptyArray _ _ _ => exact ⟨91, _, rfl, by decide⟩
  | array _ _ _ _ => exact ⟨91, _, rfl, by decide⟩
  | emptyObject _ _ _ => exact ⟨123, _, rfl, by decide⟩
  | object _ _ _ _ => exact ⟨123, _, rfl, by decide⟩

set_option maxRecDepth 100000 in
theorem start_byte_facts : ∀ c : Byte, (c.val = 123 ∨ c.val = 91 ∨ c.val = 34 ∨ c.val = 45 ∨
      (48 ≤ c.val ∧ c.val ≤ 57) ∨ c.val = 116 ∨ c.val = 102 ∨ c.val = 110) →
    isSpace c = false ∧ c.val ≠ 93 ∧ c.val ≠ 125 := by
  decide

theorem stateBeginValue_step (st st1 : Step) (e : Bool) (ps : List PState)
    (er : Option SyntaxError) (c : Byte) (hc : isSpace c = false) :
    stateBeginValue ⟨st, e, ps, er⟩ c = stateBeginValue ⟨st1, e, ps, er⟩ c := by
  simp only [stateBeginValue, hc, Bool.false_eq_true, if_false, scanner.pushParseState,
    scanner.error]

/-- After `[`, a byte that begins a value is treated as where a value must
begin. -/
theorem Acc_orEmpty_of_beginValue (ps : List PState) (c : Byte) (x : List Byte)
    (hc : isSpace c = false) (h93 : c.val ≠ 93) (h : Acc Step.stateBeginValue ps (c :: x)) :
    Acc Step.stateBeginValueOrEmpty ps (c :: x) := by
  simp only [Acc, checkValidLoop, scanner.stepByte, stateBeginValueOrEmpty, hc, h93,
    Bool.false_eq_true, if_false] at h ⊢
  rw [stateBeginValue_step _ Step.stateBeginValue _ _ _ _ hc]
  exact h

theorem Acc_value_orEmpty (d : Nat) (t : List Byte) (v : Value)
    (hj : spec.Json d t (spec.Den.value v)) (ps : List PState) (x : List Byte)
    (h : Acc Step.stateBeginValue ps (t ++ x)) : Acc Step.stateBeginValueOrEmpty ps (t ++ x) := by
  obtain ⟨c, cs, rfl, hc⟩ := value_start d t v hj
  obtain ⟨h1, h2, _⟩ := start_byte_facts c hc
  exact Acc_orEmpty_of_beginValue ps c _ h1 h2 h

/-! ### Single steps -/

theorem Acc_open_bracket (ps : List PState) (x : List Byte)
    (hd : ps.length + 1 ≤ maxNestingDepth)
    (h : Acc Step.stateBeginValueOrEmpty (PState.parseArrayValue :: ps) x) :
    Acc Step.stateBeginValue ps (91 :: x) := by
  have e : (91 : Byte).val = 91 := rfl
  have s : isSpace (91 : Byte) = false := by decide
  simpa [Acc, checkValidLoop, scanner.stepByte, stateBeginValue, e, s, scanner.pushParseState,
    hd] using h

theorem Acc_open_brace (ps : List PState) (x : List Byte)
    (hd : ps.length + 1 ≤ maxNestingDepth)
    (h : Acc Step.stateBeginStringOrEmpty (PState.parseObjectKey :: ps) x) :
    Acc Step.stateBeginValue ps (123 :: x) := by
  have e : (123 : Byte).val = 123 := rfl
  have s : isSpace (123 : Byte) = false := by decide
  simpa [Acc, checkValidLoop, scanner.stepByte, stateBeginValue, e, s, scanner.pushParseState,
    hd] using h

theorem Acc_close_empty_array (ps : List PState) (rest : List Byte)
    (h : Acc Step.stateEndValue ps rest) :
    Acc Step.stateBeginValueOrEmpty (PState.parseArrayValue :: ps) (93 :: rest) := by
  have e : (93 : Byte).val = 93 := rfl
  have s : isSpace (93 : Byte) = false := by decide
  simpa [Acc, checkValidLoop, scanner.stepByte, stateBeginValueOrEmpty, stateEndValue, e, s,
    checkValidLoop_pop] using h

theorem Acc_close_empty_object (ps : List PState) (rest : List Byte)
    (h : Acc Step.stateEndValue ps rest) :
    Acc Step.stateBeginStringOrEmpty (PState.parseObjectKey :: ps) (125 :: rest) := by
  have e : (125 : Byte).val = 125 := rfl
  have s : isSpace (125 : Byte) = false := by decide
  simpa [Acc, checkValidLoop, scanner.stepByte, stateBeginStringOrEmpty, stateEndValue, e, s,
    checkValidLoop_pop] using h

theorem Acc_close_array (ps : List PState) (rest : List Byte)
    (h : Acc Step.stateEndValue ps rest) :
    Acc Step.stateEndValue (PState.parseArrayValue :: ps) (93 :: rest) := by
  have e : (93 : Byte).val = 93 := rfl
  have s : isSpace (93 : Byte) = false := by decide
  simpa [Acc, checkValidLoop, scanner.stepByte, stateEndValue, e, s, checkValidLoop_pop]
    using h

theorem Acc_close_object (ps : List PState) (rest : List Byte)
    (h : Acc Step.stateEndValue ps rest) :
    Acc Step.stateEndValue (PState.parseObjectValue :: ps) (125 :: rest) := by
  have e : (125 : Byte).val = 125 := rfl
  have s : isSpace (125 : Byte) = false := by decide
  simpa [Acc, checkValidLoop, scanner.stepByte, stateEndValue, e, s, checkValidLoop_pop]
    using h

theorem Acc_comma_array (ps : List PState) (x : List Byte)
    (h : Acc Step.stateBeginValue (PState.parseArrayValue :: ps) x) :
    Acc Step.stateEndValue (PState.parseArrayValue :: ps) (44 :: x) := by
  have e : (44 : Byte).val = 44 := rfl
  have s : isSpace (44 : Byte) = false := by decide
  simpa [Acc, checkValidLoop, scanner.stepByte, stateEndValue, e, s] using h

theorem Acc_comma_object (ps : List PState) (x : List Byte)
    (h : Acc Step.stateBeginString (PState.parseObjectKey :: ps) x) :
    Acc Step.stateEndValue (PState.parseObjectValue :: ps) (44 :: x) := by
  have e : (44 : Byte).val = 44 := rfl
  have s : isSpace (44 : Byte) = false := by decide
  simpa [Acc, checkValidLoop, scanner.stepByte, stateEndValue, e, s] using h

theorem Acc_colon (ps : List PState) (x : List Byte)
    (h : Acc Step.stateBeginValue (PState.parseObjectValue :: ps) x) :
    Acc Step.stateEndValue (PState.parseObjectKey :: ps) (58 :: x) := by
  have e : (58 : Byte).val = 58 := rfl
  have s : isSpace (58 : Byte) = false := by decide
  simpa [Acc, checkValidLoop, scanner.stepByte, stateEndValue, e, s] using h

theorem Acc_quote_value (ps : List PState) (x : List Byte)
    (h : Acc Step.stateInString ps x) : Acc Step.stateBeginValue ps (34 :: x) := by
  have e : (34 : Byte).val = 34 := rfl
  have s : isSpace (34 : Byte) = false := by decide
  simpa [Acc, checkValidLoop, scanner.stepByte, stateBeginValue, e, s] using h

theorem Acc_quote_key (ps : List PState) (x : List Byte)
    (h : Acc Step.stateInString ps x) :
    Acc Step.stateBeginString ps (34 :: x) ∧ Acc Step.stateBeginStringOrEmpty ps (34 :: x) := by
  have e : (34 : Byte).val = 34 := rfl
  have s : isSpace (34 : Byte) = false := by decide
  constructor
  · simpa [Acc, checkValidLoop, scanner.stepByte, stateBeginString, e, s] using h
  · simpa [Acc, checkValidLoop, scanner.stepByte, stateBeginStringOrEmpty, stateBeginString,
      e, s] using h

theorem Acc_null_text (ps : List PState) (rest : List Byte)
    (h : Acc Step.stateEndValue ps rest) :
    Acc Step.stateBeginValue ps (110 :: 117 :: 108 :: 108 :: rest) := h

theorem Acc_true_text (ps : List PState) (rest : List Byte)
    (h : Acc Step.stateEndValue ps rest) :
    Acc Step.stateBeginValue ps (116 :: 114 :: 117 :: 101 :: rest) := h

theorem Acc_false_text (ps : List PState) (rest : List Byte)
    (h : Acc Step.stateEndValue ps rest) :
    Acc Step.stateBeginValue ps (102 :: 97 :: 108 :: 115 :: 101 :: rest) := h

end json
namespace json

theorem Acc_key (k : List Byte) (key : GoString) (hk : spec.Literal k key) (ps : List PState)
    (x : List Byte) (h : Acc Step.stateEndValue ps x) :
    Acc Step.stateBeginString ps (34 :: (k ++ 34 :: x)) ∧
      Acc Step.stateBeginStringOrEmpty ps (34 :: (k ++ 34 :: x)) :=
  Acc_quote_key ps _ (Acc_literal k key hk ps x h)

/-- A member `"key" : value` with the white space around its parts, up to what
follows the value. -/
theorem Acc_member (d : Nat) (w1 k w2 w3 t : List Byte) (key : GoString) (v : Value)
    (hw1 : spec.isWhite w1) (hw2 : spec.isWhite w2) (hw3 : spec.isWhite w3)
    (hk : spec.Literal k key)
    (ih : AccOf d t (spec.Den.value v)) (ps : List PState) (x : List Byte)
    (hd : ps.length + 1 + d ≤ maxNestingDepth) (hn : NonNum x)
    (h : Acc Step.stateEndValue (PState.parseObjectValue :: ps) x) :
    Acc Step.stateBeginString (PState.parseObjectKey :: ps)
        (w1 ++ 34 :: (k ++ 34 :: (w2 ++ 58 :: (w3 ++ (t ++ x))))) ∧
      Acc Step.stateBeginStringOrEmpty (PState.parseObjectKey :: ps)
        (w1 ++ 34 :: (k ++ 34 :: (w2 ++ 58 :: (w3 ++ (t ++ x))))) := by
  have hv : Acc Step.stateBeginValue (PState.parseObjectValue :: ps) (t ++ x) :=
    ih (PState.parseObjectValue :: ps) x (by simp only [List.length_cons]; omega) hn h
  have h3 : Acc Step.stateBeginValue (PState.parseObjectValue :: ps) (w3 ++ (t ++ x)) :=
    Acc_white _ _ (Or.inl rfl) w3 _ hw3 hv
  have h2 : Acc Step.stateEndValue (PState.parseObjectKey :: ps) (w2 ++ 58 :: (w3 ++ (t ++ x))) :=
    Acc_white _ _ (Or.inr (Or.inr (Or.inr (Or.inr ⟨rfl, by simp⟩)))) w2 _ hw2 (Acc_colon ps _ h3)
  obtain ⟨a1, a2⟩ := Acc_key k key hk (PState.parseObjectKey :: ps) _ h2
  exact ⟨Acc_white _ _ (Or.inr (Or.inr (Or.inl rfl))) w1 _ hw1 a1,
    Acc_white _ _ (Or.inr (Or.inr (Or.inr (Or.inl rfl)))) w1 _ hw1 a2⟩

/-- The scanner accepts every part of a JSON text within the nesting limit. -/
theorem Json_acc (d : Nat) (t : List Byte) (den : spec.Den) (h : spec.Json d t den) :
    AccOf d t den := by
  induction h with
  | litNull d => intro ps rest _ _ h; exact Acc_null_text ps rest h
  | litTrue d => intro ps rest _ _ h; exact Acc_true_text ps rest h
  | litFalse d => intro ps rest _ _ h; exact Acc_false_text ps rest h
  | number d t hn => intro ps rest _ hnn h; exact Acc_numberText t hn ps rest hnn h
  | string d t s hl =>
    intro ps rest _ _ h
    simp only [List.cons_append, List.append_assoc, List.singleton_append]
    exact Acc_quote_value ps _ (Acc_literal t s hl ps rest h)
  | emptyArray d w hw =>
    intro ps rest hd _ h
    simp only [List.cons_append, List.append_assoc, List.singleton_append]
    exact Acc_open_bracket ps _ (by omega)
      (Acc_white _ _ (Or.inr (Or.inl rfl)) w _ hw (Acc_close_empty_array ps rest h))
  | array d t es _ ih =>
    intro ps rest hd _ h
    simp only [List.cons_append]
    exact Acc_open_bracket ps _ (by omega) (ih ps rest (by omega) h).2
  | emptyObject d w hw =>
    intro ps rest hd _ h
    simp only [List.cons_append, List.append_assoc, List.singleton_append]
    exact Acc_open_brace ps _ (by omega)
      (Acc_white _ _ (Or.inr (Or.inr (Or.inr (Or.inl rfl)))) w _ hw
        (Acc_close_empty_object ps rest h))
  | object d t ms _ ih =>
    intro ps rest hd _ h
    simp only [List.cons_append]
    exact Acc_open_brace ps _ (by omega) (ih ps rest (by omega) h).2
  | lastElem d w1 t w2 v hw1 hw2 hj ih =>
    intro ps rest hd h
    simp only [List.append_assoc, List.singleton_append]
    have hend : Acc Step.stateEndValue (PState.parseArrayValue :: ps) (w2 ++ 93 :: rest) :=
      Acc_white _ _ (Or.inr (Or.inr (Or.inr (Or.inr ⟨rfl, by simp⟩)))) w2 _ hw2
        (Acc_close_array ps rest h)
    have hv : Acc Step.stateBeginValue (PState.parseArrayValue :: ps)
        (t ++ (w2 ++ 93 :: rest)) :=
      ih (PState.parseArrayValue :: ps) _ (by simp only [List.length_cons]; omega)
        (NonNum_white w2 _ hw2 (NonNum_close_bracket rest)) hend
    exact ⟨Acc_white _ _ (Or.inl rfl) w1 _ hw1 hv,
      Acc_white _ _ (Or.inr (Or.inl rfl)) w1 _ hw1 (Acc_value_orEmpty d t v hj _ _ hv)⟩
  | consElem d w1 t w2 t1 v es hw1 hw2 hj _ ih ih1 =>
    intro ps rest hd h
    simp only [List.append_assoc, List.cons_append]
    have hend : Acc Step.stateEndValue (PState.parseArrayValue :: ps)
        (w2 ++ 44 :: (t1 ++ rest)) :=
      Acc_white _ _ (Or.inr (Or.inr (Or.inr (Or.inr ⟨rfl, by simp⟩)))) w2 _ hw2
        (Acc_comma_array ps _ (ih1 ps rest hd h).1)
    have hv : Acc Step.stateBeginValue (PState.parseArrayValue :: ps)
        (t ++ (w2 ++ 44 :: (t1 ++ rest))) :=
      ih (PState.parseArrayValue :: ps) _ (by simp only [List.length_cons]; omega)
        (NonNum_white w2 _ hw2 (NonNum_comma _)) hend
    exact ⟨Acc_white _ _ (Or.inl rfl) w1 _ hw1 hv,
      Acc_white _ _ (Or.inr (Or.inl rfl)) w1 _ hw1 (Acc_value_orEmpty d t v hj _ _ hv)⟩
  | lastMember d w1 k w2 w3 t w4 key v hw1 hw2 hw3 hw4 hk hj ih =>
    intro ps rest hd h
    simp only [List.append_assoc, List.cons_append, List.singleton_append]
    have hend : Acc Step.stateEndValue (PState.parseObjectValue :: ps) (w4 ++ 125 :: rest) :=
      Acc_white _ _ (Or.inr (Or.inr (Or.inr (Or.inr ⟨rfl, by simp⟩)))) w4 _ hw4
        (Acc_close_object ps rest h)
    exact Acc_member d w1 k w2 w3 t key v hw1 hw2 hw3 hk ih ps _ hd
      (NonNum_white w4 _ hw4 (NonNum_close_brace rest)) hend
  | consMember d w1 k w2 w3 t w4 t1 key v ms hw1 hw2 hw3 hw4 hk hj _ ih ih1 =>
    intro ps rest hd h
    simp only [List.append_assoc, List.cons_append]
    have hend : Acc Step.stateEndValue (PState.parseObjectValue :: ps)
        (w4 ++ 44 :: (t1 ++ rest)) :=
      Acc_white _ _ (Or.inr (Or.inr (Or.inr (Or.inr ⟨rfl, by simp⟩)))) w4 _ hw4
        (Acc_comma_object ps _ (ih1 ps rest hd h).1)
    exact Acc_member d w1 k w2 w3 t key v hw1 hw2 hw3 hk ih ps _ hd
      (NonNum_white w4 _ hw4 (NonNum_comma _)) hend

/-- Go `checkValid` accepts every JSON text nested within the limit. -/
theorem checkValid_JsonText (d : Nat) (body : List Byte) (v : Value)
    (h : spec.JsonText d body v) (hd : d ≤ maxNestingDepth) : checkValid body = none := by
  obtain ⟨w1, t, w2, rfl, hw1, hw2, hj⟩ := h
  have hv : Acc Step.stateBeginValue [] (t ++ w2) :=
    Json_acc d t _ hj [] w2 (by simpa using hd)
      (by
        cases w2 with
        | nil => exact NonNum_nil
        | cons b w =>
          have := NonNum_white (b :: w) [] hw2 NonNum_nil
          simpa using this)
      (Acc_top_white w2 hw2)
  exact Acc_white _ _ (Or.inl rfl) w1 _ hw1 hv

end json
/-! ## The decoder's walk reads every JSON text as the value it denotes -/

namespace json

theorem walk_white : ∀ (fuel : Nat) (m : Mode) (w x : List Byte), spec.isWhite w →
    walk fuel m (w ++ x) = walk fuel m x := by
  intro fuel
  induction fuel with
  | zero => intro m w x _; simp [walk]
  | succ f ih =>
    intro m w x hw
    cases m with
    | value => simp only [walk, skipSpace_white w x hw]
    | elems acc => simp only [walk, ih Mode.value w x hw]
    | members acc => simp only [walk, skipSpace_white w x hw]

/-- The elements of an array begin, after white space, with a byte that
begins a value. -/
theorem elems_start (d : Nat) (t : List Byte) (es : List Value)
    (h : spec.Json d t (spec.Den.elems es)) :
    ∃ w c x, spec.isWhite w ∧ t = w ++ c :: x ∧ isSpace c = false ∧ c.val ≠ 93 := by
  cases h with
  | lastElem _ w1 tv w2 v hw1 _ hj =>
    obtain ⟨c, cs, rfl, hc⟩ := value_start d tv v hj
    obtain ⟨h1, h2, _⟩ := start_byte_facts c hc
    exact ⟨w1, c, _, hw1, rfl, h1, h2⟩
  | consElem _ w1 tv w2 t1 v es1 hw1 _ hj _ =>
    obtain ⟨c, cs, rfl, hc⟩ := value_start d tv v hj
    obtain ⟨h1, h2, _⟩ := start_byte_facts c hc
    exact ⟨w1, c, _, hw1, rfl, h1, h2⟩

/-- The members of an object begin, after white space, with a quote. -/
theorem members_start (d : Nat) (t : List Byte) (ms : List (GoString × Value))
    (h : spec.Json d t (spec.Den.members ms)) :
    ∃ w x, spec.isWhite w ∧ t = w ++ 34 :: x := by
  cases h with
  | lastMember _ w1 k w2 w3 tv w4 key v hw1 _ _ _ _ _ => exact ⟨w1, _, hw1, rfl⟩
  | consMember _ w1 k w2 w3 tv w4 t1 key v ms1 hw1 _ _ _ _ _ _ => exact ⟨w1, _, hw1, rfl⟩

theorem walk_null (f : Nat) (rest : List Byte) :
    walk (f + 1) Mode.value (110 :: 117 :: 108 :: 108 :: rest) = some (Value.null, rest) := rfl

theorem walk_true (f : Nat) (rest : List Byte) :
    walk (f + 1) Mode.value (116 :: 114 :: 117 :: 101 :: rest) =
      some (Value.bool true, rest) := rfl

theorem walk_false (f : Nat) (rest : List Byte) :
    walk (f + 1) Mode.value (102 :: 97 :: 108 :: 115 :: 101 :: rest) =
      some (Value.bool false, rest) := rfl

theorem walk_number (f : Nat) (t rest : List Byte) (ht : spec.NumberText t) (hn : NonNum rest) :
    walk (f + 1) Mode.value (t ++ rest) = some (Value.number t, rest) := by
  have hend := numberEnd_append t rest (NumberText_bytes t ht) hn
  obtain ⟨c, cs, rfl, hc⟩ := NumberText_head t ht
  have hsp : isSpace c = false := by
    rcases hc with h | h
    · exact (start_byte_facts c (Or.inr (Or.inr (Or.inr (Or.inl h))))).1
    · exact isSpace_digit c h
  have hnum : c.val = 45 ∨ isDigit c = true := by
    rcases hc with h | h
    · exact Or.inl h
    · exact Or.inr (digit_byte_facts c h).1
  have k123 : c.val ≠ 123 := by rcases hc with h | h <;> omega
  have k91 : c.val ≠ 91 := by rcases hc with h | h <;> omega
  have k34 : c.val ≠ 34 := by rcases hc with h | h <;> omega
  have k116 : c.val ≠ 116 := by rcases hc with h | h <;> omega
  have k102 : c.val ≠ 102 := by rcases hc with h | h <;> omega
  have k110 : c.val ≠ 110 := by rcases hc with h | h <;> omega
  simp only [List.cons_append] at hend ⊢
  simp only [walk, skipSpace_cons c _ hsp, k123, k91, k34, k116, k102, k110, if_false]
  rw [if_pos hnum, hend]

theorem walk_string (f : Nat) (t rest : List Byte) (s : GoString) (hl : spec.Literal t s) :
    walk (f + 1) Mode.value (34 :: (t ++ 34 :: rest)) = some (Value.string s, rest) := by
  have e : (34 : Byte).val = 34 := rfl
  have sp : isSpace (34 : Byte) = false := by decide
  simp [walk, skipSpace_cons 34 _ sp, e, stringEnd_literal t s hl rest, unquote_literal t s hl]

theorem walk_empty_array (f : Nat) (w rest : List Byte) (hw : spec.isWhite w) :
    walk (f + 1) Mode.value (91 :: (w ++ 93 :: rest)) = some (Value.array [], rest) := by
  have e : (91 : Byte).val = 91 := rfl
  have e93 : (93 : Byte).val = 93 := rfl
  have sp : isSpace (91 : Byte) = false := by decide
  have sp93 : isSpace (93 : Byte) = false := by decide
  simp [walk, skipSpace_cons 91 _ sp, e, skipSpace_white w _ hw, skipSpace_cons 93 _ sp93, e93]

theorem walk_empty_object (f : Nat) (w rest : List Byte) (hw : spec.isWhite w) :
    walk (f + 1) Mode.value (123 :: (w ++ 125 :: rest)) = some (Value.object [], rest) := by
  have e : (123 : Byte).val = 123 := rfl
  have e125 : (125 : Byte).val = 125 := rfl
  have sp : isSpace (123 : Byte) = false := by decide
  have sp125 : isSpace (125 : Byte) = false := by decide
  simp [walk, skipSpace_cons 123 _ sp, e, skipSpace_white w _ hw, skipSpace_cons 125 _ sp125,
    e125]

theorem walk_array (f : Nat) (d : Nat) (t rest : List Byte) (es : List Value)
    (hj : spec.Json d t (spec.Den.elems es)) (r : Option (Value × List Byte))
    (h : walk f (Mode.elems []) (t ++ rest) = r) :
    walk (f + 1) Mode.value (91 :: (t ++ rest)) = r := by
  obtain ⟨w, c, x, hw, rfl, hc, h93⟩ := elems_start d t es hj
  have e : (91 : Byte).val = 91 := rfl
  have sp : isSpace (91 : Byte) = false := by decide
  rw [List.append_assoc, walk_white f _ w _ hw] at h
  simp only [List.cons_append] at h
  simp only [walk, skipSpace_cons 91 _ sp, e, List.append_assoc, skipSpace_white w _ hw,
    List.cons_append, skipSpace_cons c _ hc, h93, if_true, if_false]
  have k : ¬ ((91 : Nat) = 123) := by decide
  simp only [k, if_false]
  exact h

theorem walk_object (f : Nat) (d : Nat) (t rest : List Byte) (ms : List (GoString × Value))
    (hj : spec.Json d t (spec.Den.members ms)) (r : Option (Value × List Byte))
    (h : walk f (Mode.members []) (t ++ rest) = r) :
    walk (f + 1) Mode.value (123 :: (t ++ rest)) = r := by
  obtain ⟨w, x, hw, rfl⟩ := members_start d t ms hj
  have e : (123 : Byte).val = 123 := rfl
  have e34 : (34 : Byte).val = 34 := rfl
  have sp : isSpace (123 : Byte) = false := by decide
  have sp34 : isSpace (34 : Byte) = false := by decide
  rw [List.append_assoc, walk_white f _ w _ hw] at h
  simp only [List.cons_append] at h
  have k : ¬ ((34 : Nat) = 125) := by decide
  simp only [walk, skipSpace_cons 123 _ sp, e, List.append_assoc, skipSpace_white w _ hw,
    List.cons_append, skipSpace_cons 34 _ sp34, e34, k, if_true, if_false]
  exact h

/-- One element of an array and what follows it. -/
theorem walk_elem (f : Nat) (w1 t w2 y : List Byte) (v : Value) (acc : List Value) (c : Byte)
    (hw1 : spec.isWhite w1) (hw2 : spec.isWhite w2) (hc : isSpace c = false)
    (hv : walk f Mode.value (t ++ (w2 ++ c :: y)) = some (v, w2 ++ c :: y)) :
    walk (f + 1) (Mode.elems acc) (w1 ++ (t ++ (w2 ++ c :: y))) =
      if c.val = 44 then walk f (Mode.elems (v :: acc)) y
      else if c.val = 93 then some (Value.array (v :: acc).reverse, y)
      else none := by
  simp only [walk, walk_white f Mode.value w1 _ hw1, hv, skipSpace_white w2 _ hw2,
    skipSpace_cons c _ hc]

/-- One member of an object and what follows it. -/
theorem walk_member (f : Nat) (w1 k w2 w3 t w4 y : List Byte) (key : GoString) (v : Value)
    (acc : List (GoString × Value)) (c : Byte)
    (hw1 : spec.isWhite w1) (hw2 : spec.isWhite w2) (hw3 : spec.isWhite w3)
    (hw4 : spec.isWhite w4) (hk : spec.Literal k key) (hc : isSpace c = false)
    (hv : walk f Mode.value (t ++ (w4 ++ c :: y)) = some (v, w4 ++ c :: y)) :
    walk (f + 1) (Mode.members acc)
        (w1 ++ 34 :: (k ++ 34 :: (w2 ++ 58 :: (w3 ++ (t ++ (w4 ++ c :: y)))))) =
      if c.val = 44 then walk f (Mode.members ((key, v) :: acc)) y
      else if c.val = 125 then some (Value.object ((key, v) :: acc).reverse, y)
      else none := by
  have e34 : (34 : Byte).val = 34 := rfl
  have e58 : (58 : Byte).val = 58 := rfl
  have sp34 : isSpace (34 : Byte) = false := by decide
  have sp58 : isSpace (58 : Byte) = false := by decide
  simp only [walk, skipSpace_white w1 _ hw1, skipSpace_cons 34 _ sp34, e34, if_true,
    stringEnd_literal k key hk, unquote_literal k key hk, skipSpace_white w2 _ hw2,
    skipSpace_cons 58 _ sp58, e58, walk_white f Mode.value w3 _ hw3, hv,
    skipSpace_white w4 _ hw4, skipSpace_cons c _ hc]

theorem NonNum_white_cons (w : List Byte) (c : Byte) (y : List Byte) (hw : spec.isWhite w)
    (hc : isNumberByte c = false) : NonNum (w ++ c :: y) :=
  NonNum_white w _ hw (NonNum_cons c y hc)

/-- The decoder's walk reads every part of a JSON text as what it denotes. -/
theorem Json_walk (d : Nat) (t : List Byte) (den : spec.Den) (h : spec.Json d t den) :
    WalkOf t den := by
  induction h with
  | litNull d =>
    intro rest fuel _ hf
    obtain ⟨f, rfl⟩ : ∃ f, fuel = f + 1 := ⟨fuel - 1, by omega⟩
    exact walk_null f rest
  | litTrue d =>
    intro rest fuel _ hf
    obtain ⟨f, rfl⟩ : ∃ f, fuel = f + 1 := ⟨fuel - 1, by omega⟩
    exact walk_true f rest
  | litFalse d =>
    intro rest fuel _ hf
    obtain ⟨f, rfl⟩ : ∃ f, fuel = f + 1 := ⟨fuel - 1, by omega⟩
    exact walk_false f rest
  | number d t hn =>
    intro rest fuel hnn hf
    obtain ⟨f, rfl⟩ : ∃ f, fuel = f + 1 := ⟨fuel - 1, by omega⟩
    exact walk_number f t rest hn hnn
  | string d t s hl =>
    intro rest fuel _ hf
    obtain ⟨f, rfl⟩ : ∃ f, fuel = f + 1 := ⟨fuel - 1, by omega⟩
    simp only [List.cons_append, List.append_assoc, List.singleton_append]
    exact walk_string f t rest s hl
  | emptyArray d w hw =>
    intro rest fuel _ hf
    obtain ⟨f, rfl⟩ : ∃ f, fuel = f + 1 := ⟨fuel - 1, by omega⟩
    simp only [List.cons_append, List.append_assoc, List.singleton_append]
    exact walk_empty_array f w rest hw
  | array d t es hj ih =>
    intro rest fuel _ hf
    obtain ⟨f, rfl⟩ : ∃ f, fuel = f + 1 := ⟨fuel - 1, by omega⟩
    simp only [List.length_cons] at hf
    simp only [List.cons_append]
    exact walk_array f d t rest es hj _ (ih rest f [] (by omega))
  | emptyObject d w hw =>
    intro rest fuel _ hf
    obtain ⟨f, rfl⟩ : ∃ f, fuel = f + 1 := ⟨fuel - 1, by omega⟩
    simp only [List.cons_append, List.append_assoc, List.singleton_append]
    exact walk_empty_object f w rest hw
  | object d t ms hj ih =>
    intro rest fuel _ hf
    obtain ⟨f, rfl⟩ : ∃ f, fuel = f + 1 := ⟨fuel - 1, by omega⟩
    simp only [List.length_cons] at hf
    simp only [List.cons_append]
    exact walk_object f d t rest ms hj _ (ih rest f [] (by omega))
  | lastElem d w1 t w2 v hw1 hw2 hj ih =>
    intro rest fuel acc hf
    obtain ⟨f, rfl⟩ : ∃ f, fuel = f + 1 := ⟨fuel - 1, by omega⟩
    simp only [List.length_append, List.length_cons, List.length_nil] at hf
    simp only [List.append_assoc, List.singleton_append, List.nil_append]
    have hv := ih (w2 ++ 93 :: rest) f (NonNum_white_cons w2 93 rest hw2 (by decide))
      (by omega)
    rw [walk_elem f w1 t w2 rest v acc 93 hw1 hw2 (by decide) hv]
    have e : (93 : Byte).val = 93 := rfl
    simp [e]
  | consElem d w1 t w2 t1 v es hw1 hw2 hj _ ih ih1 =>
    intro rest fuel acc hf
    obtain ⟨f, rfl⟩ : ∃ f, fuel = f + 1 := ⟨fuel - 1, by omega⟩
    simp only [List.length_append, List.length_cons] at hf
    simp only [List.append_assoc, List.cons_append, List.nil_append]
    have hv := ih (w2 ++ 44 :: (t1 ++ rest)) f (NonNum_white_cons w2 44 _ hw2 (by decide))
      (by omega)
    rw [walk_elem f w1 t w2 (t1 ++ rest) v acc 44 hw1 hw2 (by decide) hv]
    have e : (44 : Byte).val = 44 := rfl
    simp only [e, if_true]
    rw [ih1 rest f (v :: acc) (by omega)]
    simp
  | lastMember d w1 k w2 w3 t w4 key v hw1 hw2 hw3 hw4 hk hj ih =>
    intro rest fuel acc hf
    obtain ⟨f, rfl⟩ : ∃ f, fuel = f + 1 := ⟨fuel - 1, by omega⟩
    simp only [List.length_append, List.length_cons, List.length_nil] at hf
    simp only [List.append_assoc, List.cons_append, List.singleton_append, List.nil_append]
    have hv := ih (w4 ++ 125 :: rest) f (NonNum_white_cons w4 125 rest hw4 (by decide))
      (by omega)
    rw [walk_member f w1 k w2 w3 t w4 rest key v acc 125 hw1 hw2 hw3 hw4 hk (by decide) hv]
    have e : (125 : Byte).val = 125 := rfl
    simp [e]
  | consMember d w1 k w2 w3 t w4 t1 key v ms hw1 hw2 hw3 hw4 hk hj _ ih ih1 =>
    intro rest fuel acc hf
    obtain ⟨f, rfl⟩ : ∃ f, fuel = f + 1 := ⟨fuel - 1, by omega⟩
    simp only [List.length_append, List.length_cons] at hf
    simp only [List.append_assoc, List.cons_append, List.nil_append]
    have hv := ih (w4 ++ 44 :: (t1 ++ rest)) f (NonNum_white_cons w4 44 _ hw4 (by decide))
      (by omega)
    rw [walk_member f w1 k w2 w3 t w4 (t1 ++ rest) key v acc 44 hw1 hw2 hw3 hw4 hk
      (by decide) hv]
    have e : (44 : Byte).val = 44 := rfl
    simp only [e, if_true]
    rw [ih1 rest f ((key, v) :: acc) (by omega)]
    simp

theorem NonNum_of_white (w : List Byte) (hw : spec.isWhite w) : NonNum w := by
  have := NonNum_white w [] hw NonNum_nil
  simpa using this

/-- The value a JSON text holds for the decoder is the value the text
denotes. -/
theorem parse_JsonText (d : Nat) (body : List Byte) (v : Value)
    (h : spec.JsonText d body v) (hd : d ≤ maxNestingDepth) : parse body = some v := by
  have hc := checkValid_JsonText d body v h hd
  obtain ⟨w1, t, w2, rfl, hw1, hw2, hj⟩ := h
  have hw : walk (walkFuel (w1 ++ (t ++ w2))) Mode.value (w1 ++ (t ++ w2)) = some (v, w2) := by
    rw [walk_white _ _ w1 _ hw1]
    exact Json_walk d t _ hj w2 _ (NonNum_of_white w2 hw2)
      (by simp only [walkFuel, List.length_append]; omega)
  simp [parse, hc, hw]

end json
/-! ## Decoding a well-formed body -/

namespace json

theorem parse_some (data : List Byte) (v : Value) (h : parse data = some v) :
    checkValid data = none ∧ ∃ rest, walk (walkFuel data) Mode.value data = some (v, rest) := by
  unfold parse at h
  split at h
  · cases h
  · rename_i hc
    split at h
    · rename_i v1 rest hw
      simp only [Option.some.injEq] at h
      exact ⟨hc, rest, by rw [hw, h]⟩
    · cases h

/-- On a body that holds the value `v`, `Unmarshal` is the decoder on `v`. -/
theorem Unmarshal_of_parse (data : List Byte) (v : Value) (rd : ResultData)
    (h : parse data = some v) :
    Unmarshal data rd = ((storeResult v rd none).1, (storeResult v rd none).2.map Error.typeError) := by
  obtain ⟨hc, rest, hw⟩ := parse_some data v h
  simp [Unmarshal, hc, hw]

theorem arrayFinish_full {α : Type} (b : Bool) (arr : List α) (n : Nat) (hn : n ≠ 0) :
    arrayFinish n (⟨b, arr, n⟩ : GoSlice α) = ⟨b, arr, n⟩ := by
  simp [arrayFinish, hn]

/-- Filling a slice that holds nothing yet: when every element decodes from
the zero value without error, the slice ends up holding the decoded elements. -/
theorem arrayLoop_fresh {α : Type} (zero : α) (dec : Value → α → Saved → α × Saved)
    (es : List Value) (xs : List α)
    (h : List.Forall₂ (fun e x => ∀ sv, dec e zero sv = (x, sv)) es xs) :
    ∀ (i : Nat) (b : Bool) (arr : List α) (saved : Saved), arr.length = i →
      arrayLoop zero dec i es ⟨b, arr, i⟩ saved =
        (arrayFinish (i + es.length)
          ⟨if es.isEmpty then b else false, arr ++ xs, i + es.length⟩, saved) := by
  induction h with
  | nil =>
    intro i b arr saved _
    simp [arrayLoop]
  | @cons e x es xs hex _ ih =>
    intro i b arr saved harr
    have hget : (arr ++ [zero]).getD i zero = zero := by
      rw [List.getD_eq_getElem?_getD, List.getElem?_append_right (by omega)]
      simp [harr]
    have hset : (arr ++ [zero]).set i x = arr ++ [x] := by
      rw [List.set_append_right _ _ (by omega)]
      simp [harr]
    have hrep : List.replicate (i + 1 - arr.length) zero = [zero] := by
      rw [harr]
      simp
    rw [arrayLoop]
    simp only [ge_iff_le, le_refl, if_true, hrep, hget, hex, hset]
    rw [ih (i + 1) false (arr ++ [x]) saved (by simp [harr])]
    simp only [List.length_cons, List.append_assoc, List.singleton_append, List.isEmpty_cons,
      Bool.false_eq_true, if_false, ite_self]
    have : i + 1 + es.length = i + (es.length + 1) := by omega
    rw [this]

theorem arrayLoop_from_nothing {α : Type} (zero : α) (dec : Value → α → Saved → α × Saved)
    (es : List Value) (xs : List α)
    (h : List.Forall₂ (fun e x => ∀ sv, dec e zero sv = (x, sv)) es xs)
    (b : Bool) (saved : Saved) :
    arrayLoop zero dec 0 es ⟨b, [], 0⟩ saved = (GoSlice.ofList xs, saved) := by
  rw [arrayLoop_fresh zero dec es xs h 0 b [] saved rfl]
  have hl := h.length_eq
  cases es with
  | nil =>
    cases xs with
    | nil => simp [arrayFinish, GoSlice.ofList, GoSlice.empty]
    | cons _ _ => simp at hl
  | cons e es =>
    simp only [List.nil_append, Nat.zero_add, List.isEmpty_cons, Bool.false_eq_true, if_false]
    rw [arrayFinish_full _ _ _ (by simp)]
    simp [GoSlice.ofList, hl]

theorem storeSlice_strings_nil (ts : List GoString) (saved : Saved) :
    storeSlice [] storeString GoType.sliceOfString (Value.array (ts.map Value.string))
      GoSlice.nil saved = (GoSlice.ofList ts, saved) := by
  have h : List.Forall₂ (fun e x => ∀ sv, storeString e ([] : GoString) sv = (x, sv))
      (ts.map Value.string) ts := by
    induction ts with
    | nil => exact List.Forall₂.nil
    | cons t ts ih => exact List.Forall₂.cons (fun _ => rfl) ih
  simp only [storeSlice, GoSlice.nil]
  exact arrayLoop_from_nothing [] storeString _ ts h true saved

/-- An array of strings decodes without error into any slice, and what it
leaves in the slice does not depend on the saved error. -/
theorem arrayLoop_strings (ts : List GoString) : ∀ (i : Nat) (s : GoSlice GoString)
    (saved : Saved),
    arrayLoop [] storeString i (ts.map Value.string) s saved =
      ((arrayLoop [] storeString i (ts.map Value.string) s none).1, saved) := by
  induction ts with
  | nil => intro i s saved; simp [arrayLoop]
  | cons t ts ih =>
    intro i s saved
    simp only [List.map_cons, arrayLoop, storeString]
    rw [ih]

end json

namespace json

set_option maxRecDepth 100000 in
theorem lookupField_card_names :
    lookupField cardFields (str "id") = some CardField.Id ∧
    lookupField cardFields (str "name") = some CardField.Name ∧
    lookupField cardFields (str "types") = some CardField.Types ∧
    lookupField cardFields (str "hp") = some CardField.HP ∧
    lookupField cardFields (str "rarity") = some CardField.Rarity ∧
    lookupField resultFields (str "data") = some () := by
  decide

theorem storeSlice_strings (ts : List GoString) (s : GoSlice GoString) (saved : Saved) :
    storeSlice [] storeString GoType.sliceOfString (Value.array (ts.map Value.string)) s saved =
      ((storeSlice [] storeString GoType.sliceOfString (Value.array (ts.map Value.string))
        s none).1, saved) := by
  simp only [storeSlice]
  rw [arrayLoop_strings]

/-- A member that carries what the specification sends for its field is
decoded without error: it only changes the card. -/
theorem objectCard_cons_good (m : GoString × Value) (rest : List (GoString × Value))
    (c : CardData) (saved : Saved) (hg : goodCardMember m) :
    objectCard (m :: rest) c saved = objectCard rest (applyCardMember m c) saved := by
  obtain ⟨k, v⟩ := m
  unfold goodCardMember at hg
  simp only at hg
  unfold applyCardMember
  cases hl : lookupField cardFields k with
  | none => rw [hl] at hg; exact hg.elim
  | some f =>
    rw [hl] at hg
    cases f with
    | Types =>
      obtain ⟨ts, hts⟩ := hg
      subst hts
      simp only [objectCard, hl]
      rw [storeSlice_strings]
    | Id | Name | HP | Rarity =>
      obtain ⟨s, hs⟩ := hg
      subst hs
      simp only [objectCard, hl, storeString]

theorem applyCardMember_comm (m1 m2 : GoString × Value) (c : CardData)
    (h1 : goodCardMember m1) (h2 : goodCardMember m2) (hd : fieldsDiffer m1 m2) :
    applyCardMember m1 (applyCardMember m2 c) = applyCardMember m2 (applyCardMember m1 c) := by
  obtain ⟨k1, v1⟩ := m1
  obtain ⟨k2, v2⟩ := m2
  unfold goodCardMember at h1 h2
  unfold fieldsDiffer at hd
  simp only at h1 h2 hd
  unfold applyCardMember
  cases hl1 : lookupField cardFields k1 with
  | none => rw [hl1] at h1; exact h1.elim
  | some f1 =>
    cases hl2 : lookupField cardFields k2 with
    | none => rw [hl2] at h2; exact h2.elim
    | some f2 =>
      rw [hl1] at h1 hd
      rw [hl2] at h2 hd
      cases f1 <;> cases f2 <;> first
        | exact absurd rfl hd
        | (simp only [objectCard, hl1, hl2])

theorem objectCard_perm {l1 l2 : List (GoString × Value)} (hp : l1.Perm l2) :
    (∀ m ∈ l1, goodCardMember m) → l1.Pairwise fieldsDiffer →
    ∀ (c : CardData) (saved : Saved), objectCard l1 c saved = objectCard l2 c saved := by
  induction hp with
  | nil => intro _ _ c saved; rfl
  | cons x _ ih =>
    intro hg hpw c saved
    rw [objectCard_cons_good x _ c saved (hg x (List.mem_cons_self _ _)),
      objectCard_cons_good x _ c saved (hg x (List.mem_cons_self _ _))]
    exact ih (fun m hm => hg m (List.mem_cons_of_mem _ hm)) (List.pairwise_cons.1 hpw).2 _ _
  | swap x y l =>
    intro hg hpw c saved
    have hy := hg y (List.mem_cons_self _ _)
    have hx := hg x (List.mem_cons_of_mem _ (List.mem_cons_self _ _))
    have hd : fieldsDiffer y x := (List.pairwise_cons.1 hpw).1 x (List.mem_cons_self _ _)
    rw [objectCard_cons_good y _ c saved hy, objectCard_cons_good x _ _ saved hx,
      objectCard_cons_good x _ c saved hx, objectCard_cons_good y _ _ saved hy,
      applyCardMember_comm x y c hx hy (fun h => hd h.symm)]
  | trans p1 _ ih1 ih2 =>
    intro hg hpw c saved
    rw [ih1 hg hpw c saved]
    exact ih2 (fun m hm => hg m (p1.symm.subset hm))
      (p1.pairwise hpw fun h h' => h h'.symm) c saved

/-- The five members of a card, in declaration order, decode from the zero
value into that card. -/
theorem objectCard_cardMembers (c : spec.Card) (saved : Saved) :
    objectCard (spec.cardMembers c) CardData.zero saved = (c.toCardData, saved) := by
  obtain ⟨h1, h2, h3, h4, h5, _⟩ := lookupField_card_names
  simp only [spec.cardMembers, objectCard, h1, h2, h3, h4, h5, storeString, CardData.zero,
    storeSlice_strings_nil, spec.Card.toCardData]

/-- Members whose key names no field are skipped: only the named members
count. -/
theorem objectCard_named (members : List (GoString × Value)) :
    ∀ (c : CardData) (saved : Saved),
      objectCard members c saved = objectCard (spec.namedCardMembers members) c saved := by
  induction members with
  | nil => intro c saved; rfl
  | cons m rest ih =>
    intro c saved
    obtain ⟨k, v⟩ := m
    cases hl : lookupField cardFields k with
    | none =>
      have hf : spec.namedCardMembers ((k, v) :: rest) = spec.namedCardMembers rest := by
        simp [spec.namedCardMembers, List.filter_cons, hl]
      rw [hf]
      simp only [objectCard, hl]
      exact ih c saved
    | some f =>
      have hf : spec.namedCardMembers ((k, v) :: rest) =
          (k, v) :: spec.namedCardMembers rest := by
        simp [spec.namedCardMembers, List.filter_cons, hl]
      rw [hf]
      cases f <;> simp only [objectCard, hl] <;> exact ih _ _

theorem objectResult_named (members : List (GoString × Value)) :
    ∀ (r : ResultData) (saved : Saved),
      objectResult members r saved = objectResult (spec.namedResultMembers members) r saved := by
  induction members with
  | nil => intro r saved; rfl
  | cons m rest ih =>
    intro r saved
    obtain ⟨k, v⟩ := m
    cases hl : lookupField resultFields k with
    | none =>
      have hf : spec.namedResultMembers ((k, v) :: rest) = spec.namedResultMembers rest := by
        simp [spec.namedResultMembers, List.filter_cons, hl]
      rw [hf]
      simp only [objectResult, hl]
      exact ih r saved
    | some f =>
      have hf : spec.namedResultMembers ((k, v) :: rest) =
          (k, v) :: spec.namedResultMembers rest := by
        simp [spec.namedResultMembers, List.filter_cons, hl]
      rw [hf]
      simp only [objectResult, hl]
      exact ih _ _

theorem storeCard_isCardObject (v : Value) (c : spec.Card) (saved : Saved)
    (h : spec.isCardObject v c) : storeCard v CardData.zero saved = (c.toCardData, saved) := by
  obtain ⟨members, hv, hp⟩ := h
  obtain ⟨h1, h2, h3, h4, h5, _⟩ := lookupField_card_names
  subst hv
  have hgood : ∀ m ∈ spec.cardMembers c, goodCardMember m := by
    intro m hm
    simp only [spec.cardMembers, List.mem_cons, List.mem_singleton, List.not_mem_nil,
      or_false] at hm
    rcases hm with rfl | rfl | rfl | rfl | rfl <;>
      simp only [goodCardMember, h1, h2, h3, h4, h5] <;> exact ⟨_, rfl⟩
  have hpw : (spec.cardMembers c).Pairwise fieldsDiffer := by
    simp [spec.cardMembers, fieldsDiffer, h1, h2, h3, h4, h5]
  simp only [storeCard]
  rw [objectCard_named, ← objectCard_perm hp.symm hgood hpw, objectCard_cardMembers]

end json

theorem storeCard_forall₂ (objs : List json.Value) (cards : List spec.Card)
    (hobjs : List.Forall₂ spec.isCardObject objs cards) :
    List.Forall₂ (fun e x => ∀ sv, json.storeCard e CardData.zero sv = (x, sv)) objs
      (cards.map spec.Card.toCardData) := by
  induction hobjs with
  | nil => exact List.Forall₂.nil
  | cons h _ ih => exact List.Forall₂.cons (fun sv => json.storeCard_isCardObject _ _ sv h) ih

/-- What `processData` returns for a 200 response whose body holds `v`. -/
theorem processData_of_parse (body : List Byte) (v : json.Value)
    (hparse : json.parse body = some v) :
    processData (http.Response.read 200 body) =
      ((json.storeResult v ResultData.zero none).1,
        ((json.storeResult v ResultData.zero none).2.map json.Error.typeError).map
          ProcessError.unmarshal) := by
  have hU := json.Unmarshal_of_parse body v ResultData.zero hparse
  simp only [processData, http.Response.read, ne_eq, not_true_eq_false, if_false]
  rw [hU]

/-- What `processData` returns for a body that holds an object whose only
member naming `data` carries the objects of the cards `cards`. -/
theorem processData_of_card_values (body : List Byte)
    (tops : List (GoString × json.Value)) (objs : List json.Value) (cards : List spec.Card)
    (hparse : json.parse body = some (json.Value.object tops))
    (hdata : spec.namedResultMembers tops = [(str "data", json.Value.array objs)])
    (hobjs : List.Forall₂ spec.isCardObject objs cards) :
    processData (http.Response.read 200 body) =
      ({ Data := GoSlice.ofList (cards.map spec.Card.toCardData) }, none) := by
  have hdec := storeCard_forall₂ objs cards hobjs
  have hkey := json.lookupField_card_names.2.2.2.2.2
  rw [processData_of_parse body _ hparse]
  simp only [json.storeResult]
  rw [json.objectResult_named, hdata]
  simp only [json.objectResult, hkey, json.storeSlice, ResultData.zero,
    GoSlice.nil, json.arrayLoop_from_nothing CardData.zero json.storeCard objs _ hdec]
  rfl

theorem Char_ofNat_toNat (n : Nat) (h : n < 55296) : (Char.ofNat n).toNat = n := by
  have hv : n.isValidChar := Or.inl h
  simp [Char.ofNat, hv, Char.ofNatAux, Char.toNat, UInt32.toNat]

namespace spec

/-- A text of ASCII characters from space on, without `"` and `\`, denotes
itself. -/
theorem Literal_plain (s : List Byte)
    (h : ∀ b ∈ s, 32 ≤ b.val ∧ b.val < 128 ∧ b.val ≠ 34 ∧ b.val ≠ 92) : Literal s s := by
  induction s with
  | nil => exact Literal.nil
  | cons b s ih =>
    obtain ⟨h1, h2, h3, h4⟩ := h b (List.mem_cons_self _ _)
    have hc : (Char.ofNat b.val).toNat = b.val := Char_ofNat_toNat b.val (by omega)
    have hb : utf8Bytes (Char.ofNat b.val) = [b] := by
      simp only [utf8Bytes, hc, h2, if_true]
      congr 1
      exact Fin.ext (by rw [byte_ofNat_val]; omega)
    have := Literal.char (Char.ofNat b.val) s s (by omega) (by omega) (by omega)
      (ih fun c hc => h c (List.mem_cons_of_mem _ hc))
    rw [hb] at this
    exact this

/-- Literals are read piece by piece. -/
theorem Literal_append (t1 : List Byte) (s1 : GoString) (h1 : Literal t1 s1) (t2 : List Byte)
    (s2 : GoString) (h2 : Literal t2 s2) : Literal (t1 ++ t2) (s1 ++ s2) := by
  induction h1 with
  | nil => exact h2
  | char c t s a b d _ ih =>
    rw [List.append_assoc, List.append_assoc]
    exact Literal.char c _ _ a b d ih
  | escape e b t s he _ ih => exact Literal.escape e b _ _ he ih
  | unicode h1 h2 h3 h4 c t s hh _ ih =>
    rw [List.append_assoc]
    exact Literal.unicode h1 h2 h3 h4 c _ _ hh ih
  | pair h1 h2 h3 h4 l1 l2 l3 l4 hi lo c t s a b k1 k2 k3 k4 hc _ ih =>
    rw [List.append_assoc]
    exact Literal.pair h1 h2 h3 h4 l1 l2 l3 l4 hi lo c _ _ a b k1 k2 k3 k4 hc ih

theorem isWhite_nil : isWhite [] := by
  intro b hb
  cases hb

theorem isWhite_space : isWhite [32] := by
  intro b hb
  simp only [List.mem_singleton] at hb
  exact Or.inl hb

end spec

/-- C4: for every 200 response whose body is a JSON text (nested within the
limit of Go's decoder) that denotes an object whose one member named `data`
is an array of `n` card objects, `processData` succeeds and returns a
`ResultData` whose `Data` holds exactly `n` cards in the same order, card `i`
carrying the five values of the `i`-th object verbatim: the strings that the
literals of `id`, `name`, `hp`, `rarity` and of the elements of `types`
denote (escapes resolved, UTF-8 text as it is), `hp` as the string it was
sent as.  A card object has the five members in any order and may have more
members whose keys name no field; the text may have white space wherever JSON
allows it.  For `n = 0` the result has zero cards. -/
theorem processData_decodes_cards (body : List Byte) (d : Nat)
    (tops : List (GoString × json.Value)) (objs : List json.Value) (cards : List spec.Card)
    (htext : spec.JsonText d body (json.Value.object tops))
    (hd : d ≤ json.maxNestingDepth)
    (hdata : spec.namedResultMembers tops = [(str "data", json.Value.array objs)])
    (hobjs : List.Forall₂ spec.isCardObject objs cards) :
    processData (http.Response.read 200 body) =
      ({ Data := GoSlice.ofList (cards.map spec.Card.toCardData) }, none) ∧
    (processData (http.Response.read 200 body)).1.Data.toList =
      cards.map spec.Card.toCardData ∧
    (processData (http.Response.read 200 body)).1.Data.toList.length = objs.length := by
  have hmain := processData_of_card_values body tops objs cards
    (json.parse_JsonText d body _ htext hd) hdata hobjs
  refine ⟨hmain, ?_, ?_⟩
  · rw [hmain]
    simp [GoSlice.toList, GoSlice.ofList]
  · rw [hmain]
    simp [GoSlice.toList, GoSlice.ofList, hobjs.length_eq]

set_option maxRecDepth 100000 in
/-- The body of the example of the specification is a JSON text that denotes
one card object. -/
theorem pikachuBody_text : spec.JsonText 4 pikachuBody
    (json.Value.object
      [(str "data", json.Value.array [json.Value.object (spec.cardMembers pikachu)])]) := by
  have w := spec.isWhite_nil
  have hid : spec.Json 1 (str "\"xy1-1\"") (spec.Den.value (json.Value.string (str "xy1-1"))) :=
    spec.Json.string 1 (str "xy1-1") (str "xy1-1") (spec.Literal_plain _ (by decide))
  have hname : spec.Json 1 (str "\"Pikachu\"")
      (spec.Den.value (json.Value.string (str "Pikachu"))) :=
    spec.Json.string 1 (str "Pikachu") (str "Pikachu") (spec.Literal_plain _ (by decide))
  have hlight : spec.Json 0 (str "\"Lightning\"")
      (spec.Den.value (json.Value.string (str "Lightning"))) :=
    spec.Json.string 0 (str "Lightning") (str "Lightning") (spec.Literal_plain _ (by decide))
  have htypes : spec.Json 1 (str "[\"Lightning\"]")
      (spec.Den.value (json.Value.array [json.Value.string (str "Lightning")])) :=
    spec.Json.array 0 _ _ (spec.Json.lastElem 0 [] _ [] _ w w hlight)
  have hhp : spec.Json 1 (str "\"60\"") (spec.Den.value (json.Value.string (str "60"))) :=
    spec.Json.string 1 (str "60") (str "60") (spec.Literal_plain _ (by decide))
  have hrar : spec.Json 1 (str "\"Common\"")
      (spec.Den.value (json.Value.string (str "Common"))) :=
    spec.Json.string 1 (str "Common") (str "Common") (spec.Literal_plain _ (by decide))
  have hmembers : spec.Json 1
      (str "\"id\":\"xy1-1\",\"name\":\"Pikachu\",\"types\":[\"Lightning\"],\"hp\":\"60\",\"rarity\":\"Common\"\x7d")
      (spec.Den.members (spec.cardMembers pikachu)) :=
    spec.Json.consMember 1 [] (str "id") [] [] _ [] _ (str "id") _ _ w w w w
      (spec.Literal_plain _ (by decide)) hid
      (spec.Json.consMember 1 [] (str "name") [] [] _ [] _ (str "name") _ _ w w w w
        (spec.Literal_plain _ (by decide)) hname
        (spec.Json.consMember 1 [] (str "types") [] [] _ [] _ (str "types") _ _ w w w w
          (spec.Literal_plain _ (by decide)) htypes
          (spec.Json.consMember 1 [] (str "hp") [] [] _ [] _ (str "hp") _ _ w w w w
            (spec.Literal_plain _ (by decide)) hhp
            (spec.Json.lastMember 1 [] (str "rarity") [] [] _ [] (str "rarity") _ w w w w
              (spec.Literal_plain _ (by decide)) hrar))))
  have hcard : spec.Json 2
      (str "\x7b\"id\":\"xy1-1\",\"name\":\"Pikachu\",\"types\":[\"Lightning\"],\"hp\":\"60\",\"rarity\":\"Common\"\x7d")
      (spec.Den.value (json.Value.object (spec.cardMembers pikachu))) :=
    spec.Json.object 1 _ _ hmembers
  have harr : spec.Json 3
      (str "[\x7b\"id\":\"xy1-1\",\"name\":\"Pikachu\",\"types\":[\"Lightning\"],\"hp\":\"60\",\"rarity\":\"Common\"\x7d]")
      (spec.Den.value (json.Value.array [json.Value.object (spec.cardMembers pikachu)])) :=
    spec.Json.array 2 _ _ (spec.Json.lastElem 2 [] _ [] _ w w hcard)
  have htop : spec.Json 4 pikachuBody
      (spec.Den.value (json.Value.object
        [(str "data", json.Value.array [json.Value.object (spec.cardMembers pikachu)])])) :=
    spec.Json.object 3 _ _
      (spec.Json.lastMember 3 [] (str "data") [] [] _ [] (str "data") _ w w w w
        (spec.Literal_plain _ (by decide)) harr)
  exact ⟨[], pikachuBody, [], by simp, w, w, htop⟩

set_option maxRecDepth 100000 in
/-- The body `{"data": []}` is a JSON text that denotes an object with an
empty array. -/
theorem empty_data_text : spec.JsonText 2 (str "\x7b\"data\": []\x7d")
    (json.Value.object [(str "data", json.Value.array [])]) := by
  have w := spec.isWhite_nil
  have harr : spec.Json 1 (str "[]") (spec.Den.value (json.Value.array [])) :=
    spec.Json.emptyArray 0 [] w
  have htop : spec.Json 2 (str "\x7b\"data\": []\x7d")
      (spec.Den.value (json.Value.object [(str "data", json.Value.array [])])) :=
    spec.Json.object 1 _ _
      (spec.Json.lastMember 1 [] (str "data") [] [32] _ [] (str "data") _ w w
        spec.isWhite_space w (spec.Literal_plain _ (by decide)) harr)
  exact ⟨[], _, [], by simp, w, w, htop⟩

set_option maxRecDepth 100000 in
/-- The text `Pok\u00e9mon \"é\"\n` between quotes denotes `Pokémon "é"` and
a line feed. -/
theorem fancyName_literal :
    spec.Literal (str "Pok\\u00e9mon \\\"\xe9\\\"\\n") (str "Pok\xe9mon \"\xe9\"\n") :=
  spec.Literal_append _ _ (spec.Literal_plain (str "Pok") (by decide)) _ _
    (spec.Literal_append _ _
      (spec.Literal.unicode 48 48 101 57 (Char.ofNat 233) [] [] (by decide) spec.Literal.nil)
      _ _
      (spec.Literal_append _ _ (spec.Literal_plain (str "mon ") (by decide)) _ _
        (spec.Literal.escape 34 34 _ _ (by decide)
          (spec.Literal.char (Char.ofNat 233) _ _ (by decide) (by decide) (by decide)
            (spec.Literal.escape 34 34 _ _ (by decide)
              (spec.Literal.escape 110 10 _ _ (by decide) spec.Literal.nil))))))

set_option maxRecDepth 100000 in
/-- The body `fancyBody` is a JSON text; it denotes an object with the
members `data` and `count`. -/
theorem fancyBody_text : spec.JsonText 4 fancyBody (json.Value.object fancyMembers) := by
  have w := spec.isWhite_nil
  have s := spec.isWhite_space
  have hid : spec.Json 1 (str "\"xy1-1\"") (spec.Den.value (json.Value.string (str "xy1-1"))) :=
    spec.Json.string 1 (str "xy1-1") (str "xy1-1") (spec.Literal_plain _ (by decide))
  have hname : spec.Json 1 (str "\"Pok\\u00e9mon \\\"\xe9\\\"\\n\"")
      (spec.Den.value (json.Value.string (str "Pok\xe9mon \"\xe9\"\n"))) :=
    spec.Json.string 1 _ _ fancyName_literal
  have hfire : spec.Json 0 (str "\"Fire\"")
      (spec.Den.value (json.Value.string (str "Fire"))) :=
    spec.Json.string 0 (str "Fire") (str "Fire") (spec.Literal_plain _ (by decide))
  have htypes : spec.Json 1 (str "[\"Fire\"]")
      (spec.Den.value (json.Value.array [json.Value.string (str "Fire")])) :=
    spec.Json.array 0 _ _ (spec.Json.lastElem 0 [] _ [] _ w w hfire)
  have hhp : spec.Json 1 (str "\"60\"") (spec.Den.value (json.Value.string (str "60"))) :=
    spec.Json.string 1 (str "60") (str "60") (spec.Literal_plain _ (by decide))
  have hrar : spec.Json 1 (str "\"Common\"")
      (spec.Den.value (json.Value.string (str "Common"))) :=
    spec.Json.string 1 (str "Common") (str "Common") (spec.Literal_plain _ (by decide))
  have hlevel : spec.Json 1 (str "12") (spec.Den.value (json.Value.number (str "12"))) :=
    spec.Json.number 1 _
      (spec.NumberText.mk [] [49, 50] [] [] (Or.inl rfl)
        (Or.inr ⟨49, [50], rfl, by decide, by decide, by unfold spec.isDigitRun; decide⟩) (Or.inl rfl) (Or.inl rfl))
  have hcount : spec.Json 3 (str "1") (spec.Den.value (json.Value.number (str "1"))) :=
    spec.Json.number 3 _
      (spec.NumberText.mk [] [49] [] [] (Or.inl rfl)
        (Or.inr ⟨49, [], rfl, by decide, by decide, by unfold spec.isDigitRun; decide⟩) (Or.inl rfl) (Or.inl rfl))
  have hmembers : spec.Json 1
      (str "\"id\":\"xy1-1\",\"name\":\"Pok\\u00e9mon \\\"\xe9\\\"\\n\",\"types\":[\"Fire\"],\"hp\":\"60\",\"rarity\":\"Common\",\"level\":12\x7d")
      (spec.Den.members fancyCardMembers) :=
    spec.Json.consMember 1 [] (str "id") [] [] _ [] _ (str "id") _ _ w w w w
      (spec.Literal_plain _ (by decide)) hid
      (spec.Json.consMember 1 [] (str "name") [] [] _ [] _ (str "name") _ _ w w w w
        (spec.Literal_plain _ (by decide)) hname
        (spec.Json.consMember 1 [] (str "types") [] [] _ [] _ (str "types") _ _ w w w w
          (spec.Literal_plain _ (by decide)) htypes
          (spec.Json.consMember 1 [] (str "hp") [] [] _ [] _ (str "hp") _ _ w w w w
            (spec.Literal_plain _ (by decide)) hhp
            (spec.Json.consMember 1 [] (str "rarity") [] [] _ [] _ (str "rarity") _ _ w w w w
              (spec.Literal_plain _ (by decide)) hrar
              (spec.Json.lastMember 1 [] (str "level") [] [] _ [] (str "level") _ w w w w
                (spec.Literal_plain _ (by decide)) hlevel)))))
  have hcard : spec.Json 2
      (str "\x7b\"id\":\"xy1-1\",\"name\":\"Pok\\u00e9mon \\\"\xe9\\\"\\n\",\"types\":[\"Fire\"],\"hp\":\"60\",\"rarity\":\"Common\",\"level\":12\x7d")
      (spec.Den.value (json.Value.object fancyCardMembers)) :=
    spec.Json.object 1 _ _ hmembers
  have harr : spec.Json 3
      (str "[ \x7b\"id\":\"xy1-1\",\"name\":\"Pok\\u00e9mon \\\"\xe9\\\"\\n\",\"types\":[\"Fire\"],\"hp\":\"60\",\"rarity\":\"Common\",\"level\":12\x7d ]")
      (spec.Den.value (json.Value.array [json.Value.object fancyCardMembers])) :=
    spec.Json.array 2 _ _ (spec.Json.lastElem 2 [32] _ [32] _ s s hcard)
  have htop : spec.Json 4
      (str "\x7b \"data\" : [ \x7b\"id\":\"xy1-1\",\"name\":\"Pok\\u00e9mon \\\"\xe9\\\"\\n\",\"types\":[\"Fire\"],\"hp\":\"60\",\"rarity\":\"Common\",\"level\":12\x7d ] , \"count\" : 1 \x7d")
      (spec.Den.value (json.Value.object fancyMembers)) :=
    spec.Json.object 3 _ _
      (spec.Json.consMember 3 [32] (str "data") [32] [32] _ [32] _ (str "data") _ _ s s s s
        (spec.Literal_plain _ (by decide)) harr
        (spec.Json.lastMember 3 [32] (str "count") [32] [32] _ [32] (str "count") _ s s s s
          (spec.Literal_plain _ (by decide)) hcount))
  refine ⟨[32], _, [10], ?_, s, ?_, htop⟩
  · decide
  · intro b hb
    simp only [List.mem_singleton] at hb
    exact Or.inr (Or.inr (Or.inl hb))

set_option maxRecDepth 100000 in
theorem processData_decodes_cards_witness :
    processData (http.Response.read 200 pikachuBody) =
      ({ Data := GoSlice.ofList [pikachu.toCardData] }, none) ∧
    (processData (http.Response.read 200 pikachuBody)).1.Data.toList.length = 1 ∧
    pikachu.toCardData.HP = str "60" ∧
    processData (http.Response.read 200 (str "\x7b\"data\": []\x7d")) =
      ({ Data := GoSlice.ofList [] }, none) ∧
    (processData (http.Response.read 200 (str "\x7b\"data\": []\x7d"))).1.Data.toList.length = 0 ∧
    processData (http.Response.read 200 fancyBody) =
      ({ Data := GoSlice.ofList [fancyCard.toCardData] }, none) ∧
    fancyCard.toCardData.Name = str "Pok\xe9mon \"\xe9\"\n" :=
  have h1 := processData_decodes_cards pikachuBody 4 _ [json.Value.object (spec.cardMembers pikachu)]
    [pikachu] pikachuBody_text (by decide) (by rfl)
    (List.Forall₂.cons ⟨_, rfl, List.Perm.refl _⟩ List.Forall₂.nil)
  have h0 := processData_decodes_cards (str "\x7b\"data\": []\x7d") 2 _ [] [] empty_data_text
    (by decide) (by rfl) List.Forall₂.nil
  have h2 := processData_decodes_cards fancyBody 4 _ [json.Value.object fancyCardMembers]
    [fancyCard] fancyBody_text (by decide) (by rfl)
    (List.Forall₂.cons ⟨_, rfl, List.Perm.refl _⟩ List.Forall₂.nil)
  ⟨h1.1, h1.2.2, by decide, h0.1, h0.2.2, h2.1, by decide⟩
/-! ## Type errors of the decoder -/

namespace json

theorem saveError_ne_none (saved : Saved) (e : UnmarshalTypeError) : saveError saved e ≠ none := by
  cases saved <;> simp [saveError]

theorem storeString_err (v : Value) (cur : GoString) (saved : Saved) :
    (storeString v cur saved).2 = none ↔ saved = none ∧ spec.mismatchString v = false := by
  cases v <;> simp [storeString, spec.mismatchString, saveError_ne_none]

/-- The loop over an array saves an error exactly when one was saved before
or an element is one its target does not take. -/
theorem arrayLoop_err {α : Type} (zero : α) (dec : Value → α → Saved → α × Saved)
    (mism : Value → Bool)
    (hdec : ∀ e cur sv, (dec e cur sv).2 = none ↔ sv = none ∧ mism e = false)
    (es : List Value) : ∀ (i : Nat) (s : GoSlice α) (saved : Saved),
    (arrayLoop zero dec i es s saved).2 = none ↔ saved = none ∧ es.any mism = false := by
  induction es with
  | nil => intro i s saved; simp [arrayLoop]
  | cons e es ih =>
    intro i s saved
    rw [arrayLoop]
    simp only [ih, hdec, List.any_cons, Bool.or_eq_false_iff]
    tauto

theorem storeSlice_err {α : Type} (zero : α) (dec : Value → α → Saved → α × Saved)
    (mism : Value → Bool) (ty : GoType)
    (hdec : ∀ e cur sv, (dec e cur sv).2 = none ↔ sv = none ∧ mism e = false)
    (v : Value) (cur : GoSlice α) (saved : Saved) :
    (storeSlice zero dec ty v cur saved).2 = none ↔
      saved = none ∧
        (match v with
          | Value.array es => es.any mism
          | Value.null => false
          | _ => true) = false := by
  cases v <;> simp [storeSlice, saveError_ne_none, arrayLoop_err zero dec mism hdec]

theorem storeStrings_err (v : Value) (cur : GoSlice GoString) (saved : Saved) :
    (storeSlice [] storeString GoType.sliceOfString v cur saved).2 = none ↔
      saved = none ∧ spec.mismatchStrings v = false := by
  rw [storeSlice_err [] storeString spec.mismatchString _ storeString_err]
  cases v <;> simp [spec.mismatchStrings]

theorem objectCard_err (members : List (GoString × Value)) : ∀ (c : CardData) (saved : Saved),
    (objectCard members c saved).2 = none ↔
      saved = none ∧ members.any spec.mismatchCardMember = false := by
  induction members with
  | nil => intro c saved; simp [objectCard]
  | cons m rest ih =>
    intro c saved
    obtain ⟨k, v⟩ := m
    rw [objectCard]
    cases hl : lookupField cardFields k with
    | none =>
      simp only [ih, List.any_cons, Bool.or_eq_false_iff, spec.mismatchCardMember, hl]
      tauto
    | some f =>
      cases f <;>
        simp only [ih, List.any_cons, Bool.or_eq_false_iff, spec.mismatchCardMember, hl,
          storeString_err, storeStrings_err] <;> tauto

theorem storeCard_err (v : Value) (cur : CardData) (saved : Saved) :
    (storeCard v cur saved).2 = none ↔ saved = none ∧ spec.mismatchCard v = false := by
  cases v <;> simp [storeCard, spec.mismatchCard, saveError_ne_none, objectCard_err]

theorem storeCards_err (v : Value) (cur : GoSlice CardData) (saved : Saved) :
    (storeSlice CardData.zero storeCard GoType.sliceOfCardData v cur saved).2 = none ↔
      saved = none ∧ spec.mismatchCards v = false := by
  rw [storeSlice_err CardData.zero storeCard spec.mismatchCard _ storeCard_err]
  cases v <;> simp [spec.mismatchCards]

theorem objectResult_err (members : List (GoString × Value)) :
    ∀ (r : ResultData) (saved : Saved),
    (objectResult members r saved).2 = none ↔
      saved = none ∧ members.any spec.mismatchResultMember = false := by
  induction members with
  | nil => intro r saved; simp [objectResult]
  | cons m rest ih =>
    intro r saved
    obtain ⟨k, v⟩ := m
    rw [objectResult]
    cases hl : lookupField resultFields k with
    | none =>
      simp only [ih, List.any_cons, Bool.or_eq_false_iff, spec.mismatchResultMember, hl]
      tauto
    | some f =>
      simp only [ih, List.any_cons, Bool.or_eq_false_iff, spec.mismatchResultMember, hl,
        storeCards_err]
      tauto

/-- The decoder returns a type error exactly when the value gives the
result, or a field with a known name, a value it does not take. -/
theorem storeResult_err (v : Value) (cur : ResultData) (saved : Saved) :
    (storeResult v cur saved).2 = none ↔ saved = none ∧ spec.mismatchResult v = false := by
  cases v <;> simp [storeResult, spec.mismatchResult, saveError_ne_none, objectResult_err]

end json

/-- On a body that holds the value `v`, `processData` returns an error
exactly when `v` gives the result or a field with a known name a value of a
type the field does not take. -/
theorem processData_error_iff_mismatch (body : List Byte) (v : json.Value)
    (hparse : json.parse body = some v) :
    ((processData (http.Response.read 200 body)).2 ≠ none ↔
      spec.mismatchResult v = true) ∧
    (spec.mismatchResult v = true →
      ∃ e, (processData (http.Response.read 200 body)).2 =
        some (ProcessError.unmarshal (json.Error.typeError e))) := by
  have herr := json.storeResult_err v ResultData.zero none
  rw [processData_of_parse body v hparse]
  cases hs : (json.storeResult v ResultData.zero none).2 with
  | none =>
    rw [hs] at herr
    have := (herr.1 rfl).2
    simp [this]
  | some e =>
    rw [hs] at herr
    have hm : spec.mismatchResult v = true := by
      cases hmm : spec.mismatchResult v with
      | true => rfl
      | false => exact absurd (herr.2 ⟨rfl, hmm⟩) (by simp)
    simp [hm]

namespace json

/-- A member with the value `null` whose key names a string field has no
effect on the card. -/
theorem objectCard_insert_null (k : GoString) (f : CardField) (m2 : List (GoString × Value))
    (hk : lookupField cardFields k = some f) (hf : f ≠ CardField.Types)
    (m1 : List (GoString × Value)) : ∀ (c : CardData) (saved : Saved),
      objectCard (m1 ++ (k, Value.null) :: m2) c saved = objectCard (m1 ++ m2) c saved := by
  induction m1 with
  | nil =>
    intro c saved
    cases f <;> first | exact absurd rfl hf | simp [objectCard, hk, storeString]
  | cons m rest ih =>
    intro c saved
    obtain ⟨k1, v1⟩ := m
    simp only [List.cons_append, objectCard]
    split <;> exact ih _ _

theorem arrayLoop_congr_elem {α : Type} (zero : α) (dec : Value → α → Saved → α × Saved)
    (x1 x2 : Value) (e2 : List Value) (hx : ∀ cur sv, dec x1 cur sv = dec x2 cur sv)
    (e1 : List Value) : ∀ (i : Nat) (s : GoSlice α) (saved : Saved),
      arrayLoop zero dec i (e1 ++ x1 :: e2) s saved =
        arrayLoop zero dec i (e1 ++ x2 :: e2) s saved := by
  induction e1 with
  | nil => intro i s saved; simp only [List.nil_append, arrayLoop, hx]
  | cons e rest ih =>
    intro i s saved
    rw [List.cons_append, List.cons_append, arrayLoop, arrayLoop]
    exact ih _ _ _

theorem objectResult_congr_member (dk : GoString) (a1 a2 : Value)
    (t2 : List (GoString × Value))
    (ha : ∀ cur sv, storeSlice CardData.zero storeCard GoType.sliceOfCardData a1 cur sv =
      storeSlice CardData.zero storeCard GoType.sliceOfCardData a2 cur sv)
    (t1 : List (GoString × Value)) : ∀ (r : ResultData) (saved : Saved),
      objectResult (t1 ++ (dk, a1) :: t2) r saved = objectResult (t1 ++ (dk, a2) :: t2) r saved := by
  induction t1 with
  | nil => intro r saved; simp only [List.nil_append, objectResult, ha]
  | cons m rest ih =>
    intro r saved
    obtain ⟨k1, v1⟩ := m
    simp only [List.cons_append, objectResult]
    split <;> exact ih _ _

/-- The decoder gives the same result and the same error for two values
that differ by a `null` for a string field. -/
theorem storeResult_addsNull (v1 v2 : Value) (h : spec.AddsNullString v1 v2)
    (r : ResultData) (saved : Saved) : storeResult v2 r saved = storeResult v1 r saved := by
  cases h with
  | card t1 t2 dk e1 e2 m1 m2 k f hk hf =>
    simp only [storeResult]
    apply objectResult_congr_member
    intro cur sv
    simp only [storeSlice]
    apply arrayLoop_congr_elem
    intro cur sv
    simp only [storeCard, objectCard_insert_null k f m2 hk hf m1]

end json

/-- C10 (amended): `processData` does not coerce types.  For every 200
response whose body is syntactically valid JSON (the scanner of
`encoding/json` accepts it), the body holds a value, and `processData`
returns an error exactly when that value gives the result or a field with a
known name a value of a JSON type the field does not take, `null` apart: a
string field takes a string or `null`, `types` and `data` take an array or
`null`, a card and the result take an object or `null`.  The error is then an
`UnmarshalTypeError`.  `null` is accepted everywhere: stored into a string
field, a card or the result it changes nothing and is no error (so a body
with one more `null` for a string field of a card gives the same result and
error), and stored into `types` or `data` it makes the slice nil. -/
theorem processData_type_mismatch (body : List Byte) (hvalid : json.checkValid body = none) :
    ∃ v, json.parse body = some v ∧
      ((processData (http.Response.read 200 body)).2 ≠ none ↔
        spec.mismatchResult v = true) ∧
      (spec.mismatchResult v = true →
        ∃ e, (processData (http.Response.read 200 body)).2 =
          some (ProcessError.unmarshal (json.Error.typeError e))) ∧
      (∀ (body2 : List Byte) (v2 : json.Value), json.parse body2 = some v2 →
        spec.AddsNullString v v2 →
        processData (http.Response.read 200 body2) =
          processData (http.Response.read 200 body)) ∧
      (∀ (cur : GoString) (saved : json.Saved),
        json.storeString json.Value.null cur saved = (cur, saved)) ∧
      (∀ (cur : CardData) (saved : json.Saved),
        json.storeCard json.Value.null cur saved = (cur, saved)) ∧
      (∀ (cur : ResultData) (saved : json.Saved),
        json.storeResult json.Value.null cur saved = (cur, saved)) ∧
      (∀ (cur : GoSlice GoString) (saved : json.Saved),
        json.storeSlice [] json.storeString json.GoType.sliceOfString json.Value.null cur
          saved = (GoSlice.nil, saved)) ∧
      (∀ (cur : GoSlice CardData) (saved : json.Saved),
        json.storeSlice CardData.zero json.storeCard json.GoType.sliceOfCardData
          json.Value.null cur saved = (GoSlice.nil, saved)) := by
  obtain ⟨v, hv⟩ := Option.isSome_iff_exists.mp ((json.parse_isSome_iff body).mpr hvalid)
  refine ⟨v, hv, (processData_error_iff_mismatch body v hv).1,
    (processData_error_iff_mismatch body v hv).2, ?_, fun _ _ => rfl, fun _ _ => rfl,
    fun _ _ => rfl, fun _ _ => rfl, fun _ _ => rfl⟩
  intro body2 v2 h2 hadd
  rw [processData_of_parse body2 v2 h2, processData_of_parse body v hv,
    json.storeResult_addsNull v v2 hadd]

set_option maxRecDepth 100000 in
theorem processData_type_mismatch_witness :
    json.checkValid (str "\x7b\"data\":[\x7b\"id\":\"xy1-1\",\"hp\":60\x7d]\x7d") = none ∧
    (∃ e, (processData (http.Response.read 200 (str "\x7b\"data\":[\x7b\"id\":\"xy1-1\",\"hp\":60\x7d]\x7d"))).2 =
      some (ProcessError.unmarshal (json.Error.typeError e))) ∧
    (∃ e, (processData (http.Response.read 200 (str "\x7b\"data\":[\x7b\"types\":\"Fire\"\x7d]\x7d"))).2 =
      some (ProcessError.unmarshal (json.Error.typeError e))) ∧
    (∃ e, (processData (http.Response.read 200 (str "\x7b\"data\":\x7b\"id\":\"xy1-1\"\x7d\x7d"))).2 =
      some (ProcessError.unmarshal (json.Error.typeError e))) ∧
    processData (http.Response.read 200
        (str "\x7b\"data\":[\x7b\"id\":\"a\",\"id\":null\x7d]\x7d")) =
      processData (http.Response.read 200 (str "\x7b\"data\":[\x7b\"id\":\"a\"\x7d]\x7d")) ∧
    processData (http.Response.read 200 (str "\x7b\"data\":[\x7b\"id\":\"a\"\x7d]\x7d")) =
      ({ Data := GoSlice.ofList [{ Id := str "a", Name := [], Types := GoSlice.nil,
                                   HP := [], Rarity := [] }] }, none) := by
  refine ⟨by decide, ?_, ?_, ?_, ?_, by decide⟩
  · obtain ⟨v, hv, _, h, _⟩ := processData_type_mismatch
      (str "\x7b\"data\":[\x7b\"id\":\"xy1-1\",\"hp\":60\x7d]\x7d") (by decide)
    have hp : json.parse (str "\x7b\"data\":[\x7b\"id\":\"xy1-1\",\"hp\":60\x7d]\x7d") =
        some (json.Value.object [(str "data", json.Value.array [json.Value.object
          [(str "id", json.Value.string (str "xy1-1")),
           (str "hp", json.Value.number (str "60"))]])]) := by rfl
    rw [hp] at hv
    cases hv
    exact h (by decide)
  · obtain ⟨v, hv, _, h, _⟩ := processData_type_mismatch
      (str "\x7b\"data\":[\x7b\"types\":\"Fire\"\x7d]\x7d") (by decide)
    have hp : json.parse (str "\x7b\"data\":[\x7b\"types\":\"Fire\"\x7d]\x7d") =
        some (json.Value.object [(str "data", json.Value.array [json.Value.object
          [(str "types", json.Value.string (str "Fire"))]])]) := by rfl
    rw [hp] at hv
    cases hv
    exact h (by decide)
  · obtain ⟨v, hv, _, h, _⟩ := processData_type_mismatch
      (str "\x7b\"data\":\x7b\"id\":\"xy1-1\"\x7d\x7d") (by decide)
    have hp : json.parse (str "\x7b\"data\":\x7b\"id\":\"xy1-1\"\x7d\x7d") =
        some (json.Value.object [(str "data", json.Value.object
          [(str "id", json.Value.string (str "xy1-1"))])]) := by rfl
    rw [hp] at hv
    cases hv
    exact h (by decide)
  · obtain ⟨v, hv, _, _, h, _⟩ := processData_type_mismatch
      (str "\x7b\"data\":[\x7b\"id\":\"a\"\x7d]\x7d") (by decide)
    have hp : json.parse (str "\x7b\"data\":[\x7b\"id\":\"a\"\x7d]\x7d") =
        some (json.Value.object [(str "data", json.Value.array [json.Value.object
          [(str "id", json.Value.string (str "a"))]])]) := by rfl
    rw [hp] at hv
    cases hv
    exact h (str "\x7b\"data\":[\x7b\"id\":\"a\",\"id\":null\x7d]\x7d") _ (by rfl)
      (spec.AddsNullString.card [] [] (str "data") [] []
        [(str "id", json.Value.string (str "a"))] [] (str "id") json.CardField.Id
        (by decide) (by decide))

set_option maxRecDepth 100000 in
/-- C10 (counterexample): a body that gives the known field `hp` the value
`null`, a value of another JSON type than string, is decoded without error
(the field keeps its zero value); so are `null` for `types`, for `data`, for
a card, and the body `null`. -/
theorem processData_accepts_null :
    processData (http.Response.read 200 (str "\x7b\"data\":[\x7b\"id\":\"xy1-1\",\"hp\":null\x7d]\x7d")) =
      ({ Data := GoSlice.ofList [{ Id := str "xy1-1", Name := [], Types := GoSlice.nil,
                                   HP := [], Rarity := [] }] }, none) ∧
    processData (http.Response.read 200 (str "\x7b\"data\":[\x7b\"types\":null\x7d,null]\x7d")) =
      ({ Data := GoSlice.ofList [CardData.zero, CardData.zero] }, none) ∧
    processData (http.Response.read 200 (str "\x7b\"data\":null\x7d")) =
      (ResultData.zero, none) ∧
    processData (http.Response.read 200 (str "null")) =
      (ResultData.zero, none) := by
  decide
/-! ## Unknown and missing fields -/

namespace json

theorem lookupField_eq_none_iff {φ : Type} (fields : List (GoString × φ)) (key : GoString) :
    lookupField fields key = none ↔ ∀ f ∈ fields, foldName f.1 ≠ foldName key := by
  unfold lookupField
  constructor
  · intro h
    split at h
    · cases h
    · split at h
      · cases h
      · rename_i hf
        simpa using hf
  · intro h
    have h1 : fields.find? (fun f => f.1 == key) = none := by
      rw [List.find?_eq_none]
      intro f hf hk
      simp only [beq_iff_eq] at hk
      exact h f hf (by rw [hk])
    have h2 : fields.find? (fun f => foldName f.1 == foldName key) = none := by
      rw [List.find?_eq_none]
      intro f hf hk
      simp only [beq_iff_eq] at hk
      exact h f hf hk
    simp [h1, h2]

theorem objectCard_insert (k : GoString) (v : Value) (m2 : List (GoString × Value))
    (hk : lookupField cardFields k = none) (m1 : List (GoString × Value)) :
    ∀ (c : CardData) (saved : Saved),
      objectCard (m1 ++ (k, v) :: m2) c saved = objectCard (m1 ++ m2) c saved := by
  induction m1 with
  | nil => intro c saved; simp [objectCard, hk]
  | cons m rest ih =>
    intro c saved
    obtain ⟨k1, v1⟩ := m
    simp only [List.cons_append, objectCard]
    split <;> exact ih _ _

theorem objectResult_insert (k : GoString) (v : Value) (l2 : List (GoString × Value))
    (hk : lookupField resultFields k = none) (l1 : List (GoString × Value)) :
    ∀ (r : ResultData) (saved : Saved),
      objectResult (l1 ++ (k, v) :: l2) r saved = objectResult (l1 ++ l2) r saved := by
  induction l1 with
  | nil => intro r saved; simp [objectResult, hk]
  | cons m rest ih =>
    intro r saved
    obtain ⟨k1, v1⟩ := m
    simp only [List.cons_append, objectResult]
    split <;> exact ih _ _

/-- The decoder gives the same result and the same error for two values
that differ by a member with an unknown key. -/
theorem storeResult_addsUnknown (v1 v2 : Value) (h : spec.AddsUnknownMember v1 v2)
    (r : ResultData) (saved : Saved) : storeResult v2 r saved = storeResult v1 r saved := by
  cases h with
  | top l1 l2 k v hk => simp only [storeResult, objectResult_insert k v l2 hk l1]
  | card t1 t2 dk e1 e2 m1 m2 k v hk =>
    simp only [storeResult]
    apply objectResult_congr_member
    intro cur sv
    simp only [storeSlice]
    apply arrayLoop_congr_elem
    intro cur sv
    simp only [storeCard, objectCard_insert k v m2 hk m1]

/-- A field that no member names keeps the value it had. -/
theorem objectCard_frame (members : List (GoString × Value)) :
    ∀ (c : CardData) (saved : Saved),
    ((∀ m ∈ members, lookupField cardFields m.1 ≠ some CardField.Id) →
      (objectCard members c saved).1.Id = c.Id) ∧
    ((∀ m ∈ members, lookupField cardFields m.1 ≠ some CardField.Name) →
      (objectCard members c saved).1.Name = c.Name) ∧
    ((∀ m ∈ members, lookupField cardFields m.1 ≠ some CardField.Types) →
      (objectCard members c saved).1.Types = c.Types) ∧
    ((∀ m ∈ members, lookupField cardFields m.1 ≠ some CardField.HP) →
      (objectCard members c saved).1.HP = c.HP) ∧
    ((∀ m ∈ members, lookupField cardFields m.1 ≠ some CardField.Rarity) →
      (objectCard members c saved).1.Rarity = c.Rarity) := by
  induction members with
  | nil => intro c saved; simp [objectCard]
  | cons m rest ih =>
    intro c saved
    obtain ⟨k, v⟩ := m
    simp only [List.mem_cons, forall_eq_or_imp]
    cases hl : lookupField cardFields k with
    | none =>
      simp only [objectCard, hl]
      obtain ⟨i1, i2, i3, i4, i5⟩ := ih c saved
      exact ⟨fun h => i1 h.2, fun h => i2 h.2, fun h => i3 h.2, fun h => i4 h.2, fun h => i5 h.2⟩
    | some f =>
      cases f <;> simp only [objectCard, hl] <;>
        (refine ⟨fun h => ?_, fun h => ?_, fun h => ?_, fun h => ?_, fun h => ?_⟩) <;>
        first
          | exact absurd rfl h.1
          | (rw [(ih _ _).1 h.2])
          | (rw [(ih _ _).2.1 h.2])
          | (rw [(ih _ _).2.2.1 h.2])
          | (rw [(ih _ _).2.2.2.1 h.2])
          | (rw [(ih _ _).2.2.2.2 h.2])

/-- Members whose keys name no field of `ResultData` are skipped. -/
theorem objectResult_skip (l1 rest : List (GoString × Value))
    (h : ∀ m ∈ l1, lookupField resultFields m.1 = none) (r : ResultData) (saved : Saved) :
    objectResult (l1 ++ rest) r saved = objectResult rest r saved := by
  induction l1 with
  | nil => rfl
  | cons m l ih =>
    obtain ⟨k, v⟩ := m
    have hk : lookupField resultFields k = none := h (k, v) (List.mem_cons_self _ _)
    simp only [List.cons_append, objectResult, hk]
    exact ih (fun m hm => h m (List.mem_cons_of_mem _ hm))

/-- Filling a slice that holds nothing yet: every element is decoded from the
zero value. -/
theorem arrayLoop_fresh_elems {α : Type} (zero : α) (dec : Value → α → Saved → α × Saved)
    (es : List Value) : ∀ (i : Nat) (b : Bool) (arr : List α) (saved : Saved), arr.length = i →
      ∃ xs, (arrayLoop zero dec i es ⟨b, arr, i⟩ saved).1.toList = arr ++ xs ∧
        List.Forall₂ (fun e x => ∃ sv, x = (dec e zero sv).1) es xs := by
  induction es with
  | nil =>
    intro i b arr saved harr
    refine ⟨[], ?_, List.Forall₂.nil⟩
    by_cases hi : i = 0
    · subst hi
      have : arr = [] := List.length_eq_zero.mp harr
      simp [arrayLoop, arrayFinish, GoSlice.toList, GoSlice.empty, this]
    · subst harr
      simp [arrayLoop, arrayFinish, GoSlice.toList, hi]
  | cons e es ih =>
    intro i b arr saved harr
    have hget : (arr ++ [zero]).getD i zero = zero := by
      rw [List.getD_eq_getElem?_getD, List.getElem?_append_right (by omega)]
      simp [harr]
    have hset : ∀ x : α, (arr ++ [zero]).set i x = arr ++ [x] := by
      intro x
      rw [List.set_append_right _ _ (by omega)]
      simp [harr]
    have hrep : List.replicate (i + 1 - arr.length) zero = [zero] := by
      rw [harr]
      simp
    rw [arrayLoop]
    simp only [ge_iff_le, le_refl, if_true, hrep, hget, hset]
    obtain ⟨xs, hxs, hall⟩ := ih (i + 1) false (arr ++ [(dec e zero saved).1])
      (dec e zero saved).2 (by simp [harr])
    refine ⟨(dec e zero saved).1 :: xs, ?_, List.Forall₂.cons ⟨saved, rfl⟩ hall⟩
    rw [hxs]
    simp

/-- With one top-level member that names `data`, an array, every card of the
result is decoded from the zero value out of the element at its position. -/
theorem storeResult_single_data (l1 l2 : List (GoString × Value)) (k : GoString)
    (objs : List Value) (hk : lookupField resultFields k = some ())
    (hno : ∀ m ∈ l1 ++ l2, lookupField resultFields m.1 = none) :
    List.Forall₂ (fun e x => ∃ sv, x = (storeCard e CardData.zero sv).1) objs
      (storeResult (Value.object (l1 ++ (k, Value.array objs) :: l2)) ResultData.zero
        none).1.Data.toList := by
  have h1 : ∀ m ∈ l1, lookupField resultFields m.1 = none :=
    fun m hm => hno m (List.mem_append_left _ hm)
  have h2 : ∀ m ∈ l2, lookupField resultFields m.1 = none :=
    fun m hm => hno m (List.mem_append_right _ hm)
  obtain ⟨xs, hxs, hall⟩ := arrayLoop_fresh_elems CardData.zero storeCard objs 0 true [] none rfl
  have hskip := objectResult_skip l2 [] h2
  simp only [List.append_nil] at hskip
  simp only [storeResult, objectResult_skip l1 _ h1, objectResult, hk, storeSlice,
    ResultData.zero, GoSlice.nil, hskip]
  rw [hxs]
  exact hall

end json

/-- C6 (amended): decoding ignores the members whose key matches no field
name, exactly or case-insensitively, and requires none.  For every two 200
bodies that are valid JSON and differ by one such member, at the top level
or inside a card object, `processData` returns the same `ResultData` and the
same error.  When exactly one member of the top-level object has a key that
matches `data`, and its value is an array, the cards of the result stand one
for one for the elements of the array, and a field of a card that no member of
its card object names gets its zero value (empty string, nil `types`).  In
general a field that no member names keeps the value the card had before.  A
card object decodes without error whenever its members of known name carry
values their fields take, whichever members are present; the bodies `{}` and
`{"data":[{}]}` decode successfully, to no cards and to one zero card. -/
theorem processData_ignores_unknown_members (body1 body2 : List Byte) (v1 v2 : json.Value)
    (h1 : json.parse body1 = some v1) (h2 : json.parse body2 = some v2)
    (hadd : spec.AddsUnknownMember v1 v2) :
    processData (http.Response.read 200 body2) = processData (http.Response.read 200 body1) ∧
    (∀ (l1 l2 : List (GoString × json.Value)) (k : GoString) (objs : List json.Value),
      v1 = json.Value.object (l1 ++ (k, json.Value.array objs) :: l2) →
      json.lookupField json.resultFields k = some () →
      (∀ m ∈ l1 ++ l2, json.lookupField json.resultFields m.1 = none) →
      List.Forall₂
        (fun obj c => ∀ members : List (GoString × json.Value),
          obj = json.Value.object members →
          ((∀ m ∈ members, json.lookupField json.cardFields m.1 ≠ some json.CardField.Id) →
            c.Id = []) ∧
          ((∀ m ∈ members, json.lookupField json.cardFields m.1 ≠ some json.CardField.Name) →
            c.Name = []) ∧
          ((∀ m ∈ members, json.lookupField json.cardFields m.1 ≠ some json.CardField.Types) →
            c.Types = GoSlice.nil) ∧
          ((∀ m ∈ members, json.lookupField json.cardFields m.1 ≠ some json.CardField.HP) →
            c.HP = []) ∧
          ((∀ m ∈ members, json.lookupField json.cardFields m.1 ≠ some json.CardField.Rarity) →
            c.Rarity = []))
        objs (processData (http.Response.read 200 body1)).1.Data.toList) ∧
    (∀ (members : List (GoString × json.Value)) (cur : CardData) (saved : json.Saved),
      ((∀ m ∈ members, json.lookupField json.cardFields m.1 ≠ some json.CardField.Id) →
        (json.storeCard (json.Value.object members) cur saved).1.Id = cur.Id) ∧
      ((∀ m ∈ members, json.lookupField json.cardFields m.1 ≠ some json.CardField.Name) →
        (json.storeCard (json.Value.object members) cur saved).1.Name = cur.Name) ∧
      ((∀ m ∈ members, json.lookupField json.cardFields m.1 ≠ some json.CardField.Types) →
        (json.storeCard (json.Value.object members) cur saved).1.Types = cur.Types) ∧
      ((∀ m ∈ members, json.lookupField json.cardFields m.1 ≠ some json.CardField.HP) →
        (json.storeCard (json.Value.object members) cur saved).1.HP = cur.HP) ∧
      ((∀ m ∈ members, json.lookupField json.cardFields m.1 ≠ some json.CardField.Rarity) →
        (json.storeCard (json.Value.object members) cur saved).1.Rarity = cur.Rarity)) ∧
    (∀ (members : List (GoString × json.Value)) (cur : CardData),
      (json.storeCard (json.Value.object members) cur none).2 = none ↔
        members.any spec.mismatchCardMember = false) ∧
    (∀ key : GoString, json.lookupField json.cardFields key = none ↔
      ∀ f ∈ json.cardFields, json.foldName f.1 ≠ json.foldName key) ∧
    (∀ key : GoString, json.lookupField json.resultFields key = none ↔
      json.foldName (str "data") ≠ json.foldName key) ∧
    processData (http.Response.read 200 (str "\x7b\x7d")) = (ResultData.zero, none) ∧
    processData (http.Response.read 200 (str "\x7b\"data\":[\x7b\x7d]\x7d")) =
      ({ Data := GoSlice.ofList [CardData.zero] }, none) := by
  refine ⟨?_, ?_, fun members cur saved => ?_, fun members cur => ?_, fun key => ?_,
    fun key => ?_, by decide, by decide⟩
  · rw [processData_of_parse body2 v2 h2, processData_of_parse body1 v1 h1,
      json.storeResult_addsUnknown v1 v2 hadd]
  · intro l1 l2 k objs hv hk hno
    rw [processData_of_parse body1 v1 h1, hv]
    refine (json.storeResult_single_data l1 l2 k objs hk hno).imp ?_
    rintro obj c ⟨sv, rfl⟩ members rfl
    exact json.objectCard_frame members CardData.zero sv
  · exact json.objectCard_frame members cur saved
  · simp [json.storeCard, json.objectCard_err]
  · exact json.lookupField_eq_none_iff _ _
  · rw [json.lookupField_eq_none_iff]
    simp [json.resultFields]

set_option maxRecDepth 100000 in
theorem processData_ignores_unknown_members_witness :
    processData (http.Response.read 200
        (str "\x7b\"data\":[\x7b\"id\":\"xy1-1\",\"supertype\":\"Pokemon\"\x7d]\x7d")) =
      processData (http.Response.read 200 (str "\x7b\"data\":[\x7b\"id\":\"xy1-1\"\x7d]\x7d")) ∧
    processData (http.Response.read 200
        (str "\x7b\"data\":[\x7b\"id\":\"xy1-1\"\x7d],\"totalCount\":1\x7d")) =
      processData (http.Response.read 200 (str "\x7b\"data\":[\x7b\"id\":\"xy1-1\"\x7d]\x7d")) ∧
    processData (http.Response.read 200 (str "\x7b\"data\":[\x7b\"id\":\"xy1-1\"\x7d]\x7d")) =
      ({ Data := GoSlice.ofList [{ Id := str "xy1-1", Name := [], Types := GoSlice.nil,
                                   HP := [], Rarity := [] }] }, none) :=
  ⟨(processData_ignores_unknown_members
      (str "\x7b\"data\":[\x7b\"id\":\"xy1-1\"\x7d]\x7d")
      (str "\x7b\"data\":[\x7b\"id\":\"xy1-1\",\"supertype\":\"Pokemon\"\x7d]\x7d")
      _ _ (by rfl) (by rfl)
      (spec.AddsUnknownMember.card [] [] (str "data") [] []
        [(str "id", json.Value.string (str "xy1-1"))] [] (str "supertype")
        (json.Value.string (str "Pokemon")) (by decide))).1,
   (processData_ignores_unknown_members
      (str "\x7b\"data\":[\x7b\"id\":\"xy1-1\"\x7d]\x7d")
      (str "\x7b\"data\":[\x7b\"id\":\"xy1-1\"\x7d],\"totalCount\":1\x7d")
      _ _ (by rfl) (by rfl)
      (spec.AddsUnknownMember.top
        [(str "data", json.Value.array [json.Value.object
          [(str "id", json.Value.string (str "xy1-1"))]])] [] (str "totalCount")
        (json.Value.number (str "1")) (by decide))).1,
   by decide⟩

set_option maxRecDepth 100000 in
/-- C6 (counterexample): adding the top-level key `Data`, which is a key
other than `data`, changes the returned `ResultData` (the card is lost), and
adding the key `ID` inside a card object, a key other than `id`, `name`,
`types`, `hp`, `rarity`, changes the card's identifier: the decoder matches
keys to fields case-insensitively.  And a card object that lacks `id` does
not always get the empty identifier: in a body that names `data` twice, the
card object `{}` of the second array keeps the identifier the first array
gave that position. -/
theorem processData_matches_keys_case_insensitively :
    processData (http.Response.read 200 (str "\x7b\"data\":[\x7b\"id\":\"xy1-1\"\x7d]\x7d")) =
      ({ Data := GoSlice.ofList [{ Id := str "xy1-1", Name := [], Types := GoSlice.nil,
                                   HP := [], Rarity := [] }] }, none) ∧
    processData (http.Response.read 200
        (str "\x7b\"data\":[\x7b\"id\":\"xy1-1\"\x7d],\"Data\":[]\x7d")) =
      ({ Data := GoSlice.empty }, none) ∧
    processData (http.Response.read 200
        (str "\x7b\"data\":[\x7b\"id\":\"xy1-1\",\"ID\":\"base1-58\"\x7d]\x7d")) =
      ({ Data := GoSlice.ofList [{ Id := str "base1-58", Name := [], Types := GoSlice.nil,
                                   HP := [], Rarity := [] }] }, none) ∧
    processData (http.Response.read 200
        (str "\x7b\"data\":[\x7b\"id\":\"a\"\x7d],\"data\":[\x7b\x7d]\x7d")) =
      ({ Data := GoSlice.ofList [{ Id := str "a", Name := [], Types := GoSlice.nil,
                                   HP := [], Rarity := [] }] }, none) := by
  decide
/-! ## `Indent` on the output of `Marshal` -/

namespace json

theorem appendNewline_eq (dst : List Byte) (d : Nat) :
    appendNewline dst [] spec.indent d = dst ++ spec.newline d := by
  simp [appendNewline, spec.newline]

/-- A byte on which the scanner reports `scanContinue` is copied. -/
theorem indentLoop_continue (pre ind : List Byte) (c : Byte) (cs : List Byte)
    (scan scan1 : scanner) (d : Nat) (dst : List Byte)
    (h : scan.stepByte c = (scan1, Op.scanContinue)) :
    indentLoop pre ind (c :: cs) scan false d dst =
      indentLoop pre ind cs scan1 false d (dst ++ [c]) := by
  rw [indentLoop]
  simp [h]

/-- The first byte of a literal: a pending line break is written, then the
byte. -/
theorem indentLoop_beginLiteral (pre ind : List Byte) (c : Byte) (cs : List Byte)
    (scan scan1 : scanner) (ni : Bool) (d : Nat) (dst : List Byte)
    (h : scan.stepByte c = (scan1, Op.scanBeginLiteral))
    (hc : c.val ≠ 123 ∧ c.val ≠ 91 ∧ c.val ≠ 44 ∧ c.val ≠ 58 ∧ c.val ≠ 125 ∧ c.val ≠ 93) :
    indentLoop pre ind (c :: cs) scan ni d dst =
      indentLoop pre ind cs scan1 false (if ni then d + 1 else d)
        ((if ni then appendNewline dst pre ind (d + 1) else dst) ++ [c]) := by
  rw [indentLoop]
  cases ni <;> simp [h, hc]

theorem step_quote (st : Step) (e : Bool) (ps : List PState) (er : Option SyntaxError)
    (h : st = Step.stateBeginValue ∨ st = Step.stateBeginValueOrEmpty ∨
      st = Step.stateBeginString ∨ st = Step.stateBeginStringOrEmpty) :
    (scanner.mk st e ps er).stepByte 34 =
      (⟨Step.stateInString, e, ps, er⟩, Op.scanBeginLiteral) := by
  rcases h with rfl | rfl | rfl | rfl <;> rfl

theorem step_inString_plain (e : Bool) (ps : List PState) (er : Option SyntaxError) (c : Byte)
    (h34 : c.val ≠ 34) (h92 : c.val ≠ 92) (h32 : ¬ c.val < 32) :
    (scanner.mk Step.stateInString e ps er).stepByte c =
      (⟨Step.stateInString, e, ps, er⟩, Op.scanContinue) := by
  simp [scanner.stepByte, stateInString, h34, h92, h32]

theorem step_inString_quote (e : Bool) (ps : List PState) (er : Option SyntaxError) :
    (scanner.mk Step.stateInString e ps er).stepByte 34 =
      (⟨Step.stateEndValue, e, ps, er⟩, Op.scanContinue) := rfl

theorem step_inString_backslash (e : Bool) (ps : List PState) (er : Option SyntaxError) :
    (scanner.mk Step.stateInString e ps er).stepByte 92 =
      (⟨Step.stateInStringEsc, e, ps, er⟩, Op.scanContinue) := rfl

end json

namespace json

theorem InString_nil : InString [] := by
  intro e ps er d dst rest
  simp

theorem InString_append (xs ys : List Byte) (hx : InString xs) (hy : InString ys) :
    InString (xs ++ ys) := by
  intro e ps er d dst rest
  rw [List.append_assoc, hx, hy, List.append_assoc]

theorem InString_plain_byte (c : Byte) (h34 : c.val ≠ 34) (h92 : c.val ≠ 92)
    (h32 : ¬ c.val < 32) : InString [c] := by
  intro e ps er d dst rest
  exact indentLoop_continue _ _ c rest _ _ d dst (step_inString_plain e ps er c h34 h92 h32)

theorem InString_plain (xs : List Byte)
    (h : ∀ c ∈ xs, c.val ≠ 34 ∧ c.val ≠ 92 ∧ ¬ c.val < 32) : InString xs := by
  induction xs with
  | nil => exact InString_nil
  | cons c cs ih =>
    have hc := h c (List.mem_cons_self _ _)
    exact InString_append [c] cs (InString_plain_byte c hc.1 hc.2.1 hc.2.2)
      (ih fun x hx => h x (List.mem_cons_of_mem _ hx))

/-- A backslash and one of `b f n r t \ / "` pass inside a string. -/
theorem InString_escape (c : Byte)
    (hc : c.val = 98 ∨ c.val = 102 ∨ c.val = 110 ∨ c.val = 114 ∨ c.val = 116 ∨ c.val = 92 ∨
      c.val = 47 ∨ c.val = 34) : InString [92, c] := by
  intro e ps er d dst rest
  have h2 : (scanner.mk Step.stateInStringEsc e ps er).stepByte c =
      (⟨Step.stateInString, e, ps, er⟩, Op.scanContinue) := by
    simp [scanner.stepByte, stateInStringEsc, hc]
  show indentLoop [] spec.indent (92 :: c :: rest) _ false d dst = _
  rw [indentLoop_continue _ _ 92 _ _ _ d dst (step_inString_backslash e ps er),
    indentLoop_continue _ _ c _ _ _ d _ h2, List.append_assoc]
  rfl

theorem step_hex (st next : Step) (e : Bool) (ps : List PState) (er : Option SyntaxError)
    (c : Byte) (hc : isHexDigit c = true)
    (h : (st = Step.stateInStringEscU ∧ next = Step.stateInStringEscU1) ∨
      (st = Step.stateInStringEscU1 ∧ next = Step.stateInStringEscU12) ∨
      (st = Step.stateInStringEscU12 ∧ next = Step.stateInStringEscU123) ∨
      (st = Step.stateInStringEscU123 ∧ next = Step.stateInString)) :
    (scanner.mk st e ps er).stepByte c = (⟨next, e, ps, er⟩, Op.scanContinue) := by
  rcases h with ⟨rfl, rfl⟩ | ⟨rfl, rfl⟩ | ⟨rfl, rfl⟩ | ⟨rfl, rfl⟩ <;>
    simp [scanner.stepByte, stateHex, hc]

/-- An escape `\uXXXX` passes inside a string. -/
theorem InString_u4 (h1 h2 h3 h4 : Byte) (hh1 : isHexDigit h1 = true)
    (hh2 : isHexDigit h2 = true) (hh3 : isHexDigit h3 = true) (hh4 : isHexDigit h4 = true) :
    InString [92, 117, h1, h2, h3, h4] := by
  intro e ps er d dst rest
  have hu : (scanner.mk Step.stateInStringEsc e ps er).stepByte 117 =
      (⟨Step.stateInStringEscU, e, ps, er⟩, Op.scanContinue) := rfl
  show indentLoop [] spec.indent (92 :: 117 :: h1 :: h2 :: h3 :: h4 :: rest) _ false d dst = _
  rw [indentLoop_continue _ _ 92 _ _ _ d dst (step_inString_backslash e ps er),
    indentLoop_continue _ _ 117 _ _ _ d _ hu,
    indentLoop_continue _ _ h1 _ _ _ d _
      (step_hex _ Step.stateInStringEscU1 e ps er h1 hh1 (Or.inl ⟨rfl, rfl⟩)),
    indentLoop_continue _ _ h2 _ _ _ d _
      (step_hex _ Step.stateInStringEscU12 e ps er h2 hh2 (Or.inr (Or.inl ⟨rfl, rfl⟩))),
    indentLoop_continue _ _ h3 _ _ _ d _
      (step_hex _ Step.stateInStringEscU123 e ps er h3 hh3 (Or.inr (Or.inr (Or.inl ⟨rfl, rfl⟩)))),
    indentLoop_continue _ _ h4 _ _ _ d _
      (step_hex _ Step.stateInString e ps er h4 hh4 (Or.inr (Or.inr (Or.inr ⟨rfl, rfl⟩))))]
  simp

theorem isHexDigit_hex (n : Nat) : isHexDigit (hex n) = true := by
  have h : n % 16 < 16 := Nat.mod_lt _ (by decide)
  unfold hex
  generalize n % 16 = m at h
  interval_cases m <;> rfl

set_option maxRecDepth 100000 in
theorem escapeASCII_shape : ∀ b : Byte, b.val < 128 → htmlSafe b = false →
    (escapeASCII b = [92, b] ∧ (b.val = 92 ∨ b.val = 34)) ∨
    (∃ c : Byte, escapeASCII b = [92, c] ∧
      (c.val = 98 ∨ c.val = 102 ∨ c.val = 110 ∨ c.val = 114 ∨ c.val = 116)) ∨
    escapeASCII b = [92, 117, 48, 48, hex (b.val / 16), hex (b.val % 16)] := by
  decide

theorem InString_escapeASCII (b : Byte) (h128 : b.val < 128) (hs : htmlSafe b = false) :
    InString (escapeASCII b) := by
  rcases escapeASCII_shape b h128 hs with ⟨h, hb⟩ | ⟨c, h, hc⟩ | h
  · rw [h]
    exact InString_escape b (by tauto)
  · rw [h]
    exact InString_escape c (by tauto)
  · rw [h]
    exact InString_u4 _ _ _ _ (by decide) (by decide) (isHexDigit_hex _) (isHexDigit_hex _)

set_option maxRecDepth 100000 in
theorem htmlSafe_plain : ∀ b : Byte, htmlSafe b = true →
    b.val ≠ 34 ∧ b.val ≠ 92 ∧ ¬ b.val < 32 := by
  decide

end json

namespace utf8

theorem decode2_ok (p0 b1 : Byte)
    (hd : ¬ ((decode2 p0 b1).1 = RuneError ∧ (decode2 p0 b1).2 = 1)) :
    (decode2 p0 b1).2 = 2 ∧ ¬ b1.val < 128 := by
  unfold decode2 at hd ⊢
  by_cases h : isCont b1 = true
  · simp only [h, if_true, true_and]
    simp only [isCont, Bool.and_eq_true, decide_eq_true_eq] at h
    omega
  · simp [h] at hd

theorem decode3_ok (p0 b1 b2 : Byte)
    (hd : ¬ ((decode3 p0 b1 b2).1 = RuneError ∧ (decode3 p0 b1 b2).2 = 1)) :
    (decode3 p0 b1 b2).2 = 3 ∧ ¬ b1.val < 128 ∧ ¬ b2.val < 128 := by
  unfold decode3 at hd ⊢
  by_cases h1 : b1.val < (if p0.val = 224 then 160 else 128)
  · simp [h1] at hd
  · by_cases h2 : (if p0.val = 237 then 159 else 191) < b1.val
    · simp [h1, h2] at hd
    · by_cases h3 : isCont b2 = true
      · simp only [h1, h2, h3, if_false, Bool.not_true, Bool.false_eq_true, true_and]
        simp only [isCont, Bool.and_eq_true, decide_eq_true_eq] at h3
        split_ifs at h1 <;> omega
      · simp [h1, h2, h3] at hd

theorem decode4_ok (p0 b1 b2 b3 : Byte)
    (hd : ¬ ((decode4 p0 b1 b2 b3).1 = RuneError ∧ (decode4 p0 b1 b2 b3).2 = 1)) :
    (decode4 p0 b1 b2 b3).2 = 4 ∧ ¬ b1.val < 128 ∧ ¬ b2.val < 128 ∧ ¬ b3.val < 128 := by
  unfold decode4 at hd ⊢
  by_cases h1 : b1.val < (if p0.val = 240 then 144 else 128)
  · simp [h1] at hd
  · by_cases h2 : (if p0.val = 244 then 143 else 191) < b1.val
    · simp [h1, h2] at hd
    · by_cases h3 : isCont b2 = true
      · by_cases h4 : isCont b3 = true
        · simp only [h1, h2, h3, h4, if_false, Bool.not_true, Bool.false_eq_true, true_and]
          simp only [isCont, Bool.and_eq_true, decide_eq_true_eq] at h3 h4
          split_ifs at h1 <;> omega
        · simp [h1, h2, h3, h4] at hd
      · simp [h1, h2, h3] at hd

/-- The bytes of a well-formed multi-byte rune are all `0x80` or above. -/
theorem DecodeRune_bytes (b : Byte) (bs : List Byte) (hb : ¬ b.val < 128)
    (hd : ¬ ((DecodeRune (b :: bs)).1 = RuneError ∧ (DecodeRune (b :: bs)).2 = 1)) :
    ∀ c ∈ (b :: bs).take (DecodeRune (b :: bs)).2, ¬ c.val < 128 := by
  unfold DecodeRune at hd ⊢
  simp only [hb, if_false] at hd ⊢
  by_cases h1 : b.val < 194
  · simp [h1] at hd
  · simp only [h1, if_false] at hd ⊢
    by_cases h2 : b.val < 224
    · simp only [h2, if_true] at hd ⊢
      rcases bs with _ | ⟨b1, t⟩
      · simp at hd
      · simp only at hd ⊢
        obtain ⟨hw, e1⟩ := decode2_ok b b1 hd
        rw [hw]
        intro c hc
        simp only [List.take_succ_cons, List.take_zero, List.mem_cons, List.not_mem_nil,
          or_false] at hc
        rcases hc with rfl | rfl
        · exact hb
        · exact e1
    · simp only [h2, if_false] at hd ⊢
      by_cases h3 : b.val < 240
      · simp only [h3, if_true] at hd ⊢
        rcases bs with _ | ⟨b1, _ | ⟨b2, t⟩⟩
        · simp at hd
        · simp at hd
        · simp only at hd ⊢
          obtain ⟨hw, e1, e2⟩ := decode3_ok b b1 b2 hd
          rw [hw]
          intro c hc
          simp only [List.take_succ_cons, List.take_zero, List.mem_cons, List.not_mem_nil,
            or_false] at hc
          rcases hc with rfl | rfl | rfl
          · exact hb
          · exact e1
          · exact e2
      · simp only [h3, if_false] at hd ⊢
        by_cases h4 : b.val < 245
        · simp only [h4, if_true] at hd ⊢
          rcases bs with _ | ⟨b1, _ | ⟨b2, _ | ⟨b3, t⟩⟩⟩
          · simp at hd
          · simp at hd
          · simp at hd
          · simp only at hd ⊢
            obtain ⟨hw, e1, e2, e3⟩ := decode4_ok b b1 b2 b3 hd
            rw [hw]
            intro c hc
            simp only [List.take_succ_cons, List.take_zero, List.mem_cons, List.not_mem_nil,
              or_false] at hc
            rcases hc with rfl | rfl | rfl | rfl
            · exact hb
            · exact e1
            · exact e2
            · exact e3
        · simp [h4] at hd

end utf8

namespace json

/-- The text `appendString` writes between the quotes passes inside a string
literal of the scanner. -/
theorem InString_appendStringLoop (fuel : Nat) : ∀ s : List Byte,
    InString (appendStringLoop fuel s) := by
  induction fuel with
  | zero => intro s; exact InString_nil
  | succ fuel ih =>
    intro s
    cases s with
    | nil => exact InString_nil
    | cons b bs =>
      rw [appendStringLoop]
      by_cases h128 : b.val < 128
      · simp only [h128, if_true]
        cases hs : htmlSafe b with
        | true =>
          simp only [if_true]
          obtain ⟨h34, h92, h32⟩ := htmlSafe_plain b hs
          exact InString_append [b] _ (InString_plain_byte b h34 h92 h32) (ih bs)
        | false =>
          simp only [Bool.false_eq_true, if_false]
          exact InString_append _ _ (InString_escapeASCII b h128 hs) (ih bs)
      · simp only [h128, if_false]
        by_cases hd : (utf8.DecodeRune (b :: bs)).1 = utf8.RuneError ∧
            (utf8.DecodeRune (b :: bs)).2 = 1
        · simp only [hd, and_self, if_true]
          exact InString_append _ _
            (InString_u4 _ _ _ _ (by decide) (by decide) (by decide) (by decide)) (ih bs)
        · simp only [hd, if_false]
          split
          · exact InString_append _ _
              (InString_u4 _ _ _ _ (by decide) (by decide) (by decide) (isHexDigit_hex _))
              (ih _)
          · refine InString_append _ _ (InString_plain _ fun c hc => ?_) (ih _)
            have := utf8.DecodeRune_bytes b bs h128 hd c hc
            omega

theorem indentLoop_appendNewline_nil (dst : List Byte) (d : Nat) (ni : Bool) :
    (if ni = true then appendNewline dst [] spec.indent (d + 1) else dst) =
      dst ++ (if ni = true then spec.newline (d + 1) else []) := by
  cases ni <;> simp [appendNewline_eq]

/-- A string literal written by `appendString` is copied as it is, behind
the pending line break; it may be a value or a key. -/
theorem indentLoop_appendString (s : GoString) (st : Step) (e : Bool) (ps : List PState)
    (er : Option SyntaxError) (ni : Bool) (d : Nat) (dst rest : List Byte)
    (h : st = Step.stateBeginValue ∨ st = Step.stateBeginValueOrEmpty ∨
      st = Step.stateBeginString ∨ st = Step.stateBeginStringOrEmpty) :
    indentLoop [] spec.indent (appendString s ++ rest) ⟨st, e, ps, er⟩ ni d dst =
      indentLoop [] spec.indent rest ⟨Step.stateEndValue, e, ps, er⟩ false
        (if ni then d + 1 else d)
        (dst ++ ((if ni then spec.newline (d + 1) else []) ++ appendString s)) := by
  have hq : (34 : Byte).val ≠ 123 ∧ (34 : Byte).val ≠ 91 ∧ (34 : Byte).val ≠ 44 ∧
      (34 : Byte).val ≠ 58 ∧ (34 : Byte).val ≠ 125 ∧ (34 : Byte).val ≠ 93 := by decide
  unfold appendString
  rw [List.cons_append, indentLoop_beginLiteral _ _ 34 _ _ _ ni d dst (step_quote st e ps er h) hq,
    List.append_assoc, InString_appendStringLoop (s.length + 1) s, List.singleton_append,
    indentLoop_continue _ _ 34 _ _ _ _ _ (step_inString_quote e ps er),
    indentLoop_appendNewline_nil]
  simp

theorem Formats_appendString (s : GoString) : Formats 0 (appendString s) fun _ => appendString s := by
  intro st e ps er ni d dst rest hst _ _
  exact indentLoop_appendString s st e ps er ni d dst rest (by tauto)

end json
namespace json

/-! ### Single steps of the loop of `appendIndent` on punctuation -/

theorem maxNestingDepth_eq : maxNestingDepth = 10000 := rfl

theorem indentLoop_openArray (st : Step) (e : Bool) (ps : List PState)
    (er : Option SyntaxError) (ni : Bool) (d : Nat) (dst cs : List Byte)
    (h : st = Step.stateBeginValue ∨ st = Step.stateBeginValueOrEmpty)
    (hps : ps.length + 1 ≤ maxNestingDepth) :
    indentLoop [] spec.indent (91 :: cs) ⟨st, e, ps, er⟩ ni d dst =
      indentLoop [] spec.indent cs ⟨Step.stateBeginValueOrEmpty, e, PState.parseArrayValue :: ps, er⟩
        true (if ni then d + 1 else d)
        (dst ++ ((if ni then spec.newline (d + 1) else []) ++ [91])) := by
  have hstep : (scanner.mk st e ps er).stepByte 91 =
      (⟨Step.stateBeginValueOrEmpty, e, PState.parseArrayValue :: ps, er⟩, Op.scanBeginArray) := by
    have h91 : isSpace (91 : Byte) = false := by decide
    have h91b : ¬ ((91 : Byte).val = 93) := by decide
    have h91c : ¬ ((91 : Byte).val = 123) := by decide
    have h91d : (91 : Byte).val = 91 := rfl
    rcases h with rfl | rfl <;>
      simp [scanner.stepByte, stateBeginValueOrEmpty, stateBeginValue, h91, h91b, h91c, h91d,
        scanner.pushParseState, hps]
  have h91d : (91 : Byte).val = 91 := rfl
  rw [indentLoop]
  cases ni <;> simp [hstep, h91d, appendNewline_eq]

theorem indentLoop_openObject (st : Step) (e : Bool) (ps : List PState)
    (er : Option SyntaxError) (ni : Bool) (d : Nat) (dst cs : List Byte)
    (h : st = Step.stateBeginValue ∨ st = Step.stateBeginValueOrEmpty)
    (hps : ps.length + 1 ≤ maxNestingDepth) :
    indentLoop [] spec.indent (123 :: cs) ⟨st, e, ps, er⟩ ni d dst =
      indentLoop [] spec.indent cs
        ⟨Step.stateBeginStringOrEmpty, e, PState.parseObjectKey :: ps, er⟩
        true (if ni then d + 1 else d)
        (dst ++ ((if ni then spec.newline (d + 1) else []) ++ [123])) := by
  have hstep : (scanner.mk st e ps er).stepByte 123 =
      (⟨Step.stateBeginStringOrEmpty, e, PState.parseObjectKey :: ps, er⟩,
        Op.scanBeginObject) := by
    have h1 : isSpace (123 : Byte) = false := by decide
    have h2 : ¬ ((123 : Byte).val = 93) := by decide
    have h3 : (123 : Byte).val = 123 := rfl
    rcases h with rfl | rfl <;>
      simp [scanner.stepByte, stateBeginValueOrEmpty, stateBeginValue, h1, h2, h3,
        scanner.pushParseState, hps]
  have h3 : (123 : Byte).val = 123 := rfl
  rw [indentLoop]
  cases ni <;> simp [hstep, h3, appendNewline_eq]

theorem popParseState_cons (st : Step) (e : Bool) (p q : PState) (ps : List PState)
    (er : Option SyntaxError) :
    (scanner.mk st e (p :: q :: ps) er).popParseState = ⟨Step.stateEndValue, e, q :: ps, er⟩ := rfl

theorem indentLoop_closeEmptyArray (e : Bool) (q : PState) (ps : List PState)
    (er : Option SyntaxError) (d : Nat) (dst cs : List Byte) :
    indentLoop [] spec.indent (93 :: cs)
        ⟨Step.stateBeginValueOrEmpty, e, PState.parseArrayValue :: q :: ps, er⟩ true d dst =
      indentLoop [] spec.indent cs ⟨Step.stateEndValue, e, q :: ps, er⟩ false d (dst ++ [93]) := by
  have hstep : (scanner.mk Step.stateBeginValueOrEmpty e (PState.parseArrayValue :: q :: ps)
      er).stepByte 93 = (⟨Step.stateEndValue, e, q :: ps, er⟩, Op.scanEndArray) := rfl
  have h3 : (93 : Byte).val = 93 := rfl
  rw [indentLoop]
  simp [hstep, h3]

theorem indentLoop_closeArray (e : Bool) (q : PState) (ps : List PState)
    (er : Option SyntaxError) (d : Nat) (dst cs : List Byte) :
    indentLoop [] spec.indent (93 :: cs)
        ⟨Step.stateEndValue, e, PState.parseArrayValue :: q :: ps, er⟩ false (d + 1) dst =
      indentLoop [] spec.indent cs ⟨Step.stateEndValue, e, q :: ps, er⟩ false d
        (dst ++ (spec.newline d ++ [93])) := by
  have hstep : (scanner.mk Step.stateEndValue e (PState.parseArrayValue :: q :: ps)
      er).stepByte 93 = (⟨Step.stateEndValue, e, q :: ps, er⟩, Op.scanEndArray) := rfl
  have h3 : (93 : Byte).val = 93 := rfl
  rw [indentLoop]
  simp [hstep, h3, appendNewline_eq]

theorem indentLoop_closeObject (e : Bool) (q : PState) (ps : List PState)
    (er : Option SyntaxError) (d : Nat) (dst cs : List Byte) :
    indentLoop [] spec.indent (125 :: cs)
        ⟨Step.stateEndValue, e, PState.parseObjectValue :: q :: ps, er⟩ false (d + 1) dst =
      indentLoop [] spec.indent cs ⟨Step.stateEndValue, e, q :: ps, er⟩ false d
        (dst ++ (spec.newline d ++ [125])) := by
  have hstep : (scanner.mk Step.stateEndValue e (PState.parseObjectValue :: q :: ps)
      er).stepByte 125 = (⟨Step.stateEndValue, e, q :: ps, er⟩, Op.scanEndObject) := rfl
  have h3 : (125 : Byte).val = 125 := rfl
  rw [indentLoop]
  simp [hstep, h3, appendNewline_eq]

theorem indentLoop_commaArray (e : Bool) (ps : List PState)
    (er : Option SyntaxError) (d : Nat) (dst cs : List Byte) :
    indentLoop [] spec.indent (44 :: cs)
        ⟨Step.stateEndValue, e, PState.parseArrayValue :: ps, er⟩ false d dst =
      indentLoop [] spec.indent cs ⟨Step.stateBeginValue, e, PState.parseArrayValue :: ps, er⟩
        false d (dst ++ (44 :: spec.newline d)) := by
  have hstep : (scanner.mk Step.stateEndValue e (PState.parseArrayValue :: ps)
      er).stepByte 44 =
      (⟨Step.stateBeginValue, e, PState.parseArrayValue :: ps, er⟩, Op.scanArrayValue) := rfl
  have h3 : (44 : Byte).val = 44 := rfl
  rw [indentLoop]
  simp [hstep, h3, appendNewline_eq]

theorem indentLoop_commaObject (e : Bool) (ps : List PState)
    (er : Option SyntaxError) (d : Nat) (dst cs : List Byte) :
    indentLoop [] spec.indent (44 :: cs)
        ⟨Step.stateEndValue, e, PState.parseObjectValue :: ps, er⟩ false d dst =
      indentLoop [] spec.indent cs ⟨Step.stateBeginString, e, PState.parseObjectKey :: ps, er⟩
        false d (dst ++ (44 :: spec.newline d)) := by
  have hstep : (scanner.mk Step.stateEndValue e (PState.parseObjectValue :: ps)
      er).stepByte 44 =
      (⟨Step.stateBeginString, e, PState.parseObjectKey :: ps, er⟩, Op.scanObjectValue) := rfl
  have h3 : (44 : Byte).val = 44 := rfl
  rw [indentLoop]
  simp [hstep, h3, appendNewline_eq]

theorem indentLoop_colon (e : Bool) (ps : List PState)
    (er : Option SyntaxError) (d : Nat) (dst cs : List Byte) :
    indentLoop [] spec.indent (58 :: cs)
        ⟨Step.stateEndValue, e, PState.parseObjectKey :: ps, er⟩ false d dst =
      indentLoop [] spec.indent cs ⟨Step.stateBeginValue, e, PState.parseObjectValue :: ps, er⟩
        false d (dst ++ [58, 32]) := by
  have hstep : (scanner.mk Step.stateEndValue e (PState.parseObjectKey :: ps)
      er).stepByte 58 =
      (⟨Step.stateBeginValue, e, PState.parseObjectValue :: ps, er⟩, Op.scanObjectKey) := rfl
  have h3 : (58 : Byte).val = 58 := rfl
  rw [indentLoop]
  simp [hstep, h3]

/-- The literal `null` is copied as it is. -/
theorem Formats_null (n : Nat) : Formats n (str "null") fun _ => str "null" := by
  intro st e ps er ni d dst rest hst _ _
  have hn : (scanner.mk st e ps er).stepByte 110 =
      (⟨Step.stateN, e, ps, er⟩, Op.scanBeginLiteral) := by
    rcases hst with rfl | rfl <;> rfl
  have hu : (scanner.mk Step.stateN e ps er).stepByte 117 =
      (⟨Step.stateNu, e, ps, er⟩, Op.scanContinue) := rfl
  have hl : (scanner.mk Step.stateNu e ps er).stepByte 108 =
      (⟨Step.stateNul, e, ps, er⟩, Op.scanContinue) := rfl
  have hl2 : (scanner.mk Step.stateNul e ps er).stepByte 108 =
      (⟨Step.stateEndValue, e, ps, er⟩, Op.scanContinue) := rfl
  have hs : str "null" = [110, 117, 108, 108] := by decide
  rw [hs]
  show indentLoop [] spec.indent (110 :: 117 :: 108 :: 108 :: rest) _ ni d dst = _
  rw [indentLoop_beginLiteral _ _ 110 _ _ _ ni d dst hn (by decide),
    indentLoop_continue _ _ 117 _ _ _ _ _ hu, indentLoop_continue _ _ 108 _ _ _ _ _ hl,
    indentLoop_continue _ _ 108 _ _ _ _ _ hl2, indentLoop_appendNewline_nil]
  simp

end json

namespace json

/-! ### Arrays, members and objects -/

theorem indentLoop_encodeTail {α : Type} (n : Nat) (enc : α → List Byte)
    (render : Nat → α → List Byte) (henc : ∀ x, Formats n (enc x) fun d => render d x)
    (e : Bool) (ps : List PState) (er : Option SyntaxError) (d : Nat) (rest : List Byte)
    (hps : (PState.parseArrayValue :: ps).length + n ≤ maxNestingDepth) (xs : List α) :
    ∀ dst : List Byte,
      indentLoop [] spec.indent (encodeTail enc xs ++ rest)
          ⟨Step.stateEndValue, e, PState.parseArrayValue :: ps, er⟩ false d dst =
        indentLoop [] spec.indent rest
          ⟨Step.stateEndValue, e, PState.parseArrayValue :: ps, er⟩ false d
          (dst ++ spec.prettyTail (render d) d xs) := by
  induction xs with
  | nil => intro dst; simp [encodeTail, spec.prettyTail]
  | cons x xs ih =>
    intro dst
    simp only [encodeTail, List.cons_append, List.append_assoc]
    rw [indentLoop_commaArray, henc x _ e _ er false d _ _ (Or.inl rfl) (by simp) hps]
    simp only [Bool.false_eq_true, if_false]
    rw [ih]
    simp [spec.prettyTail]

/-- A slice is formatted as the specification prints it, when its elements
are. -/
theorem Formats_encodeSlice {α : Type} (n : Nat) (enc : α → List Byte)
    (render : Nat → α → List Byte) (henc : ∀ x, Formats n (enc x) fun d => render d x)
    (s : GoSlice α) :
    Formats (n + 1) (encodeSlice enc s) fun d => spec.prettySlice render d s := by
  unfold encodeSlice spec.prettySlice
  cases hnil : s.isNil with
  | true =>
    simp only [if_true]
    exact Formats_null _
  | false =>
    simp only [Bool.false_eq_true, if_false]
    cases hl : s.toList with
    | nil =>
      intro st e ps er ni d dst rest hst hne hps
      obtain ⟨q, ps1, rfl⟩ := List.exists_cons_of_ne_nil hne
      simp only
      show indentLoop [] spec.indent (91 :: 93 :: rest) _ ni d dst = _
      rw [indentLoop_openArray st e _ er ni d dst _ hst (by omega), indentLoop_closeEmptyArray]
      have : str "[]" = [91, 93] := by decide
      simp [this]
    | cons x xs =>
      intro st e ps er ni d dst rest hst hne hps
      obtain ⟨q, ps1, rfl⟩ := List.exists_cons_of_ne_nil hne
      simp only [List.cons_append, List.append_assoc]
      have hps2 : (PState.parseArrayValue :: q :: ps1).length + n ≤ maxNestingDepth := by
        simp only [List.length_cons] at hps ⊢
        omega
      rw [indentLoop_openArray st e _ er ni d dst _ hst (by omega),
        henc x _ e _ er true _ _ _ (Or.inr rfl) (by simp) hps2]
      simp only [if_true]
      rw [indentLoop_encodeTail n enc render henc e _ er _ _ hps2 xs]
      simp only [List.singleton_append, List.nil_append]
      rw [indentLoop_closeArray]
      simp

/-- A member `"key":value` of an object is formatted as `"key": value`. -/
theorem indentLoop_member (n : Nat) (key : String) (src : List Byte) (out : Nat → List Byte)
    (hsrc : Formats n src out) (st : Step) (e : Bool) (ps : List PState)
    (er : Option SyntaxError) (ni : Bool) (d : Nat) (dst rest : List Byte)
    (hst : st = Step.stateBeginString ∨ st = Step.stateBeginStringOrEmpty)
    (hps : (PState.parseObjectValue :: ps).length + n ≤ maxNestingDepth) :
    indentLoop [] spec.indent (appendString (str key) ++ (58 :: (src ++ rest)))
        ⟨st, e, PState.parseObjectKey :: ps, er⟩ ni d dst =
      indentLoop [] spec.indent rest ⟨Step.stateEndValue, e, PState.parseObjectValue :: ps, er⟩
        false (if ni then d + 1 else d)
        (dst ++ ((if ni then spec.newline (d + 1) else []) ++
          spec.prettyMember key (out (if ni then d + 1 else d)))) := by
  rw [indentLoop_appendString (str key) st e _ er ni d dst _ (by tauto), indentLoop_colon,
    hsrc _ e _ er false _ _ _ (Or.inl rfl) (by simp) hps]
  simp [spec.prettyMember]

set_option maxRecDepth 100000 in
theorem encodeCard_eq (c : CardData) :
    encodeCard c =
      123 :: (appendString (str "id") ++ (58 :: (appendString c.Id ++
        (44 :: (appendString (str "name") ++ (58 :: (appendString c.Name ++
        (44 :: (appendString (str "types") ++ (58 :: (encodeSlice appendString c.Types ++
        (44 :: (appendString (str "hp") ++ (58 :: (appendString c.HP ++
        (44 :: (appendString (str "rarity") ++ (58 :: (appendString c.Rarity ++
        [125]))))))))))))))))))) := by
  have h1 : str "\x7b\"id\":" = 123 :: (appendString (str "id") ++ [58]) := by decide
  have h2 : str ",\"name\":" = 44 :: (appendString (str "name") ++ [58]) := by decide
  have h3 : str ",\"types\":" = 44 :: (appendString (str "types") ++ [58]) := by decide
  have h4 : str ",\"hp\":" = 44 :: (appendString (str "hp") ++ [58]) := by decide
  have h5 : str ",\"rarity\":" = 44 :: (appendString (str "rarity") ++ [58]) := by decide
  simp only [encodeCard, h1, h2, h3, h4, h5, List.cons_append, List.append_assoc,
    List.singleton_append, List.nil_append]

/-- A card is formatted as the specification prints it. -/
theorem Formats_encodeCard (c : CardData) :
    Formats 2 (encodeCard c) fun d => spec.prettyCard d c := by
  intro st e ps er ni d dst rest hst hne hps
  obtain ⟨q, ps1, rfl⟩ := List.exists_cons_of_ne_nil hne
  have hps0 : (PState.parseObjectValue :: q :: ps1).length + 0 ≤ maxNestingDepth := by
    simp only [List.length_cons] at hps ⊢
    omega
  have hps1 : (PState.parseObjectValue :: q :: ps1).length + (0 + 1) ≤ maxNestingDepth := by
    simp only [List.length_cons] at hps ⊢
    omega
  rw [encodeCard_eq]
  simp only [List.cons_append, List.append_assoc]
  rw [indentLoop_openObject st e _ er ni d dst _ hst (by omega),
    indentLoop_member 0 "id" _ _ (Formats_appendString c.Id) _ e _ er true _ _ _
      (Or.inr rfl) hps0]
  simp only [if_true]
  rw [indentLoop_commaObject,
    indentLoop_member 0 "name" _ _ (Formats_appendString c.Name) _ e _ er false _ _ _
      (Or.inl rfl) hps0]
  simp only [Bool.false_eq_true, if_false]
  rw [indentLoop_commaObject,
    indentLoop_member (0 + 1) "types" _ _
      (Formats_encodeSlice 0 appendString spec.prettyString Formats_appendString c.Types)
      _ e _ er false _ _ _ (Or.inl rfl) hps1]
  simp only [Bool.false_eq_true, if_false]
  rw [indentLoop_commaObject,
    indentLoop_member 0 "hp" _ _ (Formats_appendString c.HP) _ e _ er false _ _ _
      (Or.inl rfl) hps0]
  simp only [Bool.false_eq_true, if_false]
  rw [indentLoop_commaObject,
    indentLoop_member 0 "rarity" _ _ (Formats_appendString c.Rarity) _ e _ er false _ _ _
      (Or.inl rfl) hps0]
  simp only [Bool.false_eq_true, if_false, List.singleton_append, List.nil_append]
  rw [indentLoop_closeObject]
  simp [spec.prettyCard]

end json
namespace json

theorem indentLoop_closeTop (e : Bool) (er : Option SyntaxError) (d : Nat)
    (dst cs : List Byte) :
    indentLoop [] spec.indent (125 :: cs)
        ⟨Step.stateEndValue, e, [PState.parseObjectValue], er⟩ false (d + 1) dst =
      indentLoop [] spec.indent cs ⟨Step.stateEndTop, true, [], er⟩ false d
        (dst ++ (spec.newline d ++ [125])) := by
  have hstep : (scanner.mk Step.stateEndValue e [PState.parseObjectValue] er).stepByte 125 =
      (⟨Step.stateEndTop, true, [], er⟩, Op.scanEndObject) := rfl
  have h3 : (125 : Byte).val = 125 := rfl
  rw [indentLoop]
  simp [hstep, h3, appendNewline_eq]

set_option maxRecDepth 100000 in
theorem encodeResult_eq (r : ResultData) :
    encodeResult r =
      123 :: (appendString (str "data") ++ (58 :: (encodeSlice encodeCard r.Data ++ [125]))) := by
  have h1 : str "\x7b\"data\":" = 123 :: (appendString (str "data") ++ [58]) := by decide
  simp only [encodeResult, h1, List.cons_append, List.append_assoc, List.singleton_append,
    List.nil_append]

/-- `Indent` turns the compact encoding of a `ResultData` into the text the
specification describes, and reports no error. -/
theorem appendIndent_encodeResult (r : ResultData) :
    appendIndent [] (encodeResult r) [] spec.indent = (spec.prettyResult r, none) := by
  have hloop : indentLoop [] spec.indent (encodeResult r) scanner.reset false 0 [] =
      (⟨Step.stateEndTop, true, [], none⟩, spec.prettyResult r) := by
    rw [encodeResult_eq]
    unfold scanner.reset
    rw [indentLoop_openObject _ _ _ _ false 0 [] _ (Or.inl rfl) (by decide)]
    simp only [Bool.false_eq_true, if_false]
    have hm := indentLoop_member (2 + 1) "data" (encodeSlice encodeCard r.Data)
      (fun d => spec.prettySlice spec.prettyCard d r.Data)
      (Formats_encodeSlice 2 encodeCard spec.prettyCard Formats_encodeCard r.Data)
      Step.stateBeginStringOrEmpty false [] none true 0 ([] ++ ([] ++ [123])) [125]
      (Or.inr rfl) (by decide)
    rw [hm]
    simp only [if_true]
    rw [indentLoop_closeTop, indentLoop]
    simp [spec.prettyResult]
  unfold appendIndent
  simp only [hloop]
  rfl

/-- `MarshalIndent` with no prefix and the two-space indent prints a
`ResultData` as the specification describes, without error. -/
theorem MarshalIndent_eq_prettyResult (r : ResultData) :
    MarshalIndent r [] spec.indent = (spec.prettyResult r, none) := by
  simp only [MarshalIndent, Marshal, appendIndent_encodeResult]

end json

theorem spec_indent_eq : spec.indent = str "  " := rfl

set_option maxRecDepth 100000 in
/-- C7: the final stage prints every `ResultData` that `processData` returns
as the JSON text of the specification: two-space indentation, one top-level
key `data`, and in each card the keys `id`, `name`, `types`, `hp`, `rarity`
in declaration order (`spec.prettyResult`).  End to end, the 200 body of the
example is printed as one card object with its five values, indented by
two spaces per level. -/
theorem mainTail_prints_indented (response : http.Response) (result : ResultData) :
    json.MarshalIndent result [] (str "  ") = (spec.prettyResult result, none) ∧
    (processData response = (result, none) →
      mainTail response = Outcome.printed (spec.prettyResult result)) ∧
    spec.prettyResult { Data := GoSlice.ofList [pikachu.toCardData] } =
      str "\x7b\n  \"data\": [\n    \x7b\n      \"id\": \"xy1-1\",\n      \"name\": \"Pikachu\",\n      \"types\": [\n        \"Lightning\"\n      ],\n      \"hp\": \"60\",\n      \"rarity\": \"Common\"\n    \x7d\n  ]\n\x7d" ∧
    mainTail (http.Response.read 200 pikachuBody) =
      Outcome.printed (str "\x7b\n  \"data\": [\n    \x7b\n      \"id\": \"xy1-1\",\n      \"name\": \"Pikachu\",\n      \"types\": [\n        \"Lightning\"\n      ],\n      \"hp\": \"60\",\n      \"rarity\": \"Common\"\n    \x7d\n  ]\n\x7d") := by
  have hm := json.MarshalIndent_eq_prettyResult result
  rw [spec_indent_eq] at hm
  refine ⟨hm, fun hp => ?_, by decide, by decide⟩
  simp only [mainTail, hp, hm]

set_option maxRecDepth 100000 in
theorem mainTail_prints_indented_witness :
    processData (http.Response.read 200 pikachuBody) =
      ({ Data := GoSlice.ofList [pikachu.toCardData] }, none) ∧
    mainTail (http.Response.read 200 pikachuBody) =
      Outcome.printed (spec.prettyResult { Data := GoSlice.ofList [pikachu.toCardData] }) :=
  ⟨by decide,
   (mainTail_prints_indented (http.Response.read 200 pikachuBody)
      { Data := GoSlice.ofList [pikachu.toCardData] }).2.1 (by decide)⟩

/-- C8: the serialization-error branch of `main` is unreachable: for every
value of type `ResultData` (no cards, nil or empty `types`, any bytes in the
strings), `json.MarshalIndent(result, "", "  ")` returns no error, so `main`
never stops at "ERROR marshalling ResultData to JSON". -/
theorem marshalIndent_never_fails (result : ResultData) :
    (json.MarshalIndent result [] (str "  ")).2 = none ∧
    (∀ (response : http.Response) (e : json.Error),
      mainTail response ≠ Outcome.fatalMarshalling e) := by
  have hm : ∀ r, json.MarshalIndent r [] (str "  ") = (spec.prettyResult r, none) := by
    intro r
    rw [← spec_indent_eq]
    exact json.MarshalIndent_eq_prettyResult r
  refine ⟨by rw [hm], fun response e => ?_⟩
  unfold mainTail
  split
  · simp
  · rw [hm]
    simp
